import Mathlib

/-!
# ROADEF/EURO 2012 machine reassignment: the Reschedule Space

A shallow embedding of the neighborhood-restricted constraint-programming
subproblem (`RescheduleSpace.cpp`), of the assignment propagator
(`ProcessPropagator.cpp`), of the cost propagator (`CostPropagator.cpp`), of the
brancher (`BestCostBrancher.cpp`) and of the state bookkeeping of `Instance.cpp`,
together with the properties of the cost accounting and of the feasibility
constraints of the states it returns; of the instance set-up
(`reorderResources`, `initializeServiceDependencies`, the size order of the
machines), of the process fixing
(`ProcessFixing.cpp`), of the neighborhood lists of the four searches and of the
critical sections of the worker threads (`main.cpp`).

Conventions of the embedding.

* Every `std::vector` table of the instance (resources, machines, services,
  processes, balances, neighborhoods, locations) is a function on indices
  together with its size; a `MachineLoad` is a function on resource indices.
* `int`, `unsigned int` and `long long` values are unbounded integers: the
  load, transient and balance vectors, the unassigned balances and the cost
  aggregates of a state are those of runs in which no machine integer
  overflows.
* The patch map (`std::map<unsigned int, MachinePatch>`) is a partial function
  on machine ids; iterating over it visits the ids below `num_machines` in
  increasing order, as the ordered map does.
* The constraint store of the CP library is the list `posted` of the constraints
  the constructor posts, each with the meaning the library documents for it.
* A `float` is a value `mant * 2 ^ exp` with at most 24 significant bits; every
  `float` operation rounds its exact result to nearest, ties to even, as IEEE 754
  binary32 arithmetic does when each operation is evaluated in single precision.
* The results of `rand()`, `std::random_shuffle` and `std::sort` are inputs of
  the functions that use them; the mutex of `main.cpp` makes each critical
  section one step of a run.
* The domain of a variable `process[i]` is the list of its values in increasing
  order, the domain of a variable `process_move_cost[i]` is the pair of its
  bounds; the updates `eq`, `nq`, `gq`, `lq` of a view have the meaning the CP
  library documents, and a failed update is `none`.
* Where the value of an `int` cost is the subject, the conversions between
  `long long`, `int` and `unsigned int` are part of the definition
  (`propagateLoadFull`, `ProcessPropagator.cost32`,
  `ProcessPropagator.propagate32`, `ProcessPropagator.propagateSpace`,
  `CostPropagator.getExcessCost32`, `CostPropagator.getBalanceCost32`,
  `CostPropagator.getAdditionalCost32`, `choiceSlotStep`, `choiceMachineStep`,
  `machineMap`): a conversion to `int` is `toInt32` and a conversion to
  `unsigned int` is `toUInt32`, the value modulo `2 ^ 32` as on the two's
  complement targets of the program. `ProcessPropagator.propagate`,
  `CostPropagator.getExcessCost`, `CostPropagator.getBalanceCost` and
  `CostPropagator.getAdditionalCost` are the same functions with the exact
  sums; they agree with the former whenever the exact values lie in the range
  of `int` (`propagate32_eq_propagate`, `getAdditionalCost32_eq`).
* A `SpaceState` collects the members of a space during search: the bookkeeping
  members, the domains, the log `modified_machines` and the cost cache; a
  `std::multimap` is the list of its entries in key order, entries of equal key
  in insertion order.
-/

namespace Roadef

open Finset

/-! ## Instance data (`Instance.h`) -/

/-- Per-resource vector of a machine or process (`MachineLoad`). -/
abbrev MachineLoad := Nat → Int

/-- Per-balance vector of a machine (`MachineBalance`). -/
abbrev MachineBalance := Nat → Int

/-- Resource record `Resource`. -/
structure Resource where
  is_transient : Bool
  weight_load_cost : Int
  total_load : Int

/-- Machine record `Machine`. -/
structure Machine where
  neighborhood : Nat
  location : Nat
  capacity : MachineLoad
  initial_usage : MachineLoad
  safety_capacity : MachineLoad
  move_cost : Nat → Nat
  max_move_cost : Nat

/-- Service record `Service`. -/
structure Service where
  min_spread : Nat
  cur_spread : Nat
  depends_on : List Nat
  required_by : List Nat
  process : List Nat

/-- Process record `Process`. -/
structure Process where
  service : Nat
  requirement : MachineLoad
  move_cost : Nat
  original_machine : Nat
  fixed : Bool

/-- Balance triple `Balance`. -/
structure Balance where
  resource1 : Nat
  resource2 : Nat
  balance : Nat
  weight_balance_cost : Nat
  min_balance_units : Int

/-- Problem instance `Instance`: the tables with their sizes and the weights. -/
structure Instance where
  resource : Nat → Resource
  machine : Nat → Machine
  neighborhood : Nat → List Nat
  num_neighborhoods : Nat
  location : Nat → List Nat
  num_locations : Nat
  service : Nat → Service
  num_services : Nat
  process : Nat → Process
  balance : Nat → Balance
  num_balances : Nat
  assignment : Nat → Nat
  processes_by_size : List Nat
  movable_processes_by_size : List Nat
  machines_by_size : List Nat
  num_processes : Nat
  num_movable_processes : Nat
  num_machines : Nat
  num_resources : Nat
  transient_count : Nat
  weight_process_move_cost : Int
  weight_service_move_cost : Int
  weight_machine_move_cost : Int

/-! ## The current solution (`ReAssignment`) -/

/-- State `ReAssignment`: assignment, cached per-machine vectors and the four
cost aggregates. -/
structure ReAssignment where
  assignment : Nat → Nat
  excess : Nat → MachineLoad
  transient : Nat → MachineLoad
  balance : Nat → MachineBalance
  load_cost : Int
  balance_cost : Int
  process_moves : Int
  machine_moves : Int

/-- Modelled from the spec: `ReAssignment::getCost` (its header is not part of
the sources); total cost = load_cost + balance_cost + w_pm * process_moves +
w_mm * machine_moves, the expression `setupLoadConstraints` evaluates for the
baseline. -/
def ReAssignment.getCost (inst : Instance) (state : ReAssignment) : Int :=
  state.load_cost + state.balance_cost
    + state.process_moves * inst.weight_process_move_cost
    + state.machine_moves * inst.weight_machine_move_cost

/-! ## Recomputation from scratch (`Instance::setAssignment`) -/

/-- Balance units of a machine `x` with excess vector `e` for balance triple `b`:
`bal * (cap[r1] - safety[r1] - e[r1]) - (cap[r2] - safety[r2] - e[r2])`. -/
def balanceUnits (inst : Instance) (x : Nat) (e : MachineLoad) (b : Nat) : Int :=
  ((inst.balance b).balance : Int)
      * ((inst.machine x).capacity (inst.balance b).resource1
        - (inst.machine x).safety_capacity (inst.balance b).resource1
        - e (inst.balance b).resource1)
    - ((inst.machine x).capacity (inst.balance b).resource2
        - (inst.machine x).safety_capacity (inst.balance b).resource2
        - e (inst.balance b).resource2)

/-- Body of the process loop of `setAssignment`; the accumulator holds the
process table of the instance and the state. -/
def setAssignmentProcessStep (inst : Instance) (assignment : Nat → Nat)
    (acc : (Nat → Process) × ReAssignment) (p : Nat) : (Nat → Process) × ReAssignment :=
  let machine := assignment p
  let process := Function.update acc.1 p { acc.1 p with original_machine := machine }
  let st := acc.2
  (process,
    { st with
      excess := Function.update st.excess machine (fun r =>
        if r < inst.num_resources then st.excess machine r + (process p).requirement r
        else st.excess machine r)
      transient := Function.update st.transient machine (fun r =>
        if r < inst.num_resources ∧ r < inst.transient_count then
          st.transient machine r + (process p).requirement r
        else st.transient machine r) })

/-- Body of the machine loop of `setAssignment`; the accumulator holds the state,
`load_units` and `balance_units`. -/
def setAssignmentMachineStep (inst : Instance)
    (acc : ReAssignment × (Nat → Int) × (Nat → Int)) (m : Nat) :
    ReAssignment × (Nat → Int) × (Nat → Int) :=
  let machine := inst.machine m
  let st := acc.1
  let excess : MachineLoad := fun r =>
    if r < inst.num_resources then st.excess m r - machine.safety_capacity r else st.excess m r
  let load_units : Nat → Int := fun r =>
    if r < inst.num_resources then acc.2.1 r + max 0 (excess r) else acc.2.1 r
  let balance : MachineBalance := fun b =>
    if b < inst.num_balances then balanceUnits inst m excess b else st.balance m b
  let balance_units : Nat → Int := fun b =>
    if b < inst.num_balances then acc.2.2 b + max 0 (balance b) else acc.2.2 b
  ({ st with excess := Function.update st.excess m excess,
             balance := Function.update st.balance m balance },
    load_units, balance_units)

/-- Function `Instance::setAssignment` called with a fresh state (empty vectors,
which `resize` fills with zeros) and an assignment vector with one entry per
process; it returns the updated instance and the state. -/
def setAssignment (inst : Instance) (assignment : Nat → Nat) : Instance × ReAssignment :=
  let fresh : ReAssignment :=
    { assignment := assignment, excess := fun _ _ => 0, transient := fun _ _ => 0,
      balance := fun _ _ => 0, load_cost := 0, balance_cost := 0, process_moves := 0,
      machine_moves := 0 }
  let acc1 := (List.range inst.num_processes).foldl (setAssignmentProcessStep inst assignment)
    (inst.process, fresh)
  let service : Nat → Service := fun s =>
    if s < inst.num_services then
      { inst.service s with
        cur_spread := (((inst.service s).process.map
          (fun p => (inst.machine (assignment p)).location)).dedup).length }
    else inst.service s
  let acc3 := (List.range inst.num_machines).foldl (setAssignmentMachineStep inst)
    (acc1.2, fun _ => 0, fun _ => 0)
  ({ inst with assignment := assignment, process := acc1.1, service := service },
    { acc3.1 with
      load_cost := acc3.1.load_cost
        + ∑ r in range inst.num_resources, acc3.2.1 r * (inst.resource r).weight_load_cost
      balance_cost := acc3.1.balance_cost
        + ∑ b in range inst.num_balances,
            acc3.2.2 b * ((inst.balance b).weight_balance_cost : Int) })

/-! ## Patches and the space (`RescheduleSpace.h`) -/

/-- Speculative overlay `MachinePatch` of one machine. -/
structure MachinePatch where
  excess : Nat → Int
  transient : Nat → Int
  balance : Nat → Int

/-- Constructor `MachinePatch(instance, alloc)`: all three vectors zero. -/
def MachinePatch.init : MachinePatch :=
  { excess := fun _ => 0, transient := fun _ => 0, balance := fun _ => 0 }

/-- Map `PatchMap` from machine id to its patch. -/
abbrev PatchMap := Nat → Option MachinePatch

/-- Location argument of the `nvalues` constraint: the location of the machine
chosen for a slot (`element(machine_location, process[i], .)`) or a constant. -/
inductive LocTerm where
  | slot (i : Nat)
  | fixed (l : Nat)

/-- Constraints the constructor posts on the decision variables. -/
inductive Constraint where
  | totalCostLe (limit : Int)
  | distinct (slots : List Nat)
  | relNq (slot : Nat) (value : Nat)
  | relEq (slot : Nat) (value : Nat)
  | dom (slot : Nat) (values : List Nat)
  | nvaluesGq (locs : List LocTerm) (n : Nat)
  | linearEq (size : Nat)

/-- Space `RescheduleSpace`: the members that are not CP variables, the values
the assignment propagators have fixed for `process_move_cost`, and the posted
constraints. -/
structure RescheduleSpace where
  base_total_cost : Int
  delta : PatchMap
  min_unassigned_balance : Nat → Int
  max_unassigned_balance : Nat → Int
  process_move_cost : Nat → Option Int
  posted : List Constraint

/-! ## Construction: load, balance and move bookkeeping -/

/-- Entry `moved[i]` of the neighborhood list. -/
def movedAt (moved : List Nat) (i : Nat) : Nat := moved.getD i 0

/-- Body of the first loop of `setupLoadConstraints` for slot `m`; the
accumulator holds `delta`, `process_move_delta` and `machine_move_delta`. -/
def setupLoadConstraintsStep (inst : Instance) (state : ReAssignment) (moved : List Nat)
    (acc : PatchMap × Int × Int) (m : Nat) : PatchMap × Int × Int :=
  let current_machine := state.assignment (movedAt moved m)
  let process_moved := inst.process (movedAt moved m)
  let it := acc.1 current_machine
  let patch0 : MachinePatch :=
    match it with
    | some q => q
    | none => { MachinePatch.init with transient := state.transient current_machine }
  let patch1 : MachinePatch :=
    { patch0 with
      excess := fun r =>
        if r < inst.num_resources then patch0.excess r - process_moved.requirement r
        else patch0.excess r }
  let patch2 : MachinePatch :=
    if process_moved.original_machine ≠ current_machine then
      { patch1 with
        transient := fun r =>
          if r < inst.transient_count then patch1.transient r - process_moved.requirement r
          else patch1.transient r }
    else patch1
  let patch3 : MachinePatch :=
    match it with
    | some _ => patch2
    | none => { patch2 with balance := state.balance current_machine }
  let delta := Function.update acc.1 current_machine (some patch3)
  if process_moved.original_machine ≠ current_machine then
    (delta, acc.2.1 - (process_moved.move_cost : Int),
      acc.2.2 - ((inst.machine process_moved.original_machine).move_cost current_machine : Int))
  else (delta, acc.2.1, acc.2.2)

/-- Excess of a patch after `setupLoadCost` added the baseline excess of machine `x`. -/
def addBaseExcess (inst : Instance) (state : ReAssignment) (x : Nat) (patch : MachinePatch) :
    MachinePatch :=
  { patch with
    excess := fun r =>
      if r < inst.num_resources then patch.excess r + state.excess x r else patch.excess r }

/-- Load cost difference of one patched machine against the baseline:
the inner loop of `setupLoadCost`. -/
def patchLoadCost (inst : Instance) (state : ReAssignment) (x : Nat) (patch : MachinePatch) : Int :=
  ∑ r in range inst.num_resources,
    (max 0 (patch.excess r) - max 0 (state.excess x r)) * (inst.resource r).weight_load_cost

/-- Function `RescheduleSpace::setupLoadCost`. -/
def setupLoadCost (inst : Instance) (state : ReAssignment) (sp : RescheduleSpace) :
    RescheduleSpace :=
  let delta : PatchMap := fun x => (sp.delta x).map (addBaseExcess inst state x)
  let moved_load_cost : Int :=
    ∑ x in range inst.num_machines,
      match delta x with
      | some patch => patchLoadCost inst state x patch
      | none => 0
  { sp with delta := delta,
            base_total_cost := sp.base_total_cost + (state.load_cost + moved_load_cost) }

/-- Balance contribution `requirement[r2] - bal * requirement[r1]` of process `p`
to balance triple `b`. -/
def processBalance (inst : Instance) (p : Nat) (b : Nat) : Int :=
  (inst.process p).requirement (inst.balance b).resource2
    - ((inst.balance b).balance : Int) * (inst.process p).requirement (inst.balance b).resource1

/-- Body of the inner loop of `setupBalanceCost` for balance `b` and slot `m`;
the accumulator holds the space and `moved_balance_cost`. -/
def setupBalanceCostStep (inst : Instance) (state : ReAssignment) (moved : List Nat) (b : Nat)
    (acc : RescheduleSpace × Int) (m : Nat) : RescheduleSpace × Int :=
  let weight : Int := (inst.balance b).weight_balance_cost
  let diff := processBalance inst (movedAt moved m) b
  let sp := acc.1
  let sp1 : RescheduleSpace :=
    if diff < 0 then
      { sp with min_unassigned_balance :=
          Function.update sp.min_unassigned_balance b (sp.min_unassigned_balance b + diff) }
    else
      { sp with max_unassigned_balance :=
          Function.update sp.max_unassigned_balance b (sp.max_unassigned_balance b + diff) }
  let key := state.assignment (movedAt moved m)
  match sp1.delta key with
  | none => (sp1, acc.2)
  | some patch =>
    let old_balance := max 0 (patch.balance b)
    let patch1 : MachinePatch :=
      { patch with balance := Function.update patch.balance b (patch.balance b - diff) }
    let new_balance := max 0 (patch1.balance b)
    ({ sp1 with delta := Function.update sp1.delta key (some patch1) },
      acc.2 + (new_balance - old_balance) * weight)

/-- Function `RescheduleSpace::setupBalanceCost`. -/
def setupBalanceCost (inst : Instance) (state : ReAssignment) (moved : List Nat)
    (sp : RescheduleSpace) : RescheduleSpace :=
  let acc := (List.range inst.num_balances).foldl
    (fun acc b => (List.range moved.length).foldl (setupBalanceCostStep inst state moved b) acc)
    (sp, (0 : Int))
  { acc.1 with base_total_cost := acc.1.base_total_cost + (state.balance_cost + acc.2) }

/-- Function `RescheduleSpace::setupLoadConstraints`; the final `rel` is recorded
as the posted constraint `total_cost < limit`. -/
def setupLoadConstraints (inst : Instance) (state : ReAssignment) (moved : List Nat)
    (sp : RescheduleSpace) : RescheduleSpace :=
  let acc := (List.range moved.length).foldl (setupLoadConstraintsStep inst state moved)
    (sp.delta, (0 : Int), (0 : Int))
  let sp1 := setupLoadCost inst state { sp with delta := acc.1 }
  let sp2 := setupBalanceCost inst state moved sp1
  let base := sp2.base_total_cost
    + ((state.process_moves + acc.2.1) * inst.weight_process_move_cost
      + (state.machine_moves + acc.2.2) * inst.weight_machine_move_cost)
  let best := state.load_cost + state.balance_cost
    + state.process_moves * inst.weight_process_move_cost
    + state.machine_moves * inst.weight_machine_move_cost
  let limit := best - base
  { sp2 with base_total_cost := base,
             posted := sp2.posted ++ [Constraint.totalCostLe limit] }

/-! ## The assignment propagator (`ProcessPropagator.cpp`) -/

/-- Body of the resource loop of `ProcessPropagator::propagateLoad`; `none` is the
early `return -1`. -/
def propagateLoadStep (inst : Instance) (m_process machine_id : Nat)
    (acc : Option (MachinePatch × Int)) (r : Nat) : Option (MachinePatch × Int) :=
  match acc with
  | none => none
  | some (patch, delta_load_cost) =>
    let machine := inst.machine machine_id
    let process := inst.process m_process
    let old_excess := max 0 (patch.excess r)
    let patch1 : MachinePatch :=
      { patch with excess := Function.update patch.excess r (patch.excess r + process.requirement r) }
    let new_excess := max 0 (patch1.excess r)
    if patch1.excess r > machine.capacity r - machine.safety_capacity r then none
    else if r < inst.transient_count ∧ process.original_machine ≠ machine_id then
      let patch2 : MachinePatch :=
        { patch1 with
          transient := Function.update patch1.transient r (patch1.transient r + process.requirement r) }
      if patch2.transient r > machine.capacity r then none
      else some (patch2,
        delta_load_cost + (new_excess - old_excess) * (inst.resource r).weight_load_cost)
    else some (patch1,
      delta_load_cost + (new_excess - old_excess) * (inst.resource r).weight_load_cost)

/-- Patch and load-cost part of `ProcessPropagator::propagateLoad`. The second
loop of that function only removes `machine_id` from the domains of other,
still unassigned slots and is not part of the patch or of the returned cost. -/
def propagateLoad (inst : Instance) (m_process machine_id : Nat) (patch : MachinePatch) :
    Option (MachinePatch × Int) :=
  (List.range inst.num_resources).foldl (propagateLoadStep inst m_process machine_id)
    (some (patch, 0))

/-- Body of the loop of `ProcessPropagator::propagateBalance`; the accumulator
holds `min_unassigned_balance`, `max_unassigned_balance`, the patch and
`delta_balance_cost`. -/
def propagateBalanceStep (inst : Instance) (m_process : Nat)
    (acc : (Nat → Int) × (Nat → Int) × MachinePatch × Int) (b : Nat) :
    (Nat → Int) × (Nat → Int) × MachinePatch × Int :=
  let process_balance := processBalance inst m_process b
  let mn := if process_balance < 0 then
      Function.update acc.1 b (acc.1 b - process_balance) else acc.1
  let mx := if process_balance < 0 then acc.2.1 else
      Function.update acc.2.1 b (acc.2.1 b - process_balance)
  let patch := acc.2.2.1
  let old_balance := max 0 (patch.balance b)
  let patch1 : MachinePatch :=
    { patch with balance := Function.update patch.balance b (patch.balance b + process_balance) }
  let new_balance := max 0 (patch1.balance b)
  (mn, mx, patch1,
    acc.2.2.2 + (new_balance - old_balance) * ((inst.balance b).weight_balance_cost : Int))

/-- Function `ProcessPropagator::propagateBalance`. -/
def propagateBalance (inst : Instance) (m_process : Nat) (space : RescheduleSpace)
    (patch : MachinePatch) : (Nat → Int) × (Nat → Int) × MachinePatch × Int :=
  (List.range inst.num_balances).foldl (propagateBalanceStep inst m_process)
    (space.min_unassigned_balance, space.max_unassigned_balance, patch, 0)

/-- Patch the propagator starts from: the machine's patch, or a copy of the
baseline vectors of the machine. -/
def patchOrBase (state : ReAssignment) (delta : PatchMap) (machine_id : Nat) : MachinePatch :=
  match delta machine_id with
  | some q => q
  | none => { excess := state.excess machine_id, transient := state.transient machine_id,
              balance := state.balance machine_id }

/-- Move cost the propagator adds for process `p` placed on `machine_id`. -/
def moveCost (inst : Instance) (p machine_id : Nat) : Int :=
  (if (inst.process p).original_machine ≠ machine_id then
      ((inst.process p).move_cost : Int) * inst.weight_process_move_cost else 0)
    + ((inst.machine (inst.process p).original_machine).move_cost machine_id : Int)
        * inst.weight_machine_move_cost

/-- Function `ProcessPropagator::propagate` for slot `m_index` holding process
`m_process`, run when its variable has the value `machine_id`, in a run in
which the load delta and the cost lie in the range of `int`, so that the
conversions to `int` change no value: `cost` is the exact sum; `none` is
`ES_FAILED`. The function with the conversions is
`ProcessPropagator.propagate32`; the two agree in such a run
(`propagate32_eq_propagate`). -/
def ProcessPropagator.propagate (inst : Instance) (state : ReAssignment)
    (m_index m_process machine_id : Nat) (space : RescheduleSpace) : Option RescheduleSpace :=
  let patch := patchOrBase state space.delta machine_id
  match propagateLoad inst m_process machine_id patch with
  | none => none
  | some (patch1, load) =>
    if load < 0 then none
    else
      let res := propagateBalance inst m_process space patch1
      let cost := load + res.2.2.2 + moveCost inst m_process machine_id
      let space1 : RescheduleSpace :=
        { space with min_unassigned_balance := res.1, max_unassigned_balance := res.2.1 }
      let ok : Bool :=
        match space1.process_move_cost m_index with
        | some c => decide (c = cost)
        | none => true
      if ok then
        some { space1 with
          process_move_cost := Function.update space1.process_move_cost m_index (some cost),
          delta := Function.update space1.delta machine_id (some res.2.2.1) }
      else none

/-- Run of the assignment propagators in the order `order` of slots, slot `i`
with the value `val i` of its variable. -/
def runPropagators (inst : Instance) (state : ReAssignment) (moved : List Nat) (val : Nat → Nat) :
    List Nat → RescheduleSpace → Option RescheduleSpace
  | [], sp => some sp
  | i :: rest, sp =>
    match ProcessPropagator.propagate inst state i (movedAt moved i) (val i) sp with
    | none => none
    | some sp1 => runPropagators inst state moved val rest sp1

/-! ## Conflict, spread and dependency constraints -/

/-- Slots of the moved processes of service `s`, in slot order (the entry of the
per-service maps built by the three constraint functions). -/
def slotsOfService (inst : Instance) (moved : List Nat) (s : Nat) : List Nat :=
  (List.range moved.length).filter (fun i => (inst.process (movedAt moved i)).service = s)

/-- Function `RescheduleSpace::setupConflictConstraint`. -/
def setupConflictConstraint (inst : Instance) (state : ReAssignment) (moved : List Nat)
    (sp : RescheduleSpace) : RescheduleSpace :=
  let distincts : List Constraint :=
    (List.range inst.num_services).filterMap (fun s =>
      if (slotsOfService inst moved s).length > 1 then
        some (Constraint.distinct (slotsOfService inst moved s))
      else none)
  let blocked : List Constraint :=
    (List.range moved.length).flatMap (fun i =>
      let p := movedAt moved i
      let members := (inst.service (inst.process p).service).process
      let unassigned := (slotsOfService inst moved (inst.process p).service).map
        (fun j => movedAt moved j)
      (members.filter (fun m => p ≠ m ∧ m ∉ unassigned)).map
        (fun m => Constraint.relNq i (state.assignment m)))
  { sp with posted := sp.posted ++ distincts ++ blocked }

/-- Location term of member `q` of a service in `setupSpreadConstraint`: the slot
of `q` when it is moved, its fixed baseline location otherwise. -/
def spreadTerm (inst : Instance) (state : ReAssignment) (slots moved_p : List Nat) (q : Nat) :
    LocTerm :=
  if q ∈ moved_p then LocTerm.slot (slots.getD (moved_p.indexOf q) 0)
  else LocTerm.fixed (inst.machine (state.assignment q)).location

/-- Function `RescheduleSpace::setupSpreadConstraint`. -/
def setupSpreadConstraint (inst : Instance) (state : ReAssignment) (moved : List Nat)
    (sp : RescheduleSpace) : RescheduleSpace :=
  let cs : List Constraint :=
    (List.range inst.num_services).filterMap (fun s =>
      let service_obj := inst.service s
      let slots := slotsOfService inst moved s
      if service_obj.min_spread > 1 ∧ slots ≠ [] then
        let moved_p := slots.map (fun i => movedAt moved i)
        let count := ((service_obj.process.filter (fun p => p ∉ moved_p)).map
          (fun p => (inst.machine (state.assignment p)).location)).dedup.length
        if count < service_obj.min_spread then
          some (Constraint.nvaluesGq
            (service_obj.process.map (spreadTerm inst state slots moved_p))
            service_obj.min_spread)
        else none
      else none)
  { sp with posted := sp.posted ++ cs }

/-- Inner loop of `std::set_intersection` with the head `a` of the first range
fixed: it advances in the second range; `recAs` continues with the tail of the
first range. -/
def setIntersectionAux (a : Nat) (recAs : List Nat → List Nat) : List Nat → List Nat
  | [] => []
  | b :: bs =>
    if a < b then recAs (b :: bs)
    else if b < a then setIntersectionAux a recAs bs
    else a :: recAs bs

/-- Algorithm `std::set_intersection` on two sorted ranges: the smaller head is
skipped, equal heads are output once and both ranges advance. -/
def setIntersection : List Nat → List Nat → List Nat
  | [] => fun _ => []
  | a :: as => setIntersectionAux a (setIntersection as)

/-- Sorted neighborhoods of the non-moved members of service `d` (`covered`). -/
def coveredNeighborhoods (inst : Instance) (state : ReAssignment) (moved : List Nat) (d : Nat) :
    List Nat :=
  (((inst.service d).process.filter (fun p => p ∉ moved)).map
    (fun p => (inst.machine (state.assignment p)).neighborhood)).insertionSort (· ≤ ·)

/-- Loop over `depends_on` computing `neighborhoods`; the flag is
`neighborhoods_initialized`. -/
def availableNeighborhoods (inst : Instance) (state : ReAssignment) (moved : List Nat)
    (depends_on : List Nat) : List Nat × Bool :=
  depends_on.foldl (fun acc d =>
    if acc.2 then (setIntersection acc.1 (coveredNeighborhoods inst state moved d), true)
    else (coveredNeighborhoods inst state moved d, true)) ([], false)

/-- Counter `distinct_neighbors`: one plus the number of adjacent unequal pairs. -/
def distinctNeighbors : List Nat → Nat
  | a :: b :: rest => (if a ≠ b then 1 else 0) + distinctNeighbors (b :: rest)
  | _ => 1

/-- First loop of `setupDependencyConstraint` for slot `m`: the `forbid_move`
restriction to the current neighborhood. -/
def forbidMoveConstraint (inst : Instance) (state : ReAssignment) (moved : List Nat) (m : Nat) :
    Option Constraint :=
  let service := inst.service (inst.process (movedAt moved m)).service
  if service.required_by.length > 0 then
    let current_neighborhood := (inst.machine (state.assignment (movedAt moved m))).neighborhood
    let stay_in_neighborhood : Bool := service.process.any (fun p =>
      decide (current_neighborhood = (inst.machine (state.assignment p)).neighborhood)
        && decide (p ∉ moved))
    let forbid_move : Bool := !stay_in_neighborhood && service.required_by.any (fun s =>
      (inst.service s).process.any (fun d =>
        decide ((inst.machine (state.assignment d)).neighborhood = current_neighborhood)))
    if forbid_move then some (Constraint.dom m (inst.neighborhood current_neighborhood))
    else none
  else none

/-- Second loop of `setupDependencyConstraint` for service `s`. -/
def dependencyConstraints (inst : Instance) (state : ReAssignment) (moved : List Nat) (s : Nat) :
    List Constraint :=
  let service := inst.service s
  let slots := slotsOfService inst moved s
  if service.depends_on.length > 0 ∧ slots ≠ [] then
    let neighborhoods := (availableNeighborhoods inst state moved service.depends_on).1
    if inst.num_neighborhoods = distinctNeighbors neighborhoods then []
    else if neighborhoods.length = 0 then
      slots.map (fun p => Constraint.relEq p (state.assignment (movedAt moved p)))
    else
      let machines := (neighborhoods.flatMap inst.neighborhood).insertionSort (· ≤ ·)
      slots.map (fun p => Constraint.dom p machines)
  else []

/-- Function `RescheduleSpace::setupDependencyConstraint`. -/
def setupDependencyConstraint (inst : Instance) (state : ReAssignment) (moved : List Nat)
    (sp : RescheduleSpace) : RescheduleSpace :=
  { sp with posted := sp.posted
      ++ (List.range moved.length).filterMap (forbidMoveConstraint inst state moved)
      ++ (List.range inst.num_services).flatMap (dependencyConstraints inst state moved) }

/-- Function `RescheduleSpace::setupObjectiveFunction`. -/
def setupObjectiveFunction (moved : List Nat) (sp : RescheduleSpace) : RescheduleSpace :=
  { sp with posted := sp.posted ++ [Constraint.linearEq moved.length] }

/-- Initializing constructor of `RescheduleSpace`. -/
def RescheduleSpace.construct (inst : Instance) (state : ReAssignment) (moved : List Nat) :
    RescheduleSpace :=
  let sp0 : RescheduleSpace :=
    { base_total_cost := 0, delta := fun _ => none,
      min_unassigned_balance := fun _ => 0, max_unassigned_balance := fun _ => 0,
      process_move_cost := fun _ => none, posted := [] }
  setupObjectiveFunction moved
    (setupDependencyConstraint inst state moved
      (setupSpreadConstraint inst state moved
        (setupConflictConstraint inst state moved
          (setupLoadConstraints inst state moved sp0))))

/-! ## Meaning of the posted constraints and solved spaces -/

/-- Value of a location term under the slot values `val`. -/
def LocTerm.eval (inst : Instance) (val : Nat → Nat) : LocTerm → Nat
  | LocTerm.slot i => (inst.machine (val i)).location
  | LocTerm.fixed l => l

/-- Satisfaction of a posted constraint by the values `val` of `process`, the
values `cost` of `process_move_cost` and the value `total` of `total_cost`. -/
def Constraint.holds (inst : Instance) (val : Nat → Nat) (cost : Nat → Int) (total : Int) :
    Constraint → Prop
  | Constraint.totalCostLe limit => total < limit
  | Constraint.distinct slots => (slots.map val).Nodup
  | Constraint.relNq i v => val i ≠ v
  | Constraint.relEq i v => val i = v
  | Constraint.dom i vs => val i ∈ vs
  | Constraint.nvaluesGq locs n => n ≤ ((locs.map (LocTerm.eval inst val)).dedup).length
  | Constraint.linearEq k => total = ∑ i in range k, cost i

instance (inst : Instance) (val : Nat → Nat) (cost : Nat → Int) (total : Int) (c : Constraint) :
    Decidable (c.holds inst val cost total) := by
  cases c <;> unfold Constraint.holds <;> infer_instance

/-- Solved space: every `process[i]` has a value `val i` in its initial domain,
every assignment propagator has run once without failure (in the order `order`)
leaving the space `final`, and all posted constraints hold. Propagation that
only prunes domains is not represented, so every solution the search engine
returns is of this form. -/
structure Solved (inst : Instance) (state : ReAssignment) (moved : List Nat)
    (val : Nat → Nat) (order : List Nat) (final : RescheduleSpace) (total_cost : Int) : Prop where
  val_lt : ∀ i, i < moved.length → val i < inst.num_machines
  order_perm : order.Perm (List.range moved.length)
  run_ok : runPropagators inst state moved val order
    (RescheduleSpace.construct inst state moved) = some final
  posted_hold : ∀ c, c ∈ final.posted →
    c.holds inst val (fun i => (final.process_move_cost i).getD 0) total_cost

/-! ## Result state (`getResultState`) -/

/-- Body of the first loop of `getResultState` for slot `m`. -/
def getResultStateStep (inst : Instance) (state : ReAssignment) (moved : List Nat)
    (val : Nat → Nat) (result : ReAssignment) (m : Nat) : ReAssignment :=
  let p := movedAt moved m
  let orig := (inst.process p).original_machine
  let result1 : ReAssignment :=
    { result with assignment := Function.update result.assignment p (val m) }
  let result2 : ReAssignment :=
    if orig = state.assignment p then
      if orig ≠ result1.assignment p then
        { result1 with process_moves := result1.process_moves + ((inst.process p).move_cost : Int) }
      else result1
    else
      if orig = result1.assignment p then
        { result1 with process_moves := result1.process_moves - ((inst.process p).move_cost : Int) }
      else result1
  let result3 : ReAssignment :=
    { result2 with machine_moves :=
        result2.machine_moves - ((inst.machine orig).move_cost (state.assignment p) : Int) }
  { result3 with machine_moves :=
      result3.machine_moves + ((inst.machine orig).move_cost (result3.assignment p) : Int) }

/-- Body of the second loop of `getResultState` for the patch of machine `x`. -/
def applyPatchStep (inst : Instance) (delta : PatchMap) (result : ReAssignment) (x : Nat) :
    ReAssignment :=
  match delta x with
  | none => result
  | some patch =>
    { result with
      load_cost := result.load_cost + ∑ r in range inst.num_resources,
        (max 0 (patch.excess r) - max 0 (result.excess x r)) * (inst.resource r).weight_load_cost
      balance_cost := result.balance_cost + ∑ b in range inst.num_balances,
        (max 0 (patch.balance b) - max 0 (result.balance x b))
          * ((inst.balance b).weight_balance_cost : Int)
      excess := Function.update result.excess x patch.excess
      transient := Function.update result.transient x patch.transient
      balance := Function.update result.balance x patch.balance }

/-- Function `RescheduleSpace::getResultState` of a space with the slot values `val`. -/
def getResultState (inst : Instance) (state : ReAssignment) (moved : List Nat)
    (val : Nat → Nat) (space : RescheduleSpace) : ReAssignment :=
  let result := (List.range moved.length).foldl (getResultStateStep inst state moved val) state
  (List.range inst.num_machines).foldl (applyPatchStep inst space.delta) result

/-! ## Quantities the statements are phrased in -/

/-- Sum of the requirements for resource `r` of the processes that `a` places
on machine `x`. -/
def machineLoad (inst : Instance) (a : Nat → Nat) (x r : Nat) : Int :=
  ∑ p in range inst.num_processes, if a p = x then (inst.process p).requirement r else 0

/-- Sum of the requirements for resource `r` of the processes that are on
machine `x` under `a` or have `x` as their original machine. -/
def transientLoad (inst : Instance) (a : Nat → Nat) (x r : Nat) : Int :=
  ∑ p in range inst.num_processes,
    if a p = x ∨ (inst.process p).original_machine = x then (inst.process p).requirement r else 0

/-- Weighted sum of the positive parts of the effective excess of all machines
under the patch map `D`. -/
def loadPotential (inst : Instance) (state : ReAssignment) (D : PatchMap) : Int :=
  ∑ x in range inst.num_machines, ∑ r in range inst.num_resources,
    max 0 ((patchOrBase state D x).excess r) * (inst.resource r).weight_load_cost

/-- Weighted sum of the positive parts of the effective balance of all machines
under the patch map `D`. -/
def balancePotential (inst : Instance) (state : ReAssignment) (D : PatchMap) : Int :=
  ∑ x in range inst.num_machines, ∑ b in range inst.num_balances,
    max 0 ((patchOrBase state D x).balance b) * ((inst.balance b).weight_balance_cost : Int)

/-- Patch a slot of `setupLoadConstraints` starts from: the machine's patch, or
the fresh patch with the baseline transient and balance vectors. -/
def prePatch (state : ReAssignment) (D : PatchMap) (x : Nat) : MachinePatch :=
  match D x with
  | some q => q
  | none => { excess := fun _ => 0, transient := state.transient x, balance := state.balance x }

/-- Patch of machine `x` after the requirement of process `p` was taken out. -/
def removeProcess (inst : Instance) (p x : Nat) (q : MachinePatch) : MachinePatch :=
  { excess := fun r =>
      if r < inst.num_resources then q.excess r - (inst.process p).requirement r else q.excess r
    transient := fun r =>
      if (inst.process p).original_machine ≠ x ∧ r < inst.transient_count then
        q.transient r - (inst.process p).requirement r
      else q.transient r
    balance := q.balance }

/-- First loop of `setupLoadConstraints` over the slots below `n`. -/
def loadLoop (inst : Instance) (state : ReAssignment) (moved : List Nat) (n : Nat) :
    PatchMap × Int × Int :=
  (List.range n).foldl (setupLoadConstraintsStep inst state moved)
    (fun _ => none, (0 : Int), (0 : Int))

/-- Requirement for `r` of the moved processes whose baseline machine is `x`. -/
def removedLoad (inst : Instance) (state : ReAssignment) (moved : List Nat) (n x r : Nat) : Int :=
  ∑ i in range n,
    if state.assignment (movedAt moved i) = x then (inst.process (movedAt moved i)).requirement r
    else 0

/-- Requirement for `r` of the moved processes whose baseline machine is `x` and
whose original machine is another one. -/
def removedTransient (inst : Instance) (state : ReAssignment) (moved : List Nat) (n x r : Nat) :
    Int :=
  ∑ i in range n,
    if state.assignment (movedAt moved i) = x ∧ (inst.process (movedAt moved i)).original_machine ≠ x
    then (inst.process (movedAt moved i)).requirement r else 0

/-- Balance contribution to `b` of the moved processes whose baseline machine is `x`. -/
def removedBalance (inst : Instance) (state : ReAssignment) (moved : List Nat) (n x b : Nat) :
    Int :=
  ∑ i in range n,
    if state.assignment (movedAt moved i) = x then processBalance inst (movedAt moved i) b else 0

/-- Requirement for `r` of the moved processes whose new machine is `x`. -/
def addedLoad (inst : Instance) (moved : List Nat) (val : Nat → Nat) (n x r : Nat) : Int :=
  ∑ i in range n, if val i = x then (inst.process (movedAt moved i)).requirement r else 0

/-- Requirement for `r` of the moved processes whose new machine is `x` and whose
original machine is another one. -/
def addedTransient (inst : Instance) (moved : List Nat) (val : Nat → Nat) (n x r : Nat) : Int :=
  ∑ i in range n,
    if val i = x ∧ (inst.process (movedAt moved i)).original_machine ≠ x
    then (inst.process (movedAt moved i)).requirement r else 0

/-- Balance contribution to `b` of the moved processes whose new machine is `x`. -/
def addedBalance (inst : Instance) (moved : List Nat) (val : Nat → Nat) (n x b : Nat) : Int :=
  ∑ i in range n, if val i = x then processBalance inst (movedAt moved i) b else 0

/-- Patch with `d` taken out of its balance entry `b`. -/
def subBalance (b : Nat) (d : Int) (q : MachinePatch) : MachinePatch :=
  { q with balance := Function.update q.balance b (q.balance b - d) }

/-- Inner loop of `setupBalanceCost` for balance `b` over the slots below `n`. -/
def balanceInner (inst : Instance) (state : ReAssignment) (moved : List Nat) (b n : Nat)
    (acc : RescheduleSpace × Int) : RescheduleSpace × Int :=
  (List.range n).foldl (setupBalanceCostStep inst state moved b) acc

/-- Outer loop of `setupBalanceCost` over the balances below `nb`. -/
def balanceOuter (inst : Instance) (state : ReAssignment) (moved : List Nat) (nb : Nat)
    (acc : RescheduleSpace × Int) : RescheduleSpace × Int :=
  (List.range nb).foldl
    (fun acc b => (List.range moved.length).foldl (setupBalanceCostStep inst state moved b) acc)
    acc

/-- Relation between a space and a later one in which only balance entries of
existing patches changed, by the amounts `g`, and `c` grew by the change of the
balance potential. -/
structure BalanceEvolves (inst : Instance) (state : ReAssignment) (g : Nat → Nat → Int)
    (a a1 : RescheduleSpace × Int) : Prop where
  none_iff : ∀ x, a1.1.delta x = none ↔ a.1.delta x = none
  excess_eq : ∀ x, (patchOrBase state a1.1.delta x).excess = (patchOrBase state a.1.delta x).excess
  transient_eq : ∀ x,
    (patchOrBase state a1.1.delta x).transient = (patchOrBase state a.1.delta x).transient
  balance_eq : ∀ x b,
    (patchOrBase state a1.1.delta x).balance b = (patchOrBase state a.1.delta x).balance b - g x b
  cost_eq : a1.2 - a.2
    = balancePotential inst state a1.1.delta - balancePotential inst state a.1.delta
  base_eq : a1.1.base_total_cost = a.1.base_total_cost
  posted_eq : a1.1.posted = a.1.posted
  pmc_eq : a1.1.process_move_cost = a.1.process_move_cost

/-- Space before any constraint is set up: no patch, no posted constraint. -/
def emptySpace : RescheduleSpace :=
  { base_total_cost := 0, delta := fun _ => none,
    min_unassigned_balance := fun _ => 0, max_unassigned_balance := fun _ => 0,
    process_move_cost := fun _ => none, posted := [] }

/-- Sum over the slots of the process move costs counted in the baseline. -/
def baseProcessMoves (inst : Instance) (state : ReAssignment) (moved : List Nat) : Int :=
  ∑ i in range moved.length,
    if (inst.process (movedAt moved i)).original_machine ≠ state.assignment (movedAt moved i)
    then ((inst.process (movedAt moved i)).move_cost : Int) else 0

/-- Sum over the slots of the machine move costs that `setupLoadConstraints`
takes out of the baseline. -/
def baseMachineMoves (inst : Instance) (state : ReAssignment) (moved : List Nat) : Int :=
  ∑ i in range moved.length,
    if (inst.process (movedAt moved i)).original_machine ≠ state.assignment (movedAt moved i)
    then ((inst.machine (inst.process (movedAt moved i)).original_machine).move_cost
      (state.assignment (movedAt moved i)) : Int) else 0

/-- Space after the first loop of `setupLoadConstraints` and `setupLoadCost`. -/
def loadedSpace (inst : Instance) (state : ReAssignment) (moved : List Nat) : RescheduleSpace :=
  setupLoadCost inst state { emptySpace with delta := (loadLoop inst state moved moved.length).1 }

/-- Effect of one successful run of the assignment propagator of slot `i`
(process `p`, value `x`) on the effective patches and on the fixed costs. -/
structure Propagated (inst : Instance) (state : ReAssignment) (i p x : Nat)
    (sp sp1 : RescheduleSpace) : Prop where
  excess : ∀ y r, r < inst.num_resources →
    (patchOrBase state sp1.delta y).excess r
      = (patchOrBase state sp.delta y).excess r
        + (if y = x then (inst.process p).requirement r else 0)
  transient : ∀ y r, r < inst.num_resources →
    (patchOrBase state sp1.delta y).transient r
      = (patchOrBase state sp.delta y).transient r
        + (if y = x ∧ r < inst.transient_count ∧ (inst.process p).original_machine ≠ x
            then (inst.process p).requirement r else 0)
  balance : ∀ y b, b < inst.num_balances →
    (patchOrBase state sp1.delta y).balance b
      = (patchOrBase state sp.delta y).balance b
        + (if y = x then processBalance inst p b else 0)
  cap_ok : ∀ r, r < inst.num_resources →
    (patchOrBase state sp1.delta x).excess r
      ≤ (inst.machine x).capacity r - (inst.machine x).safety_capacity r
  trans_ok : ∀ r, r < inst.num_resources → r < inst.transient_count →
    (inst.process p).original_machine ≠ x →
    (patchOrBase state sp1.delta x).transient r ≤ (inst.machine x).capacity r
  cost : sp1.process_move_cost = Function.update sp.process_move_cost i
    (some ((loadPotential inst state sp1.delta - loadPotential inst state sp.delta)
      + (balancePotential inst state sp1.delta - balancePotential inst state sp.delta)
      + moveCost inst p x))
  base_eq : sp1.base_total_cost = sp.base_total_cost
  posted_eq : sp1.posted = sp.posted

/-- First loop of `getResultState` over the slots below `n`. -/
def resultMoves (inst : Instance) (state : ReAssignment) (moved : List Nat) (val : Nat → Nat)
    (n : Nat) : ReAssignment :=
  (List.range n).foldl (getResultStateStep inst state moved val) state

/-- Second loop of `getResultState` over the machines below `n`. -/
def resultPatches (inst : Instance) (D : PatchMap) (result : ReAssignment) (n : Nat) :
    ReAssignment :=
  (List.range n).foldl (applyPatchStep inst D) result

/-- Change of `process_moves` that `getResultState` books for slot `i`. -/
def processMoveChange (inst : Instance) (state : ReAssignment) (moved : List Nat)
    (val : Nat → Nat) (i : Nat) : Int :=
  if (inst.process (movedAt moved i)).original_machine = state.assignment (movedAt moved i) then
    if (inst.process (movedAt moved i)).original_machine ≠ val i then
      ((inst.process (movedAt moved i)).move_cost : Int) else 0
  else
    if (inst.process (movedAt moved i)).original_machine = val i then
      - ((inst.process (movedAt moved i)).move_cost : Int) else 0

/-- Change of `machine_moves` that `getResultState` books for slot `i`. -/
def machineMoveChange (inst : Instance) (state : ReAssignment) (moved : List Nat)
    (val : Nat → Nat) (i : Nat) : Int :=
  ((inst.machine (inst.process (movedAt moved i)).original_machine).move_cost (val i) : Int)
    - ((inst.machine (inst.process (movedAt moved i)).original_machine).move_cost
        (state.assignment (movedAt moved i)) : Int)

/-- Two machines, one transient resource, one process of requirement 10 on
machine 0; the machine move cost from machine 0 to itself is `diag` and the
weight of machine moves is `wmm`. -/
def exInstance (wmm : Int) (diag : Nat) : Instance :=
  { resource := fun _ => { is_transient := true, weight_load_cost := 1, total_load := 10 }
    machine := fun x =>
      { neighborhood := 0, location := x, capacity := fun _ => 100,
        initial_usage := fun _ => 0,
        safety_capacity := fun _ => if x = 0 then 0 else 100,
        move_cost := fun y => if x = 0 ∧ y = 0 then diag else 0,
        max_move_cost := diag }
    neighborhood := fun _ => [0, 1]
    num_neighborhoods := 1
    location := fun l => [l]
    num_locations := 2
    service := fun _ =>
      { min_spread := 1, cur_spread := 1, depends_on := [], required_by := [], process := [0] }
    num_services := 1
    process := fun _ =>
      { service := 0, requirement := fun _ => 10, move_cost := 1, original_machine := 0,
        fixed := false }
    balance := fun _ =>
      { resource1 := 0, resource2 := 0, balance := 1, weight_balance_cost := 0,
        min_balance_units := 0 }
    num_balances := 0
    assignment := fun _ => 0
    processes_by_size := [0]
    movable_processes_by_size := [0]
    machines_by_size := [0, 1]
    num_processes := 1
    num_movable_processes := 1
    num_machines := 2
    num_resources := 1
    transient_count := 1
    weight_process_move_cost := 1
    weight_service_move_cost := 0
    weight_machine_move_cost := wmm }

/-- Baseline of `exInstance`: the process on machine 0, as `setAssignment` leaves it. -/
def exState : ReAssignment :=
  { assignment := fun _ => 0
    excess := fun x _ => if x = 0 then 10 else -100
    transient := fun x _ => if x = 0 then 10 else 0
    balance := fun _ _ => 0
    load_cost := 10
    balance_cost := 0
    process_moves := 0
    machine_moves := 0 }

/-- Final space of `exInstance` when the single slot takes machine `v`. -/
def exFinal (wmm : Int) (diag : Nat) (v : Nat) : RescheduleSpace :=
  (runPropagators (exInstance wmm diag) exState [0] (fun _ => v) [0]
    (RescheduleSpace.construct (exInstance wmm diag) exState [0])).getD emptySpace

/-- Process loop of `setAssignment` over the processes below `n`. -/
def processLoop (inst : Instance) (assignment : Nat → Nat) (n : Nat) :
    (Nat → Process) × ReAssignment :=
  (List.range n).foldl (setAssignmentProcessStep inst assignment)
    (inst.process,
      { assignment := assignment, excess := fun _ _ => 0, transient := fun _ _ => 0,
        balance := fun _ _ => 0, load_cost := 0, balance_cost := 0, process_moves := 0,
        machine_moves := 0 })

/-- Machine loop of `setAssignment` over the machines below `n`. -/
def machineLoop (inst : Instance) (st0 : ReAssignment) (n : Nat) :
    ReAssignment × (Nat → Int) × (Nat → Int) :=
  (List.range n).foldl (setAssignmentMachineStep inst) (st0, fun _ => 0, fun _ => 0)

/-- Excess vector of machine `x` after the machine loop subtracted the safety
capacity from the load `raw`. -/
def excessOf (inst : Instance) (raw : Nat → MachineLoad) (x : Nat) : MachineLoad :=
  fun r => if r < inst.num_resources then raw x r - (inst.machine x).safety_capacity r
    else raw x r

/-- Two machines, two resources (the first transient), one balance triple
`(0, 1, 2, 1)` and two processes of two services, both with original machine 0. -/
def exInstance2 : Instance :=
  { resource := fun r => { is_transient := decide (r = 0), weight_load_cost := 1, total_load := 0 }
    machine := fun x =>
      { neighborhood := 0, location := x, capacity := fun _ => 10,
        initial_usage := fun _ => 0, safety_capacity := fun _ => 4,
        move_cost := fun _ => 0, max_move_cost := 0 }
    neighborhood := fun _ => [0, 1]
    num_neighborhoods := 1
    location := fun l => [l]
    num_locations := 2
    service := fun s =>
      { min_spread := 1, cur_spread := 1, depends_on := [], required_by := [], process := [s] }
    num_services := 2
    process := fun p =>
      { service := p, requirement := fun r => if p = 0 then (if r = 0 then 6 else 2)
          else (if r = 0 then 1 else 3),
        move_cost := 1, original_machine := 0, fixed := false }
    balance := fun _ =>
      { resource1 := 0, resource2 := 1, balance := 2, weight_balance_cost := 1,
        min_balance_units := 0 }
    num_balances := 1
    assignment := fun _ => 0
    processes_by_size := [1, 0]
    movable_processes_by_size := [1, 0]
    machines_by_size := [0, 1]
    num_processes := 2
    num_movable_processes := 2
    num_machines := 2
    num_resources := 2
    transient_count := 1
    weight_process_move_cost := 1
    weight_service_move_cost := 0
    weight_machine_move_cost := 1 }

/-- Baseline of `exInstance2`: both processes on machine 0, with the caches
`setAssignment` computes. -/
def exState2 : ReAssignment :=
  { assignment := fun _ => 0
    excess := fun x r => if x = 0 then (if r = 0 then 3 else 1) else -4
    transient := fun x _ => if x = 0 then 7 else 0
    balance := fun x _ => if x = 0 then 1 else 10
    load_cost := 4
    balance_cost := 11
    process_moves := 0
    machine_moves := 0 }

/-- Final space of `exInstance2` when process 0 is the only moved process and
takes machine 1. -/
def exFinal2 : RescheduleSpace :=
  (runPropagators exInstance2 exState2 [0] (fun _ => 1) [0]
    (RescheduleSpace.construct exInstance2 exState2 [0])).getD emptySpace

/-- Number of distinct locations occupied under `a` by the members of service `s`. -/
def spreadOf (inst : Instance) (a : Nat → Nat) (s : Nat) : Nat :=
  (((inst.service s).process.map (fun q => (inst.machine (a q)).location)).dedup).length

/-- Neighborhood of the machine of process `q` under `a`. -/
def nhOf (inst : Instance) (a : Nat → Nat) (q : Nat) : Nat :=
  (inst.machine (a q)).neighborhood

/-- Dependency constraint under `a`: for every service `s` and every service `d`
it depends on, each neighborhood occupied by a member of `s` is occupied by a
member of `d`. -/
def DependencyOk (inst : Instance) (a : Nat → Nat) : Prop :=
  ∀ s, s < inst.num_services → ∀ d, d ∈ (inst.service s).depends_on →
    ∀ q, q ∈ (inst.service s).process →
      ∃ q1, q1 ∈ (inst.service d).process ∧ nhOf inst a q1 = nhOf inst a q

instance (inst : Instance) (a : Nat → Nat) : Decidable (DependencyOk inst a) := by
  unfold DependencyOk
  infer_instance

/-- Three machines (machines 0 and 1 in neighborhood 0, machine 2 in
neighborhood 1, each in a location of its own), one transient resource, and
three processes: processes 0 and 1 form service 0 (`min_spread = 2`), process 2
forms service 1, which depends on service 0. -/
def exInstance3 : Instance :=
  { resource := fun _ => { is_transient := true, weight_load_cost := 1, total_load := 11 }
    machine := fun x =>
      { neighborhood := if x = 2 then 1 else 0, location := x, capacity := fun _ => 20,
        initial_usage := fun _ => 0,
        safety_capacity := fun _ => if x = 1 then 6 else 5,
        move_cost := fun _ => 0, max_move_cost := 0 }
    neighborhood := fun n => if n = 0 then [0, 1] else [2]
    num_neighborhoods := 2
    location := fun l => [l]
    num_locations := 3
    service := fun s =>
      if s = 0 then
        { min_spread := 2, cur_spread := 2, depends_on := [], required_by := [1],
          process := [0, 1] }
      else
        { min_spread := 1, cur_spread := 1, depends_on := [0], required_by := [],
          process := [2] }
    num_services := 2
    process := fun p =>
      { service := if p = 2 then 1 else 0, requirement := fun _ => if p = 1 then 1 else 5,
        move_cost := 1, original_machine := if p = 1 then 1 else 0, fixed := false }
    balance := fun _ =>
      { resource1 := 0, resource2 := 0, balance := 1, weight_balance_cost := 0,
        min_balance_units := 0 }
    num_balances := 0
    assignment := fun p => if p = 1 then 1 else 0
    processes_by_size := [1, 0, 2]
    movable_processes_by_size := [1, 0, 2]
    machines_by_size := [0, 2, 1]
    num_processes := 3
    num_movable_processes := 3
    num_machines := 3
    num_resources := 1
    transient_count := 1
    weight_process_move_cost := 1
    weight_service_move_cost := 0
    weight_machine_move_cost := 1 }

/-- Baseline of `exInstance3`: processes 0 and 2 on machine 0, process 1 on
machine 1, with the caches `setAssignment` computes. -/
def exState3 : ReAssignment :=
  { assignment := fun p => if p = 1 then 1 else 0
    excess := fun x _ => if x = 0 then 5 else -5
    transient := fun x _ => if x = 0 then 10 else if x = 1 then 1 else 0
    balance := fun _ _ => 0
    load_cost := 5
    balance_cost := 0
    process_moves := 0
    machine_moves := 0 }

/-- Final space of `exInstance3` when the single moved process `p` takes
machine `v`. -/
def exFinal3 (p v : Nat) : RescheduleSpace :=
  (runPropagators exInstance3 exState3 [p] (fun _ => v) [0]
    (RescheduleSpace.construct exInstance3 exState3 [p])).getD emptySpace

/-! ## The search driver (`main.cpp`) -/

/-- Data the worker threads share under the mutex: `global_best` and
`write_counter`. -/
structure Shared where
  global_best : ReAssignment
  write_counter : Nat

/-- First critical section of `threadwork` ("check whether better solution
exists"): the new value of the worker's `data.best`. -/
def adoptGlobalBest (inst : Instance) (best : ReAssignment) (sh : Shared) : ReAssignment :=
  if best.getCost inst > sh.global_best.getCost inst then sh.global_best else best

/-- Second critical section of `threadwork` ("synchronisation"), entered with a
search result `new_best` that is not null; writing the solution file does not
change the shared data. -/
def synchronise (inst : Instance) (new_best : ReAssignment) (sh : Shared) : Shared :=
  if new_best.getCost inst < sh.global_best.getCost inst then
    if sh.write_counter + 1 > 4 then { global_best := new_best, write_counter := 0 }
    else { global_best := new_best, write_counter := sh.write_counter + 1 }
  else sh

/-- Critical sections of the worker threads; the mutex makes each of them atomic,
so a run of the two workers is a sequence of them. `sync` carries the result the
worker's search returned. -/
inductive WorkerStep where
  | adopt (worker : Nat)
  | sync (worker : Nat) (new_best : ReAssignment)

/-- State of the driver: the shared data and the `data.best` of every worker. -/
structure Driver where
  shared : Shared
  best : Nat → ReAssignment

/-- Effect of one critical section (followed, for `sync`, by `data.best =
new_best`) on the driver state. -/
def Driver.step (inst : Instance) (d : Driver) : WorkerStep → Driver
  | WorkerStep.adopt w =>
    { d with best := Function.update d.best w (adoptGlobalBest inst (d.best w) d.shared) }
  | WorkerStep.sync w new_best =>
    { shared := synchronise inst new_best d.shared,
      best := Function.update d.best w new_best }

/-- Values of `global_best` before the first and after each of the critical
sections of a run. -/
def globalBestTrace (inst : Instance) : Driver → List WorkerStep → List ReAssignment
  | d, [] => [d.shared.global_best]
  | d, s :: rest => d.shared.global_best :: globalBestTrace inst (d.step inst s) rest

/-- Value `mant * 2 ^ exp` of the type `float`: IEEE 754 binary32 with at most 24
significant bits; the exponent range is left unbounded (no overflow to infinity,
no subnormal numbers). -/
structure Binary32 where
  mant : Int
  exp : Int

/-- Quotient `a / b` of two naturals rounded to the nearest integer, ties to the
even one. -/
def roundHalfEven (a b : Nat) : Nat :=
  if 2 * (a % b) < b then a / b
  else if b < 2 * (a % b) then a / b + 1
  else if (a / b) % 2 = 0 then a / b else a / b + 1

/-- Number of binary digits of `n`, computed with `fuel` halvings at most. -/
def bitLength : Nat → Nat → Nat
  | 0, _ => 0
  | fuel + 1, n => if n = 0 then 0 else bitLength fuel (n / 2) + 1

/-- Rounding of the exact value `mant * 2 ^ exp` to 24 significant bits, to
nearest, ties to even (the default rounding of binary32 operations). -/
def Binary32.round (mant exp : Int) : Binary32 :=
  if mant.natAbs < 2 ^ 24 then { mant := mant, exp := exp }
  else
    { mant := Int.sign mant
        * (roundHalfEven mant.natAbs (2 ^ (bitLength mant.natAbs mant.natAbs - 24)) : Int),
      exp := exp + ((bitLength mant.natAbs mant.natAbs - 24 : Nat) : Int) }

/-- Conversion of an `int` to `float`. -/
def Binary32.ofInt (n : Int) : Binary32 := Binary32.round n 0

/-- Product of two `float` values. -/
def Binary32.mul (a b : Binary32) : Binary32 :=
  Binary32.round (a.mant * b.mant) (a.exp + b.exp)

/-- Comparison `a < b` of two `float` values. -/
def Binary32.lt (a b : Binary32) : Bool :=
  decide (a.mant * 2 ^ (a.exp - min a.exp b.exp).toNat
    < b.mant * 2 ^ (b.exp - min a.exp b.exp).toNat)

/-- Exact value of a `float` as a rational number. -/
def Binary32.toRat (a : Binary32) : ℚ :=
  if 0 ≤ a.exp then (a.mant : ℚ) * 2 ^ a.exp.toNat else (a.mant : ℚ) / 2 ^ (-a.exp).toNat

/-- Constant `0.8f`, the binary32 value nearest to 0.8 that `threadwork` passes
to `fixTransient` for at most 3000 processes: `13421773 / 2 ^ 24`. -/
def safety08 : Binary32 := { mant := 13421773, exp := -24 }


/-! ## Process fixing (`ProcessFixing.cpp`) -/

/-- Function `ProcessFixing::reset`. -/
def ProcessFixing.reset (inst : Instance) : Instance :=
  { inst with
    process := (List.range inst.num_processes).foldl
      (fun process p => Function.update process p { process p with fixed := false })
      inst.process
    movable_processes_by_size := inst.processes_by_size
    num_movable_processes := inst.num_processes }

/-- Function `ProcessFixing::updateMovableProcesses`; the accumulator holds the
first `count` entries of the new `movable_processes_by_size`. -/
def ProcessFixing.updateMovableProcesses (inst : Instance) : Instance :=
  let movable := (List.range inst.num_processes).foldl
    (fun (acc : List Nat) i =>
      if (inst.process (inst.processes_by_size.getD i 0)).fixed then acc
      else acc ++ [inst.processes_by_size.getD i 0])
    []
  { inst with movable_processes_by_size := movable, num_movable_processes := movable.length }

/-- Function `Instance::hasTransientResources`. -/
def Instance.hasTransientResources (inst : Instance) : Bool :=
  (List.range inst.num_resources).any (fun r => (inst.resource r).is_transient)

/-- Body of the greedy loop of `fixTransient` for the process `p`; the
accumulator holds the process table and `fixed_usage`. The test `fixed_usage[m][r]
+ requirement[r] > safety * safety_capacity[r]` is evaluated in `float`. -/
def fixTransientStep (safety : Binary32) (inst : Instance)
    (acc : (Nat → Process) × (Nat → MachineLoad)) (p : Nat) :
    (Nat → Process) × (Nat → MachineLoad) :=
  let m := (acc.1 p).original_machine
  let has_space := (List.range inst.num_resources).all (fun r =>
    !(Binary32.lt (Binary32.mul safety (Binary32.ofInt ((inst.machine m).safety_capacity r)))
      (Binary32.ofInt (acc.2 m r + (acc.1 p).requirement r))))
  if has_space then
    (Function.update acc.1 p { acc.1 p with fixed := true },
      Function.update acc.2 m (fun r =>
        if r < inst.num_resources then acc.2 m r + (acc.1 p).requirement r else acc.2 m r))
  else acc

/-- Function `ProcessFixing::fixTransient`. The list `trans_usage` is the `index`
column of the sorted vector `trans_usage`: the process ids in the order the
ranking (computed in `double` and sorted by `std::sort`) gives them. -/
def ProcessFixing.fixTransient (safety : Binary32) (trans_usage : List Nat) (inst : Instance) :
    Instance :=
  let inst1 := ProcessFixing.reset inst
  if !inst1.hasTransientResources then inst1
  else
    let acc := trans_usage.foldl (fixTransientStep safety inst1)
      (inst1.process, fun _ _ => 0)
    ProcessFixing.updateMovableProcesses { inst1 with process := acc.1 }

/-- Summed requirement for resource `r` of the fixed processes whose original
machine is `m`. -/
def fixedLoad (inst : Instance) (m r : Nat) : Int :=
  ∑ p in range inst.num_processes,
    if (inst.process p).fixed = true ∧ (inst.process p).original_machine = m
    then (inst.process p).requirement r else 0

/-- One machine of safety capacity 6000001 for its single transient resource and
one process of requirement 4800001 originally on it. -/
def exInstanceFix : Instance :=
  { exInstance 1 0 with
    machine := fun _ =>
      { neighborhood := 0, location := 0, capacity := fun _ => 10000000,
        initial_usage := fun _ => 0, safety_capacity := fun _ => 6000001,
        move_cost := fun _ => 0, max_move_cost := 0 }
    process := fun _ =>
      { service := 0, requirement := fun _ => 4800001, move_cost := 1, original_machine := 0,
        fixed := false }
    neighborhood := fun _ => [0]
    location := fun _ => [0]
    num_locations := 1
    machines_by_size := [0]
    num_machines := 1 }

/-! ## Instance set-up (`Instance.cpp`) -/

/-- Function `Instance::initializeServiceDependencies` on a service table with
`num_services` entries. -/
def initializeServiceDependencies (num_services : Nat) (service : Nat → Service) :
    Nat → Service :=
  (List.range num_services).foldl
    (fun sv s =>
      (List.range (sv s).depends_on.length).foldl
        (fun sv1 d =>
          Function.update sv1 ((sv1 s).depends_on.getD d 0)
            { sv1 ((sv1 s).depends_on.getD d 0) with
              required_by := (sv1 ((sv1 s).depends_on.getD d 0)).required_by ++ [s] })
        sv)
    service

/-- Vector `resource_map` of `reorderResources`: the indices of the transient
resources followed by the indices of the others, each group in increasing
order. -/
def resourceMap (inst : Instance) : List Nat :=
  (List.range inst.num_resources).filter (fun i => (inst.resource i).is_transient)
    ++ (List.range inst.num_resources).filter (fun i => !(inst.resource i).is_transient)

/-- Function `Instance::reorderResources`, called when `num_resources`,
`num_machines` and `num_processes` are the sizes of the tables. -/
def reorderResources (inst : Instance) : Instance :=
  let transient_count :=
    ((List.range inst.num_resources).filter (fun i => (inst.resource i).is_transient)).length
  if transient_count = 0 then { inst with transient_count := transient_count }
  else
    { inst with
      transient_count := transient_count
      resource := fun r =>
        if r < inst.num_resources then inst.resource ((resourceMap inst).getD r 0)
        else inst.resource r
      machine := fun m =>
        if m < inst.num_machines then
          { inst.machine m with
            capacity := fun r =>
              if r < inst.num_resources then
                (inst.machine m).capacity ((resourceMap inst).getD r 0)
              else (inst.machine m).capacity r
            safety_capacity := fun r =>
              if r < inst.num_resources then
                (inst.machine m).safety_capacity ((resourceMap inst).getD r 0)
              else (inst.machine m).safety_capacity r }
        else inst.machine m
      process := fun p =>
        if p < inst.num_processes then
          { inst.process p with
            requirement := fun r =>
              if r < inst.num_resources then
                (inst.process p).requirement ((resourceMap inst).getD r 0)
              else (inst.process p).requirement r }
        else inst.process p
      balance := fun b =>
        if b < inst.num_balances then
          { inst.balance b with
            resource1 := (resourceMap inst).indexOf (inst.balance b).resource1
            resource2 := (resourceMap inst).indexOf (inst.balance b).resource2 }
        else inst.balance b }

/-- Variant of `exInstance2` whose second resource is the transient one. -/
def exInstanceOrder : Instance :=
  { exInstance2 with
    resource := fun r =>
      { is_transient := decide (r = 1), weight_load_cost := 1, total_load := 0 } }

/-! ## Neighborhood constructors (`IterativeSearch.cpp` and the four searches)

The calls of `rand()`, `std::random_shuffle` and `std::sort` are represented by
their results: a list of the numbers `rand()` returns, a function `shuffle`
giving the shuffled vector, and the sorted vector itself. -/

/-- Record `ProcessCost`. -/
structure ProcessCost where
  index : Nat
  cost : Int

/-- Load cost the process `p` causes on its machine: the sum over the resources
of `(max(0, excess) - max(0, excess - requirement[r])) * weight_load_cost`. -/
def loadCostOf (inst : Instance) (state : ReAssignment) (p : Nat) : Int :=
  ∑ r in range inst.num_resources,
    (max 0 (state.excess (state.assignment p) r)
      - max 0 (state.excess (state.assignment p) r - (inst.process p).requirement r))
      * (inst.resource r).weight_load_cost

/-- Function `IterativeSearch::process_cost`: the vector `cost` after
`cost.resize(c)`. -/
def IterativeSearch.process_cost (inst : Instance) (state : ReAssignment) : List ProcessCost :=
  (List.range inst.num_processes).foldl
    (fun (cost : List ProcessCost) p =>
      if (inst.process p).fixed then cost
      else
        cost ++ [{ index := p,
                   cost := loadCostOf inst state p
                    + (if state.assignment p ≠ (inst.process p).original_machine then
                        ((inst.process p).move_cost : Int) * inst.weight_process_move_cost
                          + ((inst.machine (inst.process p).original_machine).move_cost
                              (state.assignment p) : Int) * inst.weight_machine_move_cost
                      else 0) }])
    []

/-- Vector `cost` of `TargetMoveSearch::runOnce` after `cost.resize(t)`, before it
is sorted. -/
def TargetMoveSearch.cost (inst : Instance) (state : ReAssignment) : List ProcessCost :=
  (List.range inst.num_processes).foldl
    (fun (cost : List ProcessCost) p =>
      if (inst.process p).fixed then cost
      else cost ++ [{ index := p, cost := loadCostOf inst state p }])
    []

/-- Neighborhood list `n` that `TargetMoveSearch::runOnce` builds for the process
`p` and the target machine `m`; `cost` is the sorted vector `cost`. -/
def TargetMoveSearch.neighborhood (inst : Instance) (state : ReAssignment)
    (cost : List ProcessCost) (p m : Nat) (shuffle : List Nat → List Nat) : List Nat :=
  (shuffle ((cost.map (fun c => c.index)).filter
      (fun q => !(inst.process q).fixed && state.assignment q == m))).take
    (min (shuffle ((cost.map (fun c => c.index)).filter
      (fun q => !(inst.process q).fixed && state.assignment q == m))).length 7)
    ++ [p]

/-- Loop `do ... while (!ok)` of `ProcessNeighborhoodSearch::runOnce`: the first
random movable process that is not in `n`, and the unused random numbers. -/
def drawMovable (inst : Instance) (n : List Nat) : List Nat → Option (Nat × List Nat)
  | [] => none
  | x :: rand =>
    if inst.movable_processes_by_size.getD (x % inst.num_movable_processes) 0 ∈ n then
      drawMovable inst n rand
    else some (inst.movable_processes_by_size.getD (x % inst.num_movable_processes) 0, rand)

/-- Loop of `ProcessNeighborhoodSearch::runOnce` that adds `size_rand` random
processes to `n`. -/
def addRandom (inst : Instance) : Nat → List Nat → List Nat → Option (List Nat)
  | 0, n, _ => some n
  | k + 1, n, rand =>
    match drawMovable inst n rand with
    | none => none
    | some (rp, rest) => addRandom inst k (n ++ [rp]) rest

/-- Neighborhood list `n` that `ProcessNeighborhoodSearch::runOnce` builds for the
offset `start`; `sorted` is the sorted vector `pcost`, of which the entries of
positive cost at the front are kept; `none` when the random numbers run out. -/
def ProcessNeighborhoodSearch.neighborhood (inst : Instance) (sorted : List ProcessCost)
    (start : Nat) (rand : List Nat) : Option (List Nat) :=
  addRandom inst
    (7 - ((((sorted.takeWhile (fun c => decide (0 < c.cost))).drop start).take 4).map
      (fun c => c.index)).length)
    ((((sorted.takeWhile (fun c => decide (0 < c.cost))).drop start).take 4).map
      (fun c => c.index))
    rand

/-- Loop `while (pi == -1 || is_selected[pi])` of `RandomSearch::runOnceWeighted`;
`picks` lists the indices `it->second` that the successive look-ups in `cum_map`
find. -/
def drawWeighted (selected : List Nat) : List Nat → Option (Nat × List Nat)
  | [] => none
  | i :: picks => if i ∈ selected then drawWeighted selected picks else some (i, picks)

/-- Loop of `RandomSearch::runOnceWeighted` that fills the `count` entries of
`n`. -/
def selectWeighted (pcost : List ProcessCost) :
    Nat → List Nat → List Nat → List Nat → Option (List Nat)
  | 0, _, n, _ => some n
  | k + 1, selected, n, picks =>
    match drawWeighted selected picks with
    | none => none
    | some (i, rest) =>
      selectWeighted pcost k (i :: selected)
        (n ++ [(pcost.getD i { index := 0, cost := 0 }).index]) rest

/-- Neighborhood list `n` that `RandomSearch::runOnceWeighted` builds from the
vector `pcost` of `process_cost`; `none` when the look-ups run out. -/
def RandomSearch.neighborhood (neighborhood : Nat) (pcost : List ProcessCost)
    (picks : List Nat) : Option (List Nat) :=
  selectWeighted pcost (min neighborhood pcost.length) [] [] picks

/-- Loop of `UndoMoveSearch::runOnce` that looks, from `p` on and cyclically, for a
process that is not on its original machine; `none` is `return 0`. -/
def findDisplaced (inst : Instance) (state : ReAssignment) (p_start : Nat) :
    Nat → Nat → Option Nat
  | 0, _ => none
  | fuel + 1, p =>
    if state.assignment p = (inst.process p).original_machine then
      if (p + 1) % inst.num_processes = p_start then none
      else findDisplaced inst state p_start fuel ((p + 1) % inst.num_processes)
    else some p

/-- Neighborhood list `n` that `UndoMoveSearch::runOnce` builds when the scan
starts at `p_start = rand() % num_processes`. -/
def UndoMoveSearch.neighborhood (inst : Instance) (state : ReAssignment) (p_start : Nat)
    (shuffle : List Nat → List Nat) : Option (List Nat) :=
  match findDisplaced inst state p_start inst.num_processes p_start with
  | none => none
  | some p =>
    some (p ::
      (if (shuffle ((List.range inst.num_processes).filter (fun i =>
            state.assignment i == (inst.process p).original_machine
              && (inst.process i).original_machine != (inst.process p).original_machine))).length
          > 5 then
        (shuffle ((List.range inst.num_processes).filter (fun i =>
            state.assignment i == (inst.process p).original_machine
              && (inst.process i).original_machine != (inst.process p).original_machine))).take 5
      else
        shuffle ((List.range inst.num_processes).filter (fun i =>
            state.assignment i == (inst.process p).original_machine
              && (inst.process i).original_machine != (inst.process p).original_machine))))

/-- Variant of `exInstance` whose process is fixed. -/
def exInstanceFixed : Instance :=
  { exInstance 1 0 with
    process := fun _ =>
      { service := 0, requirement := fun _ => 10, move_cost := 1, original_machine := 0,
        fixed := true }
    movable_processes_by_size := []
    num_movable_processes := 0 }

/-- State of `exInstanceFixed` in which the process is on machine 1, away from
its original machine 0. -/
def exStateDisplaced : ReAssignment :=
  { assignment := fun _ => 1
    excess := fun x _ => if x = 0 then 0 else -90
    transient := fun _ _ => 10
    balance := fun _ _ => 0
    load_cost := 0
    balance_cost := 0
    process_moves := 1
    machine_moves := 0 }

/-- Seven copies of the process of `exInstance`, all movable. -/
def exInstanceSeven : Instance :=
  { exInstance 1 0 with
    processes_by_size := [0, 1, 2, 3, 4, 5, 6]
    movable_processes_by_size := [0, 1, 2, 3, 4, 5, 6]
    num_processes := 7
    num_movable_processes := 7 }

/-- Largest value `Gecode::Int::Limits::max` of an integer variable of the CP
library (`INT_MAX - 1`); the cost functions return it for "no finite cost". -/
def Limits.max : Int := 2147483646

/-- Smallest value `Gecode::Int::Limits::min` of an integer variable (`-max`). -/
def Limits.min : Int := -2147483646

/-- Domains of the decision variables of a space: the values of `process[i]` in
increasing order (the order in which `ViewValues` visits them) and the bounds
`min()`, `max()` of `process_move_cost[i]`. -/
structure VarStore where
  process : Nat → List Nat
  cost_min : Nat → Int
  cost_max : Nat → Int

/-- Test `IntView::assigned`: the domain holds exactly one value. -/
def IntView.assigned : List Nat → Bool
  | [_] => true
  | _ => false

/-- Test `IntView::in`. -/
def IntView.contains (dom : List Nat) (n : Nat) : Bool := decide (n ∈ dom)

/-- Update `IntView::nq`: the value is removed; `none` is the failure reported
when no value is left. -/
def IntView.nq (dom : List Nat) (n : Nat) : Option (List Nat) :=
  if dom.filter (fun v => v != n) = [] then none else some (dom.filter (fun v => v != n))

/-- Update `IntView::eq`: the domain becomes the single value; `none` is the
failure reported when the value is not in the domain. -/
def IntView.eq (dom : List Nat) (n : Nat) : Option (List Nat) :=
  if n ∈ dom then some [n] else none

/-- Update `IntView::gq` on the bounds `(min, max)` of a variable. -/
def IntView.gq (b : Int × Int) (n : Int) : Option (Int × Int) :=
  if n > b.2 then none else some (max b.1 n, b.2)

/-- Update `IntView::lq` on the bounds `(min, max)` of a variable. -/
def IntView.lq (b : Int × Int) (n : Int) : Option (Int × Int) :=
  if n < b.1 then none else some (b.1, min b.2 n)

/-- Record `BoundMachine`: a machine and the cost bound it attains. -/
structure BoundMachine where
  machine : Nat
  cost : Int

/-- Record `CostBound` of a slot. -/
structure CostBound where
  min : BoundMachine
  max : BoundMachine

/-- Default constructor `CostBound()`. -/
def CostBound.init : CostBound :=
  { min := { machine := 0, cost := Limits.max }, max := { machine := 0, cost := Limits.min } }

/-- Cost cache `ProcessCostMap`: per slot the map from machine to the stored
pair `(min, max)` and the bound record. -/
structure ProcessCostMap where
  cost_map : Nat → Nat → Option (Int × Int)
  cost_bound : Nat → CostBound

/-- Constructor of `ProcessCostMap`: empty maps and default bounds. -/
def ProcessCostMap.init : ProcessCostMap :=
  { cost_map := fun _ _ => none, cost_bound := fun _ => CostBound.init }

/-- Function `ProcessCostMap::setCost`. -/
def ProcessCostMap.setCost (c : ProcessCostMap) (process machine : Nat) (value : Int × Int) :
    ProcessCostMap :=
  let map1 := Function.update c.cost_map process
    (Function.update (c.cost_map process) machine (some value))
  let bound0 := c.cost_bound process
  let bound1 : CostBound :=
    if value.1 < bound0.min.cost then { bound0 with min := { machine := machine, cost := value.1 } }
    else bound0
  let bound2 : CostBound :=
    if value.2 > bound1.max.cost then { bound1 with max := { machine := machine, cost := value.2 } }
    else bound1
  { cost_map := map1, cost_bound := Function.update c.cost_bound process bound2 }

/-- Function `ProcessCostMap::getCost`: `operator[]` of the map delivers the
value-initialised pair `(0, 0)` for a machine without an entry. -/
def ProcessCostMap.getCost (c : ProcessCostMap) (process machine : Nat) : Int × Int :=
  (c.cost_map process machine).getD (0, 0)

/-- Function `ProcessCostMap::bound`. -/
def ProcessCostMap.bound (c : ProcessCostMap) (process : Nat) : CostBound :=
  c.cost_bound process

/-- Function `ProcessCostMap::setBound`. -/
def ProcessCostMap.setBound (c : ProcessCostMap) (process : Nat) (bound : CostBound) :
    ProcessCostMap :=
  { c with cost_bound := Function.update c.cost_bound process bound }

/-! ## Conversions between the integer types -/

/-- Conversion of an integer to `int`: the value modulo `2 ^ 32` in the range
of a 32-bit two's complement number. -/
def toInt32 (x : Int) : Int := (x + 2147483648) % 4294967296 - 2147483648

/-- Conversion of an integer to `unsigned int`. -/
def toUInt32 (x : Int) : Int := x % 4294967296

/-- Saturation of an integer to the range of `int`. -/
def clamp32 (x : Int) : Int := max (-2147483648) (min x 2147483647)

/-! ## The load step of the assignment propagator with its pruning loop -/

/-- Body of the resource loop that computes `ok` for process `p` in the second
loop of `ProcessPropagator::propagateLoad`; the loop stops once `ok` is false. -/
def pruneOkStep (inst : Instance) (machine_id : Nat) (patch : MachinePatch) (p : Nat)
    (ok : Bool) (r : Nat) : Bool :=
  if !ok then ok
  else
    let machine := inst.machine machine_id
    let ok1 : Bool :=
      if patch.excess r + (inst.process p).requirement r
          > machine.capacity r - machine.safety_capacity r then false else ok
    if r < inst.transient_count ∧ (inst.process p).original_machine ≠ machine_id then
      if patch.transient r + (inst.process p).requirement r > machine.capacity r then false
      else ok1
    else ok1

/-- Body of the slot loop of the second part of `ProcessPropagator::propagateLoad`
for slot `i`; `none` is the failure of `nq` passed on by `GECODE_ME_CHECK`. -/
def propagateLoadPruneStep (inst : Instance) (moved : List Nat) (machine_id : Nat)
    (patch : MachinePatch) (acc : Option VarStore) (i : Nat) : Option VarStore :=
  match acc with
  | none => none
  | some vars =>
    if IntView.assigned (vars.process i) then some vars
    else
      let p := movedAt moved i
      let ok := (List.range inst.num_resources).foldl (pruneOkStep inst machine_id patch p) true
      if !ok then
        match IntView.nq (vars.process i) machine_id with
        | none => none
        | some d => some { vars with process := Function.update vars.process i d }
      else some vars

/-- Second loop of `ProcessPropagator::propagateLoad` over the slots. -/
def propagateLoadPrune (inst : Instance) (moved : List Nat) (machine_id : Nat)
    (patch : MachinePatch) (vars : VarStore) : Option VarStore :=
  (List.range moved.length).foldl (propagateLoadPruneStep inst moved machine_id patch) (some vars)

/-- Function `ProcessPropagator::propagateLoad` with both of its loops: the
returned `int` (`-1` after a violation, `ES_FAILED = -1` after a failed
pruning, and otherwise `(int)(delta_load_cost)`, the `long long` sum converted
to `int`), the patch and the domains; after a failure the patch and the domains
are not used any more and are returned as they were passed. -/
def propagateLoadFull (inst : Instance) (moved : List Nat)
    (m_process machine_id : Nat) (patch : MachinePatch) (vars : VarStore) :
    Int × MachinePatch × VarStore :=
  match propagateLoad inst m_process machine_id patch with
  | none => (-1, patch, vars)
  | some (patch1, delta_load_cost) =>
    match propagateLoadPrune inst moved machine_id patch1 vars with
    | none => (-1, patch, vars)
    | some vars1 => (toInt32 delta_load_cost, patch1, vars1)

/-! ## 32-bit value of the assigned cost -/

/-- Value of the `int` variable `cost` of `ProcessPropagator::propagate` when it
is passed to `process_move_cost.eq`; `none` is `ES_FAILED` of the load step.
The two `long long` sums are exact and are converted to `int` on return; each
`int` and `unsigned int` operation delivers its exact result modulo `2 ^ 32`. -/
def ProcessPropagator.cost32 (inst : Instance) (state : ReAssignment)
    (m_process machine_id : Nat) (space : RescheduleSpace) : Option Int :=
  let patch := patchOrBase state space.delta machine_id
  match propagateLoad inst m_process machine_id patch with
  | none => none
  | some (patch1, delta_load_cost) =>
    let cost0 := toInt32 delta_load_cost
    if cost0 < 0 then none
    else
      let delta_balance_cost := (propagateBalance inst m_process space patch1).2.2.2
      let cost1 := toInt32 (cost0 + toInt32 delta_balance_cost)
      let process := inst.process m_process
      let cost2 :=
        if process.original_machine ≠ machine_id then
          toInt32 (toUInt32 cost1
            + toUInt32 ((process.move_cost : Int) * toUInt32 inst.weight_process_move_cost))
        else cost1
      let cost3 := toInt32 (toUInt32 cost2
        + toUInt32 (((inst.machine process.original_machine).move_cost machine_id : Int)
            * toUInt32 inst.weight_machine_move_cost))
      some cost3

/-- Function `ProcessPropagator::propagate` for slot `m_index` holding process
`m_process`, run when its variable has the value `machine_id`, with the `int`
variable `cost` as the program computes it: the load delta converted to `int`,
on which the failure test `cost < 0` is made, the balance delta converted to
`int` by the return of `propagateBalance`, and the move costs added in
`unsigned int`; `none` is `ES_FAILED`. The vectors of the patch and the
unassigned balances are those of `ProcessPropagator.propagate`. -/
def ProcessPropagator.propagate32 (inst : Instance) (state : ReAssignment)
    (m_index m_process machine_id : Nat) (space : RescheduleSpace) : Option RescheduleSpace :=
  let patch := patchOrBase state space.delta machine_id
  match propagateLoad inst m_process machine_id patch with
  | none => none
  | some (patch1, delta_load_cost) =>
    let cost0 := toInt32 delta_load_cost
    if cost0 < 0 then none
    else
      let res := propagateBalance inst m_process space patch1
      let cost1 := toInt32 (cost0 + toInt32 res.2.2.2)
      let process := inst.process m_process
      let cost2 :=
        if process.original_machine ≠ machine_id then
          toInt32 (toUInt32 cost1
            + toUInt32 ((process.move_cost : Int) * toUInt32 inst.weight_process_move_cost))
        else cost1
      let cost3 := toInt32 (toUInt32 cost2
        + toUInt32 (((inst.machine process.original_machine).move_cost machine_id : Int)
            * toUInt32 inst.weight_machine_move_cost))
      let space1 : RescheduleSpace :=
        { space with min_unassigned_balance := res.1, max_unassigned_balance := res.2.1 }
      let ok : Bool :=
        match space1.process_move_cost m_index with
        | some c => decide (c = cost3)
        | none => true
      if ok then
        some { space1 with
          process_move_cost := Function.update space1.process_move_cost m_index (some cost3),
          delta := Function.update space1.delta machine_id (some res.2.2.1) }
      else none

/-! ## The cost propagator (`CostPropagator.cpp`) -/

/-- Body of the loop of `CostPropagator::getExcessCost` in a run in which the
products and the sums lie in the range of `int`, so that `cost` is the exact
sum; `none` is the early `return Gecode::Int::Limits::max`. The body with the
`int` arithmetic is `getExcessCostStep32`. -/
def getExcessCostStep (inst : Instance) (p machine_id : Nat) (load transient : MachineLoad)
    (patch : Option MachinePatch) (acc : Option Int) (r : Nat) : Option Int :=
  match acc with
  | none => none
  | some cost =>
    let machine := inst.machine machine_id
    let process := inst.process p
    let excess : Int := match patch with
      | some q => q.excess r
      | none => load r
    let transientload : Int :=
      if r < inst.transient_count then
        (match patch with
          | some q => q.transient r
          | none => transient r)
      else 0
    let gap := machine.capacity r - machine.safety_capacity r - excess
    if gap < process.requirement r then none
    else if r < inst.transient_count
        ∧ transientload + (if process.original_machine = machine_id then 0
            else process.requirement r) > machine.capacity r then none
    else
      let old_cost := max 0 excess
      let new_cost := max 0 (excess + process.requirement r)
      some (cost + (new_cost - old_cost) * (inst.resource r).weight_load_cost)

/-- Function `CostPropagator::getExcessCost` for process `p` on `machine_id`,
with the exact sum (see `getExcessCostStep`); `CostPropagator.getExcessCost32`
is the function with the `int` arithmetic. -/
def CostPropagator.getExcessCost (inst : Instance) (p machine_id : Nat)
    (load transient : MachineLoad) (patch : Option MachinePatch) : Int :=
  match (List.range inst.num_resources).foldl
      (getExcessCostStep inst p machine_id load transient patch) (some 0) with
  | none => Limits.max
  | some cost => cost

/-- Body of the loop of `CostPropagator::getBalanceCost` in a run in which the
products and the sums lie in the range of `int`; the accumulator holds the exact
`min_cost` and `max_cost`. The body with the `int` and `unsigned int` arithmetic
is `getBalanceCostStep32`. -/
def getBalanceCostStep (inst : Instance) (space : RescheduleSpace) (p : Nat)
    (balance : MachineBalance) (patch : Option MachinePatch) (acc : Int × Int) (b : Nat) :
    Int × Int :=
  let machine_balance : Int := match patch with
    | some q => q.balance b
    | none => balance b
  let process_balance := processBalance inst p b
  let w : Int := ((inst.balance b).weight_balance_cost : Int)
  if process_balance < 0 then
    let old_min := max 0 (machine_balance + space.max_unassigned_balance b)
    let new_min := max 0 (machine_balance + space.max_unassigned_balance b + process_balance)
    let old_max := max 0 (machine_balance + space.min_unassigned_balance b - process_balance)
    let new_max := max 0 (machine_balance + space.min_unassigned_balance b)
    (acc.1 + (new_min - old_min) * w, acc.2 + (new_max - old_max) * w)
  else
    let old_min := max 0 (machine_balance + space.min_unassigned_balance b - process_balance)
    let new_min := max 0 (machine_balance + space.min_unassigned_balance b)
    let old_max := max 0 (machine_balance + space.max_unassigned_balance b)
    let new_max := max 0 (machine_balance + space.max_unassigned_balance b + process_balance)
    (acc.1 + (new_min - old_min) * w, acc.2 + (new_max - old_max) * w)

/-- Function `CostPropagator::getBalanceCost` with the exact sums (see
`getBalanceCostStep`). -/
def CostPropagator.getBalanceCost (inst : Instance) (space : RescheduleSpace) (p : Nat)
    (balance : MachineBalance) (patch : Option MachinePatch) : Int × Int :=
  (List.range inst.num_balances).foldl (getBalanceCostStep inst space p balance patch) (0, 0)

/-- Function `CostPropagator::getAdditionalCost` for process `p` on `machine_id`
in a run in which every product and sum lies in the range of `int`: the pair of
the exact sums. `CostPropagator.getAdditionalCost32` is the function with the
`int` and `unsigned int` arithmetic; it delivers this pair reduced modulo
`2 ^ 32` (`getAdditionalCost32_eq`). -/
def CostPropagator.getAdditionalCost (inst : Instance) (state : ReAssignment)
    (space : RescheduleSpace) (p machine_id : Nat) : Int × Int :=
  let patch := space.delta machine_id
  let process := inst.process p
  let cost := 0 + CostPropagator.getExcessCost inst p machine_id (state.excess machine_id)
    (state.transient machine_id) patch
  if cost = Limits.max then (cost, cost)
  else
    let cost1 :=
      if process.original_machine ≠ machine_id then
        cost + (process.move_cost : Int) * inst.weight_process_move_cost
      else cost
    let cost2 := cost1
      + ((inst.machine process.original_machine).move_cost machine_id : Int)
          * inst.weight_machine_move_cost
    let balance_cost :=
      CostPropagator.getBalanceCost inst space p (state.balance machine_id) patch
    (cost2 + balance_cost.1, cost2 + balance_cost.2)

/-- Body of the loop of `CostPropagator::getExcessCost` with the `int` variable
`cost` as the program computes it: the product and the sum are taken in `int`,
modulo `2 ^ 32`; `none` is the early `return Gecode::Int::Limits::max`. -/
def getExcessCostStep32 (inst : Instance) (p machine_id : Nat) (load transient : MachineLoad)
    (patch : Option MachinePatch) (acc : Option Int) (r : Nat) : Option Int :=
  match acc with
  | none => none
  | some cost =>
    let machine := inst.machine machine_id
    let process := inst.process p
    let excess : Int := match patch with
      | some q => q.excess r
      | none => load r
    let transientload : Int :=
      if r < inst.transient_count then
        (match patch with
          | some q => q.transient r
          | none => transient r)
      else 0
    let gap := machine.capacity r - machine.safety_capacity r - excess
    if gap < process.requirement r then none
    else if r < inst.transient_count
        ∧ transientload + (if process.original_machine = machine_id then 0
            else process.requirement r) > machine.capacity r then none
    else
      let old_cost := max 0 excess
      let new_cost := max 0 (excess + process.requirement r)
      some (toInt32 (cost + toInt32 ((new_cost - old_cost) * (inst.resource r).weight_load_cost)))

/-- Function `CostPropagator::getExcessCost` for process `p` on `machine_id` with
the 32-bit value of `cost`. -/
def CostPropagator.getExcessCost32 (inst : Instance) (p machine_id : Nat)
    (load transient : MachineLoad) (patch : Option MachinePatch) : Int :=
  match (List.range inst.num_resources).foldl
      (getExcessCostStep32 inst p machine_id load transient patch) (some 0) with
  | none => Limits.max
  | some cost => cost

/-- Body of the loop of `CostPropagator::getBalanceCost` with the `int` variables
`min_cost` and `max_cost` as the program computes them: each difference is
multiplied by the `unsigned int` weight and added in `unsigned int`, modulo
`2 ^ 32`, and the sum is converted back to `int`. -/
def getBalanceCostStep32 (inst : Instance) (space : RescheduleSpace) (p : Nat)
    (balance : MachineBalance) (patch : Option MachinePatch) (acc : Int × Int) (b : Nat) :
    Int × Int :=
  let machine_balance : Int := match patch with
    | some q => q.balance b
    | none => balance b
  let process_balance := processBalance inst p b
  let w : Int := ((inst.balance b).weight_balance_cost : Int)
  if process_balance < 0 then
    let old_min := max 0 (machine_balance + space.max_unassigned_balance b)
    let new_min := max 0 (machine_balance + space.max_unassigned_balance b + process_balance)
    let old_max := max 0 (machine_balance + space.min_unassigned_balance b - process_balance)
    let new_max := max 0 (machine_balance + space.min_unassigned_balance b)
    (toInt32 (toUInt32 acc.1 + toUInt32 (toUInt32 (new_min - old_min) * w)),
     toInt32 (toUInt32 acc.2 + toUInt32 (toUInt32 (new_max - old_max) * w)))
  else
    let old_min := max 0 (machine_balance + space.min_unassigned_balance b - process_balance)
    let new_min := max 0 (machine_balance + space.min_unassigned_balance b)
    let old_max := max 0 (machine_balance + space.max_unassigned_balance b)
    let new_max := max 0 (machine_balance + space.max_unassigned_balance b + process_balance)
    (toInt32 (toUInt32 acc.1 + toUInt32 (toUInt32 (new_min - old_min) * w)),
     toInt32 (toUInt32 acc.2 + toUInt32 (toUInt32 (new_max - old_max) * w)))

/-- Function `CostPropagator::getBalanceCost` with the 32-bit values of
`min_cost` and `max_cost`. -/
def CostPropagator.getBalanceCost32 (inst : Instance) (space : RescheduleSpace) (p : Nat)
    (balance : MachineBalance) (patch : Option MachinePatch) : Int × Int :=
  (List.range inst.num_balances).foldl (getBalanceCostStep32 inst space p balance patch) (0, 0)

/-- Function `CostPropagator::getAdditionalCost` for process `p` on `machine_id`
with the pair of `int` as the program computes it: the excess cost in `int`,
the move costs added in `unsigned int`, the balance costs added in `int`, each
operation modulo `2 ^ 32`. -/
def CostPropagator.getAdditionalCost32 (inst : Instance) (state : ReAssignment)
    (space : RescheduleSpace) (p machine_id : Nat) : Int × Int :=
  let patch := space.delta machine_id
  let process := inst.process p
  let cost := toInt32 (0 + CostPropagator.getExcessCost32 inst p machine_id
    (state.excess machine_id) (state.transient machine_id) patch)
  if cost = Limits.max then (cost, cost)
  else
    let cost1 :=
      if process.original_machine ≠ machine_id then
        toInt32 (toUInt32 cost
          + toUInt32 ((process.move_cost : Int) * toUInt32 inst.weight_process_move_cost))
      else cost
    let cost2 := toInt32 (toUInt32 cost1
      + toUInt32 (((inst.machine process.original_machine).move_cost machine_id : Int)
          * toUInt32 inst.weight_machine_move_cost))
    let balance_cost :=
      CostPropagator.getBalanceCost32 inst space p (state.balance machine_id) patch
    (toInt32 (cost2 + balance_cost.1), toInt32 (cost2 + balance_cost.2))

/-- Body of the loop of `CostPropagator::initCache` over the values `m` of the
slot's variable; `m_cost` holds `m_cost.min()` and `m_cost.max()`, the
accumulator the local `bound`, the blacklist and the cost cache. -/
def initCacheStep (inst : Instance) (state : ReAssignment) (space : RescheduleSpace)
    (m_index m_process_id : Nat) (m_cost : Int × Int)
    (acc : CostBound × List Nat × ProcessCostMap) (m : Nat) :
    CostBound × List Nat × ProcessCostMap :=
  let cost := CostPropagator.getAdditionalCost inst state space m_process_id m
  if cost.1 = Limits.max then (acc.1, acc.2.1 ++ [m], acc.2.2)
  else if cost.1 > m_cost.2 ∨ cost.2 < m_cost.1 then (acc.1, acc.2.1 ++ [m], acc.2.2)
  else
    let cache := acc.2.2.setCost m_index m cost
    let bound1 : CostBound :=
      if acc.1.min.cost > cost.1 then { acc.1 with min := { machine := m, cost := cost.1 } }
      else acc.1
    let bound2 : CostBound :=
      if bound1.max.cost < cost.2 then { bound1 with max := { machine := m, cost := cost.2 } }
      else bound1
    (bound2, acc.2.1, cache)

/-- Function `CostPropagator::initCache`: the returned pair, the blacklist and
the cost cache. -/
def CostPropagator.initCache (inst : Instance) (state : ReAssignment) (space : RescheduleSpace)
    (m_index m_process_id : Nat) (vars : VarStore) (blacklist : List Nat)
    (cache : ProcessCostMap) : (Int × Int) × List Nat × ProcessCostMap :=
  let bound0 : CostBound :=
    { min := { machine := 0, cost := Limits.max }, max := { machine := 0, cost := Limits.min } }
  let res := (vars.process m_index).foldl
    (initCacheStep inst state space m_index m_process_id
      (vars.cost_min m_index, vars.cost_max m_index))
    (bound0, blacklist, cache)
  ((res.1.min.cost, res.1.max.cost), res.2.1, res.2.2.setBound m_index res.1)

/-- Loop of `CostPropagator::propagate` that removes the blacklisted machines
from the domain of the slot's variable. -/
def pruneBlacklist : List Nat → List Nat → Option (List Nat)
  | [], dom => some dom
  | m :: rest, dom =>
    match IntView.nq dom m with
    | none => none
    | some d => pruneBlacklist rest d

/-- Function `CostPropagator::propagate` for slot `m_index` holding process
`m_process_id`: the domains and the cost cache after the run, `none` is
`ES_FAILED`. The condition `true || cache_stage == -1` always takes the branch
that rebuilds the cache with `initCache`. -/
def CostPropagator.propagate (inst : Instance) (state : ReAssignment) (space : RescheduleSpace)
    (m_index m_process_id : Nat) (vars : VarStore) (cache : ProcessCostMap) :
    Option (VarStore × ProcessCostMap) :=
  if IntView.assigned (vars.process m_index) then some (vars, cache)
  else
    let res := CostPropagator.initCache inst state space m_index m_process_id vars [] cache
    let m_lastbound := res.1
    match pruneBlacklist res.2.1 (vars.process m_index) with
    | none => none
    | some d =>
      match IntView.gq (vars.cost_min m_index, vars.cost_max m_index) m_lastbound.1 with
      | none => none
      | some b1 =>
        match IntView.lq b1 m_lastbound.2 with
        | none => none
        | some b2 =>
          some ({ process := Function.update vars.process m_index d,
                  cost_min := Function.update vars.cost_min m_index b2.1,
                  cost_max := Function.update vars.cost_max m_index b2.2 }, res.2.2)

/-! ## The brancher (`BestCostBrancher.cpp`) -/

/-- Choice `ProcessChoice`: a slot and a machine. -/
structure ProcessChoice where
  process : Nat
  machine : Nat

/-- Function `BestCostBrancher::status` over the `n` slots. -/
def BestCostBrancher.status (n : Nat) (vars : VarStore) : Bool :=
  (List.range n).any (fun p => !IntView.assigned (vars.process p))

/-- Body of the slot loop of `BestCostBrancher::choice`; the accumulator holds
`max_cost_savings` and `max_index`, where `none` is the initial `-1`. The gap
`cost[i].max() - cost[i].min()` is the difference of two `int`, taken modulo
`2 ^ 32`. -/
def choiceSlotStep (vars : VarStore) (acc : Int × Option Nat) (i : Nat) : Int × Option Nat :=
  if !IntView.assigned (vars.process i)
      ∧ toInt32 (vars.cost_max i - vars.cost_min i) > acc.1 then
    (toInt32 (vars.cost_max i - vars.cost_min i), some i)
  else acc

/-- Body of the loop of `BestCostBrancher::choice` over the values `m` of the
selected variable; the accumulator holds `opt_machine` and the `unsigned int`
`opt_machine_cost`, with which the `int` `cost.first` is compared and to which
it is assigned after conversion to `unsigned int`. -/
def choiceMachineStep (cache : ProcessCostMap) (max_index : Nat) (acc : Nat × Int) (m : Nat) :
    Nat × Int :=
  let cost := cache.getCost max_index m
  if toUInt32 cost.1 < acc.2 then (m, toUInt32 cost.1) else acc

/-- Function `BestCostBrancher::choice` over the `n` slots; `none` is the
`GECODE_NEVER` branch taken when no slot was selected. -/
def BestCostBrancher.choice (n : Nat) (vars : VarStore) (cache : ProcessCostMap) :
    Option ProcessChoice :=
  let sel := (List.range n).foldl (choiceSlotStep vars) (Limits.min, none)
  match sel.2 with
  | some max_index =>
    let opt_machine := (cache.bound max_index).min.machine
    if !IntView.contains (vars.process max_index) opt_machine then
      let res := (vars.process max_index).foldl (choiceMachineStep cache max_index)
        (opt_machine, toUInt32 (-1))
      some { process := max_index, machine := res.1 }
    else some { process := max_index, machine := opt_machine }
  | none => none

/-- Function `BestCostBrancher::commit` for alternative `a`: the domains and
`modified_machines` after the call, `none` is `ES_FAILED`. -/
def BestCostBrancher.commit (vars : VarStore) (modified_machines : List Nat)
    (choice : ProcessChoice) (a : Nat) : Option (VarStore × List Nat) :=
  if a = 0 then
    match IntView.eq (vars.process choice.process) choice.machine with
    | none => none
    | some d =>
      some ({ vars with process := Function.update vars.process choice.process d },
        modified_machines ++ [choice.machine])
  else
    match IntView.nq (vars.process choice.process) choice.machine with
    | none => none
    | some d =>
      some ({ vars with process := Function.update vars.process choice.process d },
        modified_machines)

/-- Condition under which the loop of `CostPropagator::initCache` puts machine
`m` on the blacklist: the first cost is `Limits::max`, or the pair lies above
`m_cost.max()` or below `m_cost.min()`. -/
def blacklisted (inst : Instance) (state : ReAssignment) (space : RescheduleSpace)
    (m_process_id : Nat) (m_cost : Int × Int) (m : Nat) : Bool :=
  decide ((CostPropagator.getAdditionalCost inst state space m_process_id m).1 = Limits.max
    ∨ (CostPropagator.getAdditionalCost inst state space m_process_id m).1 > m_cost.2
    ∨ (CostPropagator.getAdditionalCost inst state space m_process_id m).2 < m_cost.1)

/-! ## Concrete instances for the propagators and the brancher -/

/-- Two machines, two resources with load weights 4 and 5, no balance triple and
one process with the requirements `2 ^ 30` and `1` on machine 0; both machines
have the capacity `2 ^ 30`, machine 0 with a safety capacity of the same size
and machine 1 with none. -/
def exInstanceWide : Instance :=
  { resource := fun r =>
      { is_transient := false, weight_load_cost := if r = 0 then 4 else 5, total_load := 0 }
    machine := fun x =>
      { neighborhood := 0, location := 0, capacity := fun _ => 1073741824,
        initial_usage := fun _ => 0,
        safety_capacity := fun _ => if x = 0 then 1073741824 else 0,
        move_cost := fun _ => 0, max_move_cost := 0 }
    neighborhood := fun _ => [0, 1]
    num_neighborhoods := 1
    location := fun _ => [0, 1]
    num_locations := 1
    service := fun _ =>
      { min_spread := 1, cur_spread := 1, depends_on := [], required_by := [], process := [0] }
    num_services := 1
    process := fun _ =>
      { service := 0, requirement := fun r => if r = 0 then 1073741824 else 1,
        move_cost := 0, original_machine := 0, fixed := false }
    balance := fun _ =>
      { resource1 := 0, resource2 := 0, balance := 1, weight_balance_cost := 0,
        min_balance_units := 0 }
    num_balances := 0
    assignment := fun _ => 0
    processes_by_size := [0]
    movable_processes_by_size := [0]
    machines_by_size := [0, 1]
    num_processes := 1
    num_movable_processes := 1
    num_machines := 2
    num_resources := 2
    transient_count := 0
    weight_process_move_cost := 1
    weight_service_move_cost := 0
    weight_machine_move_cost := 1 }

/-- Instance `exInstanceWide` with the load weights 2 and 0. -/
def exInstanceHalf : Instance :=
  { exInstanceWide with
    resource := fun r =>
      { is_transient := false, weight_load_cost := if r = 0 then 2 else 0, total_load := 0 } }

/-- Baseline of `exInstanceWide`: the process on machine 0, with the caches
`setAssignment` computes. -/
def exStateWide : ReAssignment :=
  { assignment := fun _ => 0
    excess := fun x r => if x = 0 then (if r = 0 then 0 else -1073741823) else 0
    transient := fun _ _ => 0
    balance := fun _ _ => 0
    load_cost := 0
    balance_cost := 0
    process_moves := 0
    machine_moves := 0 }

/-- Domains of two unassigned slots whose cost variables have the bounds
`[-2 ^ 30, 2 ^ 30]` and `[0, 1]`. -/
def exVarsGap : VarStore :=
  { process := fun _ => [0, 1]
    cost_min := fun i => if i = 0 then -1073741824 else 0
    cost_max := fun i => if i = 0 then 1073741824 else 1 }

/-- Three machines, two resources without load weight, the balance triple
`(0, 1, 1)` of weight 1 and two processes of two services, both with original
machine 2: process 0 with the requirements `(8, 0)`, process 1 with `(11, 2)`.
The capacities are `(20, 15)`, `(18, 10)` and `(19, 30)`, without safety margin. -/
def exInstanceBal : Instance :=
  { resource := fun _ => { is_transient := false, weight_load_cost := 0, total_load := 0 }
    machine := fun x =>
      { neighborhood := 0, location := x,
        capacity := fun r =>
          if x = 0 then (if r = 0 then 20 else 15)
          else if x = 1 then (if r = 0 then 18 else 10)
          else (if r = 0 then 19 else 30),
        initial_usage := fun _ => 0, safety_capacity := fun _ => 0,
        move_cost := fun _ => 0, max_move_cost := 0 }
    neighborhood := fun _ => [0, 1, 2]
    num_neighborhoods := 1
    location := fun l => [l]
    num_locations := 3
    service := fun s =>
      { min_spread := 1, cur_spread := 1, depends_on := [], required_by := [], process := [s] }
    num_services := 2
    process := fun p =>
      { service := p,
        requirement := fun r => if p = 0 then (if r = 0 then 8 else 0)
          else (if r = 0 then 11 else 2),
        move_cost := 0, original_machine := 2, fixed := false }
    balance := fun _ =>
      { resource1 := 0, resource2 := 1, balance := 1, weight_balance_cost := 1,
        min_balance_units := 0 }
    num_balances := 1
    assignment := fun _ => 2
    processes_by_size := [1, 0]
    movable_processes_by_size := [1, 0]
    machines_by_size := [2, 0, 1]
    num_processes := 2
    num_movable_processes := 2
    num_machines := 3
    num_resources := 2
    transient_count := 0
    weight_process_move_cost := 1
    weight_service_move_cost := 0
    weight_machine_move_cost := 1 }

/-- Baseline of `exInstanceBal`: both processes on machine 2, with the caches
`setAssignment` computes. -/
def exStateBal : ReAssignment :=
  { assignment := fun _ => 2
    excess := fun x r => if x = 2 then (if r = 0 then 19 else 2) else 0
    transient := fun _ _ => 0
    balance := fun x _ => if x = 0 then 5 else if x = 1 then 8 else -28
    load_cost := 0
    balance_cost := 13
    process_moves := 0
    machine_moves := 0 }

/-- Domains at the root of the search over `exInstanceBal`: every machine for
both slots, the cost variables with the full range of the library. -/
def exVarsRoot : VarStore :=
  { process := fun _ => [0, 1, 2], cost_min := fun _ => Limits.min,
    cost_max := fun _ => Limits.max }

/-- Space of `exInstanceBal` over the neighborhood list `[1, 0]`: slot 0 holds
process 1 and slot 1 holds process 0. -/
def exSpaceBal : RescheduleSpace := RescheduleSpace.construct exInstanceBal exStateBal [1, 0]

/-- Domains and cost cache of `exSpaceBal` after the cost propagator of slot 0
has run at the root. -/
def exRootSlot0 : VarStore × ProcessCostMap :=
  (CostPropagator.propagate exInstanceBal exStateBal exSpaceBal 0 1 exVarsRoot
    ProcessCostMap.init).getD (exVarsRoot, ProcessCostMap.init)

/-- Domains and cost cache of `exSpaceBal` after the cost propagators of slot 0
and of slot 1 have run at the root. -/
def exRootBal : VarStore × ProcessCostMap :=
  (CostPropagator.propagate exInstanceBal exStateBal exSpaceBal 1 0 exRootSlot0.1
    exRootSlot0.2).getD (exVarsRoot, ProcessCostMap.init)

/-- Patch of machine 1 of `exInstanceBal` once process 1 has been added to it. -/
def exPatchFull : MachinePatch :=
  { excess := fun r => if r = 0 then 11 else 2, transient := fun _ => 0,
    balance := fun _ => -1 }

/-- Domains of `exSpaceBal` after the brancher has committed slot 0 to machine 1
and the load step of the assignment propagator of slot 0 has run: machine 1 has
left the domain of slot 1, whose cost cache is still the one of the root. -/
def exVarsPruned : VarStore :=
  (propagateLoadFull exInstanceBal [1, 0] 1 1 (patchOrBase exStateBal exSpaceBal.delta 1)
    ((BestCostBrancher.commit exRootBal.1 [] { process := 0, machine := 1 } 0).getD
      (exVarsRoot, [])).1).2.2

/-! ## The size orders of the constructor (`Instance::Instance`) -/

/-- Insertion of an entry `(key, id)` into a `std::multimap`: the entries stay
ordered by key and the new entry comes behind the entries of the same key. -/
def multimapInsert : List (Int × Nat) → Int × Nat → List (Int × Nat)
  | [], e => [e]
  | h :: t, e => if e.1 < h.1 then e :: h :: t else h :: multimapInsert t e

/-- Map `machine_map` of the constructor: every machine under the `unsigned int`
sum `safety` of its safety capacities. -/
def machineMap (inst : Instance) : List (Int × Nat) :=
  (List.range inst.num_machines).foldl (fun mp m =>
    multimapInsert mp
      ((List.range inst.num_resources).foldl
        (fun safety r => toUInt32 (safety + (inst.machine m).safety_capacity r)) 0, m)) []

/-- Vector `machines_by_size` as the constructor leaves it: it is resized to
`num_machines` zeros, and the loop over `machine_map` writes every id to
`machines_by_size[i]` with `i = 0`, which the loop never advances. -/
def machinesBySize (inst : Instance) : List Nat :=
  ((machineMap inst).foldl (fun (acc : List Nat × Nat) it => (acc.1.set acc.2 it.2, acc.2))
    (List.replicate inst.num_machines 0, 0)).1

/-- Variant of `exInstanceBal` whose machines 0, 1 and 2 have the safety
capacities `(3, 2)`, `(1, 2)` and `(4, 5)`, of the sums 5, 3 and 9. -/
def exInstanceSizes : Instance :=
  { exInstanceBal with
    machine := fun x =>
      { exInstanceBal.machine x with
        safety_capacity := fun r =>
          if x = 0 then (if r = 0 then 3 else 2)
          else if x = 1 then (if r = 0 then 1 else 2)
          else (if r = 0 then 4 else 5) } }

/-- Variant of `exInstance3` in which the three machines form one neighborhood. -/
def exInstanceOneNh : Instance :=
  { exInstance3 with
    machine := fun x => { exInstance3.machine x with neighborhood := 0 }
    neighborhood := fun _ => [0, 1, 2]
    num_neighborhoods := 1 }

/-! ## The search state and the assignment propagator on it -/

/-- Members of a `RescheduleSpace` during search: the bookkeeping members, the
domains of the variables, `modified_machines` and `cost_cache`. -/
structure SpaceState where
  space : RescheduleSpace
  vars : VarStore
  modified_machines : List Nat
  cost_cache : ProcessCostMap

/-- Function `ProcessPropagator::propagate` on the whole search state, for slot
`m_index` holding process `m_process`, with the `int` variable `cost` as the
program computes it (see `ProcessPropagator.propagate32`). The propagator is
subscribed with `PC_INT_VAL` and reads `m_machine.val()`, so it runs on an
assigned variable only; `none` is `ES_FAILED` (and the result for a variable
that is not assigned). -/
def ProcessPropagator.propagateSpace (inst : Instance) (state : ReAssignment) (moved : List Nat)
    (m_index m_process : Nat) (s : SpaceState) : Option SpaceState :=
  match s.vars.process m_index with
  | [machine_id] =>
    let res := propagateLoadFull inst moved m_process machine_id
      (patchOrBase state s.space.delta machine_id) s.vars
    let cost0 := res.1
    if cost0 < 0 then none
    else
      let bal := propagateBalance inst m_process s.space res.2.1
      let cost1 := toInt32 (cost0 + toInt32 bal.2.2.2)
      let process := inst.process m_process
      let cost2 :=
        if process.original_machine ≠ machine_id then
          toInt32 (toUInt32 cost1
            + toUInt32 ((process.move_cost : Int) * toUInt32 inst.weight_process_move_cost))
        else cost1
      let cost := toInt32 (toUInt32 cost2
        + toUInt32 (((inst.machine process.original_machine).move_cost machine_id : Int)
            * toUInt32 inst.weight_machine_move_cost))
      if cost < res.2.2.cost_min m_index ∨ cost > res.2.2.cost_max m_index then none
      else
        some
          { space :=
              { s.space with
                min_unassigned_balance := bal.1
                max_unassigned_balance := bal.2.1
                process_move_cost := Function.update s.space.process_move_cost m_index (some cost)
                delta := Function.update s.space.delta machine_id (some bal.2.2.1) }
            vars :=
              { res.2.2 with
                cost_min := Function.update res.2.2.cost_min m_index cost
                cost_max := Function.update res.2.2.cost_max m_index cost }
            modified_machines := s.modified_machines
            cost_cache := s.cost_cache }
  | _ => none

/-- Function `BestCostBrancher::commit` on the whole search state. -/
def BestCostBrancher.commitSpace (s : SpaceState) (choice : ProcessChoice) (a : Nat) :
    Option SpaceState :=
  (BestCostBrancher.commit s.vars s.modified_machines choice a).map
    (fun r => { s with vars := r.1, modified_machines := r.2 })

/-- Function `CostPropagator::propagate` on the whole search state. -/
def CostPropagator.propagateSpace (inst : Instance) (state : ReAssignment)
    (m_index m_process_id : Nat) (s : SpaceState) : Option SpaceState :=
  (CostPropagator.propagate inst state s.space m_index m_process_id s.vars s.cost_cache).map
    (fun r => { s with vars := r.1, cost_cache := r.2 })

/-- Instance `exInstance 1 0` in which machine 1 has the capacity 5, all of it
safety capacity: the process, of requirement 10, does not fit on machine 1. -/
def exInstanceTight : Instance :=
  { exInstance 1 0 with
    machine := fun x =>
      { (exInstance 1 0).machine x with
        capacity := fun _ => if x = 0 then 100 else 5
        safety_capacity := fun _ => if x = 0 then 0 else 5 } }

/-- Baseline of `exInstanceTight`: the process on machine 0, with the caches
`setAssignment` computes. -/
def exStateTight : ReAssignment :=
  { exState with excess := fun x _ => if x = 0 then 10 else -5 }

/-- Root of the search over `exInstanceTight` with the single slot of process 0:
both machines in the domain, no machine recorded, an empty cost cache. -/
def exRootTight : SpaceState :=
  { space := RescheduleSpace.construct exInstanceTight exStateTight [0]
    vars := { process := fun _ => [0, 1], cost_min := fun _ => Limits.min,
              cost_max := fun _ => Limits.max }
    modified_machines := []
    cost_cache := ProcessCostMap.init }

/-- State `exRootTight` after the cost propagator and then the assignment
propagator of slot 0 have run. -/
def exPropagatedTight : Option SpaceState :=
  (CostPropagator.propagateSpace exInstanceTight exStateTight 0 0 exRootTight).bind
    (ProcessPropagator.propagateSpace exInstanceTight exStateTight [0] 0 0)

/-- State `exRootTight` after alternative 0 of the choice of machine 0 for
slot 0. -/
def exCommittedTight : SpaceState :=
  (BestCostBrancher.commitSpace exRootTight { process := 0, machine := 0 } 0).getD exRootTight

/-- State `exCommittedTight` after the assignment propagator of slot 0 has run. -/
def exAssignedTight : SpaceState :=
  (ProcessPropagator.propagateSpace exInstanceTight exStateTight [0] 0 0 exCommittedTight).getD
    exRootTight

/-! ## The incremental path of the cost cache (`CostPropagator::updateCache`) -/

/-- Function `ProcessCostMap::remove`. -/
def ProcessCostMap.remove (c : ProcessCostMap) (process machine : Nat) : ProcessCostMap :=
  { c with
    cost_map := Function.update c.cost_map process
      (Function.update (c.cost_map process) machine none) }

/-- Body of the first loop of `CostPropagator::updateCache` over the entries of
`modified_machines` from `cache_pos` on; the accumulator holds `last`, where
`none` is the initial `-1`, and the cost cache. -/
def updateCacheRefreshStep (inst : Instance) (state : ReAssignment) (space : RescheduleSpace)
    (m_index m_process_id : Nat) (acc : Option Nat × ProcessCostMap) (mm : Nat) :
    Option Nat × ProcessCostMap :=
  if acc.1 ≠ some mm then
    (some mm, acc.2.setCost m_index mm
      (CostPropagator.getAdditionalCost inst state space m_process_id mm))
  else acc

/-- Body of the second loop of `CostPropagator::updateCache` over the values `m`
of the domain of the slot's variable; the accumulator holds `bound`, the
blacklist and the cost cache. -/
def updateCacheStep (m_index : Nat) (m_cost : Int × Int)
    (acc : CostBound × List Nat × ProcessCostMap) (m : Nat) :
    CostBound × List Nat × ProcessCostMap :=
  let cost := acc.2.2.getCost m_index m
  if cost.1 = Limits.max then (acc.1, acc.2.1 ++ [m], acc.2.2)
  else if cost.1 > m_cost.2 ∨ cost.2 < m_cost.1 then
    (acc.1, acc.2.1 ++ [m], acc.2.2.remove m_index m)
  else
    let bound1 : CostBound :=
      if acc.1.min.cost > cost.1 then { acc.1 with min := { machine := m, cost := cost.1 } }
      else acc.1
    let bound2 : CostBound :=
      if bound1.max.cost < cost.2 then { bound1 with max := { machine := m, cost := cost.2 } }
      else bound1
    (bound2, acc.2.1, acc.2.2)

/-- Function `CostPropagator::updateCache` called with `cache_pos` (the parameter
`need_sweep` is not read): the returned pair, the blacklist and the cost cache. -/
def CostPropagator.updateCache (inst : Instance) (state : ReAssignment) (space : RescheduleSpace)
    (m_index m_process_id : Nat) (vars : VarStore) (blacklist : List Nat)
    (cache : ProcessCostMap) (modified_machines : List Nat) (cache_pos : Nat) :
    (Int × Int) × List Nat × ProcessCostMap :=
  let refreshed := ((modified_machines.drop cache_pos).foldl
    (updateCacheRefreshStep inst state space m_index m_process_id) (none, cache)).2
  let bound0 : CostBound :=
    { min := { machine := 0, cost := Limits.max }, max := { machine := 0, cost := Limits.min } }
  let res := (vars.process m_index).foldl
    (updateCacheStep m_index (vars.cost_min m_index, vars.cost_max m_index))
    (bound0, blacklist, refreshed)
  ((res.1.min.cost, res.1.max.cost), res.2.1, res.2.2.setBound m_index res.1)

/-! ## A space whose stored minima are all `-1` -/

/-- Instance `exInstanceBal` with the capacities `(20, 19)`, `(18, 10)` and
`(31, 30)`: every machine has a positive balance value when it is empty. -/
def exInstanceNeg : Instance :=
  { exInstanceBal with
    machine := fun x =>
      { exInstanceBal.machine x with
        capacity := fun r =>
          if x = 0 then (if r = 0 then 20 else 19)
          else if x = 1 then (if r = 0 then 18 else 10)
          else (if r = 0 then 31 else 30) } }

/-- Baseline of `exInstanceNeg`: both processes on machine 2, with the caches
`setAssignment` computes. -/
def exStateNeg : ReAssignment :=
  { assignment := fun _ => 2
    excess := fun x r => if x = 2 then (if r = 0 then 19 else 2) else 0
    transient := fun _ _ => 0
    balance := fun x _ => if x = 0 then 1 else if x = 1 then 8 else -16
    load_cost := 0
    balance_cost := 9
    process_moves := 0
    machine_moves := 0 }

/-- Start of the search over `exInstanceNeg` with the neighborhood list `[1, 0]`:
slot 0 holds process 1 and slot 1 holds process 0; every machine is in both
domains, no machine is recorded and the cost cache is empty. -/
def exStartNeg : SpaceState :=
  { space := RescheduleSpace.construct exInstanceNeg exStateNeg [1, 0]
    vars := exVarsRoot
    modified_machines := []
    cost_cache := ProcessCostMap.init }

/-- State `exStartNeg` after the cost propagators of slot 0 and of slot 1 have
run: the root of the search. -/
def exRootNeg : SpaceState :=
  ((CostPropagator.propagateSpace exInstanceNeg exStateNeg 0 1 exStartNeg).bind
    (CostPropagator.propagateSpace exInstanceNeg exStateNeg 1 0)).getD exStartNeg

/-- State `exRootNeg` after the brancher has committed slot 0 to machine 1 and
the assignment propagator of slot 0 has run. -/
def exAssignedNeg : SpaceState :=
  ((BestCostBrancher.commitSpace exRootNeg { process := 0, machine := 1 } 0).bind
    (ProcessPropagator.propagateSpace exInstanceNeg exStateNeg [1, 0] 0 1)).getD exStartNeg

/-- Two machines of the capacities `(5000, 5003)` without safety capacity, two
resources without load weight, the balance triple `(0, 1, 1)` of weight
`2 ^ 20` and one process with the requirements `(0, 2050)` on machine 0, without
move costs. -/
def exInstanceHeavy : Instance :=
  { exInstanceWide with
    resource := fun _ => { is_transient := false, weight_load_cost := 0, total_load := 0 }
    machine := fun _ =>
      { neighborhood := 0, location := 0, capacity := fun r => if r = 0 then 5000 else 5003,
        initial_usage := fun _ => 0, safety_capacity := fun _ => 0,
        move_cost := fun _ => 0, max_move_cost := 0 }
    process := fun _ =>
      { service := 0, requirement := fun r => if r = 0 then 0 else 2050,
        move_cost := 0, original_machine := 0, fixed := false }
    balance := fun _ =>
      { resource1 := 0, resource2 := 1, balance := 1, weight_balance_cost := 1048576,
        min_balance_units := 0 }
    num_balances := 1 }

/-- Baseline of `exInstanceHeavy`: the process on machine 0, with the caches
`setAssignment` computes. -/
def exStateHeavy : ReAssignment :=
  { assignment := fun _ => 0
    excess := fun x r => if x = 0 ∧ r = 1 then 2050 else 0
    transient := fun _ _ => 0
    balance := fun x _ => if x = 0 then 2047 else -3
    load_cost := 0
    balance_cost := 2146435072
    process_moves := 0
    machine_moves := 0 }

/-- Space of `exInstanceWide` after the assignment propagator has run for the
single slot with the value 1. -/
def exFinalWide : RescheduleSpace :=
  (ProcessPropagator.propagate32 exInstanceWide exStateWide 0 0 1
    (RescheduleSpace.construct exInstanceWide exStateWide [0])).getD emptySpace

/-- Space of `exInstanceHeavy` over its single process. -/
def exSpaceHeavy : RescheduleSpace :=
  RescheduleSpace.construct exInstanceHeavy exStateHeavy [0]

/-- Three machines, two resources of the load weights `2 ^ 20` and 0, the
balance triple `(0, 1, 2)` of weight `2 ^ 20` and one process with the
requirements `(1024, 0)` on machine 2, without move costs. Machine 0 has the
capacities `(2000, 2975)` and the safety capacities `(1500, 0)`, machine 1 the
capacities `(2000, 4000)` and the safety capacities `(1, 0)`, machine 2 the
capacities `(2000, 4000)` and no safety capacity. -/
def exInstanceGap : Instance :=
  { exInstanceWide with
    resource := fun r =>
      { is_transient := false, weight_load_cost := if r = 0 then 1048576 else 0,
        total_load := 0 }
    machine := fun x =>
      { neighborhood := 0, location := 0,
        capacity := fun r => if r = 0 then 2000 else if x = 0 then 2975 else 4000,
        initial_usage := fun _ => 0,
        safety_capacity := fun r =>
          if r = 0 then (if x = 0 then 1500 else if x = 1 then 1 else 0) else 0,
        move_cost := fun _ => 0, max_move_cost := 0 }
    neighborhood := fun _ => [0, 1, 2]
    location := fun _ => [0, 1, 2]
    process := fun _ =>
      { service := 0, requirement := fun r => if r = 0 then 1024 else 0,
        move_cost := 0, original_machine := 2, fixed := false }
    balance := fun _ =>
      { resource1 := 0, resource2 := 1, balance := 2, weight_balance_cost := 1048576,
        min_balance_units := 0 }
    num_balances := 1
    assignment := fun _ => 2
    machines_by_size := [0, 1, 2]
    num_machines := 3 }

/-- Baseline of `exInstanceGap`: the process on machine 2, with the caches
`setAssignment` computes. -/
def exStateGap : ReAssignment :=
  { assignment := fun _ => 2
    excess := fun x r => if r = 0 then (if x = 0 then -1500 else if x = 1 then -1 else 1024) else 0
    transient := fun _ _ => 0
    balance := fun x _ => if x = 0 then 1025 else if x = 1 then 0 else -2048
    load_cost := 1073741824
    balance_cost := 1074790400
    process_moves := 0
    machine_moves := 0 }

/-- Space of `exInstanceGap` over its single process. -/
def exSpaceGap : RescheduleSpace := RescheduleSpace.construct exInstanceGap exStateGap [0]

/-- Domains and cost cache of `exSpaceGap` after the first run of the cost
propagator of slot 0, on the full domain and the full range of the cost
variable. -/
def exFirstGap : VarStore × ProcessCostMap :=
  (CostPropagator.propagate exInstanceGap exStateGap exSpaceGap 0 0 exVarsRoot
    ProcessCostMap.init).getD (exVarsRoot, ProcessCostMap.init)

/-- Domains and cost cache of `exSpaceGap` at the root of the search: the posted
constraints `total_cost < 2 ^ 30` and `total_cost = process_move_cost[0]` have
lowered the upper bound of the cost variable to `2 ^ 30 - 1` and the cost
propagator of slot 0 has run again. -/
def exRootGap : VarStore × ProcessCostMap :=
  (CostPropagator.propagate exInstanceGap exStateGap exSpaceGap 0 0
    { exFirstGap.1 with cost_max := fun _ => 1073741823 } exFirstGap.2).getD
    (exVarsRoot, ProcessCostMap.init)

/-! ## Auxiliary lemmas -/

theorem toInt32_modEq (x : Int) : toInt32 x ≡ x [ZMOD 4294967296] := by
  unfold toInt32
  have h := (Int.mod_modEq (x + 2147483648) 4294967296).sub_right 2147483648
  simpa using h

theorem toUInt32_modEq (x : Int) : toUInt32 x ≡ x [ZMOD 4294967296] :=
  Int.mod_modEq x 4294967296

theorem toInt32_congr (x y : Int) (h : x ≡ y [ZMOD 4294967296]) : toInt32 x = toInt32 y := by
  unfold toInt32
  have h2 : (x + 2147483648) % 4294967296 = (y + 2147483648) % 4294967296 :=
    h.add_right 2147483648
  rw [h2]

theorem toInt32_of_range (x : Int) (h1 : -2147483648 ≤ x) (h2 : x ≤ 2147483647) :
    toInt32 x = x := by
  unfold toInt32
  omega

theorem toInt32_idem (x : Int) : toInt32 (toInt32 x) = toInt32 x :=
  toInt32_congr _ _ (toInt32_modEq x)

theorem toInt32_range (x : Int) : -2147483648 ≤ toInt32 x ∧ toInt32 x ≤ 2147483647 := by
  unfold toInt32
  omega


theorem foldl_range_succ {α : Type} (f : α → Nat → α) (a : α) (n : Nat) :
    (List.range (n + 1)).foldl f a = f ((List.range n).foldl f a) n := by
  rw [List.range_succ, List.foldl_append]
  rfl

theorem sum_range_change (f g : Nat → Int) (M x : Nat) (hx : x < M)
    (h : ∀ y, y ≠ x → g y = f y) :
    ∑ y in range M, g y = ∑ y in range M, f y + (g x - f x) := by
  have hm : x ∈ range M := mem_range.2 hx
  rw [← Finset.add_sum_erase (range M) g hm, ← Finset.add_sum_erase (range M) f hm]
  have : ∑ y in (range M).erase x, g y = ∑ y in (range M).erase x, f y := by
    apply Finset.sum_congr rfl
    intro y hy
    exact h y (Finset.ne_of_mem_erase hy)
  rw [this]
  ring

theorem sum_list_perm_range (f : Nat → Int) (l : List Nat) (k : Nat)
    (h : l.Perm (List.range k)) : (l.map f).sum = ∑ i in range k, f i := by
  have hr : (List.range k).toFinset = range k := by
    ext i
    simp
  rw [(h.map f).sum_eq, ← List.sum_toFinset f (List.nodup_range k), hr]

theorem patchOrBase_update (state : ReAssignment) (D : PatchMap) (x y : Nat) (q : MachinePatch) :
    patchOrBase state (Function.update D x (some q)) y
      = if y = x then q else patchOrBase state D y := by
  unfold patchOrBase
  by_cases h : y = x
  · subst h; simp
  · simp [Function.update_noteq h, h]

theorem prePatch_update (state : ReAssignment) (D : PatchMap) (x y : Nat) (q : MachinePatch) :
    prePatch state (Function.update D x (some q)) y
      = if y = x then q else prePatch state D y := by
  unfold prePatch
  by_cases h : y = x
  · subst h; simp
  · simp [Function.update_noteq h, h]

/-! ## Closed form of the construction -/

theorem setupLoadConstraintsStep_delta (inst : Instance) (state : ReAssignment)
    (moved : List Nat) (acc : PatchMap × Int × Int) (m : Nat) :
    (setupLoadConstraintsStep inst state moved acc m).1
      = Function.update acc.1 (state.assignment (movedAt moved m))
          (some (removeProcess inst (movedAt moved m) (state.assignment (movedAt moved m))
            (prePatch state acc.1 (state.assignment (movedAt moved m))))) := by
  unfold setupLoadConstraintsStep prePatch removeProcess
  by_cases ho : (inst.process (movedAt moved m)).original_machine
      = state.assignment (movedAt moved m)
  · cases h : acc.1 (state.assignment (movedAt moved m)) <;> simp [ho, h, MachinePatch.init]
  · cases h : acc.1 (state.assignment (movedAt moved m)) <;> simp [ho, h, MachinePatch.init]

theorem loadLoop_succ (inst : Instance) (state : ReAssignment) (moved : List Nat) (n : Nat) :
    loadLoop inst state moved (n + 1)
      = setupLoadConstraintsStep inst state moved (loadLoop inst state moved n) n := by
  unfold loadLoop
  exact foldl_range_succ _ _ n

theorem loadLoop_delta_succ (inst : Instance) (state : ReAssignment) (moved : List Nat)
    (n x : Nat) :
    prePatch state (loadLoop inst state moved (n + 1)).1 x
      = if x = state.assignment (movedAt moved n) then
          removeProcess inst (movedAt moved n) x (prePatch state (loadLoop inst state moved n).1 x)
        else prePatch state (loadLoop inst state moved n).1 x := by
  rw [loadLoop_succ, setupLoadConstraintsStep_delta, prePatch_update]
  by_cases h : x = state.assignment (movedAt moved n)
  · subst h; simp
  · simp [h]

theorem loadLoop_excess (inst : Instance) (state : ReAssignment) (moved : List Nat)
    (n x r : Nat) (hr : r < inst.num_resources) :
    (prePatch state (loadLoop inst state moved n).1 x).excess r
      = - removedLoad inst state moved n x r := by
  induction n with
  | zero => simp [loadLoop, prePatch, removedLoad]
  | succ n ih =>
    rw [loadLoop_delta_succ]
    unfold removedLoad at ih ⊢
    rw [Finset.sum_range_succ]
    by_cases h : x = state.assignment (movedAt moved n)
    · simp only [if_pos h, removeProcess, if_pos hr, ih, if_pos h.symm]
      ring
    · have h2 : ¬ state.assignment (movedAt moved n) = x := fun e => h e.symm
      simp only [if_neg h, ih, if_neg h2]
      ring

theorem loadLoop_transient (inst : Instance) (state : ReAssignment) (moved : List Nat)
    (n x r : Nat) (hr : r < inst.transient_count) :
    (prePatch state (loadLoop inst state moved n).1 x).transient r
      = state.transient x r - removedTransient inst state moved n x r := by
  induction n with
  | zero => simp [loadLoop, prePatch, removedTransient]
  | succ n ih =>
    rw [loadLoop_delta_succ]
    unfold removedTransient at ih ⊢
    rw [Finset.sum_range_succ]
    by_cases h : x = state.assignment (movedAt moved n)
    · by_cases ho : (inst.process (movedAt moved n)).original_machine = x
      · simp [if_pos h, removeProcess, ih, ho]
      · simp only [if_pos h, removeProcess, ih, ho, ne_eq, not_false_eq_true, hr, and_self,
          if_true, h.symm]
        ring
    · have h2 : ¬ state.assignment (movedAt moved n) = x := fun e => h e.symm
      simp [if_neg h, ih, h2]

theorem loadLoop_balance (inst : Instance) (state : ReAssignment) (moved : List Nat)
    (n x : Nat) :
    (prePatch state (loadLoop inst state moved n).1 x).balance = state.balance x := by
  induction n with
  | zero => simp [loadLoop, prePatch]
  | succ n ih =>
    rw [loadLoop_delta_succ]
    by_cases h : x = state.assignment (movedAt moved n)
    · simp only [if_pos h, removeProcess]
      exact ih
    · simp only [if_neg h, ih]

theorem loadLoop_none (inst : Instance) (state : ReAssignment) (moved : List Nat)
    (n x : Nat) :
    (loadLoop inst state moved n).1 x = none
      ↔ ∀ i, i < n → state.assignment (movedAt moved i) ≠ x := by
  induction n with
  | zero => simp [loadLoop]
  | succ n ih =>
    rw [loadLoop_succ, setupLoadConstraintsStep_delta]
    by_cases h : x = state.assignment (movedAt moved n)
    · subst h
      simp only [Function.update_same]
      constructor
      · intro hc; cases hc
      · intro hc; exact absurd rfl (hc n (Nat.lt_succ_self n))
    · rw [Function.update_noteq h, ih]
      constructor
      · intro hc i hi
        rcases Nat.lt_succ_iff_lt_or_eq.1 hi with h1 | h1
        · exact hc i h1
        · subst h1; exact fun e => h e.symm
      · intro hc i hi
        exact hc i (Nat.lt_succ_of_lt hi)

theorem loadLoop_process_move (inst : Instance) (state : ReAssignment) (moved : List Nat)
    (n : Nat) :
    (loadLoop inst state moved n).2.1
      = - ∑ i in range n,
          if (inst.process (movedAt moved i)).original_machine ≠ state.assignment (movedAt moved i)
          then ((inst.process (movedAt moved i)).move_cost : Int) else 0 := by
  induction n with
  | zero => simp [loadLoop]
  | succ n ih =>
    rw [loadLoop_succ, Finset.sum_range_succ]
    unfold setupLoadConstraintsStep
    by_cases ho : (inst.process (movedAt moved n)).original_machine
        = state.assignment (movedAt moved n)
    · simp [ho, ih]
    · simp only [ne_eq, ho, not_false_eq_true, if_true, ih]
      ring

theorem loadLoop_machine_move (inst : Instance) (state : ReAssignment) (moved : List Nat)
    (n : Nat) :
    (loadLoop inst state moved n).2.2
      = - ∑ i in range n,
          if (inst.process (movedAt moved i)).original_machine ≠ state.assignment (movedAt moved i)
          then ((inst.machine (inst.process (movedAt moved i)).original_machine).move_cost
            (state.assignment (movedAt moved i)) : Int) else 0 := by
  induction n with
  | zero => simp [loadLoop]
  | succ n ih =>
    rw [loadLoop_succ, Finset.sum_range_succ]
    unfold setupLoadConstraintsStep
    by_cases ho : (inst.process (movedAt moved n)).original_machine
        = state.assignment (movedAt moved n)
    · simp [ho, ih]
    · simp only [ne_eq, ho, not_false_eq_true, if_true, ih]
      ring

theorem setupBalanceCostStep_eq (inst : Instance) (state : ReAssignment) (moved : List Nat)
    (b m : Nat) (acc : RescheduleSpace × Int) (patch : MachinePatch)
    (hsome : acc.1.delta (state.assignment (movedAt moved m)) = some patch) :
    (setupBalanceCostStep inst state moved b acc m).1.delta
        = Function.update acc.1.delta (state.assignment (movedAt moved m))
            (some (subBalance b (processBalance inst (movedAt moved m) b) patch))
      ∧ (setupBalanceCostStep inst state moved b acc m).2
        = acc.2 + (max 0 (patch.balance b - processBalance inst (movedAt moved m) b)
            - max 0 (patch.balance b)) * ((inst.balance b).weight_balance_cost : Int)
      ∧ (setupBalanceCostStep inst state moved b acc m).1.base_total_cost
        = acc.1.base_total_cost
      ∧ (setupBalanceCostStep inst state moved b acc m).1.posted = acc.1.posted
      ∧ (setupBalanceCostStep inst state moved b acc m).1.process_move_cost
        = acc.1.process_move_cost := by
  unfold setupBalanceCostStep subBalance
  by_cases hd : processBalance inst (movedAt moved m) b < 0
  · simp [hd, hsome]
  · simp [hd, hsome]

theorem balancePotential_update (inst : Instance) (state : ReAssignment) (D : PatchMap)
    (x b : Nat) (d : Int) (patch : MachinePatch) (hx : x < inst.num_machines)
    (hb : b < inst.num_balances) (hsome : D x = some patch) :
    balancePotential inst state (Function.update D x (some (subBalance b d patch)))
      = balancePotential inst state D
        + (max 0 (patch.balance b - d) - max 0 (patch.balance b))
            * ((inst.balance b).weight_balance_cost : Int) := by
  unfold balancePotential
  have hE : patchOrBase state D x = patch := by simp [patchOrBase, hsome]
  have h1 := sum_range_change
    (fun y => ∑ b1 in range inst.num_balances,
      max 0 ((patchOrBase state D y).balance b1) * ((inst.balance b1).weight_balance_cost : Int))
    (fun y => ∑ b1 in range inst.num_balances,
      max 0 ((patchOrBase state (Function.update D x (some (subBalance b d patch))) y).balance b1)
        * ((inst.balance b1).weight_balance_cost : Int))
    inst.num_machines x hx
    (by intro y hy; simp only [patchOrBase_update, if_neg hy])
  have h2 := sum_range_change
    (fun b1 => max 0 (patch.balance b1) * ((inst.balance b1).weight_balance_cost : Int))
    (fun b1 => max 0 ((subBalance b d patch).balance b1)
      * ((inst.balance b1).weight_balance_cost : Int)) inst.num_balances b hb
    (by intro y hy; simp [subBalance, Function.update_noteq hy])
  beta_reduce at h1 h2
  rw [h1]
  simp only [patchOrBase_update, if_true, hE]
  rw [h2]
  simp only [subBalance, Function.update_same]
  ring

theorem BalanceEvolves.refl (inst : Instance) (state : ReAssignment)
    (a : RescheduleSpace × Int) : BalanceEvolves inst state (fun _ _ => 0) a a where
  none_iff := fun _ => Iff.rfl
  excess_eq := fun _ => rfl
  transient_eq := fun _ => rfl
  balance_eq := fun _ _ => by simp
  cost_eq := by simp
  base_eq := rfl
  posted_eq := rfl
  pmc_eq := rfl

theorem BalanceEvolves.trans {inst : Instance} {state : ReAssignment} {g g1 : Nat → Nat → Int}
    {a a1 a2 : RescheduleSpace × Int} (h : BalanceEvolves inst state g a a1)
    (h1 : BalanceEvolves inst state g1 a1 a2) :
    BalanceEvolves inst state (fun x b => g x b + g1 x b) a a2 where
  none_iff := fun x => (h1.none_iff x).trans (h.none_iff x)
  excess_eq := fun x => (h1.excess_eq x).trans (h.excess_eq x)
  transient_eq := fun x => (h1.transient_eq x).trans (h.transient_eq x)
  balance_eq := fun x b => by rw [h1.balance_eq, h.balance_eq]; ring
  cost_eq := by
    have e1 := h.cost_eq
    have e2 := h1.cost_eq
    linarith
  base_eq := h1.base_eq.trans h.base_eq
  posted_eq := h1.posted_eq.trans h.posted_eq
  pmc_eq := h1.pmc_eq.trans h.pmc_eq

theorem BalanceEvolves.congr {inst : Instance} {state : ReAssignment} {g g1 : Nat → Nat → Int}
    {a a1 : RescheduleSpace × Int} (h : BalanceEvolves inst state g a a1)
    (hg : ∀ x b, g x b = g1 x b) : BalanceEvolves inst state g1 a a1 := by
  have : g = g1 := by funext x b; exact hg x b
  rw [← this]; exact h

theorem setupBalanceCostStep_evolves (inst : Instance) (state : ReAssignment)
    (moved : List Nat) (b m : Nat) (acc : RescheduleSpace × Int)
    (hx : state.assignment (movedAt moved m) < inst.num_machines)
    (hb : b < inst.num_balances)
    (hsome : acc.1.delta (state.assignment (movedAt moved m)) ≠ none) :
    BalanceEvolves inst state
      (fun x b1 => if state.assignment (movedAt moved m) = x ∧ b1 = b
        then processBalance inst (movedAt moved m) b else 0)
      acc (setupBalanceCostStep inst state moved b acc m) := by
  obtain ⟨patch, hp⟩ := Option.ne_none_iff_exists'.1 hsome
  obtain ⟨e1, e2, e3, e4, e5⟩ := setupBalanceCostStep_eq inst state moved b m acc patch hp
  have hE : patchOrBase state acc.1.delta (state.assignment (movedAt moved m)) = patch := by
    simp [patchOrBase, hp]
  refine ⟨?_, ?_, ?_, ?_, ?_, e3, e4, e5⟩
  · intro x
    rw [e1]
    by_cases h : x = state.assignment (movedAt moved m)
    · subst h; simp [hp]
    · rw [Function.update_noteq h]
  · intro x
    rw [e1, patchOrBase_update]
    by_cases h : x = state.assignment (movedAt moved m)
    · subst h; simp [hE, subBalance]
    · simp [h]
  · intro x
    rw [e1, patchOrBase_update]
    by_cases h : x = state.assignment (movedAt moved m)
    · subst h; simp [hE, subBalance]
    · simp [h]
  · intro x b1
    rw [e1, patchOrBase_update]
    by_cases h : x = state.assignment (movedAt moved m)
    · subst h
      by_cases h1 : b1 = b
      · subst h1; simp [hE, subBalance]
      · simp [hE, subBalance, Function.update_noteq h1, h1]
    · have h2 : ¬ state.assignment (movedAt moved m) = x := fun e => h e.symm
      simp [h, h2]
  · rw [e1, e2, balancePotential_update inst state acc.1.delta _ b _ patch hx hb hp]
    ring

theorem balanceInner_evolves (inst : Instance) (state : ReAssignment) (moved : List Nat)
    (b : Nat) (hb : b < inst.num_balances) (acc : RescheduleSpace × Int) (n : Nat)
    (hn : n ≤ moved.length)
    (hdom : ∀ i, i < moved.length → state.assignment (movedAt moved i) < inst.num_machines
      ∧ acc.1.delta (state.assignment (movedAt moved i)) ≠ none) :
    BalanceEvolves inst state
      (fun x b1 => if b1 = b then removedBalance inst state moved n x b else 0)
      acc (balanceInner inst state moved b n acc) := by
  induction n with
  | zero =>
    exact (BalanceEvolves.refl inst state acc).congr (by intro x b1; simp [removedBalance])
  | succ n ih =>
    have hlt : n < moved.length := hn
    have ih1 := ih (Nat.le_of_lt hlt)
    have hstep : balanceInner inst state moved b (n + 1) acc
        = setupBalanceCostStep inst state moved b (balanceInner inst state moved b n acc) n := by
      unfold balanceInner
      exact foldl_range_succ _ _ n
    rw [hstep]
    have hs : (balanceInner inst state moved b n acc).1.delta
        (state.assignment (movedAt moved n)) ≠ none := by
      intro hc
      exact (hdom n hlt).2 ((ih1.none_iff _).1 hc)
    refine (ih1.trans (setupBalanceCostStep_evolves inst state moved b n _
      (hdom n hlt).1 hb hs)).congr ?_
    intro x b1
    unfold removedBalance
    rw [Finset.sum_range_succ]
    by_cases h1 : b1 = b
    · subst h1; simp
    · simp [h1]

theorem balanceOuter_evolves (inst : Instance) (state : ReAssignment) (moved : List Nat)
    (acc : RescheduleSpace × Int) (nb : Nat) (hnb : nb ≤ inst.num_balances)
    (hdom : ∀ i, i < moved.length → state.assignment (movedAt moved i) < inst.num_machines
      ∧ acc.1.delta (state.assignment (movedAt moved i)) ≠ none) :
    BalanceEvolves inst state
      (fun x b1 => if b1 < nb then removedBalance inst state moved moved.length x b1 else 0)
      acc (balanceOuter inst state moved nb acc) := by
  induction nb with
  | zero =>
    exact (BalanceEvolves.refl inst state acc).congr (by intro x b1; simp)
  | succ nb ih =>
    have hlt : nb < inst.num_balances := hnb
    have ih1 := ih (Nat.le_of_lt hlt)
    have hstep : balanceOuter inst state moved (nb + 1) acc
        = balanceInner inst state moved nb moved.length (balanceOuter inst state moved nb acc) := by
      unfold balanceOuter balanceInner
      exact foldl_range_succ _ _ nb
    rw [hstep]
    have hdom1 : ∀ i, i < moved.length →
        state.assignment (movedAt moved i) < inst.num_machines
        ∧ (balanceOuter inst state moved nb acc).1.delta (state.assignment (movedAt moved i))
          ≠ none := by
      intro i hi
      refine ⟨(hdom i hi).1, ?_⟩
      intro hc
      exact (hdom i hi).2 ((ih1.none_iff _).1 hc)
    refine (ih1.trans (balanceInner_evolves inst state moved nb hlt _ moved.length
      (Nat.le_refl _) hdom1)).congr ?_
    intro x b1
    by_cases h1 : b1 = nb
    · subst h1; simp
    · by_cases h2 : b1 < nb
      · have : b1 < nb + 1 := Nat.lt_succ_of_lt h2
        simp [h1, h2, this]
      · have : ¬ b1 < nb + 1 := by omega
        simp [h1, h2, this]

theorem setupLoadCost_patch (inst : Instance) (state : ReAssignment) (sp : RescheduleSpace)
    (x : Nat) :
    (∀ r, r < inst.num_resources →
      (patchOrBase state (setupLoadCost inst state sp).delta x).excess r
        = (prePatch state sp.delta x).excess r + state.excess x r)
    ∧ (patchOrBase state (setupLoadCost inst state sp).delta x).transient
        = (prePatch state sp.delta x).transient
    ∧ (patchOrBase state (setupLoadCost inst state sp).delta x).balance
        = (prePatch state sp.delta x).balance
    ∧ ((setupLoadCost inst state sp).delta x = none ↔ sp.delta x = none) := by
  unfold setupLoadCost patchOrBase prePatch addBaseExcess
  cases h : sp.delta x with
  | none => simp [h]
  | some q =>
    simp only [h, Option.map_some']
    refine ⟨?_, trivial, trivial, by simp⟩
    intro r hr
    simp [hr]

theorem setupLoadCost_base (inst : Instance) (state : ReAssignment) (sp : RescheduleSpace) :
    (setupLoadCost inst state sp).base_total_cost
      = sp.base_total_cost + (state.load_cost
        + (loadPotential inst state (setupLoadCost inst state sp).delta
          - loadPotential inst state (fun _ => none))) := by
  unfold loadPotential
  rw [← Finset.sum_sub_distrib]
  have : ∀ x, x ∈ range inst.num_machines →
      (match (setupLoadCost inst state sp).delta x with
        | some patch => patchLoadCost inst state x patch
        | none => 0)
      = ∑ r in range inst.num_resources,
          max 0 ((patchOrBase state (setupLoadCost inst state sp).delta x).excess r)
            * (inst.resource r).weight_load_cost
        - ∑ r in range inst.num_resources,
          max 0 ((patchOrBase state (fun _ => none) x).excess r)
            * (inst.resource r).weight_load_cost := by
    intro x _
    rw [← Finset.sum_sub_distrib]
    cases h : (setupLoadCost inst state sp).delta x with
    | none => simp [patchOrBase, h]
    | some q =>
      simp only [patchOrBase, h, patchLoadCost]
      apply Finset.sum_congr rfl
      intro r _
      ring
  rw [← Finset.sum_congr rfl this]
  rfl

theorem loadPotential_congr (inst : Instance) (state : ReAssignment) (D D1 : PatchMap)
    (h : ∀ x, x < inst.num_machines → ∀ r, r < inst.num_resources →
      (patchOrBase state D x).excess r = (patchOrBase state D1 x).excess r) :
    loadPotential inst state D = loadPotential inst state D1 := by
  unfold loadPotential
  apply Finset.sum_congr rfl
  intro x hx
  apply Finset.sum_congr rfl
  intro r hr
  rw [h x (mem_range.1 hx) r (mem_range.1 hr)]

theorem balancePotential_congr (inst : Instance) (state : ReAssignment) (D D1 : PatchMap)
    (h : ∀ x, x < inst.num_machines → ∀ b, b < inst.num_balances →
      (patchOrBase state D x).balance b = (patchOrBase state D1 x).balance b) :
    balancePotential inst state D = balancePotential inst state D1 := by
  unfold balancePotential
  apply Finset.sum_congr rfl
  intro x hx
  apply Finset.sum_congr rfl
  intro b hb
  rw [h x (mem_range.1 hx) b (mem_range.1 hb)]

theorem loadedSpace_patch (inst : Instance) (state : ReAssignment) (moved : List Nat) (x : Nat) :
    (∀ r, r < inst.num_resources →
      (patchOrBase state (loadedSpace inst state moved).delta x).excess r
        = (prePatch state (loadLoop inst state moved moved.length).1 x).excess r
          + state.excess x r)
    ∧ (patchOrBase state (loadedSpace inst state moved).delta x).transient
        = (prePatch state (loadLoop inst state moved moved.length).1 x).transient
    ∧ (patchOrBase state (loadedSpace inst state moved).delta x).balance
        = (prePatch state (loadLoop inst state moved moved.length).1 x).balance
    ∧ ((loadedSpace inst state moved).delta x = none
        ↔ (loadLoop inst state moved moved.length).1 x = none) :=
  setupLoadCost_patch inst state
    { emptySpace with delta := (loadLoop inst state moved moved.length).1 } x

theorem loadedSpace_base (inst : Instance) (state : ReAssignment) (moved : List Nat) :
    (loadedSpace inst state moved).base_total_cost
      = state.load_cost + (loadPotential inst state (loadedSpace inst state moved).delta
          - loadPotential inst state (fun _ => none)) := by
  have h := setupLoadCost_base inst state
    { emptySpace with delta := (loadLoop inst state moved moved.length).1 }
  have he : ({ emptySpace with delta := (loadLoop inst state moved moved.length).1 } :
      RescheduleSpace).base_total_cost = 0 := rfl
  rw [he, zero_add] at h
  exact h

theorem setupLoadConstraints_unfold (inst : Instance) (state : ReAssignment) (moved : List Nat) :
    setupLoadConstraints inst state moved emptySpace
      = { (balanceOuter inst state moved inst.num_balances
            (loadedSpace inst state moved, 0)).1 with
          base_total_cost :=
            (balanceOuter inst state moved inst.num_balances
              (loadedSpace inst state moved, 0)).1.base_total_cost
            + (state.balance_cost
              + (balanceOuter inst state moved inst.num_balances
                  (loadedSpace inst state moved, 0)).2)
            + ((state.process_moves + (loadLoop inst state moved moved.length).2.1)
                * inst.weight_process_move_cost
              + (state.machine_moves + (loadLoop inst state moved moved.length).2.2)
                * inst.weight_machine_move_cost)
          posted :=
            (balanceOuter inst state moved inst.num_balances
              (loadedSpace inst state moved, 0)).1.posted
            ++ [Constraint.totalCostLe (state.getCost inst
                - ((balanceOuter inst state moved inst.num_balances
                    (loadedSpace inst state moved, 0)).1.base_total_cost
                  + (state.balance_cost
                    + (balanceOuter inst state moved inst.num_balances
                        (loadedSpace inst state moved, 0)).2)
                  + ((state.process_moves + (loadLoop inst state moved moved.length).2.1)
                      * inst.weight_process_move_cost
                    + (state.machine_moves + (loadLoop inst state moved moved.length).2.2)
                      * inst.weight_machine_move_cost)))] } := rfl

/-- Facts about the space after `setupLoadConstraints`. -/
theorem setupLoadConstraints_spec (inst : Instance) (state : ReAssignment) (moved : List Nat)
    (hcur : ∀ i, i < moved.length → state.assignment (movedAt moved i) < inst.num_machines) :
    (∀ x, (setupLoadConstraints inst state moved emptySpace).delta x = none
        ↔ ∀ i, i < moved.length → state.assignment (movedAt moved i) ≠ x)
    ∧ (∀ x r, r < inst.num_resources →
        (patchOrBase state (setupLoadConstraints inst state moved emptySpace).delta x).excess r
          = state.excess x r - removedLoad inst state moved moved.length x r)
    ∧ (∀ x r, r < inst.transient_count →
        (patchOrBase state (setupLoadConstraints inst state moved emptySpace).delta x).transient r
          = state.transient x r - removedTransient inst state moved moved.length x r)
    ∧ (∀ x b, b < inst.num_balances →
        (patchOrBase state (setupLoadConstraints inst state moved emptySpace).delta x).balance b
          = state.balance x b - removedBalance inst state moved moved.length x b)
    ∧ (setupLoadConstraints inst state moved emptySpace).base_total_cost
        = state.load_cost
          + (loadPotential inst state (setupLoadConstraints inst state moved emptySpace).delta
            - loadPotential inst state (fun _ => none))
          + state.balance_cost
          + (balancePotential inst state (setupLoadConstraints inst state moved emptySpace).delta
            - balancePotential inst state (fun _ => none))
          + ((state.process_moves - baseProcessMoves inst state moved)
              * inst.weight_process_move_cost
            + (state.machine_moves - baseMachineMoves inst state moved)
              * inst.weight_machine_move_cost)
    ∧ (setupLoadConstraints inst state moved emptySpace).posted
        = [Constraint.totalCostLe (state.getCost inst
            - (setupLoadConstraints inst state moved emptySpace).base_total_cost)]
    ∧ (setupLoadConstraints inst state moved emptySpace).process_move_cost = fun _ => none := by
  have hlc := loadedSpace_patch inst state moved
  have hbase := loadedSpace_base inst state moved
  have hdom : ∀ i, i < moved.length → state.assignment (movedAt moved i) < inst.num_machines
      ∧ (loadedSpace inst state moved).delta (state.assignment (movedAt moved i)) ≠ none := by
    intro i hi
    refine ⟨hcur i hi, ?_⟩
    intro hc
    have h1 := ((hlc _).2.2.2).1 hc
    exact (loadLoop_none inst state moved moved.length _).1 h1 i hi rfl
  have hev := balanceOuter_evolves inst state moved (loadedSpace inst state moved, 0)
    inst.num_balances (Nat.le_refl _) hdom
  rw [setupLoadConstraints_unfold]
  refine ⟨?_, ?_, ?_, ?_, ?_, ?_, ?_⟩
  · intro x
    exact ((hev.none_iff x).trans (hlc x).2.2.2).trans (loadLoop_none inst state moved _ x)
  · intro x r hr
    show (patchOrBase state (balanceOuter inst state moved inst.num_balances _).1.delta x).excess r
      = _
    rw [hev.excess_eq x, (hlc x).1 r hr, loadLoop_excess inst state moved _ x r hr]
    ring
  · intro x r hr
    show (patchOrBase state (balanceOuter inst state moved inst.num_balances _).1.delta
      x).transient r = _
    rw [hev.transient_eq x, (hlc x).2.1]
    exact loadLoop_transient inst state moved _ x r hr
  · intro x b hb
    show (patchOrBase state (balanceOuter inst state moved inst.num_balances _).1.delta
      x).balance b = _
    rw [hev.balance_eq x b, (hlc x).2.2.1, loadLoop_balance, if_pos hb]
  · show (balanceOuter inst state moved inst.num_balances _).1.base_total_cost + _ + _ = _
    have hl : loadPotential inst state
        (balanceOuter inst state moved inst.num_balances
          (loadedSpace inst state moved, 0)).1.delta
        = loadPotential inst state (loadedSpace inst state moved).delta := by
      apply loadPotential_congr
      intro x _ r _
      rw [hev.excess_eq x]
    have hb0 : balancePotential inst state (loadedSpace inst state moved).delta
        = balancePotential inst state (fun _ => none) := by
      apply balancePotential_congr
      intro x _ b _
      rw [(hlc x).2.2.1, loadLoop_balance]
      rfl
    have hc : (balanceOuter inst state moved inst.num_balances
          (loadedSpace inst state moved, 0)).2
        = balancePotential inst state (balanceOuter inst state moved inst.num_balances
            (loadedSpace inst state moved, 0)).1.delta
          - balancePotential inst state (fun _ => none) := by
      have := hev.cost_eq
      simp only [sub_zero] at this
      rw [this, hb0]
    show (balanceOuter inst state moved inst.num_balances
        (loadedSpace inst state moved, 0)).1.base_total_cost
      + (state.balance_cost + (balanceOuter inst state moved inst.num_balances
        (loadedSpace inst state moved, 0)).2) + _ = _
    rw [hc, hev.base_eq, hbase, hl, loadLoop_process_move, loadLoop_machine_move]
    unfold baseProcessMoves baseMachineMoves
    ring
  · show (balanceOuter inst state moved inst.num_balances _).1.posted ++ _ = _
    rw [hev.posted_eq]
    rfl
  · show (balanceOuter inst state moved inst.num_balances _).1.process_move_cost = _
    rw [hev.pmc_eq]
    rfl

/-! ## The assignment propagator -/

theorem propagateLoad_prefix (inst : Instance) (p x : Nat) (patch : MachinePatch) (n : Nat) :
    ∀ q c, (List.range n).foldl (propagateLoadStep inst p x) (some (patch, 0)) = some (q, c) →
      (∀ r, q.excess r
          = if r < n then patch.excess r + (inst.process p).requirement r else patch.excess r)
      ∧ (∀ r, r < n →
          q.excess r ≤ (inst.machine x).capacity r - (inst.machine x).safety_capacity r)
      ∧ (∀ r, q.transient r
          = if r < n ∧ r < inst.transient_count ∧ (inst.process p).original_machine ≠ x
            then patch.transient r + (inst.process p).requirement r else patch.transient r)
      ∧ (∀ r, r < n → r < inst.transient_count → (inst.process p).original_machine ≠ x →
          q.transient r ≤ (inst.machine x).capacity r)
      ∧ q.balance = patch.balance
      ∧ c = ∑ r in range n,
          (max 0 (patch.excess r + (inst.process p).requirement r) - max 0 (patch.excess r))
            * (inst.resource r).weight_load_cost := by
  induction n with
  | zero =>
    intro q c h
    simp only [List.range_zero, List.foldl_nil, Option.some.injEq, Prod.mk.injEq] at h
    obtain ⟨h1, h2⟩ := h
    subst h1; subst h2
    simp
  | succ n ih =>
    intro q c h
    rw [foldl_range_succ] at h
    cases hf : (List.range n).foldl (propagateLoadStep inst p x) (some (patch, 0)) with
    | none =>
      rw [hf] at h
      simp [propagateLoadStep] at h
    | some qc =>
      obtain ⟨q0, c0⟩ := qc
      obtain ⟨e1, e2, e3, e4, e5, e6⟩ := ih q0 c0 hf
      rw [hf] at h
      unfold propagateLoadStep at h
      simp only at h
      have ex0 : q0.excess n = patch.excess n := by rw [e1 n]; simp
      have et0 : q0.transient n = patch.transient n := by rw [e3 n]; simp
      by_cases hcap : q0.excess n + (inst.process p).requirement n
          > (inst.machine x).capacity n - (inst.machine x).safety_capacity n
      · simp [Function.update_same, hcap] at h
      · by_cases htr : n < inst.transient_count ∧ (inst.process p).original_machine ≠ x
        · by_cases hov : q0.transient n + (inst.process p).requirement n
              > (inst.machine x).capacity n
          · simp [Function.update_same, hcap, htr, hov] at h
          · simp only [Function.update_same, hcap, htr, hov, if_false, and_self, if_true,
              Option.some.injEq, Prod.mk.injEq, not_false_eq_true, ne_eq] at h
            obtain ⟨h1, h2⟩ := h
            subst h1; subst h2
            refine ⟨?_, ?_, ?_, ?_, ?_, ?_⟩
            · intro r
              by_cases hr : r = n
              · subst hr; simp [ex0]
              · have : r < n + 1 ↔ r < n := by omega
                simp [Function.update_noteq hr, e1 r, this]
            · intro r hr
              by_cases hrn : r = n
              · subst hrn; simp only [Function.update_same]; exact not_lt.1 hcap
              · simp only [Function.update_noteq hrn]; exact e2 r (by omega)
            · intro r
              by_cases hr : r = n
              · subst hr; simp [et0, htr.1, htr.2]
              · have : r < n + 1 ↔ r < n := by omega
                simp [Function.update_noteq hr, e3 r, this]
            · intro r hr hrt ho
              by_cases hrn : r = n
              · subst hrn; simp only [Function.update_same]; exact not_lt.1 hov
              · simp only [Function.update_noteq hrn]; exact e4 r (by omega) hrt ho
            · exact e5
            · rw [Finset.sum_range_succ, ← e6, ex0]
        · simp only [Function.update_same, hcap, htr, if_false, Option.some.injEq,
            Prod.mk.injEq] at h
          obtain ⟨h1, h2⟩ := h
          subst h1; subst h2
          refine ⟨?_, ?_, ?_, ?_, ?_, ?_⟩
          · intro r
            by_cases hr : r = n
            · subst hr; simp [ex0]
            · have : r < n + 1 ↔ r < n := by omega
              simp [Function.update_noteq hr, e1 r, this]
          · intro r hr
            by_cases hrn : r = n
            · subst hrn; simp only [Function.update_same]; exact not_lt.1 hcap
            · simp only [Function.update_noteq hrn]; exact e2 r (by omega)
          · intro r
            by_cases hr : r = n
            · subst hr
              have h3 : ¬ (r < r + 1 ∧ r < inst.transient_count
                  ∧ (inst.process p).original_machine ≠ x) := fun hh => htr hh.2
              rw [if_neg h3]
              exact et0
            · have : r < n + 1 ↔ r < n := by omega
              simp [e3 r, this]
          · intro r hr hrt ho
            by_cases hrn : r = n
            · subst hrn; exact absurd ⟨hrt, ho⟩ htr
            · exact e4 r (by omega) hrt ho
          · exact e5
          · rw [Finset.sum_range_succ, ← e6, ex0]

theorem propagateBalance_prefix (inst : Instance) (p : Nat) (mn mx : Nat → Int)
    (patch : MachinePatch) (n : Nat) :
    ((List.range n).foldl (propagateBalanceStep inst p) (mn, mx, patch, 0)).2.2.1.excess
        = patch.excess
      ∧ ((List.range n).foldl (propagateBalanceStep inst p) (mn, mx, patch, 0)).2.2.1.transient
        = patch.transient
      ∧ (∀ b, ((List.range n).foldl (propagateBalanceStep inst p) (mn, mx, patch, 0)).2.2.1.balance b
          = if b < n then patch.balance b + processBalance inst p b else patch.balance b)
      ∧ ((List.range n).foldl (propagateBalanceStep inst p) (mn, mx, patch, 0)).2.2.2
        = ∑ b in range n,
            (max 0 (patch.balance b + processBalance inst p b) - max 0 (patch.balance b))
              * ((inst.balance b).weight_balance_cost : Int) := by
  induction n with
  | zero => simp
  | succ n ih =>
    obtain ⟨e1, e2, e3, e4⟩ := ih
    rw [foldl_range_succ]
    refine ⟨?_, ?_, ?_, ?_⟩
    · simp only [propagateBalanceStep]; exact e1
    · simp only [propagateBalanceStep]; exact e2
    · intro b
      simp only [propagateBalanceStep]
      by_cases hb : b = n
      · subst hb; simp [e3 b]
      · have : b < n + 1 ↔ b < n := by omega
        simp [Function.update_noteq hb, e3 b, this]
    · simp only [propagateBalanceStep, Function.update_same]
      rw [Finset.sum_range_succ, ← e4, e3 n]
      simp

theorem loadPotential_update (inst : Instance) (state : ReAssignment) (D : PatchMap)
    (x : Nat) (q : MachinePatch) (hx : x < inst.num_machines) :
    loadPotential inst state (Function.update D x (some q))
      = loadPotential inst state D
        + ∑ r in range inst.num_resources,
            (max 0 (q.excess r) - max 0 ((patchOrBase state D x).excess r))
              * (inst.resource r).weight_load_cost := by
  unfold loadPotential
  have h1 := sum_range_change
    (fun y => ∑ r in range inst.num_resources,
      max 0 ((patchOrBase state D y).excess r) * (inst.resource r).weight_load_cost)
    (fun y => ∑ r in range inst.num_resources,
      max 0 ((patchOrBase state (Function.update D x (some q)) y).excess r)
        * (inst.resource r).weight_load_cost)
    inst.num_machines x hx
    (by intro y hy; simp only [patchOrBase_update, if_neg hy])
  beta_reduce at h1
  rw [h1, ← Finset.sum_sub_distrib]
  simp only [patchOrBase_update, if_true]
  congr 1
  apply Finset.sum_congr rfl
  intro r _
  ring

theorem balancePotential_update_patch (inst : Instance) (state : ReAssignment) (D : PatchMap)
    (x : Nat) (q : MachinePatch) (hx : x < inst.num_machines) :
    balancePotential inst state (Function.update D x (some q))
      = balancePotential inst state D
        + ∑ b in range inst.num_balances,
            (max 0 (q.balance b) - max 0 ((patchOrBase state D x).balance b))
              * ((inst.balance b).weight_balance_cost : Int) := by
  unfold balancePotential
  have h1 := sum_range_change
    (fun y => ∑ b in range inst.num_balances,
      max 0 ((patchOrBase state D y).balance b) * ((inst.balance b).weight_balance_cost : Int))
    (fun y => ∑ b in range inst.num_balances,
      max 0 ((patchOrBase state (Function.update D x (some q)) y).balance b)
        * ((inst.balance b).weight_balance_cost : Int))
    inst.num_machines x hx
    (by intro y hy; simp only [patchOrBase_update, if_neg hy])
  beta_reduce at h1
  rw [h1, ← Finset.sum_sub_distrib]
  simp only [patchOrBase_update, if_true]
  congr 1
  apply Finset.sum_congr rfl
  intro r _
  ring

theorem propagate_spec (inst : Instance) (state : ReAssignment) (i p x : Nat)
    (sp sp1 : RescheduleSpace) (hx : x < inst.num_machines)
    (h : ProcessPropagator.propagate inst state i p x sp = some sp1) :
    Propagated inst state i p x sp sp1 := by
  unfold ProcessPropagator.propagate at h
  simp only at h
  cases hl : propagateLoad inst p x (patchOrBase state sp.delta x) with
  | none => rw [hl] at h; simp at h
  | some qc =>
    obtain ⟨q1, load⟩ := qc
    rw [hl] at h
    simp only at h
    obtain ⟨l1, l2, l3, l4, l5, l6⟩ :=
      propagateLoad_prefix inst p x (patchOrBase state sp.delta x) inst.num_resources q1 load hl
    obtain ⟨b1, b2, b3, b4⟩ := propagateBalance_prefix inst p sp.min_unassigned_balance
      sp.max_unassigned_balance q1 inst.num_balances
    by_cases hneg : load < 0
    · simp [hneg] at h
    · rw [if_neg hneg] at h
      split at h
      · rename_i hok
        simp only [Option.some.injEq] at h
        subst h
        have hE : ∀ y, patchOrBase state
            (Function.update sp.delta x (some (propagateBalance inst p sp q1).2.2.1)) y
            = if y = x then (propagateBalance inst p sp q1).2.2.1
              else patchOrBase state sp.delta y := fun y => patchOrBase_update _ _ _ _ _
        have hexc : ∀ r, r < inst.num_resources →
            (propagateBalance inst p sp q1).2.2.1.excess r
              = (patchOrBase state sp.delta x).excess r + (inst.process p).requirement r := by
          intro r hr
          show ((List.range inst.num_balances).foldl (propagateBalanceStep inst p)
            (sp.min_unassigned_balance, sp.max_unassigned_balance, q1, 0)).2.2.1.excess r = _
          rw [b1, l1 r, if_pos hr]
        have hbal : ∀ b, b < inst.num_balances →
            (propagateBalance inst p sp q1).2.2.1.balance b
              = (patchOrBase state sp.delta x).balance b + processBalance inst p b := by
          intro b hb
          show ((List.range inst.num_balances).foldl (propagateBalanceStep inst p)
            (sp.min_unassigned_balance, sp.max_unassigned_balance, q1, 0)).2.2.1.balance b = _
          rw [b3 b, if_pos hb, l5]
        have htra : ∀ r, (propagateBalance inst p sp q1).2.2.1.transient r = q1.transient r := by
          intro r
          show ((List.range inst.num_balances).foldl (propagateBalanceStep inst p)
            (sp.min_unassigned_balance, sp.max_unassigned_balance, q1, 0)).2.2.1.transient r = _
          rw [b2]
        refine ⟨?_, ?_, ?_, ?_, ?_, ?_, rfl, rfl⟩
        · intro y r hr
          show (patchOrBase state (Function.update sp.delta x _) y).excess r = _
          rw [hE]
          by_cases hy : y = x
          · subst hy; simp only [if_true]; exact hexc r hr
          · simp [hy]
        · intro y r hr
          show (patchOrBase state (Function.update sp.delta x _) y).transient r = _
          rw [hE]
          by_cases hy : y = x
          · subst hy
            simp only [if_true, htra, l3 r, hr, true_and]
            split_ifs <;> simp
          · simp [hy]
        · intro y b hb
          show (patchOrBase state (Function.update sp.delta x _) y).balance b = _
          rw [hE]
          by_cases hy : y = x
          · subst hy; simp only [if_true]; exact hbal b hb
          · simp [hy]
        · intro r hr
          show (patchOrBase state (Function.update sp.delta x _) x).excess r ≤ _
          rw [hE, if_pos rfl]
          have : (propagateBalance inst p sp q1).2.2.1.excess r = q1.excess r := by
            show ((List.range inst.num_balances).foldl (propagateBalanceStep inst p)
              (sp.min_unassigned_balance, sp.max_unassigned_balance, q1, 0)).2.2.1.excess r = _
            rw [b1]
          rw [this]
          exact l2 r hr
        · intro r hr hrt ho
          show (patchOrBase state (Function.update sp.delta x _) x).transient r ≤ _
          rw [hE, if_pos rfl, htra]
          exact l4 r hr hrt ho
        · have hc : load + (propagateBalance inst p sp q1).2.2.2 + moveCost inst p x
              = (loadPotential inst state
                  (Function.update sp.delta x (some (propagateBalance inst p sp q1).2.2.1))
                  - loadPotential inst state sp.delta)
                + (balancePotential inst state
                  (Function.update sp.delta x (some (propagateBalance inst p sp q1).2.2.1))
                  - balancePotential inst state sp.delta) + moveCost inst p x := by
            rw [loadPotential_update inst state sp.delta x _ hx,
              balancePotential_update_patch inst state sp.delta x _ hx]
            have e1 : load = ∑ r in range inst.num_resources,
                (max 0 ((propagateBalance inst p sp q1).2.2.1.excess r)
                  - max 0 ((patchOrBase state sp.delta x).excess r))
                  * (inst.resource r).weight_load_cost := by
              rw [l6]
              apply Finset.sum_congr rfl
              intro r hr
              rw [hexc r (mem_range.1 hr)]
            have e2 : (propagateBalance inst p sp q1).2.2.2 = ∑ b in range inst.num_balances,
                (max 0 ((propagateBalance inst p sp q1).2.2.1.balance b)
                  - max 0 ((patchOrBase state sp.delta x).balance b))
                  * ((inst.balance b).weight_balance_cost : Int) := by
              show ((List.range inst.num_balances).foldl (propagateBalanceStep inst p)
                (sp.min_unassigned_balance, sp.max_unassigned_balance, q1, 0)).2.2.2 = _
              rw [b4]
              apply Finset.sum_congr rfl
              intro b hb
              rw [hbal b (mem_range.1 hb), l5]
            rw [← e1, ← e2]
            ring
          exact congrArg (fun c => Function.update sp.process_move_cost i (some c)) hc
      · simp at h

/-- Effect of a successful run of the assignment propagators of the slots in
`order` on the effective patches, the fixed costs and the capacity bounds. -/
theorem runPropagators_spec (inst : Instance) (state : ReAssignment) (moved : List Nat)
    (val : Nat → Nat) (order : List Nat) :
    order.Nodup → (∀ i, i ∈ order → val i < inst.num_machines) →
    ∀ sp final, runPropagators inst state moved val order sp = some final →
      (∀ y r, r < inst.num_resources →
        (patchOrBase state final.delta y).excess r
          = (patchOrBase state sp.delta y).excess r
            + (order.map (fun i =>
                if val i = y then (inst.process (movedAt moved i)).requirement r else 0)).sum)
      ∧ (∀ y r, r < inst.num_resources → r < inst.transient_count →
        (patchOrBase state final.delta y).transient r
          = (patchOrBase state sp.delta y).transient r
            + (order.map (fun i =>
                if val i = y ∧ (inst.process (movedAt moved i)).original_machine ≠ y
                then (inst.process (movedAt moved i)).requirement r else 0)).sum)
      ∧ (∀ y b, b < inst.num_balances →
        (patchOrBase state final.delta y).balance b
          = (patchOrBase state sp.delta y).balance b
            + (order.map (fun i =>
                if val i = y then processBalance inst (movedAt moved i) b else 0)).sum)
      ∧ (order.map (fun i => (final.process_move_cost i).getD 0)).sum
          = (loadPotential inst state final.delta - loadPotential inst state sp.delta)
            + (balancePotential inst state final.delta - balancePotential inst state sp.delta)
            + (order.map (fun i => moveCost inst (movedAt moved i) (val i))).sum
      ∧ (∀ j, j ∉ order → final.process_move_cost j = sp.process_move_cost j)
      ∧ final.base_total_cost = sp.base_total_cost
      ∧ final.posted = sp.posted
      ∧ ((∀ y r, y < inst.num_machines → r < inst.num_resources →
            (patchOrBase state sp.delta y).excess r
              ≤ (inst.machine y).capacity r - (inst.machine y).safety_capacity r) →
          ∀ y r, y < inst.num_machines → r < inst.num_resources →
            (patchOrBase state final.delta y).excess r
              ≤ (inst.machine y).capacity r - (inst.machine y).safety_capacity r)
      ∧ ((∀ y r, y < inst.num_machines → r < inst.num_resources → r < inst.transient_count →
            (patchOrBase state sp.delta y).transient r ≤ (inst.machine y).capacity r) →
          ∀ y r, y < inst.num_machines → r < inst.num_resources → r < inst.transient_count →
            (patchOrBase state final.delta y).transient r ≤ (inst.machine y).capacity r) := by
  induction order with
  | nil =>
    intro _ _ sp final h
    simp only [runPropagators, Option.some.injEq] at h
    subst h
    simp
  | cons i rest ih =>
    intro hnd hval sp final h
    have hnd1 : rest.Nodup := (List.nodup_cons.1 hnd).2
    have hi : i ∉ rest := (List.nodup_cons.1 hnd).1
    cases hp : ProcessPropagator.propagate inst state i (movedAt moved i) (val i) sp with
    | none => simp [runPropagators, hp] at h
    | some sp1 =>
      simp only [runPropagators, hp] at h
      have hP := propagate_spec inst state i (movedAt moved i) (val i) sp sp1
        (hval i (List.mem_cons_self _ _)) hp
      obtain ⟨r1, r2, r3, r4, r5, r6, r7, r8, r9⟩ :=
        ih hnd1 (fun j hj => hval j (List.mem_cons_of_mem _ hj)) sp1 final h
      refine ⟨?_, ?_, ?_, ?_, ?_, ?_, ?_, ?_, ?_⟩
      · intro y r hr
        rw [r1 y r hr, hP.excess y r hr, List.map_cons, List.sum_cons]
        have : (y = val i) ↔ (val i = y) := eq_comm
        simp only [this]
        ring
      · intro y r hr hrt
        rw [r2 y r hr hrt, hP.transient y r hr, List.map_cons, List.sum_cons]
        by_cases hy : val i = y
        · subst hy; simp [hrt]; ring
        · have hy1 : ¬ y = val i := fun e => hy e.symm
          simp [hy, hy1]
      · intro y b hb
        rw [r3 y b hb, hP.balance y b hb, List.map_cons, List.sum_cons]
        have : (y = val i) ↔ (val i = y) := eq_comm
        simp only [this]
        ring
      · rw [List.map_cons, List.sum_cons, List.map_cons, List.sum_cons, r4,
          r5 i hi, hP.cost]
        simp only [Function.update_same, Option.getD_some]
        ring
      · intro j hj
        have hj1 : j ∉ rest := fun hm => hj (List.mem_cons_of_mem _ hm)
        have hj2 : j ≠ i := fun e => hj (e ▸ List.mem_cons_self _ _)
        rw [r5 j hj1, hP.cost, Function.update_noteq hj2]
      · rw [r6, hP.base_eq]
      · rw [r7, hP.posted_eq]
      · intro h0
        apply r8
        intro y r hy0 hr
        by_cases hy : y = val i
        · subst hy; exact hP.cap_ok r hr
        · rw [hP.excess y r hr, if_neg hy, add_zero]; exact h0 y r hy0 hr
      · intro h0
        apply r9
        intro y r hy0 hr hrt
        by_cases hy : y = val i ∧ (inst.process (movedAt moved i)).original_machine ≠ val i
        · obtain ⟨hy1, hy2⟩ := hy
          subst hy1; exact hP.trans_ok r hr hrt hy2
        · rw [hP.transient y r hr]
          have : ¬ (y = val i ∧ r < inst.transient_count
              ∧ (inst.process (movedAt moved i)).original_machine ≠ val i) :=
            fun hh => hy ⟨hh.1, hh.2.2⟩
          rw [if_neg this, add_zero]; exact h0 y r hy0 hr hrt

/-! ## The result state -/

theorem resultMoves_succ (inst : Instance) (state : ReAssignment) (moved : List Nat)
    (val : Nat → Nat) (n : Nat) :
    resultMoves inst state moved val (n + 1)
      = getResultStateStep inst state moved val (resultMoves inst state moved val n) n := by
  unfold resultMoves
  exact foldl_range_succ _ _ n

theorem getResultStateStep_eq (inst : Instance) (state : ReAssignment) (moved : List Nat)
    (val : Nat → Nat) (res : ReAssignment) (n : Nat) :
    (getResultStateStep inst state moved val res n).assignment
        = Function.update res.assignment (movedAt moved n) (val n)
      ∧ (getResultStateStep inst state moved val res n).process_moves
        = res.process_moves + processMoveChange inst state moved val n
      ∧ (getResultStateStep inst state moved val res n).machine_moves
        = res.machine_moves + machineMoveChange inst state moved val n
      ∧ (getResultStateStep inst state moved val res n).excess = res.excess
      ∧ (getResultStateStep inst state moved val res n).transient = res.transient
      ∧ (getResultStateStep inst state moved val res n).balance = res.balance
      ∧ (getResultStateStep inst state moved val res n).load_cost = res.load_cost
      ∧ (getResultStateStep inst state moved val res n).balance_cost = res.balance_cost := by
  unfold getResultStateStep processMoveChange machineMoveChange
  simp only [Function.update_same]
  split_ifs <;> refine ⟨rfl, ?_, ?_, rfl, rfl, rfl, rfl, rfl⟩ <;>
    first
      | rfl
      | (simp only [Function.update_same]; ring)

theorem resultMoves_spec (inst : Instance) (state : ReAssignment) (moved : List Nat)
    (val : Nat → Nat) (n : Nat) :
    (resultMoves inst state moved val n).process_moves
        = state.process_moves + ∑ i in range n, processMoveChange inst state moved val i
      ∧ (resultMoves inst state moved val n).machine_moves
        = state.machine_moves + ∑ i in range n, machineMoveChange inst state moved val i
      ∧ (resultMoves inst state moved val n).excess = state.excess
      ∧ (resultMoves inst state moved val n).transient = state.transient
      ∧ (resultMoves inst state moved val n).balance = state.balance
      ∧ (resultMoves inst state moved val n).load_cost = state.load_cost
      ∧ (resultMoves inst state moved val n).balance_cost = state.balance_cost := by
  induction n with
  | zero => simp [resultMoves]
  | succ n ih =>
    obtain ⟨i1, i2, i3, i4, i5, i6, i7⟩ := ih
    obtain ⟨_, e2, e3, e4, e5, e6, e7, e8⟩ := getResultStateStep_eq inst state moved val
      (resultMoves inst state moved val n) n
    rw [resultMoves_succ]
    refine ⟨?_, ?_, ?_, ?_, ?_, ?_, ?_⟩
    · rw [e2, i1, Finset.sum_range_succ]; ring
    · rw [e3, i2, Finset.sum_range_succ]; ring
    · rw [e4, i3]
    · rw [e5, i4]
    · rw [e6, i5]
    · rw [e7, i6]
    · rw [e8, i7]

theorem resultMoves_assignment_succ (inst : Instance) (state : ReAssignment) (moved : List Nat)
    (val : Nat → Nat) (n : Nat) :
    (resultMoves inst state moved val (n + 1)).assignment
      = Function.update (resultMoves inst state moved val n).assignment
          (movedAt moved n) (val n) := by
  rw [resultMoves_succ]
  exact (getResultStateStep_eq inst state moved val _ n).1

theorem resultMoves_assignment_other (inst : Instance) (state : ReAssignment)
    (moved : List Nat) (val : Nat → Nat) (n p : Nat)
    (hp : ∀ i, i < n → movedAt moved i ≠ p) :
    (resultMoves inst state moved val n).assignment p = state.assignment p := by
  induction n with
  | zero => rfl
  | succ n ih =>
    rw [resultMoves_assignment_succ,
      Function.update_noteq (fun e => hp n (Nat.lt_succ_self n) e.symm)]
    exact ih (fun i hi => hp i (Nat.lt_succ_of_lt hi))

theorem resultMoves_assignment_slot (inst : Instance) (state : ReAssignment)
    (moved : List Nat) (val : Nat → Nat) (n i : Nat) (hi : i < n)
    (hinj : ∀ a b, a < n → b < n → movedAt moved a = movedAt moved b → a = b) :
    (resultMoves inst state moved val n).assignment (movedAt moved i) = val i := by
  induction n with
  | zero => exact absurd hi (Nat.not_lt_zero _)
  | succ n ih =>
    rw [resultMoves_assignment_succ]
    by_cases h : i = n
    · subst h; simp
    · have hlt : i < n := by omega
      have hne : movedAt moved i ≠ movedAt moved n := by
        intro e
        exact h (hinj i n hi (Nat.lt_succ_self n) e)
      rw [Function.update_noteq hne]
      exact ih hlt (fun a b ha hb e => hinj a b (Nat.lt_succ_of_lt ha) (Nat.lt_succ_of_lt hb) e)

theorem resultPatches_succ (inst : Instance) (D : PatchMap) (result : ReAssignment) (n : Nat) :
    resultPatches inst D result (n + 1)
      = applyPatchStep inst D (resultPatches inst D result n) n := by
  unfold resultPatches
  exact foldl_range_succ _ _ n

theorem resultPatches_spec (inst : Instance) (state : ReAssignment) (D : PatchMap)
    (result : ReAssignment) (hE : result.excess = state.excess)
    (hT : result.transient = state.transient) (hB : result.balance = state.balance) (n : Nat) :
    (∀ y, (resultPatches inst D result n).excess y
        = if y < n then (patchOrBase state D y).excess else state.excess y)
      ∧ (∀ y, (resultPatches inst D result n).transient y
        = if y < n then (patchOrBase state D y).transient else state.transient y)
      ∧ (∀ y, (resultPatches inst D result n).balance y
        = if y < n then (patchOrBase state D y).balance else state.balance y)
      ∧ (resultPatches inst D result n).load_cost
        = result.load_cost + ∑ y in range n, ∑ r in range inst.num_resources,
            (max 0 ((patchOrBase state D y).excess r) - max 0 (state.excess y r))
              * (inst.resource r).weight_load_cost
      ∧ (resultPatches inst D result n).balance_cost
        = result.balance_cost + ∑ y in range n, ∑ b in range inst.num_balances,
            (max 0 ((patchOrBase state D y).balance b) - max 0 (state.balance y b))
              * ((inst.balance b).weight_balance_cost : Int)
      ∧ (resultPatches inst D result n).assignment = result.assignment
      ∧ (resultPatches inst D result n).process_moves = result.process_moves
      ∧ (resultPatches inst D result n).machine_moves = result.machine_moves := by
  induction n with
  | zero => simp [resultPatches, hE, hT, hB]
  | succ n ih =>
    obtain ⟨i1, i2, i3, i4, i5, i6, i7, i8⟩ := ih
    rw [resultPatches_succ]
    have hen : (resultPatches inst D result n).excess n = state.excess n := by
      rw [i1 n]; simp
    have hbn : (resultPatches inst D result n).balance n = state.balance n := by
      rw [i3 n]; simp
    unfold applyPatchStep
    cases hd : D n with
    | none =>
      have hpb : patchOrBase state D n
          = { excess := state.excess n, transient := state.transient n,
              balance := state.balance n } := by
        simp [patchOrBase, hd]
      simp only
      refine ⟨?_, ?_, ?_, ?_, ?_, i6, i7, i8⟩
      · intro y
        by_cases hy : y = n
        · subst hy; rw [i1 y]; simp [hpb]
        · have : y < n + 1 ↔ y < n := by omega
          rw [i1 y]; simp [this]
      · intro y
        by_cases hy : y = n
        · subst hy; rw [i2 y]; simp [hpb]
        · have : y < n + 1 ↔ y < n := by omega
          rw [i2 y]; simp [this]
      · intro y
        by_cases hy : y = n
        · subst hy; rw [i3 y]; simp [hpb]
        · have : y < n + 1 ↔ y < n := by omega
          rw [i3 y]; simp [this]
      · rw [i4, Finset.sum_range_succ, hpb]; simp
      · rw [i5, Finset.sum_range_succ, hpb]; simp
    | some patch =>
      have hpb : patchOrBase state D n = patch := by simp [patchOrBase, hd]
      simp only
      refine ⟨?_, ?_, ?_, ?_, ?_, i6, i7, i8⟩
      · intro y
        by_cases hy : y = n
        · subst hy; simp [hpb]
        · have : y < n + 1 ↔ y < n := by omega
          rw [Function.update_noteq hy, i1 y]; simp [this]
      · intro y
        by_cases hy : y = n
        · subst hy; simp [hpb]
        · have : y < n + 1 ↔ y < n := by omega
          rw [Function.update_noteq hy, i2 y]; simp [this]
      · intro y
        by_cases hy : y = n
        · subst hy; simp [hpb]
        · have : y < n + 1 ↔ y < n := by omega
          rw [Function.update_noteq hy, i3 y]; simp [this]
      · rw [i4, Finset.sum_range_succ, hpb, hen]; ring
      · rw [i5, Finset.sum_range_succ, hpb, hbn]; ring

/-! ## Solved spaces -/

theorem construct_delta (inst : Instance) (state : ReAssignment) (moved : List Nat) :
    (RescheduleSpace.construct inst state moved).delta
      = (setupLoadConstraints inst state moved emptySpace).delta := rfl

theorem construct_base (inst : Instance) (state : ReAssignment) (moved : List Nat) :
    (RescheduleSpace.construct inst state moved).base_total_cost
      = (setupLoadConstraints inst state moved emptySpace).base_total_cost := rfl

theorem construct_pmc (inst : Instance) (state : ReAssignment) (moved : List Nat) :
    (RescheduleSpace.construct inst state moved).process_move_cost
      = (setupLoadConstraints inst state moved emptySpace).process_move_cost := rfl

theorem construct_posted (inst : Instance) (state : ReAssignment) (moved : List Nat) :
    (RescheduleSpace.construct inst state moved).posted
      = (setupLoadConstraints inst state moved emptySpace).posted
        ++ (setupConflictConstraint inst state moved emptySpace).posted
        ++ (setupSpreadConstraint inst state moved emptySpace).posted
        ++ (setupDependencyConstraint inst state moved emptySpace).posted
        ++ [Constraint.linearEq moved.length] := by
  simp [RescheduleSpace.construct, setupObjectiveFunction, setupDependencyConstraint,
    setupSpreadConstraint, setupConflictConstraint, emptySpace]

/-- Effective patches, accounting and bounds of a solved space. -/
theorem solved_facts (inst : Instance) (state : ReAssignment) (moved : List Nat)
    (val : Nat → Nat) (order : List Nat) (final : RescheduleSpace) (total : Int)
    (hs : Solved inst state moved val order final total)
    (hcur : ∀ i, i < moved.length → state.assignment (movedAt moved i) < inst.num_machines) :
    (∀ y r, r < inst.num_resources →
        (patchOrBase state final.delta y).excess r
          = state.excess y r - removedLoad inst state moved moved.length y r
            + addedLoad inst moved val moved.length y r)
    ∧ (∀ y r, r < inst.num_resources → r < inst.transient_count →
        (patchOrBase state final.delta y).transient r
          = state.transient y r - removedTransient inst state moved moved.length y r
            + addedTransient inst moved val moved.length y r)
    ∧ (∀ y b, b < inst.num_balances →
        (patchOrBase state final.delta y).balance b
          = state.balance y b - removedBalance inst state moved moved.length y b
            + addedBalance inst moved val moved.length y b)
    ∧ final.base_total_cost + total
        = state.load_cost
          + (loadPotential inst state final.delta - loadPotential inst state (fun _ => none))
          + state.balance_cost
          + (balancePotential inst state final.delta
            - balancePotential inst state (fun _ => none))
          + ((state.process_moves - baseProcessMoves inst state moved)
              * inst.weight_process_move_cost
            + (state.machine_moves - baseMachineMoves inst state moved)
              * inst.weight_machine_move_cost)
          + ∑ i in range moved.length, moveCost inst (movedAt moved i) (val i)
    ∧ total < state.getCost inst - final.base_total_cost := by
  obtain ⟨s1, s2, s3, s4, s5, s6, s7⟩ := setupLoadConstraints_spec inst state moved hcur
  have hnd : order.Nodup := hs.order_perm.nodup_iff.2 (List.nodup_range _)
  have hval : ∀ i, i ∈ order → val i < inst.num_machines := by
    intro i hi
    exact hs.val_lt i (List.mem_range.1 (hs.order_perm.mem_iff.1 hi))
  obtain ⟨r1, r2, r3, r4, r5, r6, r7, _, _⟩ := runPropagators_spec inst state moved val order
    hnd hval _ final hs.run_ok
  rw [construct_delta] at r1 r2 r3 r4
  rw [construct_base] at r6
  rw [construct_posted, s6] at r7
  have hlin : total = ∑ i in range moved.length, (final.process_move_cost i).getD 0 := by
    have := hs.posted_hold (Constraint.linearEq moved.length) (by rw [r7]; simp)
    exact this
  have hlim : total < state.getCost inst - final.base_total_cost := by
    have := hs.posted_hold (Constraint.totalCostLe (state.getCost inst
      - (setupLoadConstraints inst state moved emptySpace).base_total_cost))
      (by rw [r7]; simp)
    rw [r6]
    exact this
  refine ⟨?_, ?_, ?_, ?_, hlim⟩
  · intro y r hr
    rw [r1 y r hr, s2 y r hr, sum_list_perm_range _ order _ hs.order_perm]
    rfl
  · intro y r hr hrt
    rw [r2 y r hr hrt, s3 y r hrt, sum_list_perm_range _ order _ hs.order_perm]
    rfl
  · intro y b hb
    rw [r3 y b hb, s4 y b hb, sum_list_perm_range _ order _ hs.order_perm]
    rfl
  · rw [sum_list_perm_range _ order _ hs.order_perm,
      sum_list_perm_range _ order _ hs.order_perm] at r4
    rw [hlin, r4, r6, s5]
    ring

/-- Fields of the result state in terms of the final patch map. -/
theorem getResultState_spec (inst : Instance) (state : ReAssignment) (moved : List Nat)
    (val : Nat → Nat) (final : RescheduleSpace) :
    (∀ y, y < inst.num_machines →
        (getResultState inst state moved val final).excess y
          = (patchOrBase state final.delta y).excess)
    ∧ (∀ y, y < inst.num_machines →
        (getResultState inst state moved val final).transient y
          = (patchOrBase state final.delta y).transient)
    ∧ (∀ y, y < inst.num_machines →
        (getResultState inst state moved val final).balance y
          = (patchOrBase state final.delta y).balance)
    ∧ (getResultState inst state moved val final).load_cost
        = state.load_cost
          + (loadPotential inst state final.delta - loadPotential inst state (fun _ => none))
    ∧ (getResultState inst state moved val final).balance_cost
        = state.balance_cost
          + (balancePotential inst state final.delta
            - balancePotential inst state (fun _ => none))
    ∧ (getResultState inst state moved val final).assignment
        = (resultMoves inst state moved val moved.length).assignment
    ∧ (getResultState inst state moved val final).process_moves
        = state.process_moves
          + ∑ i in range moved.length, processMoveChange inst state moved val i
    ∧ (getResultState inst state moved val final).machine_moves
        = state.machine_moves
          + ∑ i in range moved.length, machineMoveChange inst state moved val i := by
  obtain ⟨m1, m2, m3, m4, m5, m6, m7⟩ := resultMoves_spec inst state moved val moved.length
  obtain ⟨p1, p2, p3, p4, p5, p6, p7, p8⟩ := resultPatches_spec inst state final.delta
    (resultMoves inst state moved val moved.length) m3 m4 m5 inst.num_machines
  have hdef : getResultState inst state moved val final
      = resultPatches inst final.delta (resultMoves inst state moved val moved.length)
          inst.num_machines := rfl
  rw [hdef]
  refine ⟨?_, ?_, ?_, ?_, ?_, p6, ?_, ?_⟩
  · intro y hy; rw [p1 y, if_pos hy]
  · intro y hy; rw [p2 y, if_pos hy]
  · intro y hy; rw [p3 y, if_pos hy]
  · rw [p4, m6]
    unfold loadPotential
    rw [← Finset.sum_sub_distrib]
    congr 1
    apply Finset.sum_congr rfl
    intro y _
    rw [← Finset.sum_sub_distrib]
    apply Finset.sum_congr rfl
    intro r _
    simp only [patchOrBase]
    ring
  · rw [p5, m7]
    unfold balancePotential
    rw [← Finset.sum_sub_distrib]
    congr 1
    apply Finset.sum_congr rfl
    intro y _
    rw [← Finset.sum_sub_distrib]
    apply Finset.sum_congr rfl
    intro r _
    simp only [patchOrBase]
    ring
  · rw [p7, m1]
  · rw [p8, m2]

theorem movedAt_inj (moved : List Nat) (hnd : moved.Nodup) (a b : Nat)
    (ha : a < moved.length) (hb : b < moved.length)
    (h : movedAt moved a = movedAt moved b) : a = b := by
  unfold movedAt at h
  rw [List.getD_eq_getElem _ _ ha, List.getD_eq_getElem _ _ hb] at h
  exact (hnd.getElem_inj_iff).1 h

theorem movedAt_mem (moved : List Nat) (i : Nat) (hi : i < moved.length) :
    movedAt moved i ∈ moved := by
  unfold movedAt
  rw [List.getD_eq_getElem _ _ hi]
  exact List.getElem_mem hi

theorem mem_movedAt (moved : List Nat) (p : Nat) (hp : p ∈ moved) :
    ∃ i, i < moved.length ∧ movedAt moved i = p := by
  obtain ⟨i, hi, e⟩ := List.getElem_of_mem hp
  refine ⟨i, hi, ?_⟩
  unfold movedAt
  rw [List.getD_eq_getElem _ _ hi]
  exact e

/-- Any sum over the processes of a quantity that depends on the machine of the
process changes, from the baseline to the result assignment, by the values of
the moved processes. -/
theorem assignment_sum (inst : Instance) (state : ReAssignment) (moved : List Nat)
    (val : Nat → Nat) (hnd : moved.Nodup) (hmv : ∀ p, p ∈ moved → p < inst.num_processes)
    (g : Nat → Nat → Int) (n : Nat) (hn : n ≤ moved.length) :
    ∑ p in range inst.num_processes,
        g ((resultMoves inst state moved val n).assignment p) p
      = ∑ p in range inst.num_processes, g (state.assignment p) p
        - ∑ i in range n, g (state.assignment (movedAt moved i)) (movedAt moved i)
        + ∑ i in range n, g (val i) (movedAt moved i) := by
  induction n with
  | zero => simp [resultMoves]
  | succ n ih =>
    have hlt : n < moved.length := hn
    have ih1 := ih (Nat.le_of_lt hlt)
    have hold : (resultMoves inst state moved val n).assignment (movedAt moved n)
        = state.assignment (movedAt moved n) := by
      apply resultMoves_assignment_other
      intro i hi e
      have := movedAt_inj moved hnd i n (by omega) hlt e
      omega
    have hch := sum_range_change
      (fun p => g ((resultMoves inst state moved val n).assignment p) p)
      (fun p => g ((resultMoves inst state moved val (n + 1)).assignment p) p)
      inst.num_processes (movedAt moved n) (hmv _ (movedAt_mem moved n hlt))
      (by
        intro y hy
        simp only [resultMoves_assignment_succ, Function.update_noteq hy])
    beta_reduce at hch
    rw [hch, ih1, Finset.sum_range_succ, Finset.sum_range_succ, resultMoves_assignment_succ,
      Function.update_same, hold]
    ring

theorem machineLoad_result (inst : Instance) (state : ReAssignment) (moved : List Nat)
    (val : Nat → Nat) (final : RescheduleSpace) (hnd : moved.Nodup)
    (hmv : ∀ p, p ∈ moved → p < inst.num_processes) (x r : Nat) :
    machineLoad inst (getResultState inst state moved val final).assignment x r
      = machineLoad inst state.assignment x r
        - removedLoad inst state moved moved.length x r
        + addedLoad inst moved val moved.length x r := by
  have h := assignment_sum inst state moved val hnd hmv
    (fun m p => if m = x then (inst.process p).requirement r else 0) moved.length
    (Nat.le_refl _)
  rw [(getResultState_spec inst state moved val final).2.2.2.2.2.1]
  exact h

theorem transientLoad_result (inst : Instance) (state : ReAssignment) (moved : List Nat)
    (val : Nat → Nat) (final : RescheduleSpace) (hnd : moved.Nodup)
    (hmv : ∀ p, p ∈ moved → p < inst.num_processes) (x r : Nat) :
    transientLoad inst (getResultState inst state moved val final).assignment x r
      = transientLoad inst state.assignment x r
        - removedTransient inst state moved moved.length x r
        + addedTransient inst moved val moved.length x r := by
  have h := assignment_sum inst state moved val hnd hmv
    (fun m p => if m = x ∨ (inst.process p).original_machine = x
      then (inst.process p).requirement r else 0) moved.length (Nat.le_refl _)
  rw [(getResultState_spec inst state moved val final).2.2.2.2.2.1]
  unfold transientLoad
  beta_reduce at h
  rw [h]
  unfold removedTransient addedTransient
  have e : ∀ i,
      (if val i = x ∨ (inst.process (movedAt moved i)).original_machine = x
        then (inst.process (movedAt moved i)).requirement r else 0)
      - (if state.assignment (movedAt moved i) = x
          ∨ (inst.process (movedAt moved i)).original_machine = x
        then (inst.process (movedAt moved i)).requirement r else 0)
      = (if val i = x ∧ (inst.process (movedAt moved i)).original_machine ≠ x
        then (inst.process (movedAt moved i)).requirement r else 0)
      - (if state.assignment (movedAt moved i) = x
          ∧ (inst.process (movedAt moved i)).original_machine ≠ x
        then (inst.process (movedAt moved i)).requirement r else 0) := by
    intro i
    by_cases ho : (inst.process (movedAt moved i)).original_machine = x
    · simp [ho]
    · simp [ho]
  have e2 := Finset.sum_congr (rfl : range moved.length = range moved.length)
    (fun i _ => e i)
  rw [Finset.sum_sub_distrib, Finset.sum_sub_distrib] at e2
  linarith

/-! ## Cost accounting of the result state -/

theorem cur_lt (inst : Instance) (state : ReAssignment) (moved : List Nat)
    (hplaced : ∀ p, p < inst.num_processes → state.assignment p < inst.num_machines)
    (hmv : ∀ p, p ∈ moved → p < inst.num_processes) :
    ∀ i, i < moved.length → state.assignment (movedAt moved i) < inst.num_machines :=
  fun i hi => hplaced _ (hmv _ (movedAt_mem moved i hi))

/-- Bounds that the capacity checks of the propagators keep on the effective
patches of a solved space. -/
theorem solved_bounds (inst : Instance) (state : ReAssignment) (moved : List Nat)
    (val : Nat → Nat) (order : List Nat) (final : RescheduleSpace) (total : Int)
    (hs : Solved inst state moved val order final total)
    (hcur : ∀ i, i < moved.length → state.assignment (movedAt moved i) < inst.num_machines) :
    ((∀ y r, y < inst.num_machines → r < inst.num_resources →
        state.excess y r - removedLoad inst state moved moved.length y r
          ≤ (inst.machine y).capacity r - (inst.machine y).safety_capacity r) →
      ∀ y r, y < inst.num_machines → r < inst.num_resources →
        (patchOrBase state final.delta y).excess r
          ≤ (inst.machine y).capacity r - (inst.machine y).safety_capacity r)
    ∧ ((∀ y r, y < inst.num_machines → r < inst.num_resources → r < inst.transient_count →
        state.transient y r - removedTransient inst state moved moved.length y r
          ≤ (inst.machine y).capacity r) →
      ∀ y r, y < inst.num_machines → r < inst.num_resources → r < inst.transient_count →
        (patchOrBase state final.delta y).transient r ≤ (inst.machine y).capacity r) := by
  obtain ⟨_, s2, s3, _, _, _, _⟩ := setupLoadConstraints_spec inst state moved hcur
  have hnd : order.Nodup := hs.order_perm.nodup_iff.2 (List.nodup_range _)
  have hval : ∀ i, i ∈ order → val i < inst.num_machines := by
    intro i hi
    exact hs.val_lt i (List.mem_range.1 (hs.order_perm.mem_iff.1 hi))
  obtain ⟨_, _, _, _, _, _, _, r8, r9⟩ := runPropagators_spec inst state moved val order
    hnd hval _ final hs.run_ok
  rw [construct_delta] at r8 r9
  constructor
  · intro h0
    apply r8
    intro y r hy hr
    rw [s2 y r hr]
    exact h0 y r hy hr
  · intro h0
    apply r9
    intro y r hy hr hrt
    rw [s3 y r hrt]
    exact h0 y r hy hr hrt

theorem removedLoad_nonneg (inst : Instance) (state : ReAssignment) (moved : List Nat)
    (hmv : ∀ p, p ∈ moved → p < inst.num_processes) (x r : Nat)
    (hreq : ∀ p, p < inst.num_processes → 0 ≤ (inst.process p).requirement r) :
    0 ≤ removedLoad inst state moved moved.length x r := by
  unfold removedLoad
  apply Finset.sum_nonneg
  intro i hi
  split_ifs
  · exact hreq _ (hmv _ (movedAt_mem moved i (mem_range.1 hi)))
  · exact le_refl _

theorem removedTransient_nonneg (inst : Instance) (state : ReAssignment) (moved : List Nat)
    (hmv : ∀ p, p ∈ moved → p < inst.num_processes) (x r : Nat)
    (hreq : ∀ p, p < inst.num_processes → 0 ≤ (inst.process p).requirement r) :
    0 ≤ removedTransient inst state moved moved.length x r := by
  unfold removedTransient
  apply Finset.sum_nonneg
  intro i hi
  split_ifs
  · exact hreq _ (hmv _ (movedAt_mem moved i (mem_range.1 hi)))
  · exact le_refl _

/-- C3: if the baseline state (its excess cache agreeing with the assignment)
satisfies the capacity constraint and all requirements are non-negative, then
for every solved Reschedule Space over pairwise distinct moved processes the
result state satisfies, for every machine `m` and resource `r`,
`sum{req[p][r] | assignment[p] = m} <= capacity[m][r]`. -/
theorem C3_capacity (inst : Instance) (state : ReAssignment) (moved : List Nat)
    (val : Nat → Nat) (order : List Nat) (final : RescheduleSpace) (total : Int)
    (hs : Solved inst state moved val order final total)
    (hplaced : ∀ p, p < inst.num_processes → state.assignment p < inst.num_machines)
    (hnd : moved.Nodup) (hmv : ∀ p, p ∈ moved → p < inst.num_processes)
    (hexc : ∀ x, x < inst.num_machines → ∀ r, r < inst.num_resources →
      state.excess x r
        = machineLoad inst state.assignment x r - (inst.machine x).safety_capacity r)
    (hcap : ∀ x, x < inst.num_machines → ∀ r, r < inst.num_resources →
      machineLoad inst state.assignment x r ≤ (inst.machine x).capacity r)
    (hreq : ∀ p, p < inst.num_processes → ∀ r, r < inst.num_resources →
      0 ≤ (inst.process p).requirement r) :
    ∀ x, x < inst.num_machines → ∀ r, r < inst.num_resources →
      machineLoad inst (getResultState inst state moved val final).assignment x r
        ≤ (inst.machine x).capacity r := by
  intro x hx r hr
  have hcur := cur_lt inst state moved hplaced hmv
  have hb := (solved_bounds inst state moved val order final total hs hcur).1
  have h0 : ∀ y r, y < inst.num_machines → r < inst.num_resources →
      state.excess y r - removedLoad inst state moved moved.length y r
        ≤ (inst.machine y).capacity r - (inst.machine y).safety_capacity r := by
    intro y r hy hr
    have := removedLoad_nonneg inst state moved hmv y r (fun p hp => hreq p hp r hr)
    have := hexc y hy r hr
    have := hcap y hy r hr
    linarith
  have h1 := hb h0 x r hx hr
  have h2 := (solved_facts inst state moved val order final total hs hcur).1 x r hr
  rw [machineLoad_result inst state moved val final hnd hmv]
  have := hexc x hx r hr
  linarith

/-- C3 (witness): the one-process instance, the process moving to machine 1. -/
theorem C3_capacity_witness :
    Solved (exInstance 1 0) exState [0] (fun _ => 1) [0] (exFinal 1 0 1) 1
      ∧ ∀ x, x < (exInstance 1 0).num_machines → ∀ r, r < (exInstance 1 0).num_resources →
        machineLoad (exInstance 1 0)
          (getResultState (exInstance 1 0) exState [0] (fun _ => 1) (exFinal 1 0 1)).assignment
          x r ≤ ((exInstance 1 0).machine x).capacity r :=
  have hs : Solved (exInstance 1 0) exState [0] (fun _ => 1) [0] (exFinal 1 0 1) 1 :=
    ⟨by decide, by decide, rfl, by decide⟩
  ⟨hs, C3_capacity (exInstance 1 0) exState [0] (fun _ => 1) [0] (exFinal 1 0 1) 1 hs
    (by decide) (by decide) (by decide) (by decide) (by decide) (by decide)⟩

/-- C4: if the baseline state (its transient cache agreeing with the assignment)
satisfies the transient constraint and all requirements are non-negative, then
for every solved Reschedule Space over pairwise distinct moved processes the
result state satisfies, for every machine `m` and transient resource `r`,
`sum{req[p][r] | p is on m in the result or original_machine[p] = m}
<= capacity[m][r]`. -/
theorem C4_transient (inst : Instance) (state : ReAssignment) (moved : List Nat)
    (val : Nat → Nat) (order : List Nat) (final : RescheduleSpace) (total : Int)
    (hs : Solved inst state moved val order final total)
    (hplaced : ∀ p, p < inst.num_processes → state.assignment p < inst.num_machines)
    (hnd : moved.Nodup) (hmv : ∀ p, p ∈ moved → p < inst.num_processes)
    (htc : inst.transient_count ≤ inst.num_resources)
    (htr : ∀ x, x < inst.num_machines → ∀ r, r < inst.transient_count →
      state.transient x r = transientLoad inst state.assignment x r)
    (hcap : ∀ x, x < inst.num_machines → ∀ r, r < inst.transient_count →
      transientLoad inst state.assignment x r ≤ (inst.machine x).capacity r)
    (hreq : ∀ p, p < inst.num_processes → ∀ r, r < inst.num_resources →
      0 ≤ (inst.process p).requirement r) :
    ∀ x, x < inst.num_machines → ∀ r, r < inst.transient_count →
      transientLoad inst (getResultState inst state moved val final).assignment x r
        ≤ (inst.machine x).capacity r := by
  intro x hx r hrt
  have hr : r < inst.num_resources := Nat.lt_of_lt_of_le hrt htc
  have hcur := cur_lt inst state moved hplaced hmv
  have hb := (solved_bounds inst state moved val order final total hs hcur).2
  have h0 : ∀ y r, y < inst.num_machines → r < inst.num_resources →
      r < inst.transient_count →
      state.transient y r - removedTransient inst state moved moved.length y r
        ≤ (inst.machine y).capacity r := by
    intro y r hy hr hrt
    have := removedTransient_nonneg inst state moved hmv y r (fun p hp => hreq p hp r hr)
    have := htr y hy r hrt
    have := hcap y hy r hrt
    linarith
  have h1 := hb h0 x r hx hr hrt
  have h2 := (solved_facts inst state moved val order final total hs hcur).2.1 x r hr hrt
  rw [transientLoad_result inst state moved val final hnd hmv]
  have := htr x hx r hrt
  linarith

/-- C4 (witness): the one-process instance with its transient resource, the
process moving to machine 1 and still counted on machine 0. -/
theorem C4_transient_witness :
    Solved (exInstance 1 0) exState [0] (fun _ => 1) [0] (exFinal 1 0 1) 1
      ∧ ∀ x, x < (exInstance 1 0).num_machines → ∀ r, r < (exInstance 1 0).transient_count →
        transientLoad (exInstance 1 0)
          (getResultState (exInstance 1 0) exState [0] (fun _ => 1) (exFinal 1 0 1)).assignment
          x r ≤ ((exInstance 1 0).machine x).capacity r :=
  have hs : Solved (exInstance 1 0) exState [0] (fun _ => 1) [0] (exFinal 1 0 1) 1 :=
    ⟨by decide, by decide, rfl, by decide⟩
  ⟨hs, C4_transient (exInstance 1 0) exState [0] (fun _ => 1) [0] (exFinal 1 0 1) 1 hs
    (by decide) (by decide) (by decide) (by decide) (by decide) (by decide) (by decide)⟩

/-- C9: original-machine counting of transient usage is preserved. If for every
machine `m` and transient resource `r` the baseline has `transient[m][r] =
sum{req[p][r] | p is on m or original_machine[p] = m}`, the same equality holds
in the result state of every solved Reschedule Space over pairwise distinct
moved processes; and on a machine `m` that only processes with original machine
`m` leave or join, `transient[m][r]` keeps its baseline value. -/
theorem C9_transient_counting (inst : Instance) (state : ReAssignment) (moved : List Nat)
    (val : Nat → Nat) (order : List Nat) (final : RescheduleSpace) (total : Int)
    (hs : Solved inst state moved val order final total)
    (hplaced : ∀ p, p < inst.num_processes → state.assignment p < inst.num_machines)
    (hnd : moved.Nodup) (hmv : ∀ p, p ∈ moved → p < inst.num_processes)
    (htc : inst.transient_count ≤ inst.num_resources)
    (htr : ∀ x, x < inst.num_machines → ∀ r, r < inst.transient_count →
      state.transient x r = transientLoad inst state.assignment x r) :
    (∀ x, x < inst.num_machines → ∀ r, r < inst.transient_count →
      (getResultState inst state moved val final).transient x r
        = transientLoad inst (getResultState inst state moved val final).assignment x r)
    ∧ (∀ x, x < inst.num_machines → ∀ r, r < inst.transient_count →
      (∀ i, i < moved.length → state.assignment (movedAt moved i) = x ∨ val i = x →
        (inst.process (movedAt moved i)).original_machine = x) →
      (getResultState inst state moved val final).transient x r = state.transient x r) := by
  have hcur := cur_lt inst state moved hplaced hmv
  have hf := (solved_facts inst state moved val order final total hs hcur).2.1
  have hg := (getResultState_spec inst state moved val final).2.1
  constructor
  · intro x hx r hrt
    have hr : r < inst.num_resources := Nat.lt_of_lt_of_le hrt htc
    rw [hg x hx, hf x r hr hrt, transientLoad_result inst state moved val final hnd hmv,
      htr x hx r hrt]
  · intro x hx r hrt hown
    have hr : r < inst.num_resources := Nat.lt_of_lt_of_le hrt htc
    rw [hg x hx, hf x r hr hrt]
    have h1 : removedTransient inst state moved moved.length x r = 0 := by
      unfold removedTransient
      apply Finset.sum_eq_zero
      intro i hi
      rw [if_neg]
      intro hc
      exact hc.2 (hown i (mem_range.1 hi) (Or.inl hc.1))
    have h2 : addedTransient inst moved val moved.length x r = 0 := by
      unfold addedTransient
      apply Finset.sum_eq_zero
      intro i hi
      rw [if_neg]
      intro hc
      exact hc.2 (hown i (mem_range.1 hi) (Or.inr hc.1))
    rw [h1, h2]
    ring

/-- C9 (witness): the process of the one-process instance leaves its original
machine 0; machine 0 keeps its transient usage 10. -/
theorem C9_transient_counting_witness :
    Solved (exInstance 1 0) exState [0] (fun _ => 1) [0] (exFinal 1 0 1) 1
      ∧ (getResultState (exInstance 1 0) exState [0] (fun _ => 1) (exFinal 1 0 1)).transient 0 0
          = 10
      ∧ (getResultState (exInstance 1 0) exState [0] (fun _ => 1) (exFinal 1 0 1)).transient 1 0
          = transientLoad (exInstance 1 0)
              (getResultState (exInstance 1 0) exState [0] (fun _ => 1)
                (exFinal 1 0 1)).assignment 1 0 :=
  have hs : Solved (exInstance 1 0) exState [0] (fun _ => 1) [0] (exFinal 1 0 1) 1 :=
    ⟨by decide, by decide, rfl, by decide⟩
  have h := C9_transient_counting (exInstance 1 0) exState [0] (fun _ => 1) [0]
    (exFinal 1 0 1) 1 hs (by decide) (by decide) (by decide) (by decide) (by decide)
  ⟨hs, h.2 0 (by decide) 0 (by decide) (by decide), h.1 1 (by decide) 0 (by decide)⟩

/-- C10: if in the baseline `process_moves = sum{move_cost[p] | assignment[p] !=
original_machine[p]}` and `machine_moves = sum over p of
machine_move_cost[original_machine[p]][assignment[p]]`, then both equalities hold
for the result state of every Reschedule Space with pairwise distinct moved
processes and slot values `val`. -/
theorem C10_move_accounting (inst : Instance) (state : ReAssignment) (moved : List Nat)
    (val : Nat → Nat) (final : RescheduleSpace)
    (hnd : moved.Nodup) (hmv : ∀ p, p ∈ moved → p < inst.num_processes)
    (hpm : state.process_moves = ∑ p in range inst.num_processes,
      if state.assignment p ≠ (inst.process p).original_machine
      then ((inst.process p).move_cost : Int) else 0)
    (hmm : state.machine_moves = ∑ p in range inst.num_processes,
      ((inst.machine (inst.process p).original_machine).move_cost (state.assignment p) : Int)) :
    (getResultState inst state moved val final).process_moves
        = (∑ p in range inst.num_processes,
            if (getResultState inst state moved val final).assignment p
              ≠ (inst.process p).original_machine
            then ((inst.process p).move_cost : Int) else 0)
    ∧ (getResultState inst state moved val final).machine_moves
        = ∑ p in range inst.num_processes,
            ((inst.machine (inst.process p).original_machine).move_cost
              ((getResultState inst state moved val final).assignment p) : Int) := by
  obtain ⟨_, _, _, _, _, g6, g7, g8⟩ := getResultState_spec inst state moved val final
  have h1 := assignment_sum inst state moved val hnd hmv
    (fun m p => if m ≠ (inst.process p).original_machine
      then ((inst.process p).move_cost : Int) else 0) moved.length (Nat.le_refl _)
  have h2 := assignment_sum inst state moved val hnd hmv
    (fun m p => ((inst.machine (inst.process p).original_machine).move_cost m : Int))
    moved.length (Nat.le_refl _)
  beta_reduce at h1 h2
  rw [g6, g7, g8, h1, h2, ← hpm, ← hmm]
  constructor
  · have e : ∑ i in range moved.length, processMoveChange inst state moved val i
        = ∑ i in range moved.length,
            ((if val i ≠ (inst.process (movedAt moved i)).original_machine
              then ((inst.process (movedAt moved i)).move_cost : Int) else 0)
            - (if state.assignment (movedAt moved i)
                ≠ (inst.process (movedAt moved i)).original_machine
              then ((inst.process (movedAt moved i)).move_cost : Int) else 0)) := by
      apply Finset.sum_congr rfl
      intro i _
      unfold processMoveChange
      by_cases h1 : (inst.process (movedAt moved i)).original_machine
          = state.assignment (movedAt moved i)
      · by_cases h2 : (inst.process (movedAt moved i)).original_machine = val i
        · rw [if_pos h1, if_neg (not_not.2 h2), if_neg (not_not.2 h2.symm),
            if_neg (not_not.2 h1.symm)]
          ring
        · rw [if_pos h1, if_pos h2, if_pos (fun e => h2 e.symm), if_neg (not_not.2 h1.symm)]
          ring
      · by_cases h2 : (inst.process (movedAt moved i)).original_machine = val i
        · rw [if_neg h1, if_pos h2, if_neg (not_not.2 h2.symm), if_pos (fun e => h1 e.symm)]
          ring
        · rw [if_neg h1, if_neg h2, if_pos (fun e => h2 e.symm), if_pos (fun e => h1 e.symm)]
          ring
    rw [e, Finset.sum_sub_distrib]
    ring
  · have e : ∑ i in range moved.length, machineMoveChange inst state moved val i
        = ∑ i in range moved.length,
            (((inst.machine (inst.process (movedAt moved i)).original_machine).move_cost
                (val i) : Int)
            - ((inst.machine (inst.process (movedAt moved i)).original_machine).move_cost
                (state.assignment (movedAt moved i)) : Int)) := by
      apply Finset.sum_congr rfl
      intro i _
      rfl
    rw [e, Finset.sum_sub_distrib]
    ring

/-- C10 (witness): in the one-process instance the process leaves its original
machine and accrues its move cost 1. -/
theorem C10_move_accounting_witness :
    [0].Nodup
      ∧ (getResultState (exInstance 1 0) exState [0] (fun _ => 1) (exFinal 1 0 1)).process_moves
          = 1
      ∧ (getResultState (exInstance 1 0) exState [0] (fun _ => 1) (exFinal 1 0 1)).process_moves
          = ∑ p in range (exInstance 1 0).num_processes,
              if (getResultState (exInstance 1 0) exState [0] (fun _ => 1)
                  (exFinal 1 0 1)).assignment p ≠ ((exInstance 1 0).process p).original_machine
              then (((exInstance 1 0).process p).move_cost : Int) else 0 :=
  ⟨by decide, by decide,
    (C10_move_accounting (exInstance 1 0) exState [0] (fun _ => 1) (exFinal 1 0 1)
      (by decide) (by decide) (by decide) (by decide)).1⟩

/-! ## Recomputation from scratch -/

theorem processLoop_spec (inst : Instance) (a : Nat → Nat) (n : Nat) :
    (∀ q, ((processLoop inst a n).1 q).requirement = (inst.process q).requirement)
    ∧ (∀ x r, r < inst.num_resources →
        (processLoop inst a n).2.excess x r
          = ∑ p in range n, if a p = x then (inst.process p).requirement r else 0)
    ∧ (∀ x r, r < inst.num_resources → r < inst.transient_count →
        (processLoop inst a n).2.transient x r
          = ∑ p in range n, if a p = x then (inst.process p).requirement r else 0)
    ∧ (processLoop inst a n).2.balance = (fun _ _ => 0)
    ∧ (processLoop inst a n).2.load_cost = 0
    ∧ (processLoop inst a n).2.balance_cost = 0
    ∧ (processLoop inst a n).2.assignment = a
    ∧ (processLoop inst a n).2.process_moves = 0
    ∧ (processLoop inst a n).2.machine_moves = 0 := by
  induction n with
  | zero => simp [processLoop]
  | succ n ih =>
    obtain ⟨i1, i2, i3, i4, i5, i6, i7, i8, i9⟩ := ih
    have hstep : processLoop inst a (n + 1)
        = setAssignmentProcessStep inst a (processLoop inst a n) n := by
      unfold processLoop
      exact foldl_range_succ _ _ n
    rw [hstep]
    unfold setAssignmentProcessStep
    refine ⟨?_, ?_, ?_, i4, i5, i6, i7, i8, i9⟩
    · intro q
      by_cases hq : q = n
      · subst hq; simp [i1 q]
      · simp [Function.update_noteq hq, i1 q]
    · intro x r hr
      simp only [Function.update_same]
      rw [Finset.sum_range_succ]
      by_cases hx : x = a n
      · subst hx; simp [hr, i2 _ r hr, i1 n]
      · have hx1 : ¬ a n = x := fun e => hx e.symm
        simp [Function.update_noteq hx, i2 x r hr, hx1]
    · intro x r hr hrt
      simp only [Function.update_same]
      rw [Finset.sum_range_succ]
      by_cases hx : x = a n
      · subst hx; simp [hr, hrt, i3 _ r hr hrt, i1 n]
      · have hx1 : ¬ a n = x := fun e => hx e.symm
        simp [Function.update_noteq hx, i3 x r hr hrt, hx1]

theorem machineLoop_spec (inst : Instance) (st0 : ReAssignment) (n : Nat) :
    (∀ x, (machineLoop inst st0 n).1.excess x
        = if x < n then excessOf inst st0.excess x else st0.excess x)
    ∧ (∀ x b, (machineLoop inst st0 n).1.balance x b
        = if x < n ∧ b < inst.num_balances then balanceUnits inst x (excessOf inst st0.excess x) b
          else st0.balance x b)
    ∧ (∀ r, (machineLoop inst st0 n).2.1 r
        = if r < inst.num_resources then ∑ x in range n, max 0 (excessOf inst st0.excess x r)
          else 0)
    ∧ (∀ b, (machineLoop inst st0 n).2.2 b
        = if b < inst.num_balances then
            ∑ x in range n, max 0 (balanceUnits inst x (excessOf inst st0.excess x) b)
          else 0)
    ∧ (machineLoop inst st0 n).1.load_cost = st0.load_cost
    ∧ (machineLoop inst st0 n).1.balance_cost = st0.balance_cost
    ∧ (machineLoop inst st0 n).1.assignment = st0.assignment
    ∧ (machineLoop inst st0 n).1.transient = st0.transient
    ∧ (machineLoop inst st0 n).1.process_moves = st0.process_moves
    ∧ (machineLoop inst st0 n).1.machine_moves = st0.machine_moves := by
  induction n with
  | zero => simp [machineLoop]
  | succ n ih =>
    obtain ⟨i1, i2, i3, i4, i5, i6, i7, i8, i9, i10⟩ := ih
    have hstep : machineLoop inst st0 (n + 1)
        = setAssignmentMachineStep inst (machineLoop inst st0 n) n := by
      unfold machineLoop
      exact foldl_range_succ _ _ n
    rw [hstep]
    have hexn : (machineLoop inst st0 n).1.excess n = st0.excess n := by
      rw [i1 n]; simp
    have hbn : (machineLoop inst st0 n).1.balance n = st0.balance n := by
      funext b; rw [i2 n b]; simp
    have hnew : (fun r => if r < inst.num_resources then
          (machineLoop inst st0 n).1.excess n r - (inst.machine n).safety_capacity r
        else (machineLoop inst st0 n).1.excess n r) = excessOf inst st0.excess n := by
      funext r
      rw [hexn]
      rfl
    unfold setAssignmentMachineStep
    simp only [hnew]
    refine ⟨?_, ?_, ?_, ?_, i5, i6, i7, i8, i9, i10⟩
    · intro x
      by_cases hx : x = n
      · subst hx; simp
      · have : x < n + 1 ↔ x < n := by omega
        rw [Function.update_noteq hx, i1 x]; simp [this]
    · intro x b
      by_cases hx : x = n
      · subst hx
        simp only [Function.update_same, hbn]
        by_cases hb : b < inst.num_balances
        · simp [hb]
        · simp [hb]
      · have : x < n + 1 ↔ x < n := by omega
        rw [Function.update_noteq hx, i2 x b]; simp [this]
    · intro r
      by_cases hr : r < inst.num_resources
      · simp only [hr, if_true, i3 r, Finset.sum_range_succ, hexn, excessOf]
      · simp only [hr, if_false, i3 r]
    · intro b
      by_cases hb : b < inst.num_balances
      · simp only [hb, if_true, i4 b, Finset.sum_range_succ]
      · simp only [hb, if_false, i4 b]

/-- Closed form of the state `setAssignment` computes for the assignment `a`. -/
theorem setAssignment_spec (inst : Instance) (a : Nat → Nat) :
    (∀ x, x < inst.num_machines → ∀ r, r < inst.num_resources →
        (setAssignment inst a).2.excess x r
          = machineLoad inst a x r - (inst.machine x).safety_capacity r)
    ∧ (∀ x, x < inst.num_machines → ∀ b, b < inst.num_balances →
        (setAssignment inst a).2.balance x b
          = balanceUnits inst x ((setAssignment inst a).2.excess x) b)
    ∧ (setAssignment inst a).2.load_cost
        = ∑ r in range inst.num_resources,
            (∑ x in range inst.num_machines, max 0 ((setAssignment inst a).2.excess x r))
              * (inst.resource r).weight_load_cost
    ∧ (setAssignment inst a).2.balance_cost
        = ∑ b in range inst.num_balances,
            (∑ x in range inst.num_machines, max 0 ((setAssignment inst a).2.balance x b))
              * ((inst.balance b).weight_balance_cost : Int) := by
  obtain ⟨_, p2, _, p4, p5, p6, _, _, _⟩ := processLoop_spec inst a inst.num_processes
  obtain ⟨m1, m2, m3, m4, m5, m6, _, _, _, _⟩ :=
    machineLoop_spec inst (processLoop inst a inst.num_processes).2 inst.num_machines
  have hE : (setAssignment inst a).2.excess
      = (machineLoop inst (processLoop inst a inst.num_processes).2 inst.num_machines).1.excess :=
    rfl
  have hB : (setAssignment inst a).2.balance
      = (machineLoop inst (processLoop inst a inst.num_processes).2 inst.num_machines).1.balance :=
    rfl
  have hL : (setAssignment inst a).2.load_cost
      = (machineLoop inst (processLoop inst a inst.num_processes).2
          inst.num_machines).1.load_cost
        + ∑ r in range inst.num_resources,
            (machineLoop inst (processLoop inst a inst.num_processes).2 inst.num_machines).2.1 r
              * (inst.resource r).weight_load_cost := rfl
  have hC : (setAssignment inst a).2.balance_cost
      = (machineLoop inst (processLoop inst a inst.num_processes).2
          inst.num_machines).1.balance_cost
        + ∑ b in range inst.num_balances,
            (machineLoop inst (processLoop inst a inst.num_processes).2 inst.num_machines).2.2 b
              * ((inst.balance b).weight_balance_cost : Int) := rfl
  have hex : ∀ x, x < inst.num_machines → (setAssignment inst a).2.excess x
      = excessOf inst (processLoop inst a inst.num_processes).2.excess x := by
    intro x hx
    rw [hE, m1 x, if_pos hx]
  refine ⟨?_, ?_, ?_, ?_⟩
  · intro x hx r hr
    rw [hex x hx]
    simp only [excessOf, hr, if_true, p2 x r hr]
    rfl
  · intro x hx b hb
    rw [hex x hx, hB, m2 x b, if_pos ⟨hx, hb⟩]
  · rw [hL, m5, p5, zero_add]
    apply Finset.sum_congr rfl
    intro r hr
    rw [m3 r, if_pos (mem_range.1 hr)]
    congr 1
    apply Finset.sum_congr rfl
    intro x hx
    rw [hex x (mem_range.1 hx)]
  · rw [hC, m6, p6, zero_add]
    apply Finset.sum_congr rfl
    intro b hb
    rw [m4 b, if_pos (mem_range.1 hb)]
    congr 1
    apply Finset.sum_congr rfl
    intro x hx
    rw [hB, m2 x b, if_pos ⟨mem_range.1 hx, mem_range.1 hb⟩]

theorem solved_posted (inst : Instance) (state : ReAssignment) (moved : List Nat)
    (val : Nat → Nat) (order : List Nat) (final : RescheduleSpace) (total : Int)
    (hs : Solved inst state moved val order final total) (c : Constraint)
    (hc : c ∈ (setupConflictConstraint inst state moved emptySpace).posted
      ∨ c ∈ (setupSpreadConstraint inst state moved emptySpace).posted
      ∨ c ∈ (setupDependencyConstraint inst state moved emptySpace).posted) :
    c.holds inst val (fun i => (final.process_move_cost i).getD 0) total := by
  have hnd : order.Nodup := hs.order_perm.nodup_iff.2 (List.nodup_range _)
  have hval : ∀ i, i ∈ order → val i < inst.num_machines := by
    intro i hi
    exact hs.val_lt i (List.mem_range.1 (hs.order_perm.mem_iff.1 hi))
  obtain ⟨_, _, _, _, _, _, r7, _, _⟩ := runPropagators_spec inst state moved val order
    hnd hval _ final hs.run_ok
  apply hs.posted_hold
  rw [r7, construct_posted]
  simp only [List.mem_append]
  rcases hc with h | h | h
  · exact Or.inl (Or.inl (Or.inl (Or.inr h)))
  · exact Or.inl (Or.inl (Or.inr h))
  · exact Or.inl (Or.inr h)

theorem mem_slotsOfService (inst : Instance) (moved : List Nat) (s i : Nat) :
    i ∈ slotsOfService inst moved s
      ↔ i < moved.length ∧ (inst.process (movedAt moved i)).service = s := by
  simp [slotsOfService]

theorem slotsOfService_nodup (inst : Instance) (moved : List Nat) (s : Nat) :
    (slotsOfService inst moved s).Nodup :=
  (List.nodup_range _).filter _

theorem length_gt_one_of_mem (l : List Nat) (i j : Nat) (hi : i ∈ l) (hj : j ∈ l)
    (hne : i ≠ j) : l.length > 1 := by
  match l, hi, hj with
  | [a], hi, hj =>
    simp only [List.mem_singleton] at hi hj
    exact absurd (hi.trans hj.symm) hne
  | _ :: _ :: _, _, _ => simp

theorem resultAssignment_slot (inst : Instance) (state : ReAssignment) (moved : List Nat)
    (val : Nat → Nat) (final : RescheduleSpace) (hnd : moved.Nodup) (i : Nat)
    (hi : i < moved.length) :
    (getResultState inst state moved val final).assignment (movedAt moved i) = val i := by
  rw [(getResultState_spec inst state moved val final).2.2.2.2.2.1]
  exact resultMoves_assignment_slot inst state moved val moved.length i hi
    (fun a b ha hb e => movedAt_inj moved hnd a b ha hb e)

theorem resultAssignment_other (inst : Instance) (state : ReAssignment) (moved : List Nat)
    (val : Nat → Nat) (final : RescheduleSpace) (q : Nat) (hq : q ∉ moved) :
    (getResultState inst state moved val final).assignment q = state.assignment q := by
  rw [(getResultState_spec inst state moved val final).2.2.2.2.2.1]
  apply resultMoves_assignment_other
  intro i hi e
  exact hq (e ▸ movedAt_mem moved i hi)

/-- Moved process of a solved space against another member of its service. -/
theorem conflict_moved (inst : Instance) (state : ReAssignment) (moved : List Nat)
    (val : Nat → Nat) (order : List Nat) (final : RescheduleSpace) (total : Int)
    (hs : Solved inst state moved val order final total) (hnd : moved.Nodup)
    (hsrv : ∀ p, p ∈ moved → (inst.process p).service < inst.num_services)
    (hmem : ∀ s, s < inst.num_services → ∀ q, q ∈ (inst.service s).process →
      (inst.process q).service = s)
    (i : Nat) (hi : i < moved.length) (q : Nat)
    (hq : q ∈ (inst.service (inst.process (movedAt moved i)).service).process)
    (hne : q ≠ movedAt moved i) :
    (getResultState inst state moved val final).assignment q ≠ val i := by
  have hs0 := hsrv _ (movedAt_mem moved i hi)
  by_cases hqm : q ∈ moved
  · obtain ⟨j, hj, ej⟩ := mem_movedAt moved q hqm
    have hsq : (inst.process (movedAt moved j)).service
        = (inst.process (movedAt moved i)).service := by
      rw [ej]; exact hmem _ hs0 q hq
    have hij : i ≠ j := by
      intro e; subst e; exact hne ej.symm
    have hmi : i ∈ slotsOfService inst moved (inst.process (movedAt moved i)).service :=
      (mem_slotsOfService inst moved _ i).2 ⟨hi, rfl⟩
    have hmj : j ∈ slotsOfService inst moved (inst.process (movedAt moved i)).service :=
      (mem_slotsOfService inst moved _ j).2 ⟨hj, hsq⟩
    have hlen := length_gt_one_of_mem _ i j hmi hmj hij
    have hc : Constraint.distinct
        (slotsOfService inst moved (inst.process (movedAt moved i)).service)
        ∈ (setupConflictConstraint inst state moved emptySpace).posted := by
      simp only [setupConflictConstraint, emptySpace, List.nil_append, List.mem_append,
        List.mem_filterMap, List.mem_range]
      refine Or.inl ⟨(inst.process (movedAt moved i)).service, hs0, ?_⟩
      rw [if_pos hlen]
    have hh := solved_posted inst state moved val order final total hs _ (Or.inl hc)
    have hinj := List.inj_on_of_nodup_map hh hmi hmj
    rw [← ej, resultAssignment_slot inst state moved val final hnd j hj]
    intro e
    exact hij (hinj e.symm)
  · have hc : Constraint.relNq i (state.assignment q)
        ∈ (setupConflictConstraint inst state moved emptySpace).posted := by
      simp only [setupConflictConstraint, emptySpace, List.nil_append, List.mem_append,
        List.mem_flatMap, List.mem_range, List.mem_map, List.mem_filter]
      refine Or.inr ⟨i, hi, q, ⟨hq, ?_⟩, rfl⟩
      simp only [decide_eq_true_eq]
      refine ⟨fun e => hne e.symm, ?_⟩
      intro hc
      obtain ⟨j, hj, ej⟩ := hc
      exact hqm (ej ▸ movedAt_mem moved j ((mem_slotsOfService inst moved _ j).1 hj).1)
    have hh := solved_posted inst state moved val order final total hs _ (Or.inl hc)
    rw [resultAssignment_other inst state moved val final q hqm]
    exact fun e => hh e.symm

/-- C5: in every solved Reschedule Space over pairwise distinct moved processes
no moved process is assigned to the machine of any other member of its service
(moved or staying); hence if the baseline satisfies the conflict constraint,
every service's members occupy pairwise distinct machines in the result state. -/
theorem C5_conflict (inst : Instance) (state : ReAssignment) (moved : List Nat)
    (val : Nat → Nat) (order : List Nat) (final : RescheduleSpace) (total : Int)
    (hs : Solved inst state moved val order final total) (hnd : moved.Nodup)
    (hsrv : ∀ p, p ∈ moved → (inst.process p).service < inst.num_services)
    (hmem : ∀ s, s < inst.num_services → ∀ q, q ∈ (inst.service s).process →
      (inst.process q).service = s) :
    (∀ i, i < moved.length →
      ∀ q, q ∈ (inst.service (inst.process (movedAt moved i)).service).process →
        q ≠ movedAt moved i →
        (getResultState inst state moved val final).assignment q
          ≠ (getResultState inst state moved val final).assignment (movedAt moved i))
    ∧ ((∀ s, s < inst.num_services → ∀ q1, q1 ∈ (inst.service s).process →
          ∀ q2, q2 ∈ (inst.service s).process → q1 ≠ q2 →
          state.assignment q1 ≠ state.assignment q2) →
        ∀ s, s < inst.num_services → ∀ q1, q1 ∈ (inst.service s).process →
          ∀ q2, q2 ∈ (inst.service s).process → q1 ≠ q2 →
          (getResultState inst state moved val final).assignment q1
            ≠ (getResultState inst state moved val final).assignment q2) := by
  have key := conflict_moved inst state moved val order final total hs hnd hsrv hmem
  constructor
  · intro i hi q hq hne
    rw [resultAssignment_slot inst state moved val final hnd i hi]
    exact key i hi q hq hne
  · intro hbase s hs0 q1 h1 q2 h2 hne
    by_cases hm1 : q1 ∈ moved
    · obtain ⟨i, hi, ei⟩ := mem_movedAt moved q1 hm1
      have hsi : (inst.process (movedAt moved i)).service = s := by
        rw [ei]; exact hmem s hs0 q1 h1
      have := key i hi q2 (by rw [hsi]; exact h2) (by rw [ei]; exact fun e => hne e.symm)
      rw [← ei, resultAssignment_slot inst state moved val final hnd i hi]
      exact fun e => this e.symm
    · by_cases hm2 : q2 ∈ moved
      · obtain ⟨i, hi, ei⟩ := mem_movedAt moved q2 hm2
        have hsi : (inst.process (movedAt moved i)).service = s := by
          rw [ei]; exact hmem s hs0 q2 h2
        have := key i hi q1 (by rw [hsi]; exact h1) (by rw [ei]; exact hne)
        rw [← ei, resultAssignment_slot inst state moved val final hnd i hi]
        exact this
      · rw [resultAssignment_other inst state moved val final q1 hm1,
          resultAssignment_other inst state moved val final q2 hm2]
        exact hbase s hs0 q1 h1 q2 h2 hne

/-! ## Spread -/

theorem dedup_length_mono (l1 l2 : List Nat) (h : l1 ⊆ l2) :
    l1.dedup.length ≤ l2.dedup.length := by
  apply List.Subperm.length_le
  apply (List.nodup_dedup l1).subperm
  intro x hx
  exact List.mem_dedup.2 (h (List.mem_dedup.1 hx))

theorem spreadTerm_eval (inst : Instance) (state : ReAssignment) (moved : List Nat)
    (val : Nat → Nat) (final : RescheduleSpace) (hnd : moved.Nodup) (s : Nat)
    (hmem : ∀ q, q ∈ (inst.service s).process → (inst.process q).service = s)
    (q : Nat) (hq : q ∈ (inst.service s).process) :
    (spreadTerm inst state (slotsOfService inst moved s)
        ((slotsOfService inst moved s).map (fun i => movedAt moved i)) q).eval inst val
      = (inst.machine ((getResultState inst state moved val final).assignment q)).location := by
  unfold spreadTerm
  by_cases hm : q ∈ (slotsOfService inst moved s).map (fun i => movedAt moved i)
  · rw [if_pos hm]
    have hlt := List.indexOf_lt_length.2 hm
    have hlt1 : List.indexOf q ((slotsOfService inst moved s).map (fun i => movedAt moved i))
        < (slotsOfService inst moved s).length := by
      rw [List.length_map] at hlt; exact hlt
    have hget := List.getElem_indexOf hlt
    rw [List.getElem_map] at hget
    rw [List.getD_eq_getElem _ _ hlt1]
    have hj := (mem_slotsOfService inst moved s _).1 (List.getElem_mem hlt1)
    simp only [LocTerm.eval]
    have e := resultAssignment_slot inst state moved val final hnd _ hj.1
    rw [hget] at e
    rw [e]
  · rw [if_neg hm]
    have hqm : q ∉ moved := by
      intro hc
      obtain ⟨j, hj, ej⟩ := mem_movedAt moved q hc
      apply hm
      refine List.mem_map.2 ⟨j, (mem_slotsOfService inst moved s j).2 ⟨hj, ?_⟩, ej⟩
      rw [ej]; exact hmem q hq
    simp only [LocTerm.eval]
    rw [resultAssignment_other inst state moved val final q hqm]

/-- C6: for every solved Reschedule Space over pairwise distinct moved processes
and every service `s` that has at least one moved member, the members of `s`
occupy at least `min_spread(s)` distinct locations in the result state; hence
if the baseline satisfies the spread constraint for all services, so does the
result state. -/
theorem C6_spread (inst : Instance) (state : ReAssignment) (moved : List Nat)
    (val : Nat → Nat) (order : List Nat) (final : RescheduleSpace) (total : Int)
    (hs : Solved inst state moved val order final total) (hnd : moved.Nodup)
    (hmem : ∀ s, s < inst.num_services → ∀ q, q ∈ (inst.service s).process →
      (inst.process q).service = s)
    (hown : ∀ p, p ∈ moved → p ∈ (inst.service (inst.process p).service).process) :
    (∀ s, s < inst.num_services →
      (∃ i, i < moved.length ∧ (inst.process (movedAt moved i)).service = s) →
      (inst.service s).min_spread
        ≤ spreadOf inst (getResultState inst state moved val final).assignment s)
    ∧ ((∀ s, s < inst.num_services →
          (inst.service s).min_spread ≤ spreadOf inst state.assignment s) →
        ∀ s, s < inst.num_services →
          (inst.service s).min_spread
            ≤ spreadOf inst (getResultState inst state moved val final).assignment s) := by
  have part1 : ∀ s, s < inst.num_services →
      (∃ i, i < moved.length ∧ (inst.process (movedAt moved i)).service = s) →
      (inst.service s).min_spread
        ≤ spreadOf inst (getResultState inst state moved val final).assignment s := by
    intro s hs0 ⟨i, hi, hsi⟩
    have hslots : slotsOfService inst moved s ≠ [] := by
      intro hc
      have := (mem_slotsOfService inst moved s i).2 ⟨hi, hsi⟩
      rw [hc] at this
      exact List.not_mem_nil _ this
    have hterms : ((inst.service s).process.map
          (spreadTerm inst state (slotsOfService inst moved s)
            ((slotsOfService inst moved s).map (fun i => movedAt moved i)))).map
          (LocTerm.eval inst val)
        = (inst.service s).process.map
            (fun q => (inst.machine
              ((getResultState inst state moved val final).assignment q)).location) := by
      rw [List.map_map]
      apply List.map_congr_left
      intro q hq
      exact spreadTerm_eval inst state moved val final hnd s (hmem s hs0) q hq
    by_cases hms : (inst.service s).min_spread > 1
    · by_cases hcount : (((inst.service s).process.filter
          (fun p => p ∉ (slotsOfService inst moved s).map (fun i => movedAt moved i))).map
          (fun p => (inst.machine (state.assignment p)).location)).dedup.length
          < (inst.service s).min_spread
      · have hc : Constraint.nvaluesGq
            ((inst.service s).process.map
              (spreadTerm inst state (slotsOfService inst moved s)
                ((slotsOfService inst moved s).map (fun i => movedAt moved i))))
            (inst.service s).min_spread
            ∈ (setupSpreadConstraint inst state moved emptySpace).posted := by
          simp only [setupSpreadConstraint, emptySpace, List.nil_append, List.mem_filterMap,
            List.mem_range]
          refine ⟨s, hs0, ?_⟩
          rw [if_pos ⟨hms, hslots⟩, if_pos hcount]
        have hh := solved_posted inst state moved val order final total hs _
          (Or.inr (Or.inl hc))
        unfold spreadOf
        rw [← hterms]
        exact hh
      · unfold spreadOf
        refine le_trans (not_lt.1 hcount) (dedup_length_mono _ _ ?_)
        intro l hl
        obtain ⟨q, hq, el⟩ := List.mem_map.1 hl
        obtain ⟨hq1, hq2⟩ := List.mem_filter.1 hq
        have hq3 : q ∉ (slotsOfService inst moved s).map (fun i => movedAt moved i) := by
          simpa using hq2
        have hqm : q ∉ moved := by
          intro hc
          obtain ⟨j, hj, ej⟩ := mem_movedAt moved q hc
          apply hq3
          refine List.mem_map.2 ⟨j, (mem_slotsOfService inst moved s j).2 ⟨hj, ?_⟩, ej⟩
          rw [ej]; exact hmem s hs0 q hq1
        refine List.mem_map.2 ⟨q, hq1, ?_⟩
        rw [resultAssignment_other inst state moved val final q hqm]
        exact el
    · have hmi : movedAt moved i ∈ (inst.service s).process := by
        have := hown _ (movedAt_mem moved i hi)
        rw [hsi] at this
        exact this
      have hpos : 0 < spreadOf inst (getResultState inst state moved val final).assignment s := by
        unfold spreadOf
        apply List.length_pos_of_mem
        exact List.mem_dedup.2 (List.mem_map.2 ⟨movedAt moved i, hmi, rfl⟩)
      omega
  refine ⟨part1, ?_⟩
  intro hbase s hs0
  by_cases hex : ∃ i, i < moved.length ∧ (inst.process (movedAt moved i)).service = s
  · exact part1 s hs0 hex
  · have heq : spreadOf inst (getResultState inst state moved val final).assignment s
        = spreadOf inst state.assignment s := by
      unfold spreadOf
      congr 2
      apply List.map_congr_left
      intro q hq
      have hqm : q ∉ moved := by
        intro hc
        obtain ⟨j, hj, ej⟩ := mem_movedAt moved q hc
        apply hex
        refine ⟨j, hj, ?_⟩
        rw [ej]; exact hmem s hs0 q hq
      rw [resultAssignment_other inst state moved val final q hqm]
    rw [heq]
    exact hbase s hs0

/-! ## Dependency -/

theorem setIntersectionAux_spec (a : Nat) (recAs : List Nat → List Nat) (as : List Nat)
    (hsub : ∀ l, List.Sublist (recAs l) as) (hmem : ∀ l x, x ∈ recAs l → x ∈ l)
    (l2 : List Nat) :
    List.Sublist (setIntersectionAux a recAs l2) (a :: as)
      ∧ ∀ x, x ∈ setIntersectionAux a recAs l2 → x ∈ l2 := by
  induction l2 with
  | nil => simp [setIntersectionAux]
  | cons b bs ih =>
    unfold setIntersectionAux
    by_cases h1 : a < b
    · rw [if_pos h1]
      exact ⟨(hsub _).trans (List.sublist_cons_self a as), fun x hx => hmem _ x hx⟩
    · rw [if_neg h1]
      by_cases h2 : b < a
      · rw [if_pos h2]
        exact ⟨ih.1, fun x hx => List.mem_cons_of_mem _ (ih.2 x hx)⟩
      · rw [if_neg h2]
        have hab : a = b := by omega
        refine ⟨(hsub bs).cons₂ a, ?_⟩
        intro x hx
        rcases List.mem_cons.1 hx with e | e
        · rw [e, hab]; exact List.mem_cons_self _ _
        · exact List.mem_cons_of_mem _ (hmem bs x e)

theorem setIntersection_spec (l1 : List Nat) :
    ∀ l2, List.Sublist (setIntersection l1 l2) l1
      ∧ ∀ x, x ∈ setIntersection l1 l2 → x ∈ l2 := by
  induction l1 with
  | nil => intro l2; simp [setIntersection]
  | cons a as ih =>
    intro l2
    exact setIntersectionAux_spec a (setIntersection as) as (fun l => (ih l).1)
      (fun l x hx => (ih l).2 x hx) l2

theorem distinctNeighbors_sorted (l : List Nat) (hs : l.Sorted (· ≤ ·)) (hne : l ≠ []) :
    distinctNeighbors l = l.toFinset.card := by
  induction l with
  | nil => exact absurd rfl hne
  | cons a t ih =>
    cases t with
    | nil => simp [distinctNeighbors]
    | cons b rest =>
      have hs1 : (b :: rest).Sorted (· ≤ ·) := hs.of_cons
      have ih1 := ih hs1 (List.cons_ne_nil _ _)
      have hle : ∀ x, x ∈ b :: rest → a ≤ x := fun x hx => List.rel_of_sorted_cons hs x hx
      have e : (a :: b :: rest).toFinset = insert a (b :: rest).toFinset := List.toFinset_cons
      unfold distinctNeighbors
      rw [ih1, e]
      by_cases hab : a = b
      · rw [if_neg (not_not.2 hab),
          Finset.insert_eq_of_mem (List.mem_toFinset.2 (hab ▸ List.mem_cons_self _ _))]
        omega
      · rw [if_pos hab]
        have hnot : a ∉ (b :: rest).toFinset := by
          intro hc
          have hc1 := List.mem_toFinset.1 hc
          have hb : b ≤ a := by
            rcases List.mem_cons.1 hc1 with e | e
            · omega
            · exact (List.rel_of_sorted_cons hs1 a e)
          have := hle b (List.mem_cons_self _ _)
          omega
        rw [Finset.card_insert_of_not_mem hnot]
        omega

theorem distinctNeighbors_cover (l : List Nat) (N : Nat) (hs : l.Sorted (· ≤ ·)) (hne : l ≠ [])
    (hlt : ∀ x, x ∈ l → x < N) (hd : N = distinctNeighbors l) :
    ∀ n, n < N → n ∈ l := by
  intro n hn
  have hsub : l.toFinset ⊆ range N := by
    intro x hx
    exact mem_range.2 (hlt x (List.mem_toFinset.1 hx))
  have hcard : (range N).card ≤ l.toFinset.card := by
    rw [Finset.card_range, ← distinctNeighbors_sorted l hs hne, ← hd]
  have heq := Finset.eq_of_subset_of_card_le hsub hcard
  have : n ∈ l.toFinset := by rw [heq]; exact mem_range.2 hn
  exact List.mem_toFinset.1 this

theorem mem_coveredNeighborhoods (inst : Instance) (state : ReAssignment) (moved : List Nat)
    (d x : Nat) :
    x ∈ coveredNeighborhoods inst state moved d
      ↔ ∃ q, q ∈ (inst.service d).process ∧ q ∉ moved ∧ nhOf inst state.assignment q = x := by
  unfold coveredNeighborhoods nhOf
  rw [(List.perm_insertionSort _ _).mem_iff]
  simp only [List.mem_map, List.mem_filter, decide_eq_true_eq]
  constructor
  · rintro ⟨q, ⟨h1, h2⟩, h3⟩; exact ⟨q, h1, h2, h3⟩
  · rintro ⟨q, h1, h2, h3⟩; exact ⟨q, ⟨h1, h2⟩, h3⟩

theorem coveredNeighborhoods_sorted (inst : Instance) (state : ReAssignment)
    (moved : List Nat) (d : Nat) :
    (coveredNeighborhoods inst state moved d).Sorted (· ≤ ·) := by
  unfold coveredNeighborhoods
  exact List.sorted_insertionSort _ _

theorem availableFold_spec (inst : Instance) (state : ReAssignment) (moved : List Nat)
    (rest : List Nat) :
    ∀ acc : List Nat,
      List.Sublist (rest.foldl (fun (acc : List Nat × Bool) d =>
          if acc.2 then (setIntersection acc.1 (coveredNeighborhoods inst state moved d), true)
          else (coveredNeighborhoods inst state moved d, true)) (acc, true)).1 acc
      ∧ ∀ x, x ∈ (rest.foldl (fun (acc : List Nat × Bool) d =>
          if acc.2 then (setIntersection acc.1 (coveredNeighborhoods inst state moved d), true)
          else (coveredNeighborhoods inst state moved d, true)) (acc, true)).1 →
        ∀ d, d ∈ rest → x ∈ coveredNeighborhoods inst state moved d := by
  induction rest with
  | nil => intro acc; simp
  | cons d0 rest ih =>
    intro acc
    simp only [List.foldl_cons, if_true]
    obtain ⟨h1, h2⟩ := ih (setIntersection acc (coveredNeighborhoods inst state moved d0))
    obtain ⟨s1, s2⟩ := setIntersection_spec acc (coveredNeighborhoods inst state moved d0)
    refine ⟨h1.trans s1, ?_⟩
    intro x hx d hd
    rcases List.mem_cons.1 hd with e | e
    · rw [e]; exact s2 x (h1.subset hx)
    · exact h2 x hx d e

theorem availableNeighborhoods_spec (inst : Instance) (state : ReAssignment)
    (moved : List Nat) (deps : List Nat) :
    (availableNeighborhoods inst state moved deps).1.Sorted (· ≤ ·)
      ∧ ∀ x, x ∈ (availableNeighborhoods inst state moved deps).1 →
        ∀ d, d ∈ deps → x ∈ coveredNeighborhoods inst state moved d := by
  unfold availableNeighborhoods
  cases deps with
  | nil => simp
  | cons d0 rest =>
    simp only [List.foldl_cons, Bool.false_eq_true, if_false]
    obtain ⟨h1, h2⟩ := availableFold_spec inst state moved rest
      (coveredNeighborhoods inst state moved d0)
    refine ⟨(coveredNeighborhoods_sorted inst state moved d0).sublist h1, ?_⟩
    intro x hx d hd
    rcases List.mem_cons.1 hd with e | e
    · rw [e]; exact h1.subset hx
    · exact h2 x hx d e

theorem forbidMove_posted (inst : Instance) (state : ReAssignment) (moved : List Nat)
    (j : Nat) (hj : j < moved.length) (s : Nat) (q : Nat)
    (hreq : s ∈ (inst.service (inst.process (movedAt moved j)).service).required_by)
    (hq : q ∈ (inst.service s).process)
    (hqn : nhOf inst state.assignment q = nhOf inst state.assignment (movedAt moved j))
    (hstay : ∀ p, p ∈ (inst.service (inst.process (movedAt moved j)).service).process →
      p ∉ moved → nhOf inst state.assignment p ≠ nhOf inst state.assignment (movedAt moved j)) :
    Constraint.dom j (inst.neighborhood (nhOf inst state.assignment (movedAt moved j)))
      ∈ (setupDependencyConstraint inst state moved emptySpace).posted := by
  simp only [setupDependencyConstraint, emptySpace, List.nil_append, List.mem_append,
    List.mem_filterMap, List.mem_range]
  refine Or.inl ⟨j, hj, ?_⟩
  unfold forbidMoveConstraint
  have h1 : (inst.service (inst.process (movedAt moved j)).service).required_by.length > 0 :=
    List.length_pos_of_mem hreq
  have h2 : (inst.service (inst.process (movedAt moved j)).service).process.any (fun p =>
      decide ((inst.machine (state.assignment (movedAt moved j))).neighborhood
          = (inst.machine (state.assignment p)).neighborhood)
        && decide (p ∉ moved)) = false := by
    rw [List.any_eq_false]
    intro p hp
    simp only [Bool.and_eq_true, decide_eq_true_eq, not_and, not_not]
    intro e
    by_contra hc
    exact hstay p hp hc e.symm
  have h3 : (inst.service (inst.process (movedAt moved j)).service).required_by.any (fun s =>
      (inst.service s).process.any (fun d =>
        decide ((inst.machine (state.assignment d)).neighborhood
          = (inst.machine (state.assignment (movedAt moved j))).neighborhood))) = true := by
    rw [List.any_eq_true]
    refine ⟨s, hreq, ?_⟩
    rw [List.any_eq_true]
    exact ⟨q, hq, by simpa [nhOf] using hqn⟩
  simp only [h1, h2, h3, if_true, Bool.not_false, Bool.and_self]
  rfl

/-- A member of `s` that ends in its baseline neighborhood still finds a member
of the required service `d` there. -/
theorem dependency_stay (inst : Instance) (state : ReAssignment) (moved : List Nat)
    (val : Nat → Nat) (order : List Nat) (final : RescheduleSpace) (total : Int)
    (hs : Solved inst state moved val order final total) (hnd : moved.Nodup)
    (hmem : ∀ s, s < inst.num_services → ∀ q, q ∈ (inst.service s).process →
      (inst.process q).service = s)
    (hplaced : ∀ s, s < inst.num_services → ∀ q, q ∈ (inst.service s).process →
      state.assignment q < inst.num_machines)
    (hnh1 : ∀ n, n < inst.num_neighborhoods → ∀ m, m ∈ inst.neighborhood n →
      (inst.machine m).neighborhood = n)
    (hnh2 : ∀ m, m < inst.num_machines → (inst.machine m).neighborhood < inst.num_neighborhoods)
    (hbase : DependencyOk inst state.assignment)
    (s : Nat) (hs0 : s < inst.num_services) (d : Nat) (hd : d ∈ (inst.service s).depends_on)
    (hd0 : d < inst.num_services) (hreq : s ∈ (inst.service d).required_by)
    (q : Nat) (hq : q ∈ (inst.service s).process) :
    ∃ q1, q1 ∈ (inst.service d).process
      ∧ nhOf inst (getResultState inst state moved val final).assignment q1
        = nhOf inst state.assignment q := by
  obtain ⟨q0, hq0, e0⟩ := hbase s hs0 d hd q hq
  by_cases hst : ∃ q1, q1 ∈ (inst.service d).process ∧ q1 ∉ moved
      ∧ nhOf inst state.assignment q1 = nhOf inst state.assignment q
  · obtain ⟨q1, h1, h2, h3⟩ := hst
    refine ⟨q1, h1, ?_⟩
    unfold nhOf
    rw [resultAssignment_other inst state moved val final q1 h2]
    exact h3
  · have hm0 : q0 ∈ moved := by
      by_contra hc
      exact hst ⟨q0, hq0, hc, e0⟩
    obtain ⟨j, hj, ej⟩ := mem_movedAt moved q0 hm0
    have hsj : (inst.process (movedAt moved j)).service = d := by
      rw [ej]; exact hmem d hd0 q0 hq0
    have hc := forbidMove_posted inst state moved j hj s q (by rw [hsj]; exact hreq) hq
      (by rw [ej]; exact e0.symm)
      (by
        intro p hp hpm e
        rw [hsj] at hp
        rw [ej] at e
        exact hst ⟨p, hp, hpm, e.trans e0⟩)
    have hh := solved_posted inst state moved val order final total hs _ (Or.inr (Or.inr hc))
    have hn : nhOf inst state.assignment (movedAt moved j) < inst.num_neighborhoods := by
      rw [ej]
      exact hnh2 _ (hplaced d hd0 q0 hq0)
    have hv := hnh1 _ hn (val j) hh
    refine ⟨q0, hq0, ?_⟩
    unfold nhOf
    rw [← ej, resultAssignment_slot inst state moved val final hnd j hj, hv]
    show nhOf inst state.assignment (movedAt moved j) = _
    rw [ej]
    exact e0

theorem dependency_posted (inst : Instance) (state : ReAssignment) (moved : List Nat)
    (s : Nat) (hs0 : s < inst.num_services) (i : Nat) (hi : i < moved.length)
    (hsi : (inst.process (movedAt moved i)).service = s)
    (hdep : (inst.service s).depends_on ≠ []) :
    inst.num_neighborhoods
        = distinctNeighbors (availableNeighborhoods inst state moved
            (inst.service s).depends_on).1
      ∨ ((availableNeighborhoods inst state moved (inst.service s).depends_on).1 = []
        ∧ Constraint.relEq i (state.assignment (movedAt moved i))
          ∈ (setupDependencyConstraint inst state moved emptySpace).posted)
      ∨ Constraint.dom i
          (((availableNeighborhoods inst state moved
            (inst.service s).depends_on).1.flatMap inst.neighborhood).insertionSort (· ≤ ·))
          ∈ (setupDependencyConstraint inst state moved emptySpace).posted := by
  have hmi : i ∈ slotsOfService inst moved s := (mem_slotsOfService inst moved s i).2 ⟨hi, hsi⟩
  have hsl : slotsOfService inst moved s ≠ [] := by
    intro hc
    rw [hc] at hmi
    exact List.not_mem_nil _ hmi
  have hlen : (inst.service s).depends_on.length > 0 := List.length_pos.2 hdep
  by_cases hskip : inst.num_neighborhoods
      = distinctNeighbors (availableNeighborhoods inst state moved
          (inst.service s).depends_on).1
  · exact Or.inl hskip
  · by_cases hN : (availableNeighborhoods inst state moved
        (inst.service s).depends_on).1.length = 0
    · refine Or.inr (Or.inl ⟨List.length_eq_zero.1 hN, ?_⟩)
      simp only [setupDependencyConstraint, emptySpace, List.nil_append, List.mem_append,
        List.mem_flatMap, List.mem_range]
      refine Or.inr ⟨s, hs0, ?_⟩
      unfold dependencyConstraints
      simp only [hlen, hsl, ne_eq, not_false_eq_true, and_self, if_true, hskip, if_false, hN]
      exact List.mem_map.2 ⟨i, hmi, rfl⟩
    · refine Or.inr (Or.inr ?_)
      simp only [setupDependencyConstraint, emptySpace, List.nil_append, List.mem_append,
        List.mem_flatMap, List.mem_range]
      refine Or.inr ⟨s, hs0, ?_⟩
      unfold dependencyConstraints
      simp only [hlen, hsl, ne_eq, not_false_eq_true, and_self, if_true, hskip, if_false, hN]
      exact List.mem_map.2 ⟨i, hmi, rfl⟩

/-- C7: if the baseline state satisfies the dependency constraint, then for
every solved Reschedule Space over pairwise distinct moved processes and every
pair (`s` depends on `d`), the set of neighborhoods occupied by the members of
`s` in the result state is a subset of the set of neighborhoods occupied by the
members of `d` in the result state. -/
theorem C7_dependency (inst : Instance) (state : ReAssignment) (moved : List Nat)
    (val : Nat → Nat) (order : List Nat) (final : RescheduleSpace) (total : Int)
    (hs : Solved inst state moved val order final total) (hnd : moved.Nodup)
    (hmem : ∀ s, s < inst.num_services → ∀ q, q ∈ (inst.service s).process →
      (inst.process q).service = s)
    (hplaced : ∀ s, s < inst.num_services → ∀ q, q ∈ (inst.service s).process →
      state.assignment q < inst.num_machines)
    (hdep : ∀ s, s < inst.num_services → ∀ d, d ∈ (inst.service s).depends_on →
      d < inst.num_services ∧ s ∈ (inst.service d).required_by)
    (hnh1 : ∀ n, n < inst.num_neighborhoods → ∀ m, m ∈ inst.neighborhood n →
      (inst.machine m).neighborhood = n)
    (hnh2 : ∀ m, m < inst.num_machines → (inst.machine m).neighborhood < inst.num_neighborhoods)
    (hbase : DependencyOk inst state.assignment) :
    DependencyOk inst (getResultState inst state moved val final).assignment := by
  intro s hs0 d hd q hq
  obtain ⟨hd0, hreq⟩ := hdep s hs0 d hd
  have stay := dependency_stay inst state moved val order final total hs hnd hmem hplaced
    hnh1 hnh2 hbase s hs0 d hd hd0 hreq q hq
  have hne : (inst.service s).depends_on ≠ [] := List.ne_nil_of_mem hd
  obtain ⟨hsorted, hcov⟩ := availableNeighborhoods_spec inst state moved
    (inst.service s).depends_on
  have hlt : ∀ x, x ∈ (availableNeighborhoods inst state moved
      (inst.service s).depends_on).1 → x < inst.num_neighborhoods := by
    intro x hx
    obtain ⟨q1, h1, _, h3⟩ := (mem_coveredNeighborhoods inst state moved d x).1 (hcov x hx d hd)
    rw [← h3]
    exact hnh2 _ (hplaced d hd0 q1 h1)
  have covered : ∀ x, x ∈ (availableNeighborhoods inst state moved
      (inst.service s).depends_on).1 →
      nhOf inst (getResultState inst state moved val final).assignment q = x →
      ∃ q1, q1 ∈ (inst.service d).process
        ∧ nhOf inst (getResultState inst state moved val final).assignment q1
          = nhOf inst (getResultState inst state moved val final).assignment q := by
    intro x hx ex
    obtain ⟨q1, h1, h2, h3⟩ := (mem_coveredNeighborhoods inst state moved d x).1 (hcov x hx d hd)
    refine ⟨q1, h1, ?_⟩
    rw [ex, ← h3]
    unfold nhOf
    rw [resultAssignment_other inst state moved val final q1 h2]
  by_cases hqm : q ∈ moved
  · obtain ⟨i, hi, ei⟩ := mem_movedAt moved q hqm
    have hsi : (inst.process (movedAt moved i)).service = s := by
      rw [ei]; exact hmem s hs0 q hq
    have hres : (getResultState inst state moved val final).assignment q = val i := by
      rw [← ei]; exact resultAssignment_slot inst state moved val final hnd i hi
    have hvn : (inst.machine (val i)).neighborhood < inst.num_neighborhoods :=
      hnh2 _ (hs.val_lt i hi)
    rcases dependency_posted inst state moved s hs0 i hi hsi hne with h | h | h
    · by_cases hN : (availableNeighborhoods inst state moved
          (inst.service s).depends_on).1 = []
      · rw [hN] at h
        have h1 : inst.num_neighborhoods = 1 := h
        obtain ⟨q1, e1, e2⟩ := stay
        refine ⟨q1, e1, ?_⟩
        rw [e2]
        unfold nhOf
        rw [hres]
        have := hnh2 _ (hplaced s hs0 q hq)
        omega
      · have hin := distinctNeighbors_cover _ _ hsorted hN hlt h _ hvn
        exact covered _ hin (by unfold nhOf; rw [hres])
    · obtain ⟨_, hc⟩ := h
      have hh := solved_posted inst state moved val order final total hs _ (Or.inr (Or.inr hc))
      have hv : val i = state.assignment q := by rw [← ei]; exact hh
      obtain ⟨q1, e1, e2⟩ := stay
      refine ⟨q1, e1, ?_⟩
      rw [e2]
      unfold nhOf
      rw [hres, hv]
    · have hh := solved_posted inst state moved val order final total hs _ (Or.inr (Or.inr h))
      have hv : val i ∈ (availableNeighborhoods inst state moved
          (inst.service s).depends_on).1.flatMap inst.neighborhood :=
        (List.perm_insertionSort _ _).mem_iff.1 hh
      obtain ⟨n, hn1, hn2⟩ := List.mem_flatMap.1 hv
      have hvn1 := hnh1 n (hlt n hn1) (val i) hn2
      exact covered n hn1 (by unfold nhOf; rw [hres]; exact hvn1)
  · obtain ⟨q1, e1, e2⟩ := stay
    refine ⟨q1, e1, ?_⟩
    rw [e2]
    unfold nhOf
    rw [resultAssignment_other inst state moved val final q hqm]

/-- C5 (witness): process 0 of service 0 moves to machine 2 and stays off the
machine of the other member, process 1. -/
theorem C5_conflict_witness :
    Solved exInstance3 exState3 [0] (fun _ => 2) [0] (exFinal3 0 2) 1
      ∧ (getResultState exInstance3 exState3 [0] (fun _ => 2) (exFinal3 0 2)).assignment 1
          ≠ (getResultState exInstance3 exState3 [0] (fun _ => 2) (exFinal3 0 2)).assignment
              (movedAt [0] 0) :=
  have hs : Solved exInstance3 exState3 [0] (fun _ => 2) [0] (exFinal3 0 2) 1 :=
    ⟨by decide, by decide, rfl, by decide⟩
  ⟨hs, (C5_conflict exInstance3 exState3 [0] (fun _ => 2) [0] (exFinal3 0 2) 1 hs
    (by decide) (by decide) (by decide)).1 0 (by decide) 1 (by decide) (by decide)⟩

/-- C6 (witness): service 0 has `min_spread = 2`; with process 0 on machine 2 and
process 1 on machine 1 its members occupy two locations. -/
theorem C6_spread_witness :
    Solved exInstance3 exState3 [0] (fun _ => 2) [0] (exFinal3 0 2) 1
      ∧ (exInstance3.service 0).min_spread
          ≤ spreadOf exInstance3
              (getResultState exInstance3 exState3 [0] (fun _ => 2) (exFinal3 0 2)).assignment 0 :=
  have hs : Solved exInstance3 exState3 [0] (fun _ => 2) [0] (exFinal3 0 2) 1 :=
    ⟨by decide, by decide, rfl, by decide⟩
  ⟨hs, (C6_spread exInstance3 exState3 [0] (fun _ => 2) [0] (exFinal3 0 2) 1 hs
    (by decide) (by decide) (by decide)).1 0 (by decide) (by decide)⟩

/-- C7 (witness): process 2 of service 1, which depends on service 0, moves from
machine 0 to machine 1 inside neighborhood 0, where service 0 lives. -/
theorem C7_dependency_witness :
    Solved exInstance3 exState3 [2] (fun _ => 1) [0] (exFinal3 2 1) 1
      ∧ DependencyOk exInstance3 exState3.assignment
      ∧ DependencyOk exInstance3
          (getResultState exInstance3 exState3 [2] (fun _ => 1) (exFinal3 2 1)).assignment :=
  have hs : Solved exInstance3 exState3 [2] (fun _ => 1) [0] (exFinal3 2 1) 1 :=
    ⟨by decide, by decide, rfl, by decide⟩
  ⟨hs, by decide, C7_dependency exInstance3 exState3 [2] (fun _ => 1) [0] (exFinal3 2 1) 1 hs
    (by decide) (by decide) (by decide) (by decide) (by decide) (by decide) (by decide)⟩

/-! ## Closed forms of the initial state -/

theorem setAssignment_rest (inst : Instance) (a : Nat → Nat) :
    (∀ x r, r < inst.num_resources → r < inst.transient_count →
        (setAssignment inst a).2.transient x r = machineLoad inst a x r)
    ∧ (setAssignment inst a).2.process_moves = 0
    ∧ (setAssignment inst a).2.machine_moves = 0
    ∧ (setAssignment inst a).2.assignment = a := by
  obtain ⟨_, _, p3, _, _, _, p7, p8, p9⟩ := processLoop_spec inst a inst.num_processes
  obtain ⟨_, _, _, _, _, _, m7, m8, m9, m10⟩ :=
    machineLoop_spec inst (processLoop inst a inst.num_processes).2 inst.num_machines
  have hT : (setAssignment inst a).2.transient
      = (machineLoop inst (processLoop inst a inst.num_processes).2
          inst.num_machines).1.transient := rfl
  have hP : (setAssignment inst a).2.process_moves
      = (machineLoop inst (processLoop inst a inst.num_processes).2
          inst.num_machines).1.process_moves := rfl
  have hM : (setAssignment inst a).2.machine_moves
      = (machineLoop inst (processLoop inst a inst.num_processes).2
          inst.num_machines).1.machine_moves := rfl
  have hA : (setAssignment inst a).2.assignment
      = (machineLoop inst (processLoop inst a inst.num_processes).2
          inst.num_machines).1.assignment := rfl
  refine ⟨?_, ?_, ?_, ?_⟩
  · intro x r hr hrt
    rw [hT, m8, p3 x r hr hrt]
    rfl
  · rw [hP, m9, p8]
  · rw [hM, m10, p9]
  · rw [hA, m7, p7]

/-- C11: after `setAssignment(a, state)` on a fresh state, for every machine `m`:
`excess[m][r] = sum{req[p][r] | a[p] = m} - safety_capacity[m][r]` for every
resource `r`, `transient[m][r] = sum{req[p][r] | a[p] = m}` for every resource of
the transient prefix (`r < transient_count`), which are the transient resources
once the resources are reordered, and `balance[m][b] =
bal * (cap[r1] - safety[r1] - excess[m][r1]) - (cap[r2] - safety[r2] -
excess[m][r2])` for every balance triple `b = (r1, r2, bal, weight)`. -/
theorem C11_setAssignment_vectors (inst : Instance) (a : Nat → Nat) :
    (∀ x, x < inst.num_machines → ∀ r, r < inst.num_resources →
        (setAssignment inst a).2.excess x r
          = (∑ p in range inst.num_processes,
              if a p = x then (inst.process p).requirement r else 0)
            - (inst.machine x).safety_capacity r)
    ∧ (∀ x, x < inst.num_machines → ∀ r, r < inst.num_resources → r < inst.transient_count →
        (setAssignment inst a).2.transient x r
          = ∑ p in range inst.num_processes,
              if a p = x then (inst.process p).requirement r else 0)
    ∧ ((∀ r, r < inst.num_resources →
          ((inst.resource r).is_transient = true ↔ r < inst.transient_count)) →
        ∀ x, x < inst.num_machines → ∀ r, r < inst.num_resources →
          (inst.resource r).is_transient = true →
          (setAssignment inst a).2.transient x r
            = ∑ p in range inst.num_processes,
                if a p = x then (inst.process p).requirement r else 0)
    ∧ (∀ x, x < inst.num_machines → ∀ b, b < inst.num_balances →
        (setAssignment inst a).2.balance x b
          = ((inst.balance b).balance : Int)
              * ((inst.machine x).capacity (inst.balance b).resource1
                - (inst.machine x).safety_capacity (inst.balance b).resource1
                - (setAssignment inst a).2.excess x (inst.balance b).resource1)
            - ((inst.machine x).capacity (inst.balance b).resource2
                - (inst.machine x).safety_capacity (inst.balance b).resource2
                - (setAssignment inst a).2.excess x (inst.balance b).resource2)) := by
  obtain ⟨s1, s2, _, _⟩ := setAssignment_spec inst a
  obtain ⟨t1, _, _, _⟩ := setAssignment_rest inst a
  refine ⟨?_, ?_, ?_, ?_⟩
  · intro x hx r hr
    rw [s1 x hx r hr]
    rfl
  · intro x _ r hr hrt
    rw [t1 x r hr hrt]
    rfl
  · intro hpre x _ r hr htr
    rw [t1 x r hr ((hpre r hr).1 htr)]
    rfl
  · intro x hx b hb
    rw [s2 x hx b hb]
    rfl

/-- C11 (witness): in the instance with a balance triple, machine 0 hosts both
processes. -/
theorem C11_setAssignment_vectors_witness :
    (setAssignment exInstance2 (fun _ => 0)).2.excess 0 0
        = (∑ p in range exInstance2.num_processes,
            if (fun _ => 0) p = 0 then (exInstance2.process p).requirement 0 else 0)
          - (exInstance2.machine 0).safety_capacity 0
      ∧ (setAssignment exInstance2 (fun _ => 0)).2.transient 0 0
        = ∑ p in range exInstance2.num_processes,
            if (fun _ => 0) p = 0 then (exInstance2.process p).requirement 0 else 0 :=
  ⟨(C11_setAssignment_vectors exInstance2 (fun _ => 0)).1 0 (by decide) 0 (by decide),
    (C11_setAssignment_vectors exInstance2 (fun _ => 0)).2.1 0 (by decide) 0 (by decide)
      (by decide)⟩

/-- C12: after `setAssignment(a, state)` on a fresh state, `load_cost` is the sum
over the resources `r` of `weight_load_cost[r]` times the sum over the machines
of `max(0, excess[m][r])`, `balance_cost` is the sum over the balance triples `b`
of `weight_balance_cost[b]` times the sum over the machines of
`max(0, balance[m][b])`, `process_moves = machine_moves = 0`, and so the total
cost of the initial state is `load_cost + balance_cost`. -/
theorem C12_setAssignment_costs (inst : Instance) (a : Nat → Nat) :
    (setAssignment inst a).2.load_cost
        = ∑ r in range inst.num_resources,
            (inst.resource r).weight_load_cost
              * ∑ x in range inst.num_machines, max 0 ((setAssignment inst a).2.excess x r)
    ∧ (setAssignment inst a).2.balance_cost
        = ∑ b in range inst.num_balances,
            ((inst.balance b).weight_balance_cost : Int)
              * ∑ x in range inst.num_machines, max 0 ((setAssignment inst a).2.balance x b)
    ∧ (setAssignment inst a).2.process_moves = 0
    ∧ (setAssignment inst a).2.machine_moves = 0
    ∧ (setAssignment inst a).2.getCost inst
        = (setAssignment inst a).2.load_cost + (setAssignment inst a).2.balance_cost := by
  obtain ⟨_, _, s3, s4⟩ := setAssignment_spec inst a
  obtain ⟨_, t2, t3, _⟩ := setAssignment_rest inst a
  refine ⟨?_, ?_, t2, t3, ?_⟩
  · rw [s3]
    apply Finset.sum_congr rfl
    intro r _
    ring
  · rw [s4]
    apply Finset.sum_congr rfl
    intro b _
    ring
  · unfold ReAssignment.getCost
    rw [t2, t3]
    ring

/-! ## Monotonic global best -/

theorem synchronise_global_best (inst : Instance) (new_best : ReAssignment) (sh : Shared) :
    (synchronise inst new_best sh).global_best = sh.global_best
      ∨ ((synchronise inst new_best sh).global_best = new_best
          ∧ new_best.getCost inst < sh.global_best.getCost inst) := by
  unfold synchronise
  by_cases h : new_best.getCost inst < sh.global_best.getCost inst
  · right
    rw [if_pos h]
    split_ifs <;> exact ⟨rfl, h⟩
  · left
    rw [if_neg h]

theorem step_global_best (inst : Instance) (d : Driver) (s : WorkerStep) :
    (d.step inst s).shared.global_best = d.shared.global_best
      ∨ (d.step inst s).shared.global_best.getCost inst < d.shared.global_best.getCost inst := by
  cases s with
  | adopt w => left; rfl
  | sync w nb =>
    rcases synchronise_global_best inst nb d.shared with h | ⟨h1, h2⟩
    · left; exact h
    · right
      show (synchronise inst nb d.shared).global_best.getCost inst < _
      rw [h1]; exact h2

theorem globalBestTrace_le (inst : Instance) (steps : List WorkerStep) :
    ∀ (d : Driver) (g : ReAssignment), g ∈ globalBestTrace inst d steps →
      g = d.shared.global_best ∨ g.getCost inst < d.shared.global_best.getCost inst := by
  induction steps with
  | nil =>
    intro d g hg
    left
    simpa [globalBestTrace] using hg
  | cons s rest ih =>
    intro d g hg
    simp only [globalBestTrace, List.mem_cons] at hg
    rcases hg with hg | hg
    · left; exact hg
    · rcases ih (d.step inst s) g hg with h | h
      · rcases step_global_best inst d s with h1 | h1
        · left; rw [h, h1]
        · right; rw [h]; exact h1
      · rcases step_global_best inst d s with h1 | h1
        · right; rw [← h1]; exact h
        · right; exact lt_trans h h1

/-- C13: the synchronisation step of a worker replaces `global_best` only by a
state of strictly lower total cost than the state it replaces, and along every
sequence of critical sections of the workers (each atomic under the mutex) any
later value of `global_best` either is the earlier one or has a strictly lower
total cost: the successive values of the total cost of `global_best` are strictly
decreasing. -/
theorem C13_global_best_decreasing (inst : Instance) :
    (∀ (new_best : ReAssignment) (sh : Shared),
      (synchronise inst new_best sh).global_best = sh.global_best
        ∨ ((synchronise inst new_best sh).global_best = new_best
            ∧ new_best.getCost inst < sh.global_best.getCost inst))
    ∧ ∀ (d : Driver) (steps : List WorkerStep),
        (globalBestTrace inst d steps).Pairwise
          (fun g g1 => g1 = g ∨ g1.getCost inst < g.getCost inst) := by
  refine ⟨synchronise_global_best inst, ?_⟩
  intro d steps
  induction steps generalizing d with
  | nil => simp [globalBestTrace]
  | cons s rest ih =>
    simp only [globalBestTrace, List.pairwise_cons]
    refine ⟨?_, ih (d.step inst s)⟩
    intro g hg
    have h := globalBestTrace_le inst (s :: rest) d g
      (by simp only [globalBestTrace, List.mem_cons]; right; exact hg)
    exact h

/-! ## A baseline without cost admits no solved space -/

theorem reset_process (inst : Instance) (p : Nat) :
    (ProcessFixing.reset inst).process p
      = if p < inst.num_processes then { inst.process p with fixed := false }
        else inst.process p := by
  have h : ∀ n, (List.range n).foldl
      (fun (process : Nat → Process) q => Function.update process q
        { process q with fixed := false }) inst.process p
      = if p < n then { inst.process p with fixed := false } else inst.process p := by
    intro n
    induction n with
    | zero => simp
    | succ n ih =>
      rw [foldl_range_succ]
      by_cases hp : p = n
      · subst hp
        simp only [Function.update_same, ih, lt_irrefl, if_false, Nat.lt_succ_self, if_true]
      · rw [Function.update_noteq hp, ih]
        have : p < n + 1 ↔ p < n := by omega
        simp only [this]
  exact h inst.num_processes

/-- C15: `ProcessFixing.reset()` is idempotent: calling it twice leaves the
instance, and in particular the fixed flags, `movable_processes_by_size` and
`num_movable_processes`, exactly as a single call does. -/
theorem C15_reset_idempotent (inst : Instance) :
    ProcessFixing.reset (ProcessFixing.reset inst) = ProcessFixing.reset inst
    ∧ (∀ p, ((ProcessFixing.reset (ProcessFixing.reset inst)).process p).fixed
        = ((ProcessFixing.reset inst).process p).fixed)
    ∧ (ProcessFixing.reset (ProcessFixing.reset inst)).movable_processes_by_size
        = (ProcessFixing.reset inst).movable_processes_by_size
    ∧ (ProcessFixing.reset (ProcessFixing.reset inst)).num_movable_processes
        = (ProcessFixing.reset inst).num_movable_processes := by
  have hp : (ProcessFixing.reset (ProcessFixing.reset inst)).process
      = (ProcessFixing.reset inst).process := by
    funext p
    rw [reset_process (ProcessFixing.reset inst) p]
    have hn : (ProcessFixing.reset inst).num_processes = inst.num_processes := rfl
    rw [hn, reset_process inst p]
    split_ifs <;> rfl
  have h : ProcessFixing.reset (ProcessFixing.reset inst) = ProcessFixing.reset inst := by
    have e : ProcessFixing.reset (ProcessFixing.reset inst)
        = { ProcessFixing.reset inst with
            process := (ProcessFixing.reset (ProcessFixing.reset inst)).process } := rfl
    rw [e, hp]
  refine ⟨h, ?_, ?_, ?_⟩
  · intro p; rw [h]
  · rw [h]
  · rw [h]

theorem reset_fixed (inst : Instance) (p : Nat) (hp : p < inst.num_processes) :
    ((ProcessFixing.reset inst).process p).fixed = false := by
  rw [reset_process, if_pos hp]

theorem updateMovable_fold (process : Nat → Process) (l : List Nat) (n : Nat)
    (hn : n ≤ l.length) :
    (List.range n).foldl
      (fun (acc : List Nat) i =>
        if (process (l.getD i 0)).fixed then acc else acc ++ [l.getD i 0]) []
      = (l.take n).filter (fun p => !(process p).fixed) := by
  induction n with
  | zero => simp
  | succ n ih =>
    have hlt : n < l.length := hn
    rw [foldl_range_succ, ih (Nat.le_of_lt hlt), List.take_succ, List.filter_append]
    have hget : l[n]? = some (l.getD n 0) := by
      rw [List.getD_eq_getElem?_getD, List.getElem?_eq_getElem hlt]
      rfl
    rw [hget]
    generalize l.getD n 0 = q
    by_cases hf : (process q).fixed = true
    · simp [hf]
    · simp [hf]

theorem updateMovable_spec (inst : Instance)
    (hlen : inst.processes_by_size.length = inst.num_processes) :
    (ProcessFixing.updateMovableProcesses inst).movable_processes_by_size
        = inst.processes_by_size.filter (fun p => !(inst.process p).fixed)
    ∧ (ProcessFixing.updateMovableProcesses inst).num_movable_processes
        = (ProcessFixing.updateMovableProcesses inst).movable_processes_by_size.length
    ∧ (ProcessFixing.updateMovableProcesses inst).process = inst.process
    ∧ (ProcessFixing.updateMovableProcesses inst).processes_by_size = inst.processes_by_size
    ∧ (ProcessFixing.updateMovableProcesses inst).num_processes = inst.num_processes := by
  refine ⟨?_, rfl, rfl, rfl, rfl⟩
  have h := updateMovable_fold inst.process inst.processes_by_size inst.num_processes
    (le_of_eq hlen.symm)
  rw [← hlen, List.take_length] at h
  unfold ProcessFixing.updateMovableProcesses
  rw [← hlen]
  exact h

theorem reset_movable (inst : Instance)
    (hmem : ∀ p, p ∈ inst.processes_by_size → p < inst.num_processes) :
    (ProcessFixing.reset inst).movable_processes_by_size
      = (ProcessFixing.reset inst).processes_by_size.filter
          (fun p => !((ProcessFixing.reset inst).process p).fixed) := by
  have h1 : (ProcessFixing.reset inst).movable_processes_by_size = inst.processes_by_size := rfl
  have h2 : (ProcessFixing.reset inst).processes_by_size = inst.processes_by_size := rfl
  rw [h1, h2]
  symm
  apply List.filter_eq_self.2
  intro p hp
  rw [reset_fixed inst p (hmem p hp)]
  rfl

/-- C16: on an instance whose `processes_by_size` lists `num_processes` process
ids, after `reset()` no process is fixed and `movable_processes_by_size` equals
`processes_by_size`; after `reset()` and after `fixTransient(safety)` (for every
`safety` and every ranking of the processes) `movable_processes_by_size` is
exactly the sub-sequence of `processes_by_size` formed by the processes whose
fixed flag is false, and `num_movable_processes` equals its length. -/
theorem C16_movable_list (inst : Instance)
    (hlen : inst.processes_by_size.length = inst.num_processes)
    (hmem : ∀ p, p ∈ inst.processes_by_size → p < inst.num_processes) :
    ((∀ p, p < inst.num_processes → ((ProcessFixing.reset inst).process p).fixed = false)
      ∧ (ProcessFixing.reset inst).movable_processes_by_size
          = (ProcessFixing.reset inst).processes_by_size
      ∧ (ProcessFixing.reset inst).movable_processes_by_size
          = (ProcessFixing.reset inst).processes_by_size.filter
              (fun p => !((ProcessFixing.reset inst).process p).fixed)
      ∧ (ProcessFixing.reset inst).num_movable_processes
          = (ProcessFixing.reset inst).movable_processes_by_size.length)
    ∧ ∀ (safety : Binary32) (trans_usage : List Nat),
        (ProcessFixing.fixTransient safety trans_usage inst).movable_processes_by_size
            = (ProcessFixing.fixTransient safety trans_usage inst).processes_by_size.filter
                (fun p => !((ProcessFixing.fixTransient safety trans_usage inst).process p).fixed)
        ∧ (ProcessFixing.fixTransient safety trans_usage inst).num_movable_processes
            = (ProcessFixing.fixTransient safety trans_usage
                inst).movable_processes_by_size.length := by
  have hr : (ProcessFixing.reset inst).num_movable_processes
      = (ProcessFixing.reset inst).movable_processes_by_size.length := by
    show inst.num_processes = inst.processes_by_size.length
    exact hlen.symm
  refine ⟨⟨reset_fixed inst, rfl, reset_movable inst hmem, hr⟩, ?_⟩
  intro safety trans_usage
  unfold ProcessFixing.fixTransient
  by_cases ht : (ProcessFixing.reset inst).hasTransientResources = true
  · simp only [ht, Bool.not_true, Bool.false_eq_true, if_false]
    obtain ⟨u1, u2, u3, u4, _⟩ := updateMovable_spec
      { ProcessFixing.reset inst with
        process := (trans_usage.foldl (fixTransientStep safety (ProcessFixing.reset inst))
          ((ProcessFixing.reset inst).process, fun _ _ => 0)).1 } hlen
    rw [u3, u4]
    exact ⟨u1, u2⟩
  · simp only [ht, Bool.not_false, if_true]
    exact ⟨reset_movable inst hmem, hr⟩

/-- C16 (witness): in the instance of one machine and one process the ranking
`[0]` fixes the process, and the movable list becomes empty. -/
theorem C16_movable_list_witness :
    exInstanceFix.processes_by_size.length = exInstanceFix.num_processes
      ∧ (ProcessFixing.fixTransient safety08 [0] exInstanceFix).movable_processes_by_size
          = (ProcessFixing.fixTransient safety08 [0] exInstanceFix).processes_by_size.filter
              (fun p => !((ProcessFixing.fixTransient safety08 [0]
                exInstanceFix).process p).fixed)
      ∧ (ProcessFixing.fixTransient safety08 [0] exInstanceFix).movable_processes_by_size = []
      ∧ (ProcessFixing.reset exInstanceFix).movable_processes_by_size = [0] :=
  have h := C16_movable_list exInstanceFix (by decide) (by decide)
  ⟨by decide, (h.2 safety08 [0]).1, by decide, by decide⟩

/-! ## The bound of the fixed load -/

theorem round_mant_nonneg (m e : Int) (hm : 0 ≤ m) : 0 ≤ (Binary32.round m e).mant := by
  unfold Binary32.round
  split_ifs
  · exact hm
  · exact mul_nonneg (Int.sign_nonneg.2 hm) (Int.natCast_nonneg _)

theorem lt_ofInt_zero (a : Binary32) (ha : 0 ≤ a.mant) :
    Binary32.lt a (Binary32.ofInt 0) = false := by
  have h0 : Binary32.ofInt 0 = { mant := 0, exp := 0 } := rfl
  rw [h0]
  unfold Binary32.lt
  simp only [zero_mul, decide_eq_false_iff_not, not_lt]
  exact mul_nonneg ha (pow_nonneg (by norm_num) _)

theorem bound_nonneg (safety : Binary32) (c : Int) (hs : 0 ≤ safety.mant) (hc : 0 ≤ c) :
    Binary32.lt (Binary32.mul safety (Binary32.ofInt c)) (Binary32.ofInt 0) = false := by
  apply lt_ofInt_zero
  unfold Binary32.mul
  apply round_mant_nonneg
  exact mul_nonneg hs (round_mant_nonneg c 0 hc)

theorem fixTransient_fold (safety : Binary32) (inst : Instance) (P0 : Nat → Process)
    (order : List Nat) (hnd : order.Nodup) (hfree : ∀ q, q ∈ order → (P0 q).fixed = false) :
    (∀ q, ((order.foldl (fixTransientStep safety inst) (P0, fun _ _ => 0)).1 q).requirement
          = (P0 q).requirement
        ∧ ((order.foldl (fixTransientStep safety inst) (P0, fun _ _ => 0)).1 q).original_machine
          = (P0 q).original_machine)
    ∧ (∀ q, q ∉ order →
        (order.foldl (fixTransientStep safety inst) (P0, fun _ _ => 0)).1 q = P0 q)
    ∧ (∀ m r, r < inst.num_resources →
        (order.foldl (fixTransientStep safety inst) (P0, fun _ _ => 0)).2 m r
          = (order.map (fun q =>
              if ((order.foldl (fixTransientStep safety inst) (P0, fun _ _ => 0)).1 q).fixed
                  = true ∧ (P0 q).original_machine = m
              then (P0 q).requirement r else 0)).sum)
    ∧ (∀ m, (∀ r, r < inst.num_resources →
          Binary32.lt
            (Binary32.mul safety (Binary32.ofInt ((inst.machine m).safety_capacity r)))
            (Binary32.ofInt 0) = false) →
        ∀ r, r < inst.num_resources →
          Binary32.lt
            (Binary32.mul safety (Binary32.ofInt ((inst.machine m).safety_capacity r)))
            (Binary32.ofInt ((order.foldl (fixTransientStep safety inst)
              (P0, fun _ _ => 0)).2 m r)) = false) := by
  induction order using List.reverseRecOn with
  | nil =>
    refine ⟨fun q => ⟨rfl, rfl⟩, fun q _ => rfl, ?_, ?_⟩
    · intro m r _
      simp
    · intro m hb0 r hr
      exact hb0 r hr
  | append_singleton L p ih =>
    have hndL : L.Nodup := (List.nodup_append.1 hnd).1
    have hpL : p ∉ L := by
      intro hp
      exact (List.nodup_append.1 hnd).2.2 hp (List.mem_singleton_self p) 
    obtain ⟨i1, i2, i3, i4⟩ := ih hndL (fun q hq => hfree q (List.mem_append_left _ hq))
    rw [List.foldl_append]
    simp only [List.foldl_cons, List.foldl_nil]
    generalize hacc : L.foldl (fixTransientStep safety inst) (P0, fun _ _ => 0) = acc at *
    have hpfix : (acc.1 p).fixed = false := by
      rw [i2 p hpL]
      exact hfree p (List.mem_append_right _ (List.mem_singleton_self p))
    unfold fixTransientStep
    simp only
    by_cases hsp : ((List.range inst.num_resources).all (fun r =>
        !(Binary32.lt (Binary32.mul safety (Binary32.ofInt
            ((inst.machine (acc.1 p).original_machine).safety_capacity r)))
          (Binary32.ofInt (acc.2 (acc.1 p).original_machine r + (acc.1 p).requirement r)))))
        = true
    · rw [if_pos hsp]
      simp only
      refine ⟨?_, ?_, ?_, ?_⟩
      · intro q
        by_cases hq : q = p
        · subst hq
          simp only [Function.update_same]
          exact i1 q
        · rw [Function.update_noteq hq]
          exact i1 q
      · intro q hq
        have hqp : q ≠ p := fun e => hq (by rw [e]; simp)
        have hqL : q ∉ L := fun e => hq (List.mem_append_left _ e)
        rw [Function.update_noteq hqp]
        exact i2 q hqL
      · intro m r hr
        rw [List.map_append, List.sum_append]
        have hL : (L.map (fun q =>
              if (Function.update acc.1 p { acc.1 p with fixed := true } q).fixed = true
                  ∧ (P0 q).original_machine = m
              then (P0 q).requirement r else 0))
            = L.map (fun q =>
              if (acc.1 q).fixed = true ∧ (P0 q).original_machine = m
              then (P0 q).requirement r else 0) := by
          apply List.map_congr_left
          intro q hq
          have hqp : q ≠ p := fun e => hpL (e ▸ hq)
          rw [Function.update_noteq hqp]
        rw [hL, ← i3 m r hr]
        simp only [List.map_cons, List.map_nil, List.sum_cons, List.sum_nil, add_zero,
          Function.update_same, true_and]
        by_cases hm : m = (acc.1 p).original_machine
        · subst hm
          rw [Function.update_same, if_pos hr, if_pos (i1 p).2.symm, (i1 p).1]
        · rw [Function.update_noteq hm]
          have : ¬ (P0 p).original_machine = m := fun e => hm (by rw [← e, (i1 p).2])
          rw [if_neg this, add_zero]
      · intro m hb0 r hr
        by_cases hm : m = (acc.1 p).original_machine
        · subst hm
          rw [Function.update_same, if_pos hr]
          have := List.all_eq_true.1 hsp r (List.mem_range.2 hr)
          simpa using this
        · rw [Function.update_noteq hm]
          exact i4 m hb0 r hr
    · rw [if_neg hsp]
      refine ⟨i1, ?_, ?_, i4⟩
      · intro q hq
        exact i2 q (fun e => hq (List.mem_append_left _ e))
      · intro m r hr
        rw [List.map_append, List.sum_append, ← i3 m r hr]
        simp [hpfix]

theorem toRat_eq (a : Binary32) : a.toRat = (a.mant : ℚ) * (2 : ℚ) ^ a.exp := by
  unfold Binary32.toRat
  split_ifs with h
  · congr 1
    rw [← zpow_natCast]
    congr 1
    exact Int.toNat_of_nonneg h
  · have h1 : 0 ≤ -a.exp := by omega
    rw [div_eq_mul_inv]
    congr 1
    rw [← zpow_natCast, Int.toNat_of_nonneg h1, zpow_neg, inv_inv]

/-- The comparison of two `float` values is the order of their exact values. -/
theorem lt_iff_toRat (a b : Binary32) : Binary32.lt a b = true ↔ a.toRat < b.toRat := by
  unfold Binary32.lt
  rw [decide_eq_true_iff, toRat_eq, toRat_eq]
  have ha : 0 ≤ a.exp - min a.exp b.exp := by
    have := min_le_left a.exp b.exp
    omega
  have hb : 0 ≤ b.exp - min a.exp b.exp := by
    have := min_le_right a.exp b.exp
    omega
  have h2 : (0 : ℚ) < (2 : ℚ) ^ (min a.exp b.exp) := zpow_pos (by norm_num) _
  have ea : (a.mant : ℚ) * (2 : ℚ) ^ a.exp
      = ((a.mant * 2 ^ (a.exp - min a.exp b.exp).toNat : Int) : ℚ)
        * (2 : ℚ) ^ (min a.exp b.exp) := by
    push_cast
    rw [mul_assoc, ← zpow_natCast, Int.toNat_of_nonneg ha, ← zpow_add₀ (by norm_num)]
    congr 2
    ring
  have eb : (b.mant : ℚ) * (2 : ℚ) ^ b.exp
      = ((b.mant * 2 ^ (b.exp - min a.exp b.exp).toNat : Int) : ℚ)
        * (2 : ℚ) ^ (min a.exp b.exp) := by
    push_cast
    rw [mul_assoc, ← zpow_natCast, Int.toNat_of_nonneg hb, ← zpow_add₀ (by norm_num)]
    congr 2
    ring
  rw [ea, eb, mul_lt_mul_right h2]
  exact Int.cast_lt.symm

/-- Integers of less than 24 bits are converted to `float` without rounding. -/
theorem ofInt_exact (n : Int) (hn : n.natAbs < 2 ^ 24) : (Binary32.ofInt n).toRat = n := by
  unfold Binary32.ofInt Binary32.round
  rw [if_pos hn, toRat_eq]
  simp

/-- C17 (amended): after `fixTransient(safety)` with a non-negative `safety`, when
all safety capacities of the instance are non-negative and whatever the ranking
of the processes, for every machine `m` and every resource `r` the comparison the
code evaluates in single precision, `(float) sum > safety * safety_capacity[m][r]`,
is false for the summed requirement `sum` of the fixed processes whose original
machine is `m`: the `float` value of the sum is at most the `float` product, and
a sum of less than 24 bits is itself at most the `float` product, which is the
exact product `safety * safety_capacity[m][r]` rounded to single precision. -/
theorem C17_fixed_load_bound (safety : Binary32) (trans_usage : List Nat) (inst : Instance)
    (hperm : trans_usage.Perm (List.range inst.num_processes))
    (hs : 0 ≤ safety.mant)
    (hsc : ∀ m, m < inst.num_machines → ∀ r, r < inst.num_resources →
      0 ≤ (inst.machine m).safety_capacity r) :
    ∀ m, m < inst.num_machines → ∀ r, r < inst.num_resources →
      Binary32.lt (Binary32.mul safety (Binary32.ofInt ((inst.machine m).safety_capacity r)))
          (Binary32.ofInt (fixedLoad (ProcessFixing.fixTransient safety trans_usage inst) m r))
          = false
      ∧ (Binary32.ofInt (fixedLoad (ProcessFixing.fixTransient safety trans_usage inst)
            m r)).toRat
          ≤ (Binary32.mul safety
              (Binary32.ofInt ((inst.machine m).safety_capacity r))).toRat
      ∧ ((fixedLoad (ProcessFixing.fixTransient safety trans_usage inst) m r).natAbs < 2 ^ 24 →
          (fixedLoad (ProcessFixing.fixTransient safety trans_usage inst) m r : ℚ)
            ≤ (Binary32.mul safety
                (Binary32.ofInt ((inst.machine m).safety_capacity r))).toRat) := by
  intro m hm r hr
  have hb0 : ∀ r, r < inst.num_resources →
      Binary32.lt (Binary32.mul safety (Binary32.ofInt ((inst.machine m).safety_capacity r)))
        (Binary32.ofInt 0) = false :=
    fun r hr => bound_nonneg safety _ hs (hsc m hm r hr)
  have key : Binary32.lt
      (Binary32.mul safety (Binary32.ofInt ((inst.machine m).safety_capacity r)))
      (Binary32.ofInt (fixedLoad (ProcessFixing.fixTransient safety trans_usage inst) m r))
      = false := by
    unfold ProcessFixing.fixTransient
    by_cases ht : (ProcessFixing.reset inst).hasTransientResources = true
    · simp only [ht, Bool.not_true, Bool.false_eq_true, if_false]
      have hnd : trans_usage.Nodup := hperm.nodup_iff.2 (List.nodup_range _)
      have hfree : ∀ q, q ∈ trans_usage →
          ((ProcessFixing.reset inst).process q).fixed = false :=
        fun q hq => reset_fixed inst q (List.mem_range.1 (hperm.mem_iff.1 hq))
      obtain ⟨i1, _, i3, i4⟩ := fixTransient_fold safety (ProcessFixing.reset inst)
        (ProcessFixing.reset inst).process trans_usage hnd hfree
      have hload : fixedLoad (ProcessFixing.updateMovableProcesses
            { ProcessFixing.reset inst with
              process := (trans_usage.foldl (fixTransientStep safety (ProcessFixing.reset inst))
                ((ProcessFixing.reset inst).process, fun _ _ => 0)).1 }) m r
          = (trans_usage.foldl (fixTransientStep safety (ProcessFixing.reset inst))
                ((ProcessFixing.reset inst).process, fun _ _ => 0)).2 m r := by
        rw [i3 m r hr, sum_list_perm_range _ trans_usage _ hperm]
        unfold fixedLoad
        apply Finset.sum_congr rfl
        intro p _
        show (if ((trans_usage.foldl (fixTransientStep safety (ProcessFixing.reset inst))
              ((ProcessFixing.reset inst).process, fun _ _ => 0)).1 p).fixed = true
            ∧ ((trans_usage.foldl (fixTransientStep safety (ProcessFixing.reset inst))
              ((ProcessFixing.reset inst).process, fun _ _ => 0)).1 p).original_machine = m
            then ((trans_usage.foldl (fixTransientStep safety (ProcessFixing.reset inst))
              ((ProcessFixing.reset inst).process, fun _ _ => 0)).1 p).requirement r else 0) = _
        rw [(i1 p).1, (i1 p).2]
      rw [hload]
      exact i4 m hb0 r hr
    · simp only [ht, Bool.not_false, if_true]
      have h0 : fixedLoad (ProcessFixing.reset inst) m r = 0 := by
        unfold fixedLoad
        apply Finset.sum_eq_zero
        intro p hp
        have hn : (ProcessFixing.reset inst).num_processes = inst.num_processes := rfl
        rw [hn] at hp
        rw [reset_fixed inst p (mem_range.1 hp)]
        simp
      rw [h0]
      exact hb0 r hr
  have hle : (Binary32.ofInt (fixedLoad (ProcessFixing.fixTransient safety trans_usage inst)
        m r)).toRat
      ≤ (Binary32.mul safety (Binary32.ofInt ((inst.machine m).safety_capacity r))).toRat := by
    apply le_of_not_lt
    intro hlt
    have := (lt_iff_toRat _ _).2 hlt
    rw [key] at this
    exact Bool.false_ne_true this
  refine ⟨key, hle, ?_⟩
  intro hsmall
  rw [← ofInt_exact _ hsmall]
  exact hle

/-- C17 (witness): one machine of safety capacity 6000001, one process of
requirement 4800001, `safety = 0.8f`; the process is fixed. -/
theorem C17_fixed_load_bound_witness :
    [0].Perm (List.range exInstanceFix.num_processes)
      ∧ fixedLoad (ProcessFixing.fixTransient safety08 [0] exInstanceFix) 0 0 = 4800001
      ∧ Binary32.lt
          (Binary32.mul safety08 (Binary32.ofInt ((exInstanceFix.machine 0).safety_capacity 0)))
          (Binary32.ofInt (fixedLoad (ProcessFixing.fixTransient safety08 [0] exInstanceFix) 0 0))
          = false :=
  ⟨by decide, by decide,
    (C17_fixed_load_bound safety08 [0] exInstanceFix (by decide) (by decide) (by decide)
      0 (by decide) 0 (by decide)).1⟩

/-- C17 (counterexample): with `safety = 0.8f`, a machine of safety capacity
6000001 and a single process of requirement 4800001 on it, the product `0.8f *
6000001 = 4800000.87...` is rounded to the `float` `9600002 * 2 ^ (-1) = 4800001`,
the test `4800001 > 4800001` fails and the process is fixed, although its
requirement exceeds both `0.8f * 6000001` and `0.8 * 6000001 = 4800000.8`. -/
theorem C17_counterexample :
    exInstanceFix.hasTransientResources = true
      ∧ [0].Perm (List.range exInstanceFix.num_processes)
      ∧ ((ProcessFixing.fixTransient safety08 [0] exInstanceFix).process 0).fixed = true
      ∧ ((ProcessFixing.fixTransient safety08 [0] exInstanceFix).process 0).original_machine = 0
      ∧ fixedLoad (ProcessFixing.fixTransient safety08 [0] exInstanceFix) 0 0 = 4800001
      ∧ (exInstanceFix.machine 0).safety_capacity 0 = 6000001
      ∧ (Binary32.mul safety08 (Binary32.ofInt 6000001)).mant = 9600002
      ∧ (Binary32.mul safety08 (Binary32.ofInt 6000001)).exp = -1
      ∧ Binary32.toRat safety08 = 13421773 / 16777216
      ∧ ¬ ((fixedLoad (ProcessFixing.fixTransient safety08 [0] exInstanceFix) 0 0 : ℚ)
            ≤ Binary32.toRat safety08 * ((exInstanceFix.machine 0).safety_capacity 0 : ℚ))
      ∧ ¬ ((fixedLoad (ProcessFixing.fixTransient safety08 [0] exInstanceFix) 0 0 : ℚ)
            ≤ 8 / 10 * ((exInstanceFix.machine 0).safety_capacity 0 : ℚ)) := by
  have h1 : fixedLoad (ProcessFixing.fixTransient safety08 [0] exInstanceFix) 0 0 = 4800001 := by
    decide
  have h2 : (exInstanceFix.machine 0).safety_capacity 0 = 6000001 := rfl
  have h3 : Int.toNat 24 = 24 := rfl
  have h4 : Binary32.toRat safety08 = 13421773 / 16777216 := by
    norm_num [Binary32.toRat, safety08, h3]
  refine ⟨by decide, by decide, by decide, by decide, h1, h2, by decide, by decide, h4, ?_, ?_⟩
  · rw [h1, h2, h4]
    norm_num
  · rw [h1, h2]
    norm_num

/-! ## Reordering of the resources -/

theorem transient_partition (inst : Instance) :
    ((List.range inst.num_resources).filter (fun i => (inst.resource i).is_transient)).length
      + ((List.range inst.num_resources).filter
          (fun i => !(inst.resource i).is_transient)).length
      = inst.num_resources := by
  have h := List.length_eq_length_filter_add (l := List.range inst.num_resources)
    (fun i => (inst.resource i).is_transient)
  rw [List.length_range] at h
  exact h.symm

theorem resourceMap_transient (inst : Instance) (r : Nat) (hr : r < inst.num_resources) :
    (inst.resource ((resourceMap inst).getD r 0)).is_transient = true
      ↔ r < ((List.range inst.num_resources).filter
          (fun i => (inst.resource i).is_transient)).length := by
  have hp := transient_partition inst
  unfold resourceMap
  by_cases h : r < ((List.range inst.num_resources).filter
      (fun i => (inst.resource i).is_transient)).length
  · rw [List.getD_append _ _ _ _ h, List.getD_eq_getElem _ _ h]
    have hm := List.getElem_mem h
    have := (List.mem_filter.1 hm).2
    simp only [this, h]
  · have h1 : ((List.range inst.num_resources).filter
        (fun i => (inst.resource i).is_transient)).length ≤ r := Nat.le_of_not_lt h
    have h2 : r - ((List.range inst.num_resources).filter
        (fun i => (inst.resource i).is_transient)).length
        < ((List.range inst.num_resources).filter
          (fun i => !(inst.resource i).is_transient)).length := by omega
    rw [List.getD_append_right _ _ _ _ h1, List.getD_eq_getElem _ _ h2]
    have hm := List.getElem_mem h2
    have := (List.mem_filter.1 hm).2
    simp only [Bool.not_eq_true'] at this
    simp only [this, h]
    simp

theorem reorder_resource (inst : Instance) (r : Nat) (hr : r < inst.num_resources) :
    ((reorderResources inst).resource r).is_transient = true
      ↔ r < (reorderResources inst).transient_count := by
  unfold reorderResources
  by_cases h0 : ((List.range inst.num_resources).filter
      (fun i => (inst.resource i).is_transient)).length = 0
  · simp only [h0, if_true]
    have hnil := List.length_eq_zero.1 h0
    constructor
    · intro ht
      have : r ∈ (List.range inst.num_resources).filter
          (fun i => (inst.resource i).is_transient) :=
        List.mem_filter.2 ⟨List.mem_range.2 hr, ht⟩
      rw [hnil] at this
      exact absurd this (List.not_mem_nil r)
    · intro hlt
      exact absurd hlt (Nat.not_lt_zero r)
  · simp only [h0, if_false, hr, if_true]
    exact resourceMap_transient inst r hr

/-- C18: after `reorderResources()`, `transient_count` equals the number of
transient resources (of the table before and of the table after the call),
`resource[r].is_transient` holds exactly for the indices `r < transient_count`,
and the resource at such an index `r` is the `r`-th transient resource of the
original table, the transient indices being taken in increasing order. -/
theorem C18_transients_first (inst : Instance) :
    (reorderResources inst).transient_count
        = ((List.range inst.num_resources).filter
            (fun i => (inst.resource i).is_transient)).length
    ∧ (reorderResources inst).transient_count
        = ((List.range inst.num_resources).filter
            (fun i => ((reorderResources inst).resource i).is_transient)).length
    ∧ (∀ r, r < inst.num_resources →
        (((reorderResources inst).resource r).is_transient = true
          ↔ r < (reorderResources inst).transient_count))
    ∧ (∀ r, r < (reorderResources inst).transient_count →
        (reorderResources inst).resource r
          = inst.resource (((List.range inst.num_resources).filter
              (fun i => (inst.resource i).is_transient)).getD r 0))
    ∧ ((List.range inst.num_resources).filter
        (fun i => (inst.resource i).is_transient)).Sorted (· < ·) := by
  have hcount : (reorderResources inst).transient_count
      = ((List.range inst.num_resources).filter
          (fun i => (inst.resource i).is_transient)).length := by
    unfold reorderResources
    dsimp only
    split_ifs <;> rfl
  have hle : (reorderResources inst).transient_count ≤ inst.num_resources := by
    rw [hcount]
    have := transient_partition inst
    omega
  refine ⟨hcount, ?_, reorder_resource inst, ?_, ?_⟩
  · have hf : (List.range inst.num_resources).filter
          (fun i => ((reorderResources inst).resource i).is_transient)
        = (List.range inst.num_resources).filter
          (fun i => decide (i < (reorderResources inst).transient_count)) := by
      apply List.filter_congr
      intro i hi
      have := reorder_resource inst i (List.mem_range.1 hi)
      by_cases hlt : i < (reorderResources inst).transient_count
      · simp only [hlt, decide_True]
        exact this.2 hlt
      · simp only [hlt, decide_False]
        have h2 : ¬ ((reorderResources inst).resource i).is_transient = true :=
          fun e => hlt (this.1 e)
        simpa using h2
    rw [hf]
    have hr : (List.range inst.num_resources).filter
          (fun i => decide (i < (reorderResources inst).transient_count))
        = List.range (reorderResources inst).transient_count := by
      generalize (reorderResources inst).transient_count = k at hle
      obtain ⟨c, hc⟩ := Nat.exists_eq_add_of_le hle
      rw [hc, List.range_add, List.filter_append]
      have h1 : (List.range k).filter (fun i => decide (i < k)) = List.range k := by
        apply List.filter_eq_self.2
        intro a ha
        simpa using List.mem_range.1 ha
      have h2 : ((List.range c).map (fun x => k + x)).filter (fun i => decide (i < k)) = [] := by
        apply List.filter_eq_nil_iff.2
        intro a ha
        obtain ⟨x, _, rfl⟩ := List.mem_map.1 ha
        simp
      rw [h1, h2, List.append_nil]
    rw [hr, List.length_range]
  · intro r hr
    rw [hcount] at hr
    have hpos : ((List.range inst.num_resources).filter
        (fun i => (inst.resource i).is_transient)).length ≠ 0 := by omega
    have hrn : r < inst.num_resources := by
      have := transient_partition inst
      omega
    unfold reorderResources
    simp only [hpos, if_false, hrn, if_true]
    unfold resourceMap
    rw [List.getD_append _ _ _ _ hr]
  · exact List.Pairwise.filter _ (List.pairwise_lt_range _)

/-- C18 (witness): in the instance whose second resource is the transient one,
the reordered table has the transient resource at index 0 only. -/
theorem C18_transients_first_witness :
    (reorderResources exInstanceOrder).transient_count = 1
      ∧ ((reorderResources exInstanceOrder).resource 0).is_transient = true
      ∧ (((reorderResources exInstanceOrder).resource 1).is_transient = true
          ↔ 1 < (reorderResources exInstanceOrder).transient_count) :=
  ⟨by decide, by decide, (C18_transients_first exInstanceOrder).2.2.1 1 (by decide)⟩

/-! ## Service dependencies -/

theorem dependencyInner_spec (s : Nat) (sv : Nat → Service) (n : Nat) :
    (∀ t, (((List.range n).foldl
        (fun (sv1 : Nat → Service) d =>
          Function.update sv1 ((sv1 s).depends_on.getD d 0)
            { sv1 ((sv1 s).depends_on.getD d 0) with
              required_by := (sv1 ((sv1 s).depends_on.getD d 0)).required_by ++ [s] })
        sv) t).depends_on = (sv t).depends_on)
    ∧ (∀ t s1, n ≤ (sv s).depends_on.length →
        (((List.range n).foldl
          (fun (sv1 : Nat → Service) d =>
            Function.update sv1 ((sv1 s).depends_on.getD d 0)
              { sv1 ((sv1 s).depends_on.getD d 0) with
                required_by := (sv1 ((sv1 s).depends_on.getD d 0)).required_by ++ [s] })
          sv) t).required_by.count s1
          = (sv t).required_by.count s1
            + if s1 = s then ((sv s).depends_on.take n).count t else 0) := by
  induction n with
  | zero => simp
  | succ n ih =>
    obtain ⟨i1, i2⟩ := ih
    rw [foldl_range_succ]
    generalize hacc : (List.range n).foldl
        (fun (sv1 : Nat → Service) d =>
          Function.update sv1 ((sv1 s).depends_on.getD d 0)
            { sv1 ((sv1 s).depends_on.getD d 0) with
              required_by := (sv1 ((sv1 s).depends_on.getD d 0)).required_by ++ [s] })
        sv = acc at i1 i2
    simp only
    rw [i1 s]
    constructor
    · intro t
      by_cases ht : t = (sv s).depends_on.getD n 0
      · subst ht
        simp only [Function.update_same]
        exact i1 _
      · rw [Function.update_noteq ht]
        exact i1 t
    · intro t s1 hn
      have hlt : n < (sv s).depends_on.length := hn
      have hget : (sv s).depends_on[n]? = some ((sv s).depends_on.getD n 0) := by
        rw [List.getD_eq_getElem?_getD, List.getElem?_eq_getElem hlt]
        rfl
      rw [List.take_succ, hget]
      generalize (sv s).depends_on.getD n 0 = t0
      simp only [Option.toList_some, List.count_append, List.count_singleton]
      by_cases ht : t = t0
      · subst ht
        simp only [Function.update_same, List.count_append, List.count_singleton,
          i2 t s1 (Nat.le_of_lt hlt)]
        by_cases hs : s1 = s
        · subst hs
          simp
          ring
        · have hs1 : ¬ s = s1 := fun e => hs e.symm
          simp [hs, hs1]
      · have ht1 : ¬ t0 = t := fun e => ht e.symm
        rw [Function.update_noteq ht, i2 t s1 (Nat.le_of_lt hlt)]
        simp [ht1]

theorem dependencyOuter_spec (service : Nat → Service) (k : Nat) :
    (∀ t, (((List.range k).foldl
        (fun sv s =>
          (List.range (sv s).depends_on.length).foldl
            (fun (sv1 : Nat → Service) d =>
              Function.update sv1 ((sv1 s).depends_on.getD d 0)
                { sv1 ((sv1 s).depends_on.getD d 0) with
                  required_by := (sv1 ((sv1 s).depends_on.getD d 0)).required_by ++ [s] })
            sv)
        service) t).depends_on = (service t).depends_on)
    ∧ (∀ t s1,
        (((List.range k).foldl
          (fun sv s =>
            (List.range (sv s).depends_on.length).foldl
              (fun (sv1 : Nat → Service) d =>
                Function.update sv1 ((sv1 s).depends_on.getD d 0)
                  { sv1 ((sv1 s).depends_on.getD d 0) with
                    required_by := (sv1 ((sv1 s).depends_on.getD d 0)).required_by ++ [s] })
              sv)
          service) t).required_by.count s1
          = (service t).required_by.count s1
            + if s1 < k then (service s1).depends_on.count t else 0) := by
  induction k with
  | zero => simp
  | succ k ih =>
    obtain ⟨i1, i2⟩ := ih
    rw [foldl_range_succ]
    generalize hacc : (List.range k).foldl
        (fun sv s =>
          (List.range (sv s).depends_on.length).foldl
            (fun (sv1 : Nat → Service) d =>
              Function.update sv1 ((sv1 s).depends_on.getD d 0)
                { sv1 ((sv1 s).depends_on.getD d 0) with
                  required_by := (sv1 ((sv1 s).depends_on.getD d 0)).required_by ++ [s] })
            sv)
        service = acc at i1 i2
    simp only
    obtain ⟨j1, j2⟩ := dependencyInner_spec k acc (acc k).depends_on.length
    constructor
    · intro t
      rw [j1 t, i1 t]
    · intro t s1
      rw [j2 t s1 (Nat.le_refl _), i2 t s1, List.take_length, i1 k]
      by_cases hs : s1 = k
      · subst hs
        simp
      · by_cases hlt : s1 < k
        · have : s1 < k + 1 := by omega
          simp [hs, hlt, this]
        · have : ¬ s1 < k + 1 := by omega
          simp [hs, hlt, this]

/-- C19: after `initializeServiceDependencies` on services whose `required_by`
lists are empty, for all services `s` and `d`, `s` occurs in
`service[d].required_by` exactly as many times as `d` occurs in
`service[s].depends_on`, and the `depends_on` lists are unchanged. -/
theorem C19_required_by_inverse (num_services : Nat) (service : Nat → Service)
    (hempty : ∀ d, d < num_services → (service d).required_by = []) :
    (∀ s, s < num_services → ∀ d, d < num_services →
      ((initializeServiceDependencies num_services service) d).required_by.count s
        = (service s).depends_on.count d)
    ∧ ∀ s, ((initializeServiceDependencies num_services service) s).depends_on
        = (service s).depends_on := by
  obtain ⟨i1, i2⟩ := dependencyOuter_spec service num_services
  constructor
  · intro s hs d hd
    unfold initializeServiceDependencies
    rw [i2 d s, hempty d hd, if_pos hs]
    simp
  · intro s
    exact i1 s

/-- C19 (witness): in the instance with two services, service 1 depends on
service 0 once, and service 0 is required by service 1 once. -/
theorem C19_required_by_inverse_witness :
    ((initializeServiceDependencies 2
        (fun s => { exInstance3.service s with required_by := [] })) 0).required_by.count 1
      = ((fun s => { exInstance3.service s with required_by := [] }) 1).depends_on.count 0
    ∧ ((initializeServiceDependencies 2
        (fun s => { exInstance3.service s with required_by := [] })) 0).required_by = [1] :=
  ⟨(C19_required_by_inverse 2 (fun s => { exInstance3.service s with required_by := [] })
      (by decide)).1 1 (by decide) 0 (by decide), by decide⟩

/-! ## Neighborhood lists and fixed processes -/

theorem index_fold (fixed : Nat → Bool) (g : Nat → Int) (n : Nat) :
    ((List.range n).foldl
      (fun (cost : List ProcessCost) p =>
        if fixed p then cost else cost ++ [{ index := p, cost := g p }])
      []).map (fun c => c.index)
      = (List.range n).filter (fun p => !fixed p) := by
  induction n with
  | zero => rfl
  | succ n ih =>
    rw [foldl_range_succ, List.range_succ, List.filter_append, ← ih]
    by_cases hf : fixed n = true
    · simp [hf]
    · simp [hf]

theorem process_cost_index (inst : Instance) (state : ReAssignment) :
    (IterativeSearch.process_cost inst state).map (fun c => c.index)
      = (List.range inst.num_processes).filter (fun p => !(inst.process p).fixed) :=
  index_fold (fun p => (inst.process p).fixed)
    (fun p => loadCostOf inst state p
      + (if state.assignment p ≠ (inst.process p).original_machine then
          ((inst.process p).move_cost : Int) * inst.weight_process_move_cost
            + ((inst.machine (inst.process p).original_machine).move_cost
                (state.assignment p) : Int) * inst.weight_machine_move_cost
        else 0))
    inst.num_processes

theorem targetMove_cost_index (inst : Instance) (state : ReAssignment) :
    (TargetMoveSearch.cost inst state).map (fun c => c.index)
      = (List.range inst.num_processes).filter (fun p => !(inst.process p).fixed) :=
  index_fold (fun p => (inst.process p).fixed) (fun p => loadCostOf inst state p)
    inst.num_processes

theorem drawMovable_mem (inst : Instance) (n : List Nat)
    (hlen : inst.num_movable_processes = inst.movable_processes_by_size.length)
    (hpos : 0 < inst.num_movable_processes) (rand : List Nat) :
    ∀ rp rest, drawMovable inst n rand = some (rp, rest) →
      rp ∈ inst.movable_processes_by_size := by
  induction rand with
  | nil => intro rp rest h; simp [drawMovable] at h
  | cons x rand ih =>
    intro rp rest h
    unfold drawMovable at h
    split_ifs at h with hin
    · exact ih rp rest h
    · have hlt : x % inst.num_movable_processes < inst.movable_processes_by_size.length := by
        rw [← hlen]
        exact Nat.mod_lt _ hpos
      have e : rp = inst.movable_processes_by_size.getD (x % inst.num_movable_processes) 0 := by
        have := Option.some.inj h
        exact (congrArg Prod.fst this).symm
      rw [e, List.getD_eq_getElem _ _ hlt]
      exact List.getElem_mem hlt

theorem addRandom_mem (inst : Instance)
    (hlen : inst.num_movable_processes = inst.movable_processes_by_size.length)
    (hpos : 0 < inst.num_movable_processes) (k : Nat) :
    ∀ n rand res, addRandom inst k n rand = some res →
      ∀ q, q ∈ res → q ∈ n ∨ q ∈ inst.movable_processes_by_size := by
  induction k with
  | zero =>
    intro n rand res h q hq
    simp only [addRandom, Option.some.injEq] at h
    left
    rw [h]
    exact hq
  | succ k ih =>
    intro n rand res h q hq
    unfold addRandom at h
    cases hd : drawMovable inst n rand with
    | none => rw [hd] at h; simp at h
    | some pr =>
      obtain ⟨rp, rest⟩ := pr
      rw [hd] at h
      simp only at h
      rcases ih (n ++ [rp]) rest res h q hq with h1 | h1
      · rcases List.mem_append.1 h1 with h2 | h2
        · left; exact h2
        · right
          rw [List.mem_singleton.1 h2]
          exact drawMovable_mem inst n hlen hpos rand rp rest hd
      · right; exact h1

theorem drawWeighted_mem (selected : List Nat) (picks : List Nat) :
    ∀ i rest, drawWeighted selected picks = some (i, rest) →
      i ∈ picks ∧ ∀ j, j ∈ rest → j ∈ picks := by
  induction picks with
  | nil => intro i rest h; simp [drawWeighted] at h
  | cons x picks ih =>
    intro i rest h
    unfold drawWeighted at h
    split_ifs at h with hin
    · obtain ⟨h1, h2⟩ := ih i rest h
      exact ⟨List.mem_cons_of_mem _ h1, fun j hj => List.mem_cons_of_mem _ (h2 j hj)⟩
    · have := Option.some.inj h
      have e1 : x = i := congrArg Prod.fst this
      have e2 : picks = rest := congrArg Prod.snd this
      subst e1
      subst e2
      exact ⟨List.mem_cons_self _ _, fun j hj => List.mem_cons_of_mem _ hj⟩

theorem selectWeighted_mem (pcost : List ProcessCost) (k : Nat) :
    ∀ selected n picks res, selectWeighted pcost k selected n picks = some res →
      (∀ i, i ∈ picks → i < pcost.length) →
      ∀ q, q ∈ res → q ∈ n ∨ q ∈ pcost.map (fun c => c.index) := by
  induction k with
  | zero =>
    intro selected n picks res h _ q hq
    simp only [selectWeighted, Option.some.injEq] at h
    left
    rw [h]
    exact hq
  | succ k ih =>
    intro selected n picks res h hp q hq
    unfold selectWeighted at h
    cases hd : drawWeighted selected picks with
    | none => rw [hd] at h; simp at h
    | some pr =>
      obtain ⟨i, rest⟩ := pr
      rw [hd] at h
      simp only at h
      obtain ⟨h1, h2⟩ := drawWeighted_mem selected picks i rest hd
      rcases ih (i :: selected) _ rest res h (fun j hj => hp j (h2 j hj)) q hq with h3 | h3
      · rcases List.mem_append.1 h3 with h4 | h4
        · left; exact h4
        · right
          rw [List.mem_singleton.1 h4, List.getD_eq_getElem _ _ (hp i h1)]
          exact List.mem_map.2 ⟨_, List.getElem_mem (hp i h1), rfl⟩
      · right; exact h3

theorem findDisplaced_spec (inst : Instance) (state : ReAssignment) (p_start : Nat)
    (fuel : Nat) :
    ∀ p q, p < inst.num_processes → findDisplaced inst state p_start fuel p = some q →
      q < inst.num_processes ∧ state.assignment q ≠ (inst.process q).original_machine := by
  induction fuel with
  | zero => intro p q _ h; simp [findDisplaced] at h
  | succ fuel ih =>
    intro p q hp h
    unfold findDisplaced at h
    split_ifs at h with h1 h2
    · exact ih _ q (Nat.mod_lt _ (Nat.lt_of_le_of_lt (Nat.zero_le p) hp)) h
    · have e : p = q := Option.some.inj h
      subst e
      exact ⟨hp, h1⟩

/-- C20 (amended): `process_cost` produces exactly one entry per process whose
fixed flag is not set, in increasing order of the ids, and none for a fixed one.
The lists of TargetMove and of the weighted Random search contain no fixed
process; the list of ProcessNeighborhood contains none when
`movable_processes_by_size` holds `num_movable_processes > 0` entries, none of
them fixed; the list of UndoMove, which is built from the processes that are away
from their original machine without a test of the flag, contains none when no
fixed process is away from its original machine. -/
theorem C20_neighborhoods_avoid_fixed (inst : Instance) (state : ReAssignment) :
    (IterativeSearch.process_cost inst state).map (fun c => c.index)
        = (List.range inst.num_processes).filter (fun p => !(inst.process p).fixed)
    ∧ (∀ (cost : List ProcessCost) (p m : Nat) (shuffle : List Nat → List Nat),
        cost.Perm (TargetMoveSearch.cost inst state) → p ∈ cost.map (fun c => c.index) →
        (∀ l, (shuffle l).Perm l) →
        ∀ q, q ∈ TargetMoveSearch.neighborhood inst state cost p m shuffle →
          (inst.process q).fixed = false)
    ∧ ((∀ p, p ∈ inst.movable_processes_by_size → (inst.process p).fixed = false) →
        inst.num_movable_processes = inst.movable_processes_by_size.length →
        0 < inst.num_movable_processes →
        ∀ (sorted : List ProcessCost) (start : Nat) (rand n : List Nat),
          sorted.Perm (IterativeSearch.process_cost inst state) →
          ProcessNeighborhoodSearch.neighborhood inst sorted start rand = some n →
          ∀ q, q ∈ n → (inst.process q).fixed = false)
    ∧ (∀ (neighborhood : Nat) (picks n : List Nat),
        (∀ i, i ∈ picks → i < (IterativeSearch.process_cost inst state).length) →
        RandomSearch.neighborhood neighborhood (IterativeSearch.process_cost inst state) picks
          = some n →
        ∀ q, q ∈ n → (inst.process q).fixed = false)
    ∧ ((∀ p, p < inst.num_processes →
          state.assignment p ≠ (inst.process p).original_machine →
          (inst.process p).fixed = false) →
        ∀ (p_start : Nat) (shuffle : List Nat → List Nat) (n : List Nat),
          p_start < inst.num_processes → (∀ l, (shuffle l).Perm l) →
          UndoMoveSearch.neighborhood inst state p_start shuffle = some n →
          ∀ q, q ∈ n → (inst.process q).fixed = false) := by
  have hpc : ∀ q, q ∈ (IterativeSearch.process_cost inst state).map (fun c => c.index) →
      (inst.process q).fixed = false := by
    intro q hq
    rw [process_cost_index] at hq
    simpa using (List.mem_filter.1 hq).2
  have htc : ∀ q, q ∈ (TargetMoveSearch.cost inst state).map (fun c => c.index) →
      (inst.process q).fixed = false := by
    intro q hq
    rw [targetMove_cost_index] at hq
    simpa using (List.mem_filter.1 hq).2
  refine ⟨process_cost_index inst state, ?_, ?_, ?_, ?_⟩
  · intro cost p m shuffle hperm hp hsh q hq
    unfold TargetMoveSearch.neighborhood at hq
    rcases List.mem_append.1 hq with h1 | h1
    · have h2 := (hsh _).mem_iff.1 (List.mem_of_mem_take h1)
      have h3 := (List.mem_filter.1 h2).2
      simp only [Bool.and_eq_true, Bool.not_eq_true'] at h3
      exact h3.1
    · rw [List.mem_singleton.1 h1]
      exact htc p ((hperm.map _).mem_iff.1 hp)
  · intro hmov hlen hpos sorted start rand n hperm hn q hq
    unfold ProcessNeighborhoodSearch.neighborhood at hn
    rcases addRandom_mem inst hlen hpos _ _ _ _ hn q hq with h1 | h1
    · obtain ⟨c, hc, rfl⟩ := List.mem_map.1 h1
      have h2 : c ∈ sorted :=
        (List.takeWhile_sublist _).subset (List.mem_of_mem_drop (List.mem_of_mem_take hc))
      exact hpc _ (List.mem_map.2 ⟨c, hperm.mem_iff.1 h2, rfl⟩)
    · exact hmov q h1
  · intro neighborhood picks n hpicks hn q hq
    unfold RandomSearch.neighborhood at hn
    rcases selectWeighted_mem _ _ _ _ _ _ hn hpicks q hq with h1 | h1
    · exact absurd h1 (List.not_mem_nil q)
    · exact hpc q h1
  · intro hdisp p_start shuffle n hstart hsh hn q hq
    unfold UndoMoveSearch.neighborhood at hn
    cases hf : findDisplaced inst state p_start inst.num_processes p_start with
    | none => rw [hf] at hn; simp at hn
    | some p =>
      rw [hf] at hn
      simp only [Option.some.injEq] at hn
      obtain ⟨hp1, hp2⟩ := findDisplaced_spec inst state p_start _ _ p hstart hf
      have hmem : ∀ i, i ∈ shuffle ((List.range inst.num_processes).filter (fun i =>
          state.assignment i == (inst.process p).original_machine
            && (inst.process i).original_machine != (inst.process p).original_machine)) →
          (inst.process i).fixed = false := by
        intro i hi
        have h2 := List.mem_filter.1 ((hsh _).mem_iff.1 hi)
        have h3 := h2.2
        simp only [Bool.and_eq_true, beq_iff_eq, bne_iff_ne, ne_eq] at h3
        apply hdisp i (List.mem_range.1 h2.1)
        rw [h3.1]
        exact fun e => h3.2 e.symm
      rw [← hn] at hq
      rcases List.mem_cons.1 hq with h1 | h1
      · rw [h1]
        exact hdisp p hp1 hp2
      · split_ifs at h1
        · exact hmem q (List.mem_of_mem_take h1)
        · exact hmem q h1

/-- C20 (witness): seven movable processes, none fixed; ProcessNeighborhood takes
the four leading entries of `pcost` and the random processes 4, 5 and 6; when all
processes sit on machine 1, UndoMove starting at process 2 builds the list
`[2]`. -/
theorem C20_neighborhoods_avoid_fixed_witness :
    0 < exInstanceSeven.num_movable_processes
      ∧ ProcessNeighborhoodSearch.neighborhood exInstanceSeven
          (IterativeSearch.process_cost exInstanceSeven exState) 0 [4, 5, 6]
          = some [0, 1, 2, 3, 4, 5, 6]
      ∧ (∀ q, q ∈ [0, 1, 2, 3, 4, 5, 6] → (exInstanceSeven.process q).fixed = false)
      ∧ UndoMoveSearch.neighborhood exInstanceSeven exStateDisplaced 2 (fun l => l) = some [2]
      ∧ (∀ q, q ∈ [2] → (exInstanceSeven.process q).fixed = false) :=
  ⟨by decide, by decide,
    (C20_neighborhoods_avoid_fixed exInstanceSeven exState).2.2.1 (by decide) (by decide)
      (by decide) (IterativeSearch.process_cost exInstanceSeven exState) 0 [4, 5, 6]
      [0, 1, 2, 3, 4, 5, 6] (List.Perm.refl _) (by decide),
    by decide,
    (C20_neighborhoods_avoid_fixed exInstanceSeven exStateDisplaced).2.2.2.2 (by decide) 2
      (fun l => l) [2] (by decide) (fun l => List.Perm.refl l) (by decide)⟩

/-- C20 (counterexample): the single process is fixed and sits on machine 1, away
from its original machine 0; `UndoMoveSearch::runOnce` finds it at `p_start = 0`
and builds the neighborhood list `[0]`, which contains the fixed process. -/
theorem C20_counterexample :
    (exInstanceFixed.process 0).fixed = true
      ∧ exStateDisplaced.assignment 0 ≠ (exInstanceFixed.process 0).original_machine
      ∧ UndoMoveSearch.neighborhood exInstanceFixed exStateDisplaced 0 (fun l => l) = some [0]
      ∧ ∃ q, q ∈ [0] ∧ (exInstanceFixed.process q).fixed = true :=
  ⟨by decide, by decide, by decide, ⟨0, by decide, by decide⟩⟩

/-! ## The brancher: status, choice and commit -/

theorem assigned_iff (dom : List Nat) : IntView.assigned dom = true ↔ ∃ v, dom = [v] := by
  cases dom with
  | nil => simp [IntView.assigned]
  | cons a rest =>
    cases rest with
    | nil => simp [IntView.assigned]
    | cons b rest2 => simp [IntView.assigned]

/-- Claim C27. `BestCostBrancher::status` returns true exactly when the variable
of at least one of the `n` slots is not assigned. -/
theorem C27_status_iff_unassigned (n : Nat) (vars : VarStore) :
    BestCostBrancher.status n vars = true
      ↔ ∃ i, i < n ∧ IntView.assigned (vars.process i) = false := by
  unfold BestCostBrancher.status
  simp [List.any_eq_true]

theorem choiceSlot_fold (vars : VarStore) (n : Nat) :
    let acc := (List.range n).foldl (choiceSlotStep vars) (Limits.min, none)
    (acc.2 = none → acc.1 = Limits.min
        ∧ ∀ i, i < n → IntView.assigned (vars.process i) = false →
            toInt32 (vars.cost_max i - vars.cost_min i) ≤ Limits.min)
      ∧ (∀ j, acc.2 = some j →
          j < n ∧ IntView.assigned (vars.process j) = false
          ∧ acc.1 = toInt32 (vars.cost_max j - vars.cost_min j)
          ∧ Limits.min < acc.1
          ∧ (∀ i, i < n → IntView.assigned (vars.process i) = false →
              toInt32 (vars.cost_max i - vars.cost_min i) ≤ acc.1)
          ∧ (∀ i, i < j → IntView.assigned (vars.process i) = false →
              toInt32 (vars.cost_max i - vars.cost_min i) < acc.1)) := by
  induction n with
  | zero => simp
  | succ n ih =>
    simp only at ih ⊢
    rw [foldl_range_succ]
    generalize (List.range n).foldl (choiceSlotStep vars) (Limits.min, none) = acc at ih ⊢
    obtain ⟨s, idx⟩ := acc
    obtain ⟨ih1, ih2⟩ := ih
    simp only at ih1 ih2
    unfold choiceSlotStep
    simp only
    by_cases hc : (!IntView.assigned (vars.process n)) = true
        ∧ toInt32 (vars.cost_max n - vars.cost_min n) > s
    · rw [if_pos hc]
      obtain ⟨hc1, hc2⟩ := hc
      have hun : IntView.assigned (vars.process n) = false := by simpa using hc1
      refine ⟨by simp, ?_⟩
      intro j hj
      simp only [Option.some.injEq] at hj
      subst hj
      have hmin : Limits.min ≤ s := by
        cases idx with
        | none => exact le_of_eq (ih1 rfl).1.symm
        | some k => exact le_of_lt (ih2 k rfl).2.2.2.1
      refine ⟨by omega, hun, rfl, by omega, ?_, ?_⟩
      · intro i hi hui
        by_cases hin : i = n
        · subst hin; exact le_refl _
        · have hi2 : i < n := by omega
          cases idx with
          | none => have := (ih1 rfl).2 i hi2 hui; have := (ih1 rfl).1; omega
          | some k => have := (ih2 k rfl).2.2.2.2.1 i hi2 hui; omega
      · intro i hi hui
        cases idx with
        | none => have := (ih1 rfl).2 i hi hui; have := (ih1 rfl).1; omega
        | some k => have := (ih2 k rfl).2.2.2.2.1 i hi hui; omega
    · rw [if_neg hc]
      have hn : IntView.assigned (vars.process n) = false →
          toInt32 (vars.cost_max n - vars.cost_min n) ≤ s := by
        intro hun
        by_contra hgt
        exact hc ⟨by simp [hun], by omega⟩
      refine ⟨?_, ?_⟩
      · intro hnone
        obtain ⟨e1, e2⟩ := ih1 hnone
        refine ⟨e1, ?_⟩
        intro i hi hui
        by_cases hin : i = n
        · subst hin; have := hn hui; omega
        · exact e2 i (by omega) hui
      · intro j hj
        obtain ⟨f1, f2, f3, f4, f5, f6⟩ := ih2 j hj
        refine ⟨by omega, f2, f3, f4, ?_, f6⟩
        intro i hi hui
        by_cases hin : i = n
        · subst hin; exact hn hui
        · exact f5 i (by omega) hui

/-- Claim C28 (as amended). When some slot is unassigned and the gap
`max - min` of the cost variable of every unassigned slot lies between 0 and
`2 ^ 31 - 1`, so that the `int` difference the program forms is the gap itself,
`BestCostBrancher::choice` returns a choice; its slot is unassigned, its gap is
greatest among the unassigned slots and every unassigned slot of lower index has
a strictly smaller gap. -/
theorem C28_choice_widest_gap (n : Nat) (vars : VarStore) (cache : ProcessCostMap)
    (hbounds : ∀ i, i < n → IntView.assigned (vars.process i) = false →
      vars.cost_min i ≤ vars.cost_max i
        ∧ vars.cost_max i - vars.cost_min i ≤ 2147483647)
    (hsome : ∃ i, i < n ∧ IntView.assigned (vars.process i) = false) :
    ∃ c, BestCostBrancher.choice n vars cache = some c
      ∧ c.process < n
      ∧ IntView.assigned (vars.process c.process) = false
      ∧ (∀ i, i < n → IntView.assigned (vars.process i) = false →
          vars.cost_max i - vars.cost_min i
            ≤ vars.cost_max c.process - vars.cost_min c.process)
      ∧ (∀ i, i < c.process → IntView.assigned (vars.process i) = false →
          vars.cost_max i - vars.cost_min i
            < vars.cost_max c.process - vars.cost_min c.process) := by
  have hgap : ∀ i, i < n → IntView.assigned (vars.process i) = false →
      toInt32 (vars.cost_max i - vars.cost_min i) = vars.cost_max i - vars.cost_min i := by
    intro i hi hui
    obtain ⟨e1, e2⟩ := hbounds i hi hui
    exact toInt32_of_range _ (by omega) e2
  obtain ⟨h1, h2⟩ := choiceSlot_fold vars n
  unfold BestCostBrancher.choice
  simp only
  generalize (List.range n).foldl (choiceSlotStep vars) (Limits.min, none) = acc at h1 h2 ⊢
  obtain ⟨s, idx⟩ := acc
  cases idx with
  | none =>
    exfalso
    obtain ⟨i, hi, hui⟩ := hsome
    have e1 := (h1 rfl).2 i hi hui
    have e2 := (hbounds i hi hui).1
    rw [hgap i hi hui] at e1
    simp only [Limits.min] at e1
    omega
  | some j =>
    obtain ⟨f1, f2, f3, f4, f5, f6⟩ := h2 j rfl
    simp only at f3
    subst f3
    simp only
    have g5 : ∀ i, i < n → IntView.assigned (vars.process i) = false →
        vars.cost_max i - vars.cost_min i ≤ vars.cost_max j - vars.cost_min j := by
      intro i hi hui
      have := f5 i hi hui
      rw [hgap i hi hui, hgap j f1 f2] at this
      exact this
    have g6 : ∀ i, i < j → IntView.assigned (vars.process i) = false →
        vars.cost_max i - vars.cost_min i < vars.cost_max j - vars.cost_min j := by
      intro i hi hui
      have := f6 i hi hui
      rw [hgap i (by omega) hui, hgap j f1 f2] at this
      exact this
    split_ifs
    · exact ⟨_, rfl, f1, f2, g5, g6⟩
    · exact ⟨_, rfl, f1, f2, g5, g6⟩

/-- Instance of claim C28 (as amended): at the root `exRootBal`, after the cost
propagators have run, both slots are unassigned and have the bounds `[-8, 0]`;
the choice takes slot 0, the first of the two. -/
theorem C28_choice_widest_gap_witness :
    (exRootBal.1.cost_min 0, exRootBal.1.cost_max 0, exRootBal.1.cost_min 1,
        exRootBal.1.cost_max 1) = (-8, 0, -8, 0)
      ∧ (BestCostBrancher.choice 2 exRootBal.1 exRootBal.2).map (fun c => c.process) = some 0
      ∧ ∃ c, BestCostBrancher.choice 2 exRootBal.1 exRootBal.2 = some c
        ∧ c.process < 2
        ∧ IntView.assigned (exRootBal.1.process c.process) = false
        ∧ (∀ i, i < 2 → IntView.assigned (exRootBal.1.process i) = false →
            exRootBal.1.cost_max i - exRootBal.1.cost_min i
              ≤ exRootBal.1.cost_max c.process - exRootBal.1.cost_min c.process)
        ∧ (∀ i, i < c.process → IntView.assigned (exRootBal.1.process i) = false →
            exRootBal.1.cost_max i - exRootBal.1.cost_min i
              < exRootBal.1.cost_max c.process - exRootBal.1.cost_min c.process) :=
  ⟨by decide, by decide,
    C28_choice_widest_gap 2 exRootBal.1 exRootBal.2 (by decide) ⟨0, by decide, by decide⟩⟩

/-- Counterexample to claim C28 as stated. In `exVarsGap` slot 0 is unassigned
with the bounds `[-2 ^ 30, 2 ^ 30]` and slot 1 is unassigned with the bounds
`[0, 1]`; the `int` difference of slot 0 is `2 ^ 31` modulo `2 ^ 32`, that is
`-2 ^ 31`, which is not above the initial `Limits::min`, and the choice over
both slots takes slot 1, whose gap 1 is not the greatest. In the search over
`exInstanceGap` the posted bound is `total_cost < 2 ^ 30`; at the root the
single slot is unassigned with the domain `[0, 1]` and the bounds
`[-1025 * 2 ^ 20, 1023 * 2 ^ 20]` of the gap `2 ^ 31`, both machines are
feasible, and `choice` selects no slot and returns no choice. -/
theorem C28_counterexample :
    IntView.assigned (exVarsGap.process 0) = false
      ∧ IntView.assigned (exVarsGap.process 1) = false
      ∧ exVarsGap.cost_max 0 - exVarsGap.cost_min 0 = 2147483648
      ∧ exVarsGap.cost_max 1 - exVarsGap.cost_min 1 = 1
      ∧ toInt32 (exVarsGap.cost_max 0 - exVarsGap.cost_min 0) = -2147483648
      ∧ (BestCostBrancher.choice 2 exVarsGap ProcessCostMap.init).map (fun c => c.process)
        = some 1
      ∧ exStateGap.getCost exInstanceGap - exSpaceGap.base_total_cost = 1073741824
      ∧ (exFirstGap.1.process 0, exFirstGap.1.cost_min 0, exFirstGap.1.cost_max 0)
        = ([0, 1, 2], -1074790400, 1073741824)
      ∧ (exRootGap.1.process 0, exRootGap.1.cost_min 0, exRootGap.1.cost_max 0)
        = ([0, 1], -1074790400, 1072693248)
      ∧ exRootGap.1.cost_max 0 - exRootGap.1.cost_min 0 = 2147483648
      ∧ (ProcessPropagator.propagate32 exInstanceGap exStateGap 0 0 0 exSpaceGap).bind
          (fun sp => sp.process_move_cost 0) = some (-1074790400)
      ∧ (ProcessPropagator.propagate32 exInstanceGap exStateGap 0 0 1 exSpaceGap).bind
          (fun sp => sp.process_move_cost 0) = some 1072693248
      ∧ BestCostBrancher.status 1 exRootGap.1 = true
      ∧ (BestCostBrancher.choice 1 exRootGap.1 exRootGap.2).isNone = true := by
  refine ⟨by decide, by decide, by decide, by decide, by decide, by decide, by decide,
    by decide, by decide, by decide, by decide, by decide, by decide, by decide⟩

/-- Claim C30. A successful `BestCostBrancher::commit` of the choice `(slot, m)`:
alternative 0 needs `m` in the domain of the slot, leaves `m` as its only value
and appends `m` to `modified_machines`; every other alternative removes `m` from
the domain of the slot and leaves `modified_machines` as it is; the domains of
all other slots and the bounds of all cost variables are unchanged. When the
update of the variable fails, commit fails and nothing is appended. -/
theorem C30_commit_effect (vars : VarStore) (modified_machines : List Nat)
    (choice : ProcessChoice) (a : Nat) :
    (a = 0 → choice.machine ∉ vars.process choice.process →
        BestCostBrancher.commit vars modified_machines choice a = none)
      ∧ ∀ vars1 mm1,
        BestCostBrancher.commit vars modified_machines choice a = some (vars1, mm1) →
        (a = 0 → choice.machine ∈ vars.process choice.process
            ∧ vars1.process choice.process = [choice.machine]
            ∧ mm1 = modified_machines ++ [choice.machine])
          ∧ (a ≠ 0 →
              vars1.process choice.process
                = (vars.process choice.process).filter (fun v => v != choice.machine)
              ∧ choice.machine ∉ vars1.process choice.process
              ∧ mm1 = modified_machines)
          ∧ (∀ j, j ≠ choice.process → vars1.process j = vars.process j)
          ∧ vars1.cost_min = vars.cost_min ∧ vars1.cost_max = vars.cost_max := by
  refine ⟨?_, ?_⟩
  · intro ha hnot
    simp [BestCostBrancher.commit, ha, IntView.eq, hnot]
  · intro vars1 mm1 h
    unfold BestCostBrancher.commit at h
    by_cases ha : a = 0
    · rw [if_pos ha] at h
      unfold IntView.eq at h
      by_cases hin : choice.machine ∈ vars.process choice.process
      · rw [if_pos hin] at h
        simp only [Option.some.injEq, Prod.mk.injEq] at h
        obtain ⟨h1, h2⟩ := h
        subst h1; subst h2
        refine ⟨fun _ => ⟨hin, by simp, rfl⟩, fun hne => absurd ha hne, ?_, rfl, rfl⟩
        intro j hj
        simp [Function.update_noteq hj]
      · rw [if_neg hin] at h
        simp at h
    · rw [if_neg ha] at h
      unfold IntView.nq at h
      split_ifs at h with hemp
      simp only [Option.some.injEq, Prod.mk.injEq] at h
      obtain ⟨h1, h2⟩ := h
      subst h1; subst h2
      refine ⟨fun h0 => absurd h0 ha, fun _ => ⟨by simp, ?_, rfl⟩, ?_, rfl, rfl⟩
      · simp [List.mem_filter]
      · intro j hj
        simp [Function.update_noteq hj]

/-! ## The assignment propagator: load step and fixed cost -/

theorem propagate_value (inst : Instance) (state : ReAssignment) (i p x : Nat)
    (sp sp1 : RescheduleSpace)
    (h : ProcessPropagator.propagate inst state i p x sp = some sp1) :
    ∃ q1 load, propagateLoad inst p x (patchOrBase state sp.delta x) = some (q1, load)
      ∧ 0 ≤ load
      ∧ sp1.process_move_cost i
          = some (load + (propagateBalance inst p sp q1).2.2.2 + moveCost inst p x)
      ∧ sp1.delta x = some (propagateBalance inst p sp q1).2.2.1 := by
  unfold ProcessPropagator.propagate at h
  simp only at h
  cases hl : propagateLoad inst p x (patchOrBase state sp.delta x) with
  | none => rw [hl] at h; simp at h
  | some qc =>
    obtain ⟨q1, load⟩ := qc
    rw [hl] at h
    simp only at h
    by_cases hneg : load < 0
    · simp [hneg] at h
    · rw [if_neg hneg] at h
      split at h
      · simp only [Option.some.injEq] at h
        subst h
        exact ⟨q1, load, rfl, by omega, by simp, by simp⟩
      · simp at h

theorem cost_modEq (load bal : Int) (mc mmc : Nat) (wpm wmm : Int) (moved : Prop)
    [Decidable moved] :
    toUInt32 (if moved then
          toInt32 (toUInt32 (toInt32 (toInt32 load + toInt32 bal))
            + toUInt32 ((mc : Int) * toUInt32 wpm))
        else toInt32 (toInt32 load + toInt32 bal))
      + toUInt32 ((mmc : Int) * toUInt32 wmm)
      ≡ load + bal + ((if moved then (mc : Int) * wpm else 0) + (mmc : Int) * wmm)
        [ZMOD 4294967296] := by
  have e1 : toInt32 (toInt32 load + toInt32 bal) ≡ load + bal [ZMOD 4294967296] :=
    (toInt32_modEq _).trans ((toInt32_modEq load).add (toInt32_modEq bal))
  have e2 : (if moved then
        toInt32 (toUInt32 (toInt32 (toInt32 load + toInt32 bal))
          + toUInt32 ((mc : Int) * toUInt32 wpm))
      else toInt32 (toInt32 load + toInt32 bal))
      ≡ load + bal + (if moved then (mc : Int) * wpm else 0) [ZMOD 4294967296] := by
    by_cases ho : moved
    · rw [if_pos ho, if_pos ho]
      refine (toInt32_modEq _).trans ?_
      refine Int.ModEq.add ((toUInt32_modEq _).trans e1) ?_
      refine (toUInt32_modEq _).trans ?_
      exact Int.ModEq.mul_left _ (toUInt32_modEq _)
    · rw [if_neg ho, if_neg ho]
      simpa using e1
  rw [← add_assoc]
  refine Int.ModEq.add ((toUInt32_modEq _).trans e2) ?_
  refine (toUInt32_modEq _).trans ?_
  exact Int.ModEq.mul_left _ (toUInt32_modEq _)

theorem propagate32_spec (inst : Instance) (state : ReAssignment) (i p x : Nat)
    (sp sp1 : RescheduleSpace)
    (h : ProcessPropagator.propagate32 inst state i p x sp = some sp1) :
    ∃ q1 load, propagateLoad inst p x (patchOrBase state sp.delta x) = some (q1, load)
      ∧ 0 ≤ toInt32 load
      ∧ sp1.process_move_cost i
          = some (toInt32 (load + (propagateBalance inst p sp q1).2.2.2 + moveCost inst p x))
      ∧ sp1.delta x = some (propagateBalance inst p sp q1).2.2.1 := by
  unfold ProcessPropagator.propagate32 at h
  simp only at h
  cases hl : propagateLoad inst p x (patchOrBase state sp.delta x) with
  | none => rw [hl] at h; simp at h
  | some qc =>
    obtain ⟨q1, load⟩ := qc
    rw [hl] at h
    simp only at h
    by_cases hneg : toInt32 load < 0
    · rw [if_pos hneg] at h; simp at h
    · rw [if_neg hneg] at h
      have hc := toInt32_congr _ _ (cost_modEq load (propagateBalance inst p sp q1).2.2.2
        (inst.process p).move_cost
        ((inst.machine (inst.process p).original_machine).move_cost x)
        inst.weight_process_move_cost inst.weight_machine_move_cost
        ((inst.process p).original_machine ≠ x))
      have hmv : (if (inst.process p).original_machine ≠ x then
            ((inst.process p).move_cost : Int) * inst.weight_process_move_cost else 0)
          + ((inst.machine (inst.process p).original_machine).move_cost x : Int)
              * inst.weight_machine_move_cost = moveCost inst p x := rfl
      rw [hmv] at hc
      rw [hc] at h
      split at h
      · simp only [Option.some.injEq] at h
        subst h
        exact ⟨q1, load, rfl, by omega, by simp, by simp⟩
      · simp at h

theorem assigned_cost_core (inst : Instance) (state : ReAssignment) (p m : Nat)
    (sp : RescheduleSpace) (q1 : MachinePatch) (load : Int)
    (hl : propagateLoad inst p m (patchOrBase state sp.delta m) = some (q1, load)) :
    (∀ r, r < inst.num_resources →
        (propagateBalance inst p sp q1).2.2.1.excess r
          = (patchOrBase state sp.delta m).excess r + (inst.process p).requirement r)
      ∧ (∀ b, b < inst.num_balances →
        (propagateBalance inst p sp q1).2.2.1.balance b
          = (patchOrBase state sp.delta m).balance b + processBalance inst p b)
      ∧ load + (propagateBalance inst p sp q1).2.2.2 + moveCost inst p m
        = (∑ r in range inst.num_resources,
            (max 0 ((propagateBalance inst p sp q1).2.2.1.excess r)
              - max 0 ((patchOrBase state sp.delta m).excess r))
              * (inst.resource r).weight_load_cost)
          + (∑ b in range inst.num_balances,
            (max 0 ((propagateBalance inst p sp q1).2.2.1.balance b)
              - max 0 ((patchOrBase state sp.delta m).balance b))
              * ((inst.balance b).weight_balance_cost : Int))
          + (if m ≠ (inst.process p).original_machine then
              ((inst.process p).move_cost : Int) * inst.weight_process_move_cost else 0)
          + ((inst.machine (inst.process p).original_machine).move_cost m : Int)
              * inst.weight_machine_move_cost := by
  obtain ⟨l1, _, _, _, l5, l6⟩ :=
    propagateLoad_prefix inst p m (patchOrBase state sp.delta m) inst.num_resources q1 load hl
  obtain ⟨b1, _, b3, b4⟩ := propagateBalance_prefix inst p sp.min_unassigned_balance
    sp.max_unassigned_balance q1 inst.num_balances
  have hexc : ∀ r, r < inst.num_resources →
      (propagateBalance inst p sp q1).2.2.1.excess r
        = (patchOrBase state sp.delta m).excess r + (inst.process p).requirement r := by
    intro r hr
    show ((List.range inst.num_balances).foldl (propagateBalanceStep inst p)
      (sp.min_unassigned_balance, sp.max_unassigned_balance, q1, 0)).2.2.1.excess r = _
    rw [b1, l1 r, if_pos hr]
  have hbal : ∀ b, b < inst.num_balances →
      (propagateBalance inst p sp q1).2.2.1.balance b
        = (patchOrBase state sp.delta m).balance b + processBalance inst p b := by
    intro b hb
    show ((List.range inst.num_balances).foldl (propagateBalanceStep inst p)
      (sp.min_unassigned_balance, sp.max_unassigned_balance, q1, 0)).2.2.1.balance b = _
    rw [b3 b, if_pos hb, l5]
  refine ⟨hexc, hbal, ?_⟩
  have h4 : (propagateBalance inst p sp q1).2.2.2
      = ∑ b in range inst.num_balances,
          (max 0 (q1.balance b + processBalance inst p b) - max 0 (q1.balance b))
            * ((inst.balance b).weight_balance_cost : Int) := b4
  rw [h4, l6, l5]
  have s1 : ∑ r in range inst.num_resources,
        (max 0 ((propagateBalance inst p sp q1).2.2.1.excess r)
          - max 0 ((patchOrBase state sp.delta m).excess r))
          * (inst.resource r).weight_load_cost
      = ∑ r in range inst.num_resources,
        (max 0 ((patchOrBase state sp.delta m).excess r + (inst.process p).requirement r)
          - max 0 ((patchOrBase state sp.delta m).excess r))
          * (inst.resource r).weight_load_cost := by
    apply Finset.sum_congr rfl
    intro r hr
    rw [hexc r (Finset.mem_range.mp hr)]
  have s2 : ∑ b in range inst.num_balances,
        (max 0 ((propagateBalance inst p sp q1).2.2.1.balance b)
          - max 0 ((patchOrBase state sp.delta m).balance b))
          * ((inst.balance b).weight_balance_cost : Int)
      = ∑ b in range inst.num_balances,
        (max 0 ((patchOrBase state sp.delta m).balance b + processBalance inst p b)
          - max 0 ((patchOrBase state sp.delta m).balance b))
          * ((inst.balance b).weight_balance_cost : Int) := by
    apply Finset.sum_congr rfl
    intro b hb
    rw [hbal b (Finset.mem_range.mp hb)]
  rw [s1, s2]
  unfold moveCost
  by_cases hm : m = (inst.process p).original_machine
  · have hm2 : ¬ (inst.process p).original_machine ≠ m := fun hne => hne hm.symm
    rw [if_neg hm2, if_neg (not_not.mpr hm)]
    ring
  · have hm2 : (inst.process p).original_machine ≠ m := fun e => hm e.symm
    rw [if_pos hm2, if_pos hm]
    ring

/-- Claim C22 (as amended). When the assignment propagator of slot `i` (process
`p`) succeeds for the value `m`, the patch of machine `m` grows by the
requirement and by the balance contribution of `p`, and `process_move_cost[i]`
is fixed to the `int` value of the exact cost, that is, the exact cost reduced
modulo `2 ^ 32` to the range of `int`; the exact cost is the sum over the
resources of (max(0, new excess) - max(0, old excess)) * weight_load_cost plus
the sum over the balance triples of (max(0, new balance) - max(0, old balance))
* weight_balance_cost plus move_cost * weight_process_move_cost when `m` is not
the original machine plus the machine move cost from the original machine to
`m` times weight_machine_move_cost, where old and new are the values of the
patch of `m` (the baseline vectors when `m` has no patch) before and after.
When the exact cost lies between `-2 ^ 31` and `2 ^ 31 - 1` it is the value
fixed. -/
theorem C22_assigned_cost (inst : Instance) (state : ReAssignment) (i p m : Nat)
    (sp sp1 : RescheduleSpace)
    (h : ProcessPropagator.propagate32 inst state i p m sp = some sp1) :
    (∀ r, r < inst.num_resources →
        (patchOrBase state sp1.delta m).excess r
          = (patchOrBase state sp.delta m).excess r + (inst.process p).requirement r)
      ∧ (∀ b, b < inst.num_balances →
        (patchOrBase state sp1.delta m).balance b
          = (patchOrBase state sp.delta m).balance b + processBalance inst p b)
      ∧ ∃ exact : Int,
          exact = (∑ r in range inst.num_resources,
              (max 0 ((patchOrBase state sp1.delta m).excess r)
                - max 0 ((patchOrBase state sp.delta m).excess r))
                * (inst.resource r).weight_load_cost)
            + (∑ b in range inst.num_balances,
              (max 0 ((patchOrBase state sp1.delta m).balance b)
                - max 0 ((patchOrBase state sp.delta m).balance b))
                * ((inst.balance b).weight_balance_cost : Int))
            + (if m ≠ (inst.process p).original_machine then
                ((inst.process p).move_cost : Int) * inst.weight_process_move_cost else 0)
            + ((inst.machine (inst.process p).original_machine).move_cost m : Int)
                * inst.weight_machine_move_cost
          ∧ sp1.process_move_cost i = some (toInt32 exact)
          ∧ (-2147483648 ≤ exact → exact ≤ 2147483647 →
              sp1.process_move_cost i = some exact) := by
  obtain ⟨q1, load, hl, _, hcost, hdelta⟩ := propagate32_spec inst state i p m sp sp1 h
  obtain ⟨c1, c2, c3⟩ := assigned_cost_core inst state p m sp q1 load hl
  have hnew : patchOrBase state sp1.delta m = (propagateBalance inst p sp q1).2.2.1 := by
    unfold patchOrBase
    rw [hdelta]
  rw [hnew]
  refine ⟨c1, c2, _, rfl, ?_, ?_⟩
  · rw [hcost, c3]
  · intro h1 h2
    rw [hcost, c3, toInt32_of_range _ h1 h2]

theorem propagate32_eq_propagate (inst : Instance) (state : ReAssignment) (i p x : Nat)
    (sp : RescheduleSpace)
    (h : ∀ q1 load, propagateLoad inst p x (patchOrBase state sp.delta x) = some (q1, load) →
      -2147483648 ≤ load ∧ load ≤ 2147483647
        ∧ -2147483648 ≤ load + (propagateBalance inst p sp q1).2.2.2 + moveCost inst p x
        ∧ load + (propagateBalance inst p sp q1).2.2.2 + moveCost inst p x ≤ 2147483647) :
    ProcessPropagator.propagate32 inst state i p x sp
      = ProcessPropagator.propagate inst state i p x sp := by
  unfold ProcessPropagator.propagate32 ProcessPropagator.propagate
  simp only
  cases hl : propagateLoad inst p x (patchOrBase state sp.delta x) with
  | none => rfl
  | some qc =>
    obtain ⟨q1, load⟩ := qc
    obtain ⟨h1, h2, h3, h4⟩ := h q1 load hl
    simp only
    have hc := toInt32_congr _ _ (cost_modEq load (propagateBalance inst p sp q1).2.2.2
      (inst.process p).move_cost
      ((inst.machine (inst.process p).original_machine).move_cost x)
      inst.weight_process_move_cost inst.weight_machine_move_cost
      ((inst.process p).original_machine ≠ x))
    have hmv : (if (inst.process p).original_machine ≠ x then
          ((inst.process p).move_cost : Int) * inst.weight_process_move_cost else 0)
        + ((inst.machine (inst.process p).original_machine).move_cost x : Int)
            * inst.weight_machine_move_cost = moveCost inst p x := rfl
    rw [hmv, toInt32_of_range _ h3 h4] at hc
    rw [hc, toInt32_of_range load h1 h2]

/-- Instance of claim C22 (as amended): in `exInstance2` process 0 moves from
machine 0 to the empty machine 1; the exact cost 2 (load) - 10 (balance) + 1
(process move) + 0 (machine move) lies in the range of `int` and is the value
fixed. -/
theorem C22_assigned_cost_witness :
    ProcessPropagator.propagate32 exInstance2 exState2 0 0 1
        (RescheduleSpace.construct exInstance2 exState2 [0]) = some exFinal2
      ∧ exFinal2.process_move_cost 0 = some (-7)
      ∧ ∃ exact : Int,
          exact = (∑ r in range exInstance2.num_resources,
              (max 0 ((patchOrBase exState2 exFinal2.delta 1).excess r)
                - max 0 ((patchOrBase exState2
                    (RescheduleSpace.construct exInstance2 exState2 [0]).delta 1).excess r))
                * (exInstance2.resource r).weight_load_cost)
            + (∑ b in range exInstance2.num_balances,
              (max 0 ((patchOrBase exState2 exFinal2.delta 1).balance b)
                - max 0 ((patchOrBase exState2
                    (RescheduleSpace.construct exInstance2 exState2 [0]).delta 1).balance b))
                * ((exInstance2.balance b).weight_balance_cost : Int))
            + (if 1 ≠ (exInstance2.process 0).original_machine then
                ((exInstance2.process 0).move_cost : Int) * exInstance2.weight_process_move_cost
                else 0)
            + ((exInstance2.machine (exInstance2.process 0).original_machine).move_cost 1 : Int)
                * exInstance2.weight_machine_move_cost
          ∧ exFinal2.process_move_cost 0 = some (toInt32 exact)
          ∧ (-2147483648 ≤ exact → exact ≤ 2147483647 →
              exFinal2.process_move_cost 0 = some exact) :=
  ⟨rfl, by decide,
    (C22_assigned_cost exInstance2 exState2 0 0 1
      (RescheduleSpace.construct exInstance2 exState2 [0]) exFinal2 rfl).2.2⟩

/-- Counterexample to claim C22 as stated: in `exInstanceWide` the assignment
propagator succeeds for the value 1; the sum of the claim is `2 ^ 32 + 5` (the
load part `2 ^ 30 * 4 + 1 * 5`, no balance triple, no move cost), and
`process_move_cost[0]` is fixed to 5. -/
theorem C22_counterexample :
    (ProcessPropagator.propagate32 exInstanceWide exStateWide 0 0 1
        (RescheduleSpace.construct exInstanceWide exStateWide [0])).isSome = true
      ∧ exFinalWide.process_move_cost 0 = some 5
      ∧ (∑ r in range exInstanceWide.num_resources,
            (max 0 ((patchOrBase exStateWide exFinalWide.delta 1).excess r)
              - max 0 ((patchOrBase exStateWide
                  (RescheduleSpace.construct exInstanceWide exStateWide [0]).delta 1).excess r))
              * (exInstanceWide.resource r).weight_load_cost)
          + (∑ b in range exInstanceWide.num_balances,
            (max 0 ((patchOrBase exStateWide exFinalWide.delta 1).balance b)
              - max 0 ((patchOrBase exStateWide
                  (RescheduleSpace.construct exInstanceWide exStateWide [0]).delta 1).balance b))
              * ((exInstanceWide.balance b).weight_balance_cost : Int))
          + (if 1 ≠ (exInstanceWide.process 0).original_machine then
              ((exInstanceWide.process 0).move_cost : Int)
                * exInstanceWide.weight_process_move_cost else 0)
          + ((exInstanceWide.machine (exInstanceWide.process 0).original_machine).move_cost 1
              : Int) * exInstanceWide.weight_machine_move_cost
        = 4294967301 := by
  refine ⟨by decide, by decide, by decide⟩

theorem propagateLoad_none_iff (inst : Instance) (p x : Nat) (patch : MachinePatch) (n : Nat) :
    (List.range n).foldl (propagateLoadStep inst p x) (some (patch, 0)) = none
      ↔ ∃ r, r < n ∧
          (patch.excess r + (inst.process p).requirement r
              > (inst.machine x).capacity r - (inst.machine x).safety_capacity r
            ∨ (r < inst.transient_count ∧ (inst.process p).original_machine ≠ x
                ∧ patch.transient r + (inst.process p).requirement r
                    > (inst.machine x).capacity r)) := by
  induction n with
  | zero => simp
  | succ n ih =>
    rw [foldl_range_succ]
    cases hf : (List.range n).foldl (propagateLoadStep inst p x) (some (patch, 0)) with
    | none =>
      obtain ⟨r, hr, hv⟩ := ih.mp hf
      simp only [propagateLoadStep, true_iff]
      exact ⟨r, by omega, hv⟩
    | some qc =>
      obtain ⟨q0, c0⟩ := qc
      obtain ⟨e1, _, e3, _, _, _⟩ := propagateLoad_prefix inst p x patch n q0 c0 hf
      have ex0 : q0.excess n = patch.excess n := by rw [e1 n]; simp
      have et0 : q0.transient n = patch.transient n := by rw [e3 n]; simp
      have hno : ¬ ∃ r, r < n ∧
          (patch.excess r + (inst.process p).requirement r
              > (inst.machine x).capacity r - (inst.machine x).safety_capacity r
            ∨ (r < inst.transient_count ∧ (inst.process p).original_machine ≠ x
                ∧ patch.transient r + (inst.process p).requirement r
                    > (inst.machine x).capacity r)) := by
        intro hex
        have := ih.mpr hex
        rw [hf] at this
        simp at this
      unfold propagateLoadStep
      simp only [Function.update_same]
      rw [ex0, et0]
      by_cases hcap : patch.excess n + (inst.process p).requirement n
          > (inst.machine x).capacity n - (inst.machine x).safety_capacity n
      · rw [if_pos hcap]
        simp only [true_iff]
        exact ⟨n, by omega, Or.inl hcap⟩
      · rw [if_neg hcap]
        by_cases htr : n < inst.transient_count ∧ (inst.process p).original_machine ≠ x
        · rw [if_pos htr]
          by_cases htv : patch.transient n + (inst.process p).requirement n
              > (inst.machine x).capacity n
          · rw [if_pos htv]
            simp only [true_iff]
            exact ⟨n, by omega, Or.inr ⟨htr.1, htr.2, htv⟩⟩
          · rw [if_neg htv]
            refine ⟨fun hcontra => by simp at hcontra, ?_⟩
            rintro ⟨r, hr, hv⟩
            exfalso
            by_cases hrn : r = n
            · subst hrn
              rcases hv with hv | ⟨_, _, hv⟩
              · exact hcap hv
              · exact htv hv
            · exact hno ⟨r, by omega, hv⟩
        · rw [if_neg htr]
          refine ⟨fun hcontra => by simp at hcontra, ?_⟩
          rintro ⟨r, hr, hv⟩
          exfalso
          by_cases hrn : r = n
          · subst hrn
            rcases hv with hv | ⟨h1, h2, _⟩
            · exact hcap hv
            · exact htr ⟨h1, h2⟩
          · exact hno ⟨r, by omega, hv⟩

theorem excess_term_nonneg (e q w : Int) (hq : 0 ≤ q) (hw : 0 ≤ w) :
    0 ≤ (max 0 (e + q) - max 0 e) * w := by
  apply mul_nonneg _ hw
  have : max 0 e ≤ max 0 (e + q) := max_le_max (le_refl 0) (by omega)
  omega

/-- Claim C21 (as amended). Load step of the assignment propagator for process
`p` on machine `m` with non-negative requirements of `p` and non-negative load
weights: if for some resource r the patched excess plus the requirement exceeds
capacity minus safety capacity, or r is transient, `m` is not the original
machine of `p` and the patched transient usage plus the requirement exceeds the
capacity, the step returns -1, which the propagator reports as a failure; when
no resource violates either bound and the pruning loop empties no domain, it
returns the load-cost delta, the non-negative sum over the resources of
(max(0, excess + requirement) - max(0, excess)) * weight, converted to `int`;
when the delta is at most `2 ^ 31 - 1` the returned value is the delta itself
and is not taken for a failure; when the pruning loop fails the step returns -1
as well. -/
theorem C21_load_step (inst : Instance) (moved : List Nat) (p m : Nat) (patch : MachinePatch)
    (vars : VarStore)
    (hreq : ∀ r, r < inst.num_resources → 0 ≤ (inst.process p).requirement r)
    (hw : ∀ r, r < inst.num_resources → 0 ≤ (inst.resource r).weight_load_cost) :
    ((∃ r, r < inst.num_resources ∧
          (patch.excess r + (inst.process p).requirement r
              > (inst.machine m).capacity r - (inst.machine m).safety_capacity r
            ∨ (r < inst.transient_count ∧ (inst.process p).original_machine ≠ m
                ∧ patch.transient r + (inst.process p).requirement r
                    > (inst.machine m).capacity r))) →
        (propagateLoadFull inst moved p m patch vars).1 = -1)
      ∧ ((¬ ∃ r, r < inst.num_resources ∧
          (patch.excess r + (inst.process p).requirement r
              > (inst.machine m).capacity r - (inst.machine m).safety_capacity r
            ∨ (r < inst.transient_count ∧ (inst.process p).original_machine ≠ m
                ∧ patch.transient r + (inst.process p).requirement r
                    > (inst.machine m).capacity r))) →
        ∃ patch1 delta, propagateLoad inst p m patch = some (patch1, delta)
          ∧ delta = ∑ r in range inst.num_resources,
              (max 0 (patch.excess r + (inst.process p).requirement r)
                - max 0 (patch.excess r)) * (inst.resource r).weight_load_cost
          ∧ 0 ≤ delta
          ∧ (∀ vars1, propagateLoadPrune inst moved m patch1 vars = some vars1 →
              propagateLoadFull inst moved p m patch vars = (toInt32 delta, patch1, vars1)
                ∧ (delta ≤ 2147483647 →
                    (propagateLoadFull inst moved p m patch vars).1 = delta
                      ∧ ¬ (propagateLoadFull inst moved p m patch vars).1 < 0))
          ∧ (propagateLoadPrune inst moved m patch1 vars = none →
              (propagateLoadFull inst moved p m patch vars).1 = -1)) := by
  refine ⟨?_, ?_⟩
  · intro hv
    have hnone : propagateLoad inst p m patch = none :=
      (propagateLoad_none_iff inst p m patch inst.num_resources).mpr hv
    unfold propagateLoadFull
    rw [hnone]
  · intro hnv
    cases hl : propagateLoad inst p m patch with
    | none =>
      exact absurd ((propagateLoad_none_iff inst p m patch inst.num_resources).mp hl) hnv
    | some qc =>
      obtain ⟨patch1, delta⟩ := qc
      obtain ⟨_, _, _, _, _, l6⟩ :=
        propagateLoad_prefix inst p m patch inst.num_resources patch1 delta hl
      have hnn : 0 ≤ delta := by
        rw [l6]
        apply Finset.sum_nonneg
        intro r hr
        exact excess_term_nonneg _ _ _ (hreq r (Finset.mem_range.mp hr))
          (hw r (Finset.mem_range.mp hr))
      refine ⟨patch1, delta, rfl, l6, hnn, ?_, ?_⟩
      · intro vars1 hp
        unfold propagateLoadFull
        rw [hl]
        simp only [hp]
        refine ⟨trivial, ?_⟩
        intro hsmall
        rw [toInt32_of_range delta (by omega) hsmall]
        exact ⟨rfl, by omega⟩
      · intro hp
        unfold propagateLoadFull
        rw [hl]
        simp only [hp]

/-! ## The cost propagator -/

theorem guarded_sum_fold (f : Option Int → Nat → Option Int) (viol : Nat → Prop)
    (term : Nat → Int) (hnone : ∀ r, f none r = none)
    (hviol : ∀ c r, viol r → f (some c) r = none)
    (hsome : ∀ c r, ¬ viol r → f (some c) r = some (c + term r)) (n : Nat) :
    ((List.range n).foldl f (some 0) = none ↔ ∃ r, r < n ∧ viol r)
      ∧ ∀ c, (List.range n).foldl f (some 0) = some c → c = ∑ r in range n, term r := by
  induction n with
  | zero => simp
  | succ n ih =>
    rw [foldl_range_succ]
    obtain ⟨ih1, ih2⟩ := ih
    cases hf : (List.range n).foldl f (some 0) with
    | none =>
      obtain ⟨r, hr, hv⟩ := ih1.mp hf
      rw [hnone]
      exact ⟨⟨fun _ => ⟨r, by omega, hv⟩, fun _ => rfl⟩, fun c hc => by simp at hc⟩
    | some c0 =>
      have hc0 := ih2 c0 hf
      have hno : ¬ ∃ r, r < n ∧ viol r := by
        intro hex
        have := ih1.mpr hex
        rw [hf] at this
        simp at this
      by_cases hv : viol n
      · rw [hviol c0 n hv]
        exact ⟨⟨fun _ => ⟨n, by omega, hv⟩, fun _ => rfl⟩, fun c hc => by simp at hc⟩
      · rw [hsome c0 n hv]
        refine ⟨⟨fun hcontra => by simp at hcontra, ?_⟩, ?_⟩
        · rintro ⟨r, hr, hvr⟩
          exfalso
          by_cases hrn : r = n
          · subst hrn; exact hv hvr
          · exact hno ⟨r, by omega, hvr⟩
        · intro c hc
          simp only [Option.some.injEq] at hc
          rw [Finset.sum_range_succ, ← hc0, ← hc]

theorem getExcessCost_fold (inst : Instance) (p x : Nat) (load transient : MachineLoad)
    (patch : Option MachinePatch) (e t : Nat → Int)
    (he : ∀ r, e r = (patch.map (fun q => q.excess r)).getD (load r))
    (ht : ∀ r, t r = (patch.map (fun q => q.transient r)).getD (transient r)) (n : Nat) :
    ((List.range n).foldl (getExcessCostStep inst p x load transient patch) (some 0) = none
        ↔ ∃ r, r < n ∧
            ((inst.machine x).capacity r - (inst.machine x).safety_capacity r - e r
                < (inst.process p).requirement r
              ∨ (r < inst.transient_count
                  ∧ t r + (if (inst.process p).original_machine = x then 0
                      else (inst.process p).requirement r) > (inst.machine x).capacity r)))
      ∧ ∀ c, (List.range n).foldl (getExcessCostStep inst p x load transient patch) (some 0)
            = some c →
          c = ∑ r in range n,
            (max 0 (e r + (inst.process p).requirement r) - max 0 (e r))
              * (inst.resource r).weight_load_cost := by
  apply guarded_sum_fold
  · intro r; rfl
  · intro c r hv
    unfold getExcessCostStep
    cases patch with
    | none =>
      simp only [Option.map_none', Option.getD_none] at he ht
      simp only [← he r, ← ht r]
      rcases hv with hv | ⟨h1, h2⟩
      · rw [if_pos hv]
      · by_cases ha : (inst.machine x).capacity r - (inst.machine x).safety_capacity r - e r
            < (inst.process p).requirement r
        · rw [if_pos ha]
        · rw [if_neg ha, if_pos ⟨h1, by rw [if_pos h1]; exact h2⟩]
    | some q =>
      simp only [Option.map_some', Option.getD_some] at he ht
      simp only [← he r, ← ht r]
      rcases hv with hv | ⟨h1, h2⟩
      · rw [if_pos hv]
      · by_cases ha : (inst.machine x).capacity r - (inst.machine x).safety_capacity r - e r
            < (inst.process p).requirement r
        · rw [if_pos ha]
        · rw [if_neg ha, if_pos ⟨h1, by rw [if_pos h1]; exact h2⟩]
  · intro c r hv
    unfold getExcessCostStep
    have hv1 : ¬ (inst.machine x).capacity r - (inst.machine x).safety_capacity r - e r
        < (inst.process p).requirement r := fun h => hv (Or.inl h)
    have hv2 : ¬ (r < inst.transient_count
        ∧ (if r < inst.transient_count then t r else 0)
            + (if (inst.process p).original_machine = x then 0
                else (inst.process p).requirement r) > (inst.machine x).capacity r) := by
      rintro ⟨h1, h2⟩
      rw [if_pos h1] at h2
      exact hv (Or.inr ⟨h1, h2⟩)
    cases patch with
    | none =>
      simp only [Option.map_none', Option.getD_none] at he ht
      simp only [← he r, ← ht r]
      rw [if_neg hv1, if_neg hv2]
    | some q =>
      simp only [Option.map_some', Option.getD_some] at he ht
      simp only [← he r, ← ht r]
      rw [if_neg hv1, if_neg hv2]

theorem patchOrBase_excess (state : ReAssignment) (delta : PatchMap) (x r : Nat) :
    (patchOrBase state delta x).excess r
      = ((delta x).map (fun q => q.excess r)).getD (state.excess x r) := by
  unfold patchOrBase
  cases delta x <;> rfl

theorem patchOrBase_transient (state : ReAssignment) (delta : PatchMap) (x r : Nat) :
    (patchOrBase state delta x).transient r
      = ((delta x).map (fun q => q.transient r)).getD (state.transient x r) := by
  unfold patchOrBase
  cases delta x <;> rfl

theorem patchOrBase_balance (state : ReAssignment) (delta : PatchMap) (x b : Nat) :
    (patchOrBase state delta x).balance b
      = ((delta x).map (fun q => q.balance b)).getD (state.balance x b) := by
  unfold patchOrBase
  cases delta x <;> rfl

theorem getExcessCost_spec (inst : Instance) (state : ReAssignment) (space : RescheduleSpace)
    (p x : Nat) :
    ((∃ r, r < inst.num_resources ∧
          ((inst.machine x).capacity r - (inst.machine x).safety_capacity r
              - (patchOrBase state space.delta x).excess r < (inst.process p).requirement r
            ∨ (r < inst.transient_count
                ∧ (patchOrBase state space.delta x).transient r
                    + (if (inst.process p).original_machine = x then 0
                        else (inst.process p).requirement r) > (inst.machine x).capacity r))) →
        CostPropagator.getExcessCost inst p x (state.excess x) (state.transient x)
          (space.delta x) = Limits.max)
      ∧ ((¬ ∃ r, r < inst.num_resources ∧
          ((inst.machine x).capacity r - (inst.machine x).safety_capacity r
              - (patchOrBase state space.delta x).excess r < (inst.process p).requirement r
            ∨ (r < inst.transient_count
                ∧ (patchOrBase state space.delta x).transient r
                    + (if (inst.process p).original_machine = x then 0
                        else (inst.process p).requirement r) > (inst.machine x).capacity r))) →
        CostPropagator.getExcessCost inst p x (state.excess x) (state.transient x)
            (space.delta x)
          = ∑ r in range inst.num_resources,
              (max 0 ((patchOrBase state space.delta x).excess r + (inst.process p).requirement r)
                - max 0 ((patchOrBase state space.delta x).excess r))
                * (inst.resource r).weight_load_cost) := by
  obtain ⟨f1, f2⟩ := getExcessCost_fold inst p x (state.excess x) (state.transient x)
    (space.delta x) (fun r => (patchOrBase state space.delta x).excess r)
    (fun r => (patchOrBase state space.delta x).transient r)
    (fun r => patchOrBase_excess state space.delta x r)
    (fun r => patchOrBase_transient state space.delta x r) inst.num_resources
  refine ⟨?_, ?_⟩
  · intro hv
    unfold CostPropagator.getExcessCost
    rw [f1.mpr hv]
  · intro hnv
    unfold CostPropagator.getExcessCost
    cases hf : (List.range inst.num_resources).foldl
        (getExcessCostStep inst p x (state.excess x) (state.transient x) (space.delta x))
        (some 0) with
    | none => exact absurd (f1.mp hf) hnv
    | some c => exact f2 c hf

theorem getAdditionalCost_spec (inst : Instance) (state : ReAssignment)
    (space : RescheduleSpace) (p x : Nat) :
    CostPropagator.getAdditionalCost inst state space p x
      = if CostPropagator.getExcessCost inst p x (state.excess x) (state.transient x)
            (space.delta x) = Limits.max then (Limits.max, Limits.max)
        else
          (CostPropagator.getExcessCost inst p x (state.excess x) (state.transient x)
              (space.delta x) + moveCost inst p x
            + (CostPropagator.getBalanceCost inst space p (state.balance x) (space.delta x)).1,
           CostPropagator.getExcessCost inst p x (state.excess x) (state.transient x)
              (space.delta x) + moveCost inst p x
            + (CostPropagator.getBalanceCost inst space p (state.balance x) (space.delta x)).2)
        := by
  unfold CostPropagator.getAdditionalCost moveCost
  simp only [zero_add]
  by_cases h : CostPropagator.getExcessCost inst p x (state.excess x) (state.transient x)
      (space.delta x) = Limits.max
  · rw [if_pos h, if_pos h, h]
  · rw [if_neg h, if_neg h]
    by_cases ho : (inst.process p).original_machine ≠ x
    · simp only [if_pos ho]
      ext <;> simp only <;> ring
    · simp only [if_neg ho]
      ext <;> simp only <;> ring

theorem getBalanceCost_bounds (inst : Instance) (space : RescheduleSpace) (p : Nat)
    (balance : MachineBalance) (patch : Option MachinePatch) (mb : Nat → Int)
    (hmb : ∀ b, mb b = (patch.map (fun q => q.balance b)).getD (balance b)) (n : Nat)
    (hU : ∀ b, b < n → 0 ≤ space.max_unassigned_balance b
      ∧ space.min_unassigned_balance b ≤ min 0 (processBalance inst p b)) :
    ((List.range n).foldl (getBalanceCostStep inst space p balance patch) (0, 0)).1
        ≤ ∑ b in range n, (max 0 (mb b + processBalance inst p b) - max 0 (mb b))
            * ((inst.balance b).weight_balance_cost : Int)
      ∧ ∑ b in range n, (max 0 (mb b + processBalance inst p b) - max 0 (mb b))
            * ((inst.balance b).weight_balance_cost : Int)
        ≤ ((List.range n).foldl (getBalanceCostStep inst space p balance patch) (0, 0)).2 := by
  induction n with
  | zero => simp
  | succ n ih =>
    obtain ⟨ih1, ih2⟩ := ih (fun b hb => hU b (by omega))
    obtain ⟨hmx, hmn⟩ := hU n (by omega)
    rw [foldl_range_succ, Finset.sum_range_succ]
    generalize (List.range n).foldl (getBalanceCostStep inst space p balance patch) (0, 0)
      = acc at ih1 ih2 ⊢
    have hw : (0 : Int) ≤ ((inst.balance n).weight_balance_cost : Int) := Int.natCast_nonneg _
    have hstep : ∀ machine_balance : Int, machine_balance = mb n →
        (if processBalance inst p n < 0 then
          (acc.1 + (max 0 (machine_balance + space.max_unassigned_balance n
                + processBalance inst p n)
              - max 0 (machine_balance + space.max_unassigned_balance n))
              * ((inst.balance n).weight_balance_cost : Int),
           acc.2 + (max 0 (machine_balance + space.min_unassigned_balance n)
              - max 0 (machine_balance + space.min_unassigned_balance n
                  - processBalance inst p n))
              * ((inst.balance n).weight_balance_cost : Int))
        else
          (acc.1 + (max 0 (machine_balance + space.min_unassigned_balance n)
              - max 0 (machine_balance + space.min_unassigned_balance n
                  - processBalance inst p n))
              * ((inst.balance n).weight_balance_cost : Int),
           acc.2 + (max 0 (machine_balance + space.max_unassigned_balance n
                + processBalance inst p n)
              - max 0 (machine_balance + space.max_unassigned_balance n))
              * ((inst.balance n).weight_balance_cost : Int))).1
          ≤ ∑ b in range n, (max 0 (mb b + processBalance inst p b) - max 0 (mb b))
                * ((inst.balance b).weight_balance_cost : Int)
              + (max 0 (mb n + processBalance inst p n) - max 0 (mb n))
                * ((inst.balance n).weight_balance_cost : Int)
        ∧ ∑ b in range n, (max 0 (mb b + processBalance inst p b) - max 0 (mb b))
                * ((inst.balance b).weight_balance_cost : Int)
              + (max 0 (mb n + processBalance inst p n) - max 0 (mb n))
                * ((inst.balance n).weight_balance_cost : Int)
          ≤ (if processBalance inst p n < 0 then
          (acc.1 + (max 0 (machine_balance + space.max_unassigned_balance n
                + processBalance inst p n)
              - max 0 (machine_balance + space.max_unassigned_balance n))
              * ((inst.balance n).weight_balance_cost : Int),
           acc.2 + (max 0 (machine_balance + space.min_unassigned_balance n)
              - max 0 (machine_balance + space.min_unassigned_balance n
                  - processBalance inst p n))
              * ((inst.balance n).weight_balance_cost : Int))
        else
          (acc.1 + (max 0 (machine_balance + space.min_unassigned_balance n)
              - max 0 (machine_balance + space.min_unassigned_balance n
                  - processBalance inst p n))
              * ((inst.balance n).weight_balance_cost : Int),
           acc.2 + (max 0 (machine_balance + space.max_unassigned_balance n
                + processBalance inst p n)
              - max 0 (machine_balance + space.max_unassigned_balance n))
              * ((inst.balance n).weight_balance_cost : Int))).2 := by
      intro machine_balance hm
      subst hm
      generalize processBalance inst p n = d at hmn ⊢
      generalize space.max_unassigned_balance n = mx at hmx ⊢
      generalize space.min_unassigned_balance n = mn at hmn ⊢
      generalize mb n = x
      by_cases hd : d < 0
      · simp only [if_pos hd]
        have a1 : (max 0 (x + mx + d) - max 0 (x + mx)) ≤ (max 0 (x + d) - max 0 x) := by omega
        have a2 : (max 0 (x + d) - max 0 x) ≤ (max 0 (x + mn) - max 0 (x + mn - d)) := by omega
        have b1 := mul_le_mul_of_nonneg_right a1 hw
        have b2 := mul_le_mul_of_nonneg_right a2 hw
        constructor <;> linarith
      · simp only [if_neg hd]
        have a1 : (max 0 (x + mn) - max 0 (x + mn - d)) ≤ (max 0 (x + d) - max 0 x) := by omega
        have a2 : (max 0 (x + d) - max 0 x) ≤ (max 0 (x + mx + d) - max 0 (x + mx)) := by omega
        have b1 := mul_le_mul_of_nonneg_right a1 hw
        have b2 := mul_le_mul_of_nonneg_right a2 hw
        constructor <;> linarith
    unfold getBalanceCostStep
    cases patch with
    | none =>
      simp only [Option.map_none', Option.getD_none] at hmb
      exact hstep (balance n) (hmb n).symm
    | some q =>
      simp only [Option.map_some', Option.getD_some] at hmb
      exact hstep (q.balance n) (hmb n).symm

theorem setCost_map (c : ProcessCostMap) (i m : Nat) (v : Int × Int) (j x : Nat) :
    (c.setCost i m v).cost_map j x
      = if j = i ∧ x = m then some v else c.cost_map j x := by
  unfold ProcessCostMap.setCost
  simp only
  by_cases hj : j = i
  · subst hj
    by_cases hx : x = m
    · subst hx; simp
    · simp [Function.update_noteq hx, hx]
  · simp [Function.update_noteq hj, hj]

theorem initCache_fold (inst : Instance) (state : ReAssignment) (space : RescheduleSpace)
    (i p : Nat) (m_cost : Int × Int) (b0 : CostBound) (bl0 : List Nat) (c0 : ProcessCostMap)
    (dom : List Nat) :
    (dom.foldl (initCacheStep inst state space i p m_cost) (b0, bl0, c0)).2.1
        = bl0 ++ dom.filter (blacklisted inst state space p m_cost)
      ∧ (∀ m, m ∈ dom → blacklisted inst state space p m_cost m = false →
          (dom.foldl (initCacheStep inst state space i p m_cost) (b0, bl0, c0)).2.2.cost_map i m
            = some (CostPropagator.getAdditionalCost inst state space p m))
      ∧ (∀ m, m ∈ dom → blacklisted inst state space p m_cost m = false →
          (dom.foldl (initCacheStep inst state space i p m_cost) (b0, bl0, c0)).1.min.cost
              ≤ (CostPropagator.getAdditionalCost inst state space p m).1
            ∧ (CostPropagator.getAdditionalCost inst state space p m).2
              ≤ (dom.foldl (initCacheStep inst state space i p m_cost) (b0, bl0, c0)).1.max.cost)
      ∧ (dom.foldl (initCacheStep inst state space i p m_cost) (b0, bl0, c0)).1.min.cost
          ≤ b0.min.cost
      ∧ b0.max.cost
          ≤ (dom.foldl (initCacheStep inst state space i p m_cost) (b0, bl0, c0)).1.max.cost
      ∧ ((dom.foldl (initCacheStep inst state space i p m_cost) (b0, bl0, c0)).1.min = b0.min
          ∨ ∃ m, m ∈ dom ∧ blacklisted inst state space p m_cost m = false
            ∧ (dom.foldl (initCacheStep inst state space i p m_cost) (b0, bl0, c0)).1.min
              = { machine := m,
                  cost := (CostPropagator.getAdditionalCost inst state space p m).1 })
      ∧ ((dom.foldl (initCacheStep inst state space i p m_cost) (b0, bl0, c0)).1.max = b0.max
          ∨ ∃ m, m ∈ dom ∧ blacklisted inst state space p m_cost m = false
            ∧ (dom.foldl (initCacheStep inst state space i p m_cost) (b0, bl0, c0)).1.max
              = { machine := m,
                  cost := (CostPropagator.getAdditionalCost inst state space p m).2 }) := by
  induction dom using List.reverseRecOn with
  | nil => simp
  | append_singleton l a ih =>
    rw [List.foldl_append, List.foldl_cons, List.foldl_nil, List.filter_append]
    generalize l.foldl (initCacheStep inst state space i p m_cost) (b0, bl0, c0) = acc at ih ⊢
    obtain ⟨bd, bl, ch⟩ := acc
    obtain ⟨i1, i2, i3, i4, i5, i6, i7⟩ := ih
    simp only at i1 i2 i3 i4 i5 i6 i7
    by_cases hbad : blacklisted inst state space p m_cost a = true
    · have hstep : initCacheStep inst state space i p m_cost (bd, bl, ch) a
          = (bd, bl ++ [a], ch) := by
        unfold initCacheStep
        simp only
        unfold blacklisted at hbad
        simp only [decide_eq_true_eq] at hbad
        by_cases h1 : (CostPropagator.getAdditionalCost inst state space p a).1 = Limits.max
        · rw [if_pos h1]
        · rw [if_neg h1]
          have h2 : (CostPropagator.getAdditionalCost inst state space p a).1 > m_cost.2
              ∨ (CostPropagator.getAdditionalCost inst state space p a).2 < m_cost.1 := by
            rcases hbad with h | h
            · exact absurd h h1
            · exact h
          rw [if_pos h2]
      rw [hstep]
      simp only
      refine ⟨?_, ?_, ?_, i4, i5, ?_, ?_⟩
      · rw [i1]; simp [hbad, List.filter_cons]
      · intro m hm hk
        rcases List.mem_append.mp hm with hm | hm
        · exact i2 m hm hk
        · simp only [List.mem_singleton] at hm
          subst hm
          rw [hbad] at hk
          simp at hk
      · intro m hm hk
        rcases List.mem_append.mp hm with hm | hm
        · exact i3 m hm hk
        · simp only [List.mem_singleton] at hm
          subst hm
          rw [hbad] at hk
          simp at hk
      · rcases i6 with h | ⟨m, hm, hk, he⟩
        · exact Or.inl h
        · exact Or.inr ⟨m, List.mem_append.mpr (Or.inl hm), hk, he⟩
      · rcases i7 with h | ⟨m, hm, hk, he⟩
        · exact Or.inl h
        · exact Or.inr ⟨m, List.mem_append.mpr (Or.inl hm), hk, he⟩
    · have hgood : blacklisted inst state space p m_cost a = false := by
        simpa using hbad
      have hg := hgood
      unfold blacklisted at hg
      simp only [decide_eq_false_iff_not, not_or, not_lt] at hg
      obtain ⟨g1, g2, g3⟩ := hg
      have h2 : ¬ ((CostPropagator.getAdditionalCost inst state space p a).1 > m_cost.2
          ∨ (CostPropagator.getAdditionalCost inst state space p a).2 < m_cost.1) := by
        rintro (h | h) <;> omega
      unfold initCacheStep
      simp only
      rw [if_neg g1, if_neg h2]
      generalize hca : CostPropagator.getAdditionalCost inst state space p a = ca
        at g1 g2 g3 h2 ⊢
      have hfil : bl = bl0 ++ (List.filter (blacklisted inst state space p m_cost) l
          ++ List.filter (blacklisted inst state space p m_cost) [a]) := by
        rw [i1]; simp [hgood, List.filter_cons]
      have hmap : ∀ m, m ∈ l ++ [a] → blacklisted inst state space p m_cost m = false →
          (ch.setCost i a ca).cost_map i m
            = some (CostPropagator.getAdditionalCost inst state space p m) := by
        intro m hm hk
        rw [setCost_map]
        by_cases hma : m = a
        · subst hma; simp [hca]
        · rw [if_neg (fun h => hma h.2)]
          rcases List.mem_append.mp hm with hm | hm
          · exact i2 m hm hk
          · simp only [List.mem_singleton] at hm
            exact absurd hm hma
      have hmem : ∀ m, m ∈ l ++ [a] → blacklisted inst state space p m_cost m = false →
          (bd.min.cost ≤ (CostPropagator.getAdditionalCost inst state space p m).1
            ∧ (CostPropagator.getAdditionalCost inst state space p m).2 ≤ bd.max.cost)
          ∨ CostPropagator.getAdditionalCost inst state space p m = ca := by
        intro m hm hk
        rcases List.mem_append.mp hm with hm | hm
        · exact Or.inl (i3 m hm hk)
        · simp only [List.mem_singleton] at hm
          subst hm
          exact Or.inr hca
      have hin : a ∈ l ++ [a] := by simp
      have lift6 : ∀ q : BoundMachine, (bd.min = b0.min
          ∨ ∃ m, m ∈ l ∧ blacklisted inst state space p m_cost m = false
            ∧ bd.min = { machine := m,
                         cost := (CostPropagator.getAdditionalCost inst state space p m).1 }) →
          q = bd.min →
          (q = b0.min
          ∨ ∃ m, m ∈ l ++ [a] ∧ blacklisted inst state space p m_cost m = false
            ∧ q = { machine := m,
                    cost := (CostPropagator.getAdditionalCost inst state space p m).1 }) := by
        intro q h hq
        subst hq
        rcases h with h | ⟨m, hm, hk, he⟩
        · exact Or.inl h
        · exact Or.inr ⟨m, List.mem_append.mpr (Or.inl hm), hk, he⟩
      have lift7 : ∀ q : BoundMachine, (bd.max = b0.max
          ∨ ∃ m, m ∈ l ∧ blacklisted inst state space p m_cost m = false
            ∧ bd.max = { machine := m,
                         cost := (CostPropagator.getAdditionalCost inst state space p m).2 }) →
          q = bd.max →
          (q = b0.max
          ∨ ∃ m, m ∈ l ++ [a] ∧ blacklisted inst state space p m_cost m = false
            ∧ q = { machine := m,
                    cost := (CostPropagator.getAdditionalCost inst state space p m).2 }) := by
        intro q h hq
        subst hq
        rcases h with h | ⟨m, hm, hk, he⟩
        · exact Or.inl h
        · exact Or.inr ⟨m, List.mem_append.mpr (Or.inl hm), hk, he⟩
      have new6 : ({ machine := a, cost := ca.1 } : BoundMachine) = b0.min
          ∨ ∃ m, m ∈ l ++ [a] ∧ blacklisted inst state space p m_cost m = false
            ∧ ({ machine := a, cost := ca.1 } : BoundMachine)
              = { machine := m,
                  cost := (CostPropagator.getAdditionalCost inst state space p m).1 } :=
        Or.inr ⟨a, hin, hgood, by rw [hca]⟩
      have new7 : ({ machine := a, cost := ca.2 } : BoundMachine) = b0.max
          ∨ ∃ m, m ∈ l ++ [a] ∧ blacklisted inst state space p m_cost m = false
            ∧ ({ machine := a, cost := ca.2 } : BoundMachine)
              = { machine := m,
                  cost := (CostPropagator.getAdditionalCost inst state space p m).2 } :=
        Or.inr ⟨a, hin, hgood, by rw [hca]⟩
      by_cases hA : bd.min.cost > ca.1
      · by_cases hB : bd.max.cost < ca.2
        · simp only [hA, hB, if_true]
          refine ⟨hfil, hmap, ?_, by omega, by omega, new6, new7⟩
          intro m hm hk
          rcases hmem m hm hk with h | h
          · omega
          · rw [h]; omega
        · simp only [hA, hB, if_true, if_false]
          refine ⟨hfil, hmap, ?_, by omega, i5, new6, lift7 _ i7 rfl⟩
          intro m hm hk
          rcases hmem m hm hk with h | h
          · omega
          · rw [h]; omega
      · by_cases hB : bd.max.cost < ca.2
        · simp only [hA, hB, if_true, if_false]
          refine ⟨hfil, hmap, ?_, i4, by omega, lift6 _ i6 rfl, new7⟩
          intro m hm hk
          rcases hmem m hm hk with h | h
          · omega
          · rw [h]; omega
        · simp only [hA, hB, if_false]
          refine ⟨hfil, hmap, ?_, i4, i5, lift6 _ i6 rfl, lift7 _ i7 rfl⟩
          intro m hm hk
          rcases hmem m hm hk with h | h
          · omega
          · rw [h]; omega

theorem pruneBlacklist_spec (bl : List Nat) :
    ∀ dom d, pruneBlacklist bl dom = some d → d = dom.filter (fun v => decide (v ∉ bl)) := by
  induction bl with
  | nil => intro dom d h; simp [pruneBlacklist] at h; simp [h]
  | cons m rest ih =>
    intro dom d h
    unfold pruneBlacklist at h
    unfold IntView.nq at h
    split_ifs at h with hemp
    simp only at h
    rw [ih _ d h, List.filter_filter]
    apply List.filter_congr
    intro v _
    by_cases hv : v = m
    · simp [hv]
    · simp [hv]

theorem initCache_spec (inst : Instance) (state : ReAssignment) (space : RescheduleSpace)
    (i p : Nat) (vars : VarStore) (cache : ProcessCostMap) :
    (CostPropagator.initCache inst state space i p vars [] cache).2.1
        = (vars.process i).filter
            (blacklisted inst state space p (vars.cost_min i, vars.cost_max i))
      ∧ ∀ m, m ∈ vars.process i →
          m ∉ (CostPropagator.initCache inst state space i p vars [] cache).2.1 →
          (CostPropagator.initCache inst state space i p vars [] cache).2.2.getCost i m
            = CostPropagator.getAdditionalCost inst state space p m := by
  obtain ⟨i1, i2, _⟩ := initCache_fold inst state space i p (vars.cost_min i, vars.cost_max i)
    { min := { machine := 0, cost := Limits.max }, max := { machine := 0, cost := Limits.min } }
    [] cache (vars.process i)
  have hbl : (CostPropagator.initCache inst state space i p vars [] cache).2.1
      = (vars.process i).filter
          (blacklisted inst state space p (vars.cost_min i, vars.cost_max i)) := by
    unfold CostPropagator.initCache
    simp only
    rw [i1]
    simp
  refine ⟨hbl, ?_⟩
  intro m hm hnot
  rw [hbl] at hnot
  have hk : blacklisted inst state space p (vars.cost_min i, vars.cost_max i) m = false := by
    by_contra hb
    apply hnot
    rw [List.mem_filter]
    exact ⟨hm, by simpa using hb⟩
  unfold CostPropagator.initCache ProcessCostMap.getCost ProcessCostMap.setBound
  simp only
  rw [i2 m hm hk]
  rfl

theorem getExcessCostStep32_map (inst : Instance) (p x : Nat) (load transient : MachineLoad)
    (patch : Option MachinePatch) (acc : Option Int) (r : Nat) :
    getExcessCostStep32 inst p x load transient patch (acc.map toInt32) r
      = (getExcessCostStep inst p x load transient patch acc r).map toInt32 := by
  cases acc with
  | none => rfl
  | some c =>
    unfold getExcessCostStep32 getExcessCostStep
    simp only [Option.map_some']
    split_ifs <;>
      first
      | rfl
      | (simp only [Option.map_some', Option.some.injEq]
         apply toInt32_congr
         exact (toInt32_modEq c).add (toInt32_modEq _))

theorem getExcessCost32_fold (inst : Instance) (p x : Nat) (load transient : MachineLoad)
    (patch : Option MachinePatch) (n : Nat) :
    (List.range n).foldl (getExcessCostStep32 inst p x load transient patch) (some 0)
      = ((List.range n).foldl (getExcessCostStep inst p x load transient patch) (some 0)).map
          toInt32 := by
  induction n with
  | zero => rfl
  | succ n ih =>
    rw [foldl_range_succ, foldl_range_succ, ih, getExcessCostStep32_map]

theorem getBalanceCostStep32_eq (inst : Instance) (space : RescheduleSpace) (p : Nat)
    (balance : MachineBalance) (patch : Option MachinePatch) (acc : Int × Int) (b : Nat) :
    getBalanceCostStep32 inst space p balance patch (toInt32 acc.1, toInt32 acc.2) b
      = (toInt32 (getBalanceCostStep inst space p balance patch acc b).1,
          toInt32 (getBalanceCostStep inst space p balance patch acc b).2) := by
  have key : ∀ a d w : Int,
      toInt32 (toUInt32 (toInt32 a) + toUInt32 (toUInt32 d * w)) = toInt32 (a + d * w) := by
    intro a d w
    apply toInt32_congr
    refine Int.ModEq.add ((toUInt32_modEq _).trans (toInt32_modEq a)) ?_
    refine (toUInt32_modEq _).trans ?_
    exact Int.ModEq.mul_right _ (toUInt32_modEq d)
  unfold getBalanceCostStep32 getBalanceCostStep
  simp only
  split_ifs
  · rw [key, key]
  · rw [key, key]

theorem getBalanceCost32_fold (inst : Instance) (space : RescheduleSpace) (p : Nat)
    (balance : MachineBalance) (patch : Option MachinePatch) (n : Nat) :
    (List.range n).foldl (getBalanceCostStep32 inst space p balance patch) (0, 0)
      = (toInt32 ((List.range n).foldl
            (getBalanceCostStep inst space p balance patch) (0, 0)).1,
          toInt32 ((List.range n).foldl
            (getBalanceCostStep inst space p balance patch) (0, 0)).2) := by
  induction n with
  | zero => rfl
  | succ n ih =>
    rw [foldl_range_succ, foldl_range_succ, ih, getBalanceCostStep32_eq]

theorem getAdditionalCost32_eq (inst : Instance) (state : ReAssignment)
    (space : RescheduleSpace) (p x : Nat)
    (h : (CostPropagator.getAdditionalCost32 inst state space p x).1 ≠ Limits.max) :
    CostPropagator.getExcessCost inst p x (state.excess x) (state.transient x) (space.delta x)
        ≠ Limits.max
      ∧ CostPropagator.getAdditionalCost32 inst state space p x
        = (toInt32 (CostPropagator.getAdditionalCost inst state space p x).1,
            toInt32 (CostPropagator.getAdditionalCost inst state space p x).2) := by
  have hmax : toInt32 Limits.max = Limits.max := by decide
  unfold CostPropagator.getAdditionalCost32 at h ⊢
  unfold CostPropagator.getExcessCost32 at h ⊢
  rw [getAdditionalCost_spec]
  unfold CostPropagator.getExcessCost
  simp only at h ⊢
  rw [getExcessCost32_fold] at h ⊢
  cases hf : (List.range inst.num_resources).foldl
      (getExcessCostStep inst p x (state.excess x) (state.transient x) (space.delta x))
      (some 0) with
  | none =>
    exfalso
    rw [hf] at h
    simp only [Option.map_none', zero_add, hmax, if_true] at h
    exact h rfl
  | some c =>
    rw [hf] at h
    simp only [Option.map_some', zero_add, toInt32_idem] at h ⊢
    by_cases hc : toInt32 c = Limits.max
    · exfalso
      rw [if_pos hc] at h
      exact h hc
    · have hc2 : c ≠ Limits.max := by
        intro e
        rw [e] at hc
        exact hc hmax
      rw [if_neg hc, if_neg hc2]
      refine ⟨hc2, ?_⟩
      simp only
      unfold CostPropagator.getBalanceCost32 CostPropagator.getBalanceCost
      rw [getBalanceCost32_fold]
      simp only
      have e2 : toInt32 (toUInt32 (if (inst.process p).original_machine ≠ x then
              toInt32 (toUInt32 (toInt32 c)
                + toUInt32 (((inst.process p).move_cost : Int)
                    * toUInt32 inst.weight_process_move_cost))
            else toInt32 c)
          + toUInt32 (((inst.machine (inst.process p).original_machine).move_cost x : Int)
              * toUInt32 inst.weight_machine_move_cost))
          ≡ c + moveCost inst p x [ZMOD 4294967296] := by
        refine (toInt32_modEq _).trans ?_
        unfold moveCost
        rw [← add_assoc]
        refine Int.ModEq.add ?_ ?_
        · refine (toUInt32_modEq _).trans ?_
          by_cases ho : (inst.process p).original_machine ≠ x
          · rw [if_pos ho, if_pos ho]
            refine (toInt32_modEq _).trans ?_
            refine Int.ModEq.add ((toUInt32_modEq _).trans (toInt32_modEq c)) ?_
            refine (toUInt32_modEq _).trans ?_
            exact Int.ModEq.mul_left _ (toUInt32_modEq _)
          · rw [if_neg ho, if_neg ho]
            simpa using toInt32_modEq c
        · refine (toUInt32_modEq _).trans ?_
          exact Int.ModEq.mul_left _ (toUInt32_modEq _)
      refine Prod.ext ?_ ?_
      · simp only
        apply toInt32_congr
        exact e2.add (toInt32_modEq _)
      · simp only
        apply toInt32_congr
        exact e2.add (toInt32_modEq _)

theorem cost_enclosed_exact (inst : Instance) (state : ReAssignment) (moved : List Nat)
    (space : RescheduleSpace) (vars : VarStore) (i m : Nat) (q1 : MachinePatch) (load : Int)
    (hi : i < moved.length)
    (hun : IntView.assigned (vars.process i) = false)
    (hminU : ∀ b, b < inst.num_balances →
      space.min_unassigned_balance b
        = ∑ j in (range moved.length).filter
            (fun j => IntView.assigned (vars.process j) = false),
            min 0 (processBalance inst (movedAt moved j) b))
    (hmaxU : ∀ b, b < inst.num_balances →
      space.max_unassigned_balance b
        = ∑ j in (range moved.length).filter
            (fun j => IntView.assigned (vars.process j) = false),
            max 0 (processBalance inst (movedAt moved j) b))
    (hge : CostPropagator.getExcessCost inst (movedAt moved i) m (state.excess m)
      (state.transient m) (space.delta m) ≠ Limits.max)
    (hl : propagateLoad inst (movedAt moved i) m (patchOrBase state space.delta m)
      = some (q1, load)) :
    (CostPropagator.getAdditionalCost inst state space (movedAt moved i) m).1
        ≤ load + (propagateBalance inst (movedAt moved i) space q1).2.2.2
          + moveCost inst (movedAt moved i) m
      ∧ load + (propagateBalance inst (movedAt moved i) space q1).2.2.2
          + moveCost inst (movedAt moved i) m
        ≤ (CostPropagator.getAdditionalCost inst state space (movedAt moved i) m).2 := by
  obtain ⟨_, _, _, _, l5, l6⟩ :=
    propagateLoad_prefix inst (movedAt moved i) m (patchOrBase state space.delta m)
      inst.num_resources q1 load hl
  obtain ⟨_, _, _, b4⟩ := propagateBalance_prefix inst (movedAt moved i)
    space.min_unassigned_balance space.max_unassigned_balance q1 inst.num_balances
  have h4 : (propagateBalance inst (movedAt moved i) space q1).2.2.2
      = ∑ b in range inst.num_balances,
          (max 0 (q1.balance b + processBalance inst (movedAt moved i) b)
            - max 0 (q1.balance b)) * ((inst.balance b).weight_balance_cost : Int) := b4
  rw [l5] at h4
  obtain ⟨g1, g2⟩ := getExcessCost_spec inst state space (movedAt moved i) m
  have hspec := getAdditionalCost_spec inst state space (movedAt moved i) m
  have hnv : ¬ ∃ r, r < inst.num_resources ∧
      ((inst.machine m).capacity r - (inst.machine m).safety_capacity r
          - (patchOrBase state space.delta m).excess r
            < (inst.process (movedAt moved i)).requirement r
        ∨ (r < inst.transient_count
            ∧ (patchOrBase state space.delta m).transient r
                + (if (inst.process (movedAt moved i)).original_machine = m then 0
                    else (inst.process (movedAt moved i)).requirement r)
                > (inst.machine m).capacity r)) := fun hv => hge (g1 hv)
  have hload := g2 hnv
  have hset : i ∈ (range moved.length).filter
      (fun j => IntView.assigned (vars.process j) = false) := by
    simp [hi, hun]
  have hU : ∀ b, b < inst.num_balances → 0 ≤ space.max_unassigned_balance b
      ∧ space.min_unassigned_balance b ≤ min 0 (processBalance inst (movedAt moved i) b) := by
    intro b hb
    constructor
    · rw [hmaxU b hb]
      apply Finset.sum_nonneg
      intro j _
      exact le_max_left _ _
    · rw [hminU b hb, ← Finset.add_sum_erase _ _ hset]
      have : ∑ j in ((range moved.length).filter
          (fun j => IntView.assigned (vars.process j) = false)).erase i,
          min 0 (processBalance inst (movedAt moved j) b) ≤ 0 := by
        apply Finset.sum_nonpos
        intro j _
        exact min_le_left _ _
      omega
  obtain ⟨lo, hi2⟩ := getBalanceCost_bounds inst space (movedAt moved i) (state.balance m)
    (space.delta m) (fun b => (patchOrBase state space.delta m).balance b)
    (fun b => patchOrBase_balance state space.delta m b) inst.num_balances hU
  constructor
  · rw [hspec, if_neg hge]
    simp only
    rw [hload, l6, h4]
    unfold CostPropagator.getBalanceCost
    linarith
  · rw [hspec, if_neg hge]
    simp only
    rw [hload, l6, h4]
    unfold CostPropagator.getBalanceCost
    linarith

/-- Claim C23 (as amended). For an unassigned slot `i` and a machine `m` whose
additional cost is finite (its first component is not `Limits::max`), when
`min_unassigned_balance` and `max_unassigned_balance` hold the sums of the
negative and of the non-negative balance contributions of the unassigned slots,
and when the exact bounds of the additional cost (the pair computed without
reduction modulo `2 ^ 32`) lie between `-2 ^ 31` and `2 ^ 31 - 1`: the pair
`(cmin, cmax)` that `getAdditionalCost` computes in `int` is the pair of the
exact bounds and encloses the cost the assignment propagator fixes for
`process_move_cost[i]` when it runs for `m` on the same space, and this pair is
the one `initCache` stores in the cost cache for every machine of the domain
that it does not put on the blacklist. -/
theorem C23_cache_encloses_cost (inst : Instance) (state : ReAssignment) (moved : List Nat)
    (space sp1 : RescheduleSpace) (vars : VarStore) (cache : ProcessCostMap) (i m : Nat)
    (hi : i < moved.length)
    (hun : IntView.assigned (vars.process i) = false)
    (hminU : ∀ b, b < inst.num_balances →
      space.min_unassigned_balance b
        = ∑ j in (range moved.length).filter
            (fun j => IntView.assigned (vars.process j) = false),
            min 0 (processBalance inst (movedAt moved j) b))
    (hmaxU : ∀ b, b < inst.num_balances →
      space.max_unassigned_balance b
        = ∑ j in (range moved.length).filter
            (fun j => IntView.assigned (vars.process j) = false),
            max 0 (processBalance inst (movedAt moved j) b))
    (hfin : (CostPropagator.getAdditionalCost32 inst state space (movedAt moved i) m).1
      ≠ Limits.max)
    (hlo : -2147483648
      ≤ (CostPropagator.getAdditionalCost inst state space (movedAt moved i) m).1)
    (hhi : (CostPropagator.getAdditionalCost inst state space (movedAt moved i) m).2
      ≤ 2147483647)
    (hprop : ProcessPropagator.propagate32 inst state i (movedAt moved i) m space = some sp1) :
    CostPropagator.getAdditionalCost32 inst state space (movedAt moved i) m
        = CostPropagator.getAdditionalCost inst state space (movedAt moved i) m
      ∧ (∃ c, sp1.process_move_cost i = some c
        ∧ (CostPropagator.getAdditionalCost32 inst state space (movedAt moved i) m).1 ≤ c
        ∧ c ≤ (CostPropagator.getAdditionalCost32 inst state space (movedAt moved i) m).2)
      ∧ (m ∈ vars.process i →
          m ∉ (CostPropagator.initCache inst state space i (movedAt moved i) vars []
            cache).2.1 →
          (CostPropagator.initCache inst state space i (movedAt moved i) vars []
              cache).2.2.getCost i m
            = CostPropagator.getAdditionalCost32 inst state space (movedAt moved i) m) := by
  obtain ⟨hge, h32⟩ := getAdditionalCost32_eq inst state space (movedAt moved i) m hfin
  obtain ⟨q1, load, hl, _, hcost, _⟩ :=
    propagate32_spec inst state i (movedAt moved i) m space sp1 hprop
  obtain ⟨e1, e2⟩ := cost_enclosed_exact inst state moved space vars i m q1 load hi hun
    hminU hmaxU hge hl
  have r1 : toInt32 (CostPropagator.getAdditionalCost inst state space (movedAt moved i) m).1
      = (CostPropagator.getAdditionalCost inst state space (movedAt moved i) m).1 :=
    toInt32_of_range _ hlo (by omega)
  have r2 : toInt32 (CostPropagator.getAdditionalCost inst state space (movedAt moved i) m).2
      = (CostPropagator.getAdditionalCost inst state space (movedAt moved i) m).2 :=
    toInt32_of_range _ (by omega) hhi
  have r3 : toInt32 (load + (propagateBalance inst (movedAt moved i) space q1).2.2.2
      + moveCost inst (movedAt moved i) m)
      = load + (propagateBalance inst (movedAt moved i) space q1).2.2.2
        + moveCost inst (movedAt moved i) m :=
    toInt32_of_range _ (by omega) (by omega)
  have heq : CostPropagator.getAdditionalCost32 inst state space (movedAt moved i) m
      = CostPropagator.getAdditionalCost inst state space (movedAt moved i) m := by
    rw [h32, r1, r2]
  refine ⟨heq, ⟨_, hcost, ?_, ?_⟩, ?_⟩
  · rw [heq, r3]; exact e1
  · rw [heq, r3]; exact e2
  · rw [heq]
    exact (initCache_spec inst state space i (movedAt moved i) vars cache).2 m

/-- Claim C25. A run of `CostPropagator::propagate` that does not fail, on a
slot `i` whose variable is not assigned and whose cost variable has its bounds
within the limits of the library: a machine of the domain is removed exactly
when the first component of its additional cost is `Limits::max` or its pair
`(cmin, cmax)` lies below the lower or above the upper bound the cost variable
had on entry; every other variable keeps its domain; the lower bound of the
cost variable becomes the larger of its old value and the least `cmin` of the
machines kept, the upper bound the smaller of its old value and the greatest
`cmax` of the machines kept. -/
theorem C25_cost_propagator_run (inst : Instance) (state : ReAssignment)
    (space : RescheduleSpace) (i p : Nat) (vars vars1 : VarStore)
    (cache cache1 : ProcessCostMap)
    (hun : IntView.assigned (vars.process i) = false)
    (hlo : Limits.min ≤ vars.cost_min i) (hhi : vars.cost_max i ≤ Limits.max)
    (hrun : CostPropagator.propagate inst state space i p vars cache = some (vars1, cache1)) :
    (∀ m, m ∈ vars1.process i → m ∈ vars.process i)
      ∧ (∀ m, m ∈ vars.process i →
          (m ∉ vars1.process i
            ↔ (CostPropagator.getAdditionalCost inst state space p m).1 = Limits.max
              ∨ (CostPropagator.getAdditionalCost inst state space p m).2 < vars.cost_min i
              ∨ vars.cost_max i < (CostPropagator.getAdditionalCost inst state space p m).1))
      ∧ (∃ mlo, mlo ∈ vars1.process i
          ∧ (∀ m, m ∈ vars1.process i →
              (CostPropagator.getAdditionalCost inst state space p mlo).1
                ≤ (CostPropagator.getAdditionalCost inst state space p m).1)
          ∧ vars1.cost_min i
              = max (vars.cost_min i)
                  (CostPropagator.getAdditionalCost inst state space p mlo).1)
      ∧ (∃ mhi, mhi ∈ vars1.process i
          ∧ (∀ m, m ∈ vars1.process i →
              (CostPropagator.getAdditionalCost inst state space p m).2
                ≤ (CostPropagator.getAdditionalCost inst state space p mhi).2)
          ∧ vars1.cost_max i
              = min (vars.cost_max i)
                  (CostPropagator.getAdditionalCost inst state space p mhi).2)
      ∧ (∀ j, j ≠ i → vars1.process j = vars.process j
          ∧ vars1.cost_min j = vars.cost_min j ∧ vars1.cost_max j = vars.cost_max j) := by
  obtain ⟨i1, _, i3, _, _, i6, i7⟩ := initCache_fold inst state space i p
    (vars.cost_min i, vars.cost_max i)
    { min := { machine := 0, cost := Limits.max }, max := { machine := 0, cost := Limits.min } }
    [] cache (vars.process i)
  unfold CostPropagator.propagate at hrun
  rw [hun] at hrun
  simp only [Bool.false_eq_true, if_false] at hrun
  unfold CostPropagator.initCache at hrun
  simp only at hrun
  generalize (vars.process i).foldl
    (initCacheStep inst state space i p (vars.cost_min i, vars.cost_max i))
    ({ min := { machine := 0, cost := Limits.max },
       max := { machine := 0, cost := Limits.min } }, [], cache) = res at i1 i3 i6 i7 hrun
  obtain ⟨bd, bl, ch⟩ := res
  simp only at i1 i3 i6 i7 hrun
  simp only [List.nil_append] at i1
  cases hpr : pruneBlacklist bl (vars.process i) with
  | none => rw [hpr] at hrun; simp at hrun
  | some d =>
    rw [hpr] at hrun
    simp only at hrun
    have hd := pruneBlacklist_spec bl (vars.process i) d hpr
    unfold IntView.gq at hrun
    simp only at hrun
    by_cases hg : bd.min.cost > vars.cost_max i
    · rw [if_pos hg] at hrun; simp at hrun
    · rw [if_neg hg] at hrun
      simp only at hrun
      unfold IntView.lq at hrun
      simp only at hrun
      by_cases hl : bd.max.cost < max (vars.cost_min i) bd.min.cost
      · rw [if_pos hl] at hrun; simp at hrun
      · rw [if_neg hl] at hrun
        simp only [Option.some.injEq, Prod.mk.injEq] at hrun
        obtain ⟨hv, _⟩ := hrun
        subst hv
        simp only [Function.update_same]
        have hmem : ∀ m, m ∈ d ↔ m ∈ vars.process i
            ∧ blacklisted inst state space p (vars.cost_min i, vars.cost_max i) m = false := by
          intro m
          rw [hd, i1]
          simp only [List.mem_filter, decide_eq_true_eq, not_and, Bool.not_eq_true]
          constructor
          · rintro ⟨h1, h2⟩
            exact ⟨h1, h2 h1⟩
          · rintro ⟨h1, h2⟩
            exact ⟨h1, fun _ => h2⟩
        have hbadiff : ∀ m,
            blacklisted inst state space p (vars.cost_min i, vars.cost_max i) m = false
              ↔ ¬ ((CostPropagator.getAdditionalCost inst state space p m).1 = Limits.max
                ∨ (CostPropagator.getAdditionalCost inst state space p m).2 < vars.cost_min i
                ∨ vars.cost_max i
                    < (CostPropagator.getAdditionalCost inst state space p m).1) := by
          intro m
          unfold blacklisted
          simp only [decide_eq_false_iff_not, not_or, not_lt, gt_iff_lt]
          constructor
          · rintro ⟨h1, h2, h3⟩; exact ⟨h1, h3, h2⟩
          · rintro ⟨h1, h2, h3⟩; exact ⟨h1, h3, h2⟩
        have hkept : ∀ m, m ∈ d →
            (CostPropagator.getAdditionalCost inst state space p m).1 ≠ Limits.max
            ∧ vars.cost_min i ≤ (CostPropagator.getAdditionalCost inst state space p m).2
            ∧ (CostPropagator.getAdditionalCost inst state space p m).1 ≤ vars.cost_max i
            ∧ bd.min.cost ≤ (CostPropagator.getAdditionalCost inst state space p m).1
            ∧ (CostPropagator.getAdditionalCost inst state space p m).2 ≤ bd.max.cost := by
          intro m hm
          obtain ⟨h1, h2⟩ := (hmem m).mp hm
          have h3 := (hbadiff m).mp h2
          simp only [not_or, not_lt] at h3
          obtain ⟨h4, h5⟩ := i3 m h1 h2
          exact ⟨h3.1, h3.2.1, h3.2.2, h4, h5⟩
        have hne : d ≠ [] := by
          intro hemp
          have h6 : bd.min.cost = Limits.max := by
            rcases i6 with h | ⟨m, hm, hk, _⟩
            · rw [h]
            · have : m ∈ d := (hmem m).mpr ⟨hm, hk⟩
              rw [hemp] at this
              simp at this
          have h7 : bd.max.cost = Limits.min := by
            rcases i7 with h | ⟨m, hm, hk, _⟩
            · rw [h]
            · have : m ∈ d := (hmem m).mpr ⟨hm, hk⟩
              rw [hemp] at this
              simp at this
          apply hl
          rw [h6, h7]
          simp only [Limits.min, Limits.max]
          omega
        obtain ⟨m0, hm0⟩ := List.exists_mem_of_ne_nil d hne
        refine ⟨fun m hm => ((hmem m).mp hm).1, ?_, ?_, ?_, ?_⟩
        · intro m hm
          rw [← not_iff_not, not_not, hmem m, ← hbadiff m]
          simp [hm]
        · rcases i6 with h | ⟨m, hm, hk, he⟩
          · exfalso
            obtain ⟨k1, _, k3, k4, _⟩ := hkept m0 hm0
            rw [h] at k4
            simp only at k4
            omega
          · refine ⟨m, (hmem m).mpr ⟨hm, hk⟩, ?_, ?_⟩
            · intro m2 hm2
              have := (hkept m2 hm2).2.2.2.1
              rw [he] at this
              exact this
            · rw [he]
        · rcases i7 with h | ⟨m, hm, hk, he⟩
          · refine ⟨m0, hm0, ?_, ?_⟩
            · intro m2 hm2
              obtain ⟨_, k2, _, _, k5⟩ := hkept m2 hm2
              obtain ⟨_, j2, _, _, j5⟩ := hkept m0 hm0
              rw [h] at k5 j5
              simp only at k5 j5
              omega
            · obtain ⟨_, j2, _, _, j5⟩ := hkept m0 hm0
              rw [h] at j5 ⊢
              simp only at j5 ⊢
              have : (CostPropagator.getAdditionalCost inst state space p m0).2 = Limits.min := by
                omega
              rw [this]
          · refine ⟨m, (hmem m).mpr ⟨hm, hk⟩, ?_, ?_⟩
            · intro m2 hm2
              have := (hkept m2 hm2).2.2.2.2
              rw [he] at this
              exact this
            · rw [he]
        · intro j hj
          simp [Function.update_noteq hj]

/-! ## 32-bit value of the assigned cost -/

/-- Claim C24 (as amended). The load and balance deltas are exact sums (the code
accumulates them in `long long`); the value of `cost` that
`ProcessPropagator::propagate` passes to the cost variable is the exact cost
load delta + balance delta + move costs reduced modulo 2 ^ 32 to the range of
`int`: it equals the exact cost whenever that lies between -2 ^ 31 and
2 ^ 31 - 1, and is the wrapped value otherwise; nothing is clamped. The run fails
before when the load delta converts to a negative `int`. -/
theorem C24_cost_wraps (inst : Instance) (state : ReAssignment) (p m : Nat)
    (space : RescheduleSpace) (c : Int)
    (h : ProcessPropagator.cost32 inst state p m space = some c) :
    ∃ patch1 delta_load_cost,
      propagateLoad inst p m (patchOrBase state space.delta m) = some (patch1, delta_load_cost)
        ∧ 0 ≤ toInt32 delta_load_cost
        ∧ c = toInt32 (delta_load_cost + (propagateBalance inst p space patch1).2.2.2
            + moveCost inst p m)
        ∧ (-2147483648 ≤ delta_load_cost + (propagateBalance inst p space patch1).2.2.2
              + moveCost inst p m
            → delta_load_cost + (propagateBalance inst p space patch1).2.2.2
              + moveCost inst p m ≤ 2147483647
            → c = delta_load_cost + (propagateBalance inst p space patch1).2.2.2
              + moveCost inst p m) := by
  unfold ProcessPropagator.cost32 at h
  simp only at h
  cases hl : propagateLoad inst p m (patchOrBase state space.delta m) with
  | none => rw [hl] at h; simp at h
  | some qc =>
    obtain ⟨patch1, load⟩ := qc
    rw [hl] at h
    simp only at h
    by_cases hneg : toInt32 load < 0
    · rw [if_pos hneg] at h; simp at h
    · rw [if_neg hneg] at h
      simp only [Option.some.injEq] at h
      generalize hbal : (propagateBalance inst p space patch1).2.2.2 = bal at h
      have e1 : toInt32 (toInt32 load + toInt32 bal) ≡ load + bal [ZMOD 4294967296] :=
        (toInt32_modEq _).trans ((toInt32_modEq load).add (toInt32_modEq bal))
      have e2 : (if (inst.process p).original_machine ≠ m then
            toInt32 (toUInt32 (toInt32 (toInt32 load + toInt32 bal))
              + toUInt32 (((inst.process p).move_cost : Int)
                  * toUInt32 inst.weight_process_move_cost))
          else toInt32 (toInt32 load + toInt32 bal))
          ≡ load + bal + (if (inst.process p).original_machine ≠ m then
              ((inst.process p).move_cost : Int) * inst.weight_process_move_cost else 0)
            [ZMOD 4294967296] := by
        by_cases ho : (inst.process p).original_machine ≠ m
        · rw [if_pos ho, if_pos ho]
          refine (toInt32_modEq _).trans ?_
          refine Int.ModEq.add ((toUInt32_modEq _).trans e1) ?_
          refine (toUInt32_modEq _).trans ?_
          exact Int.ModEq.mul_left _ (toUInt32_modEq _)
        · rw [if_neg ho, if_neg ho]
          simpa using e1
      have e3 : toUInt32 (if (inst.process p).original_machine ≠ m then
            toInt32 (toUInt32 (toInt32 (toInt32 load + toInt32 bal))
              + toUInt32 (((inst.process p).move_cost : Int)
                  * toUInt32 inst.weight_process_move_cost))
          else toInt32 (toInt32 load + toInt32 bal))
          + toUInt32 (((inst.machine (inst.process p).original_machine).move_cost m : Int)
              * toUInt32 inst.weight_machine_move_cost)
          ≡ load + bal + moveCost inst p m [ZMOD 4294967296] := by
        unfold moveCost
        rw [← add_assoc]
        refine Int.ModEq.add ((toUInt32_modEq _).trans e2) ?_
        refine (toUInt32_modEq _).trans ?_
        exact Int.ModEq.mul_left _ (toUInt32_modEq _)
      have hc : c = toInt32 (load + bal + moveCost inst p m) := by
        rw [← h]
        exact toInt32_congr _ _ e3
      subst hbal
      refine ⟨patch1, load, rfl, by omega, hc, ?_⟩
      intro h1 h2
      rw [hc]
      exact toInt32_of_range _ h1 h2

/-- Instance of claim C24 (as amended): in `exInstance2` the exact cost -7 of
moving process 0 to machine 1 lies in the range of `int` and is the value
written. -/
theorem C24_cost_wraps_witness :
    ProcessPropagator.cost32 exInstance2 exState2 0 1
        (RescheduleSpace.construct exInstance2 exState2 [0]) = some (-7)
      ∧ ∃ patch1 delta_load_cost,
        propagateLoad exInstance2 0 1
            (patchOrBase exState2 (RescheduleSpace.construct exInstance2 exState2 [0]).delta 1)
          = some (patch1, delta_load_cost)
        ∧ 0 ≤ toInt32 delta_load_cost
        ∧ (-7 : Int) = toInt32 (delta_load_cost
            + (propagateBalance exInstance2 0
                (RescheduleSpace.construct exInstance2 exState2 [0]) patch1).2.2.2
            + moveCost exInstance2 0 1)
        ∧ (-2147483648 ≤ delta_load_cost
              + (propagateBalance exInstance2 0
                  (RescheduleSpace.construct exInstance2 exState2 [0]) patch1).2.2.2
              + moveCost exInstance2 0 1
            → delta_load_cost
              + (propagateBalance exInstance2 0
                  (RescheduleSpace.construct exInstance2 exState2 [0]) patch1).2.2.2
              + moveCost exInstance2 0 1 ≤ 2147483647
            → (-7 : Int) = delta_load_cost
              + (propagateBalance exInstance2 0
                  (RescheduleSpace.construct exInstance2 exState2 [0]) patch1).2.2.2
              + moveCost exInstance2 0 1) :=
  ⟨by decide, C24_cost_wraps exInstance2 exState2 0 1
    (RescheduleSpace.construct exInstance2 exState2 [0]) (-7) (by decide)⟩

/-- Counterexample to claim C24 as stated: in `exInstanceWide` the exact cost of
moving the process to machine 1 is 2 ^ 32 + 5, outside the range of `int`; the
propagator writes 5, the value wrapped modulo 2 ^ 32, and not the clamped
value 2 ^ 31 - 1. -/
theorem C24_counterexample :
    (ProcessPropagator.propagate exInstanceWide exStateWide 0 0 1
        (RescheduleSpace.construct exInstanceWide exStateWide [0])).bind
        (fun sp => sp.process_move_cost 0) = some 4294967301
      ∧ ProcessPropagator.cost32 exInstanceWide exStateWide 0 1
          (RescheduleSpace.construct exInstanceWide exStateWide [0]) = some 5
      ∧ clamp32 4294967301 = 2147483647
      ∧ ProcessPropagator.cost32 exInstanceWide exStateWide 0 1
          (RescheduleSpace.construct exInstanceWide exStateWide [0])
          ≠ some (clamp32 4294967301) := by
  refine ⟨by decide, by decide, by decide, by decide⟩

/-! ## The machine of the choice -/

/-- Claim C29 (divergence of the code). In the space of `exInstanceBal` over the
slots `[1, 0]`, after both cost propagators ran at the root, the brancher
committed slot 0 to its cached best machine 1 and the load step of the
assignment propagator removed machine 1 from the domain of slot 1: the cached
best machine 1 of slot 1 is not in its domain `[0, 2]`, the stored minimum is
-5 for machine 0 and 0 for machine 2, and `BestCostBrancher::choice` emits
machine 2, which does not have the least stored minimum, because the `int`
minimum is compared as an `unsigned int`. -/
theorem C29_choice_not_minimal :
    (BestCostBrancher.choice 2 exRootBal.1 exRootBal.2).map (fun c => (c.process, c.machine))
        = some (0, 1)
      ∧ exVarsPruned.process 0 = [1]
      ∧ exVarsPruned.process 1 = [0, 2]
      ∧ (exRootBal.2.bound 1).min.machine = 1
      ∧ exRootBal.2.getCost 1 0 = (-5, 0)
      ∧ exRootBal.2.getCost 1 2 = (0, 0)
      ∧ (BestCostBrancher.choice 2 exVarsPruned exRootBal.2).map
          (fun c => (c.process, c.machine)) = some (1, 2) := by
  refine ⟨by decide, by decide, by decide, by decide, by decide, by decide, by decide⟩

/-! ## Instances of the claims on the concrete spaces -/

/-- Instance of claim C21 (as amended): in `exInstanceBal` process 0
(requirement 8 of resource 0) does not fit on machine 1 once process 1 is there
(excess 11 of a capacity 18), and the load step returns -1; process 1 fits on
the empty machine 1 and the load step returns its load-cost delta 0. -/
theorem C21_load_step_witness :
    (propagateLoadFull exInstanceBal [1, 0] 0 1 exPatchFull exVarsRoot).1 = -1
      ∧ ∃ patch1 delta,
          propagateLoad exInstanceBal 1 1 (patchOrBase exStateBal exSpaceBal.delta 1)
            = some (patch1, delta)
          ∧ delta = ∑ r in range exInstanceBal.num_resources,
              (max 0 ((patchOrBase exStateBal exSpaceBal.delta 1).excess r
                  + (exInstanceBal.process 1).requirement r)
                - max 0 ((patchOrBase exStateBal exSpaceBal.delta 1).excess r))
                * (exInstanceBal.resource r).weight_load_cost
          ∧ 0 ≤ delta
          ∧ (∀ vars1, propagateLoadPrune exInstanceBal [1, 0] 1 patch1 exVarsRoot = some vars1 →
              propagateLoadFull exInstanceBal [1, 0] 1 1
                  (patchOrBase exStateBal exSpaceBal.delta 1) exVarsRoot
                = (toInt32 delta, patch1, vars1)
              ∧ (delta ≤ 2147483647 →
                  (propagateLoadFull exInstanceBal [1, 0] 1 1
                    (patchOrBase exStateBal exSpaceBal.delta 1) exVarsRoot).1 = delta
                  ∧ ¬ (propagateLoadFull exInstanceBal [1, 0] 1 1
                    (patchOrBase exStateBal exSpaceBal.delta 1) exVarsRoot).1 < 0))
          ∧ (propagateLoadPrune exInstanceBal [1, 0] 1 patch1 exVarsRoot = none →
              (propagateLoadFull exInstanceBal [1, 0] 1 1
                (patchOrBase exStateBal exSpaceBal.delta 1) exVarsRoot).1 = -1) :=
  ⟨(C21_load_step exInstanceBal [1, 0] 0 1 exPatchFull exVarsRoot (by decide) (by decide)).1
      ⟨0, by decide, Or.inl (by decide)⟩,
    (C21_load_step exInstanceBal [1, 0] 1 1 (patchOrBase exStateBal exSpaceBal.delta 1)
      exVarsRoot (by decide) (by decide)).2 (by decide)⟩

/-- Counterexample to claim C21 as stated: in `exInstanceHalf` the process
(requirement `2 ^ 30` of resource 0, of load weight 2) fits on machine 1, no
resource violates a bound and no domain is emptied; the load-cost delta is
`2 ^ 31`, which converts to the `int` `-2 ^ 31`, and the assignment propagator
takes the negative value for a failure. -/
theorem C21_counterexample :
    (∀ r, r < exInstanceHalf.num_resources → 0 ≤ (exInstanceHalf.process 0).requirement r)
      ∧ (∀ r, r < exInstanceHalf.num_resources → 0 ≤ (exInstanceHalf.resource r).weight_load_cost)
      ∧ (propagateLoad exInstanceHalf 0 1
          (patchOrBase exStateWide
            (RescheduleSpace.construct exInstanceHalf exStateWide [0]).delta 1)).map
          (fun r => r.2) = some 2147483648
      ∧ (propagateLoadPrune exInstanceHalf [0] 1
          ((propagateLoad exInstanceHalf 0 1
            (patchOrBase exStateWide
              (RescheduleSpace.construct exInstanceHalf exStateWide [0]).delta 1)).getD
            (MachinePatch.init, 0)).1
          { exVarsRoot with process := fun _ => [1] }).isSome = true
      ∧ (propagateLoadFull exInstanceHalf [0] 0 1
          (patchOrBase exStateWide
            (RescheduleSpace.construct exInstanceHalf exStateWide [0]).delta 1)
          { exVarsRoot with process := fun _ => [1] }).1 = -2147483648
      ∧ (ProcessPropagator.propagate32 exInstanceHalf exStateWide 0 0 1
          (RescheduleSpace.construct exInstanceHalf exStateWide [0])).isNone = true := by
  refine ⟨by decide, by decide, by decide, by decide, by decide, by decide⟩

/-- Instance of claim C25: the run of the cost propagator of slot 0 at the root
of `exSpaceBal` keeps the three machines and narrows the cost variable to -8..0. -/
theorem C25_cost_propagator_run_witness :
    IntView.assigned (exVarsRoot.process 0) = false
      ∧ exRootSlot0.1.process 0 = [0, 1, 2]
      ∧ exRootSlot0.1.cost_min 0 = -8 ∧ exRootSlot0.1.cost_max 0 = 0
      ∧ ∃ mlo, mlo ∈ exRootSlot0.1.process 0
          ∧ (∀ m, m ∈ exRootSlot0.1.process 0 →
              (CostPropagator.getAdditionalCost exInstanceBal exStateBal exSpaceBal 1 mlo).1
                ≤ (CostPropagator.getAdditionalCost exInstanceBal exStateBal exSpaceBal 1 m).1)
          ∧ exRootSlot0.1.cost_min 0
              = max (exVarsRoot.cost_min 0)
                  (CostPropagator.getAdditionalCost exInstanceBal exStateBal exSpaceBal 1
                    mlo).1 :=
  ⟨by decide, by decide, by decide, by decide,
    (C25_cost_propagator_run exInstanceBal exStateBal exSpaceBal 0 1 exVarsRoot exRootSlot0.1
      ProcessCostMap.init exRootSlot0.2 (by decide) (by decide) (by decide) rfl).2.2.1⟩

/-- Instance of claim C30: committing slot 0 of the root of `exSpaceBal` to
machine 1 leaves `[1]` as its domain, appends 1 to the empty list of modified
machines and keeps the domain of slot 1. -/
theorem C30_commit_effect_witness :
    ∃ vars1 mm1,
      BestCostBrancher.commit exRootBal.1 [] { process := 0, machine := 1 } 0 = some (vars1, mm1)
        ∧ vars1.process 0 = [1] ∧ mm1 = [1] ∧ vars1.process 1 = exRootBal.1.process 1 :=
  ⟨_, _, rfl,
    (((C30_commit_effect exRootBal.1 [] { process := 0, machine := 1 } 0).2 _ _ rfl).1 rfl).2.1,
    (((C30_commit_effect exRootBal.1 [] { process := 0, machine := 1 } 0).2 _ _ rfl).1 rfl).2.2,
    ((C30_commit_effect exRootBal.1 [] { process := 0, machine := 1 } 0).2 _ _ rfl).2.2.1 1
      (by decide)⟩

/-- Instance of claim C23 (as amended): at the root of `exSpaceBal` both slots
are unassigned, the unassigned balances are -17 and 0, and for slot 1
(process 0) and machine 0 the pair `(-5, 0)` encloses the cost -5 the assignment
propagator fixes. -/
theorem C23_cache_encloses_cost_witness :
    IntView.assigned (exVarsRoot.process 1) = false
      ∧ exSpaceBal.min_unassigned_balance 0 = -17
      ∧ exSpaceBal.max_unassigned_balance 0 = 0
      ∧ CostPropagator.getAdditionalCost32 exInstanceBal exStateBal exSpaceBal 0 0 = (-5, 0)
      ∧ ∃ c, ((ProcessPropagator.propagate32 exInstanceBal exStateBal 1 0 0 exSpaceBal).getD
            emptySpace).process_move_cost 1 = some c
          ∧ (CostPropagator.getAdditionalCost32 exInstanceBal exStateBal exSpaceBal
              (movedAt [1, 0] 1) 0).1 ≤ c
          ∧ c ≤ (CostPropagator.getAdditionalCost32 exInstanceBal exStateBal exSpaceBal
              (movedAt [1, 0] 1) 0).2 :=
  ⟨by decide, by decide, by decide, by decide,
    (C23_cache_encloses_cost exInstanceBal exStateBal [1, 0] exSpaceBal
      ((ProcessPropagator.propagate32 exInstanceBal exStateBal 1 0 0 exSpaceBal).getD
        emptySpace)
      exVarsRoot ProcessCostMap.init 1 0 (by decide) (by decide) (by decide) (by decide)
      (by decide) (by decide) (by decide) rfl).2.1⟩

/-- Counterexample to claim C23 as stated: in `exInstanceHeavy` the single slot
is unassigned, the unassigned balances are 0 and 2050, and machine 1 has the
balance value -3. The exact bounds of the additional cost of the process on
machine 1 are 0 and `2050 * 2 ^ 20`; the upper bound is above `2 ^ 31 - 1` and
the program computes the pair `(0, -2145386496)`, which `initCache` would store.
The assignment propagator fixes the cost `2047 * 2 ^ 20 = 2146435072`, which
the pair does not enclose. -/
theorem C23_counterexample :
    exSpaceHeavy.min_unassigned_balance 0 = 0
      ∧ exSpaceHeavy.max_unassigned_balance 0 = 2050
      ∧ CostPropagator.getAdditionalCost exInstanceHeavy exStateHeavy exSpaceHeavy 0 1
        = (0, 2149580800)
      ∧ CostPropagator.getAdditionalCost32 exInstanceHeavy exStateHeavy exSpaceHeavy 0 1
        = (0, -2145386496)
      ∧ (CostPropagator.getAdditionalCost32 exInstanceHeavy exStateHeavy exSpaceHeavy 0 1).1
        ≠ Limits.max
      ∧ (ProcessPropagator.propagate32 exInstanceHeavy exStateHeavy 0 0 1 exSpaceHeavy).bind
          (fun sp => sp.process_move_cost 0) = some 2146435072
      ∧ ¬ (2146435072 : Int)
          ≤ (CostPropagator.getAdditionalCost32 exInstanceHeavy exStateHeavy exSpaceHeavy 0 1).2
      := by
  refine ⟨by decide, by decide, by decide, by decide, by decide, by decide, by decide⟩

/-! ## Sums over the slots outside a list -/

theorem sum_range_split_list (order : List Nat) (n : Nat) (hnd : order.Nodup)
    (hsub : ∀ j, j ∈ order → j < n) (f : Nat → Int) :
    ∑ j in range n, f j - (order.map f).sum
      = ∑ j in (range n).filter (fun j => j ∉ order), f j := by
  have h1 : (order.map f).sum = ∑ j in order.toFinset, f j := by
    rw [List.sum_toFinset f hnd]
  have h2 : (range n).filter (fun j => j ∈ order) = order.toFinset := by
    ext j
    simp only [Finset.mem_filter, Finset.mem_range, List.mem_toFinset]
    constructor
    · rintro ⟨_, h⟩; exact h
    · intro h; exact ⟨hsub j h, h⟩
  have h3 := Finset.sum_filter_add_sum_filter_not (range n) (fun j => j ∈ order) f
  rw [h2] at h3
  rw [h1]
  linarith

/-! ## The pruning loop of the load step -/

theorem pruneOk_fold (inst : Instance) (x : Nat) (patch : MachinePatch) (p : Nat) (n : Nat) :
    (List.range n).foldl (pruneOkStep inst x patch p) true = true
      ↔ ¬ ∃ r, r < n ∧
          (patch.excess r + (inst.process p).requirement r
              > (inst.machine x).capacity r - (inst.machine x).safety_capacity r
            ∨ (r < inst.transient_count ∧ (inst.process p).original_machine ≠ x
                ∧ patch.transient r + (inst.process p).requirement r
                    > (inst.machine x).capacity r)) := by
  induction n with
  | zero => simp
  | succ n ih =>
    rw [foldl_range_succ]
    cases hf : (List.range n).foldl (pruneOkStep inst x patch p) true with
    | false =>
      rw [hf] at ih
      have hex := not_not.mp (fun h => by simpa using ih.mpr h)
      obtain ⟨r, hr, hv⟩ := hex
      simp only [pruneOkStep, Bool.not_false, if_true, Bool.false_eq_true, false_iff, not_not]
      exact ⟨r, by omega, hv⟩
    | true =>
      rw [hf] at ih
      have hno := ih.mp rfl
      unfold pruneOkStep
      simp only [Bool.not_true, Bool.false_eq_true, if_false]
      by_cases hcap : patch.excess n + (inst.process p).requirement n
          > (inst.machine x).capacity n - (inst.machine x).safety_capacity n
      · have hex : ∃ r, r < n + 1 ∧
            (patch.excess r + (inst.process p).requirement r
                > (inst.machine x).capacity r - (inst.machine x).safety_capacity r
              ∨ (r < inst.transient_count ∧ (inst.process p).original_machine ≠ x
                  ∧ patch.transient r + (inst.process p).requirement r
                      > (inst.machine x).capacity r)) := ⟨n, by omega, Or.inl hcap⟩
        simp only [if_pos hcap]
        split_ifs <;> simp [hex]
      · simp only [if_neg hcap]
        by_cases htr : n < inst.transient_count ∧ (inst.process p).original_machine ≠ x
        · rw [if_pos htr]
          by_cases htv : patch.transient n + (inst.process p).requirement n
              > (inst.machine x).capacity n
          · rw [if_pos htv]
            simp only [Bool.false_eq_true, false_iff, not_not]
            exact ⟨n, by omega, Or.inr ⟨htr.1, htr.2, htv⟩⟩
          · rw [if_neg htv]
            simp only [true_iff]
            rintro ⟨r, hr, hv⟩
            by_cases hrn : r = n
            · subst hrn
              rcases hv with hv | ⟨_, _, hv⟩
              · exact hcap hv
              · exact htv hv
            · exact hno ⟨r, by omega, hv⟩
        · rw [if_neg htr]
          simp only [true_iff]
          rintro ⟨r, hr, hv⟩
          by_cases hrn : r = n
          · subst hrn
            rcases hv with hv | ⟨h1, h2, _⟩
            · exact hcap hv
            · exact htr ⟨h1, h2⟩
          · exact hno ⟨r, by omega, hv⟩

theorem propagateLoadPrune_fold (inst : Instance) (moved : List Nat) (x : Nat)
    (patch : MachinePatch) (vars : VarStore) (n : Nat) :
    ∀ vars1, (List.range n).foldl (propagateLoadPruneStep inst moved x patch) (some vars)
        = some vars1 →
      vars1.cost_min = vars.cost_min ∧ vars1.cost_max = vars.cost_max
      ∧ ∀ j, vars1.process j
          = if j < n ∧ IntView.assigned (vars.process j) = false
              ∧ (List.range inst.num_resources).foldl
                  (pruneOkStep inst x patch (movedAt moved j)) true = false
            then (vars.process j).filter (fun v => v != x) else vars.process j := by
  induction n with
  | zero =>
    intro vars1 h
    simp only [List.range_zero, List.foldl_nil, Option.some.injEq] at h
    subst h
    simp
  | succ n ih =>
    intro vars1 h
    rw [foldl_range_succ] at h
    cases hf : (List.range n).foldl (propagateLoadPruneStep inst moved x patch) (some vars) with
    | none => rw [hf] at h; simp [propagateLoadPruneStep] at h
    | some v0 =>
      obtain ⟨e1, e2, e3⟩ := ih v0 hf
      rw [hf] at h
      have hn : v0.process n = vars.process n := by rw [e3 n]; simp
      unfold propagateLoadPruneStep at h
      simp only at h
      rw [hn] at h
      by_cases ha : IntView.assigned (vars.process n) = true
      · rw [if_pos ha] at h
        simp only [Option.some.injEq] at h
        subst h
        refine ⟨e1, e2, ?_⟩
        intro j
        rw [e3 j]
        by_cases hjn : j = n
        · subst hjn; simp [ha]
        · have : j < n + 1 ↔ j < n := by omega
          simp only [this]
      · rw [if_neg ha] at h
        have ha2 : IntView.assigned (vars.process n) = false := by simpa using ha
        cases hok : (List.range inst.num_resources).foldl
            (pruneOkStep inst x patch (movedAt moved n)) true with
        | true =>
          rw [hok] at h
          simp only [Bool.not_true, Bool.false_eq_true, if_false, Option.some.injEq] at h
          subst h
          refine ⟨e1, e2, ?_⟩
          intro j
          rw [e3 j]
          by_cases hjn : j = n
          · subst hjn; simp [hok]
          · have : j < n + 1 ↔ j < n := by omega
            simp only [this]
        | false =>
          rw [hok] at h
          simp only [Bool.not_false, if_true] at h
          unfold IntView.nq at h
          split_ifs at h with hemp
          simp only [Option.some.injEq] at h
          subst h
          refine ⟨e1, e2, ?_⟩
          intro j
          simp only
          by_cases hjn : j = n
          · subst hjn
            simp [ha2, hok]
          · rw [Function.update_noteq hjn, e3 j]
            have : j < n + 1 ↔ j < n := by omega
            simp only [this]

/-- Claim C31. After the resource loop of the load step has added the process of
slot `i` to the patch of machine `m`, a pruning loop that does not fail treats
every slot `j`: when the variable of `j` is not assigned and for some resource r
the patched excess plus the requirement of `moved[j]` exceeds capacity minus
safety capacity, or r is transient, `m` is not the original machine of
`moved[j]` and the patched transient usage plus the requirement exceeds the
capacity, `m` is removed from the domain of `j`; in every other case the domain
of `j` is left as it is; the bounds of the cost variables are not touched. -/
theorem C31_pruning_loop (inst : Instance) (moved : List Nat) (m : Nat) (patch : MachinePatch)
    (vars vars1 : VarStore)
    (h : propagateLoadPrune inst moved m patch vars = some vars1) :
    (∀ j, j < moved.length → IntView.assigned (vars.process j) = false →
        (∃ r, r < inst.num_resources ∧
          (patch.excess r + (inst.process (movedAt moved j)).requirement r
              > (inst.machine m).capacity r - (inst.machine m).safety_capacity r
            ∨ (r < inst.transient_count ∧ (inst.process (movedAt moved j)).original_machine ≠ m
                ∧ patch.transient r + (inst.process (movedAt moved j)).requirement r
                    > (inst.machine m).capacity r))) →
        vars1.process j = (vars.process j).filter (fun v => v != m)
          ∧ m ∉ vars1.process j)
      ∧ (∀ j, j < moved.length → IntView.assigned (vars.process j) = false →
        (¬ ∃ r, r < inst.num_resources ∧
          (patch.excess r + (inst.process (movedAt moved j)).requirement r
              > (inst.machine m).capacity r - (inst.machine m).safety_capacity r
            ∨ (r < inst.transient_count ∧ (inst.process (movedAt moved j)).original_machine ≠ m
                ∧ patch.transient r + (inst.process (movedAt moved j)).requirement r
                    > (inst.machine m).capacity r))) →
        vars1.process j = vars.process j)
      ∧ (∀ j, IntView.assigned (vars.process j) = true → vars1.process j = vars.process j)
      ∧ (∀ j, moved.length ≤ j → vars1.process j = vars.process j)
      ∧ vars1.cost_min = vars.cost_min ∧ vars1.cost_max = vars.cost_max := by
  obtain ⟨e1, e2, e3⟩ := propagateLoadPrune_fold inst moved m patch vars moved.length vars1 h
  refine ⟨?_, ?_, ?_, ?_, e1, e2⟩
  · intro j hj hun hv
    have hok : (List.range inst.num_resources).foldl
        (pruneOkStep inst m patch (movedAt moved j)) true = false := by
      by_contra hc
      have ht : (List.range inst.num_resources).foldl
          (pruneOkStep inst m patch (movedAt moved j)) true = true := by simpa using hc
      exact (pruneOk_fold inst m patch (movedAt moved j) inst.num_resources).mp ht hv
    rw [e3 j, if_pos ⟨hj, hun, hok⟩]
    exact ⟨rfl, by simp [List.mem_filter]⟩
  · intro j hj hun hnv
    have hok := (pruneOk_fold inst m patch (movedAt moved j) inst.num_resources).mpr hnv
    rw [e3 j, if_neg]
    rintro ⟨_, _, h3⟩
    rw [hok] at h3
    simp at h3
  · intro j ha
    rw [e3 j, if_neg]
    rintro ⟨_, h2, _⟩
    rw [ha] at h2
    simp at h2
  · intro j hj
    rw [e3 j, if_neg]
    rintro ⟨h1, _, _⟩
    omega

/-- Instance of claim C31: in `exInstanceBal`, once process 1 is in the patch of
machine 1, the pruning loop removes machine 1 from the domain of slot 1
(process 0) and leaves the assigned slot 0 as it is. -/
theorem C31_pruning_loop_witness :
    propagateLoadPrune exInstanceBal [1, 0] 1 exPatchFull
        ((BestCostBrancher.commit exRootBal.1 [] { process := 0, machine := 1 } 0).getD
          (exVarsRoot, [])).1
      = some exVarsPruned
    ∧ exVarsPruned.process 1 = [0, 2]
    ∧ exVarsPruned.process 1
        = ((((BestCostBrancher.commit exRootBal.1 [] { process := 0, machine := 1 } 0).getD
          (exVarsRoot, [])).1).process 1).filter (fun v => v != 1)
    ∧ 1 ∉ exVarsPruned.process 1 :=
  ⟨rfl, by decide,
    ((C31_pruning_loop exInstanceBal [1, 0] 1 exPatchFull
      ((BestCostBrancher.commit exRootBal.1 [] { process := 0, machine := 1 } 0).getD
        (exVarsRoot, [])).1 exVarsPruned rfl).1 1 (by decide) (by decide)
          ⟨0, by decide, Or.inl (by decide)⟩).1,
    ((C31_pruning_loop exInstanceBal [1, 0] 1 exPatchFull
      ((BestCostBrancher.commit exRootBal.1 [] { process := 0, machine := 1 } 0).getD
        (exVarsRoot, [])).1 exVarsPruned rfl).1 1 (by decide) (by decide)
          ⟨0, by decide, Or.inl (by decide)⟩).2⟩

/-! ## Who records a machine in `modified_machines` -/

theorem propagateSpace_frame (inst : Instance) (state : ReAssignment) (moved : List Nat)
    (i p : Nat) (t t1 : SpaceState)
    (h : ProcessPropagator.propagateSpace inst state moved i p t = some t1) :
    t1.modified_machines = t.modified_machines ∧ t1.cost_cache = t.cost_cache
      ∧ ∃ m, t.vars.process i = [m] ∧ (t1.space.delta m).isSome = true
          ∧ ∀ y, y ≠ m → t1.space.delta y = t.space.delta y := by
  unfold ProcessPropagator.propagateSpace at h
  split at h
  · rename_i m hm
    simp only at h
    by_cases h0 : (propagateLoadFull inst moved p m (patchOrBase state t.space.delta m)
        t.vars).1 < 0
    · rw [if_pos h0] at h
      exact absurd h (by simp)
    · rw [if_neg h0] at h
      split at h <;> split at h <;>
        first
        | (simp only [Option.some.injEq] at h
           subst h
           exact ⟨rfl, rfl, m, hm, by simp, fun y hy => by simp [Function.update_noteq hy]⟩)
        | simp at h
  · exact absurd h (by simp)

/-- Claim C32 (as amended). When alternative 0 of `BestCostBrancher::commit`
assigns the variable of slot `c.process` the machine `c.machine`, the brancher
appends that machine to `modified_machines`; the assignment propagator of the
slot, which runs afterwards, changes the patch of that machine only and leaves
`modified_machines` as it is, in this and in every other run. So the machine
whose patch was changed by an assignment made by branching is recorded. -/
theorem C32_modified_machines (inst : Instance) (state : ReAssignment) (moved : List Nat)
    (s s1 s2 : SpaceState) (c : ProcessChoice)
    (hc : BestCostBrancher.commitSpace s c 0 = some s1)
    (hp : ProcessPropagator.propagateSpace inst state moved c.process
      (movedAt moved c.process) s1 = some s2) :
    s1.modified_machines = s.modified_machines ++ [c.machine]
      ∧ s1.vars.process c.process = [c.machine]
      ∧ s1.space = s.space
      ∧ s2.modified_machines = s1.modified_machines
      ∧ (s2.space.delta c.machine).isSome = true
      ∧ (∀ y, y ≠ c.machine → s2.space.delta y = s.space.delta y)
      ∧ c.machine ∈ s2.modified_machines
      ∧ ∀ i p t t1, ProcessPropagator.propagateSpace inst state moved i p t = some t1 →
          t1.modified_machines = t.modified_machines := by
  have h1 : s1.modified_machines = s.modified_machines ++ [c.machine]
      ∧ s1.vars.process c.process = [c.machine] ∧ s1.space = s.space := by
    unfold BestCostBrancher.commitSpace BestCostBrancher.commit at hc
    rw [if_pos rfl] at hc
    cases he : IntView.eq (s.vars.process c.process) c.machine with
    | none => rw [he] at hc; simp at hc
    | some d =>
      rw [he] at hc
      simp only [Option.map_some', Option.some.injEq] at hc
      subst hc
      unfold IntView.eq at he
      split at he
      · simp only [Option.some.injEq] at he
        subst he
        exact ⟨rfl, by simp, rfl⟩
      · exact absurd he (by simp)
  obtain ⟨hm1, hv1, hsp1⟩ := h1
  obtain ⟨hm2, _, m, hm, hd1, hd2⟩ := propagateSpace_frame inst state moved _ _ s1 s2 hp
  rw [hv1] at hm
  have hmm : m = c.machine := by
    simp only [List.cons.injEq, and_true] at hm
    exact hm.symm
  subst hmm
  refine ⟨hm1, hv1, hsp1, hm2, hd1, ?_, ?_, ?_⟩
  · intro y hy
    rw [hd2 y hy, hsp1]
  · rw [hm2, hm1]
    simp
  · intro i p t t1 h
    exact (propagateSpace_frame inst state moved i p t t1 h).1

/-- Instance of claim C32 (as amended): at the root of `exRootTight` the
brancher commits slot 0 to machine 0 and the assignment propagator runs;
machine 0 is recorded. -/
theorem C32_modified_machines_witness :
    BestCostBrancher.commitSpace exRootTight { process := 0, machine := 0 } 0
        = some exCommittedTight
      ∧ ProcessPropagator.propagateSpace exInstanceTight exStateTight [0] 0 0 exCommittedTight
        = some exAssignedTight
      ∧ exAssignedTight.modified_machines = [0]
      ∧ (exCommittedTight.modified_machines = exRootTight.modified_machines ++ [0]
        ∧ exCommittedTight.vars.process 0 = [0]
        ∧ exCommittedTight.space = exRootTight.space
        ∧ exAssignedTight.modified_machines = exCommittedTight.modified_machines
        ∧ (exAssignedTight.space.delta 0).isSome = true
        ∧ (∀ y, y ≠ 0 → exAssignedTight.space.delta y = exRootTight.space.delta y)
        ∧ 0 ∈ exAssignedTight.modified_machines
        ∧ ∀ i p t t1,
            ProcessPropagator.propagateSpace exInstanceTight exStateTight [0] i p t = some t1 →
            t1.modified_machines = t.modified_machines) :=
  ⟨rfl, rfl, by decide,
    C32_modified_machines exInstanceTight exStateTight [0] exRootTight exCommittedTight
      exAssignedTight { process := 0, machine := 0 } rfl rfl⟩

/-- Counterexample to claim C32 as stated: in `exRootTight` the cost propagator
of slot 0 removes machine 1, on which the process does not fit, so the variable
of slot 0 becomes assigned to machine 0 by propagation. The assignment
propagator then runs and changes the patch of machine 0 (excess 0 becomes 10),
and `modified_machines` is still empty. -/
theorem C32_counterexample :
    exRootTight.modified_machines = []
      ∧ (exRootTight.space.delta 0).map (fun q => q.excess 0) = some 0
      ∧ (CostPropagator.propagateSpace exInstanceTight exStateTight 0 0 exRootTight).map
          (fun s => (s.vars.process 0, s.modified_machines)) = some ([0], [])
      ∧ exPropagatedTight.map
          (fun s => (s.vars.process 0, (s.space.delta 0).map (fun q => q.excess 0),
            s.modified_machines)) = some ([0], some 10, [])
      ∧ exPropagatedTight.map (fun s => decide (0 ∈ s.modified_machines)) = some false := by
  refine ⟨by decide, by decide, by decide, by decide, by decide⟩

/-! ## The empty intersection of the dependency constraint -/

/-- Claim C33 (divergence of the code). Service 1 of `exInstance3` (process 2)
depends on service 0, whose members 0 and 1 are both in the neighborhood list
`[2, 0, 1]`: the intersection of the neighborhoods of the non-moved members of
the required services is empty. With the two neighborhoods of `exInstance3` the
moved member of service 1 (slot 0) is forced to its current machine 0; in
`exInstanceOneNh`, which has one neighborhood, `distinct_neighbors` is 1 for the
empty list, the test against the number of neighborhoods succeeds and nothing
is posted for service 1. -/
theorem C33_empty_intersection_skipped :
    (availableNeighborhoods exInstance3 exState3 [2, 0, 1]
        (exInstance3.service 1).depends_on).1 = []
      ∧ dependencyConstraints exInstance3 exState3 [2, 0, 1] 1 = [Constraint.relEq 0 0]
      ∧ (availableNeighborhoods exInstanceOneNh exState3 [2, 0, 1]
        (exInstanceOneNh.service 1).depends_on).1 = []
      ∧ slotsOfService exInstanceOneNh [2, 0, 1] 1 = [0]
      ∧ distinctNeighbors [] = exInstanceOneNh.num_neighborhoods
      ∧ dependencyConstraints exInstanceOneNh exState3 [2, 0, 1] 1 = []
      ∧ (List.range exInstanceOneNh.num_services).flatMap
          (dependencyConstraints exInstanceOneNh exState3 [2, 0, 1]) = [] := by
  refine ⟨by decide, rfl, by decide, by decide, by decide, rfl, rfl⟩

/-! ## The base cost of a space -/

theorem sum_slots_eq_map (moved : List Nat) (f : Nat → Int) :
    ∑ i in range moved.length, f (movedAt moved i) = (moved.map f).sum := by
  induction moved using List.reverseRecOn with
  | nil => simp
  | append_singleton l a ih =>
    rw [List.length_append, List.length_singleton, Finset.sum_range_succ, List.map_append,
      List.sum_append]
    have h1 : ∑ i in range l.length, f (movedAt (l ++ [a]) i)
        = ∑ i in range l.length, f (movedAt l i) := by
      apply Finset.sum_congr rfl
      intro i hi
      have hi2 : i < l.length := Finset.mem_range.mp hi
      unfold movedAt
      rw [List.getD_append _ _ _ _ hi2]
    have h2 : movedAt (l ++ [a]) l.length = a := by
      unfold movedAt
      rw [List.getD_append_right _ _ _ _ (le_refl _)]
      simp
    rw [h1, h2, ih]
    simp

/-- Claim C34. After the construction of a space over a baseline whose
`load_cost`, `balance_cost`, `process_moves` and `machine_moves` agree with its
vectors and its assignment, over pairwise distinct moved processes, in an
instance of the problem, where moving a process from a machine to the same
machine costs nothing (`machine[x].move_cost[x] = 0` for every machine `x`):
`base_total_cost` is the load cost and the balance cost of the excess and
balance values with the contributions of the moved processes subtracted, plus
the weighted process move and machine move costs of the processes that are not
moved. -/
theorem C34_base_total_cost (inst : Instance) (state : ReAssignment) (moved : List Nat)
    (hnd : moved.Nodup) (hmv : ∀ p, p ∈ moved → p < inst.num_processes)
    (hcur : ∀ i, i < moved.length → state.assignment (movedAt moved i) < inst.num_machines)
    (hload : state.load_cost = ∑ x in range inst.num_machines, ∑ r in range inst.num_resources,
      max 0 (state.excess x r) * (inst.resource r).weight_load_cost)
    (hbal : state.balance_cost = ∑ x in range inst.num_machines, ∑ b in range inst.num_balances,
      max 0 (state.balance x b) * ((inst.balance b).weight_balance_cost : Int))
    (hpm : state.process_moves = ∑ p in range inst.num_processes,
      if state.assignment p ≠ (inst.process p).original_machine
      then ((inst.process p).move_cost : Int) else 0)
    (hmm : state.machine_moves = ∑ p in range inst.num_processes,
      ((inst.machine (inst.process p).original_machine).move_cost (state.assignment p) : Int))
    (hdiag : ∀ x, x < inst.num_machines → (inst.machine x).move_cost x = 0) :
    (RescheduleSpace.construct inst state moved).base_total_cost
      = (∑ x in range inst.num_machines, ∑ r in range inst.num_resources,
          max 0 (state.excess x r - removedLoad inst state moved moved.length x r)
            * (inst.resource r).weight_load_cost)
        + (∑ x in range inst.num_machines, ∑ b in range inst.num_balances,
          max 0 (state.balance x b - removedBalance inst state moved moved.length x b)
            * ((inst.balance b).weight_balance_cost : Int))
        + (∑ p in (range inst.num_processes).filter (fun p => p ∉ moved),
            if state.assignment p ≠ (inst.process p).original_machine
            then ((inst.process p).move_cost : Int) else 0) * inst.weight_process_move_cost
        + (∑ p in (range inst.num_processes).filter (fun p => p ∉ moved),
            ((inst.machine (inst.process p).original_machine).move_cost
              (state.assignment p) : Int)) * inst.weight_machine_move_cost := by
  obtain ⟨_, s2, _, s4, s5, _, _⟩ := setupLoadConstraints_spec inst state moved hcur
  rw [construct_base, s5]
  have hl0 : loadPotential inst state (fun _ => none) = state.load_cost := by
    rw [hload]; rfl
  have hb0 : balancePotential inst state (fun _ => none) = state.balance_cost := by
    rw [hbal]; rfl
  have hl1 : loadPotential inst state (setupLoadConstraints inst state moved emptySpace).delta
      = ∑ x in range inst.num_machines, ∑ r in range inst.num_resources,
          max 0 (state.excess x r - removedLoad inst state moved moved.length x r)
            * (inst.resource r).weight_load_cost := by
    unfold loadPotential
    apply Finset.sum_congr rfl
    intro x _
    apply Finset.sum_congr rfl
    intro r hr
    rw [s2 x r (Finset.mem_range.mp hr)]
  have hb1 : balancePotential inst state (setupLoadConstraints inst state moved emptySpace).delta
      = ∑ x in range inst.num_machines, ∑ b in range inst.num_balances,
          max 0 (state.balance x b - removedBalance inst state moved moved.length x b)
            * ((inst.balance b).weight_balance_cost : Int) := by
    unfold balancePotential
    apply Finset.sum_congr rfl
    intro x _
    apply Finset.sum_congr rfl
    intro b hb
    rw [s4 x b (Finset.mem_range.mp hb)]
  have hp : state.process_moves - baseProcessMoves inst state moved
      = ∑ p in (range inst.num_processes).filter (fun p => p ∉ moved),
          if state.assignment p ≠ (inst.process p).original_machine
          then ((inst.process p).move_cost : Int) else 0 := by
    rw [hpm, ← sum_range_split_list moved inst.num_processes hnd hmv, ← sum_slots_eq_map]
    unfold baseProcessMoves
    congr 1
    apply Finset.sum_congr rfl
    intro i _
    by_cases ho : (inst.process (movedAt moved i)).original_machine
        = state.assignment (movedAt moved i)
    · rw [if_neg (not_not.mpr ho), if_neg (not_not.mpr ho.symm)]
    · rw [if_pos ho, if_pos (fun e => ho e.symm)]
  have hm : (state.machine_moves - baseMachineMoves inst state moved)
        * inst.weight_machine_move_cost
      = (∑ p in (range inst.num_processes).filter (fun p => p ∉ moved),
          ((inst.machine (inst.process p).original_machine).move_cost
            (state.assignment p) : Int)) * inst.weight_machine_move_cost := by
    rw [← sum_range_split_list moved inst.num_processes hnd hmv, ← sum_slots_eq_map, ← hmm]
    have hself : (∑ i in range moved.length,
          ((inst.machine (inst.process (movedAt moved i)).original_machine).move_cost
            (state.assignment (movedAt moved i)) : Int)) * inst.weight_machine_move_cost
        = baseMachineMoves inst state moved * inst.weight_machine_move_cost := by
      unfold baseMachineMoves
      rw [Finset.sum_mul, Finset.sum_mul]
      apply Finset.sum_congr rfl
      intro i hi
      by_cases ho : (inst.process (movedAt moved i)).original_machine
          = state.assignment (movedAt moved i)
      · rw [if_neg (not_not.mpr ho), ho, hdiag _ (hcur i (Finset.mem_range.mp hi))]
        simp
      · rw [if_pos ho]
    rw [sub_mul, sub_mul, hself]
  rw [hl0, hb0, hl1, hb1, hp, hm]
  ring

/-- Instance of claim C34: the space of `exInstance2` over its process 1;
process 0 stays on machine 0 and the base cost is 12. -/
theorem C34_base_total_cost_witness :
    (RescheduleSpace.construct exInstance2 exState2 [1]).base_total_cost = 12
      ∧ (RescheduleSpace.construct exInstance2 exState2 [1]).base_total_cost
        = (∑ x in range exInstance2.num_machines, ∑ r in range exInstance2.num_resources,
            max 0 (exState2.excess x r - removedLoad exInstance2 exState2 [1] 1 x r)
              * (exInstance2.resource r).weight_load_cost)
          + (∑ x in range exInstance2.num_machines, ∑ b in range exInstance2.num_balances,
            max 0 (exState2.balance x b - removedBalance exInstance2 exState2 [1] 1 x b)
              * ((exInstance2.balance b).weight_balance_cost : Int))
          + (∑ p in (range exInstance2.num_processes).filter (fun p => p ∉ [1]),
              if exState2.assignment p ≠ (exInstance2.process p).original_machine
              then ((exInstance2.process p).move_cost : Int) else 0)
              * exInstance2.weight_process_move_cost
          + (∑ p in (range exInstance2.num_processes).filter (fun p => p ∉ [1]),
              ((exInstance2.machine (exInstance2.process p).original_machine).move_cost
                (exState2.assignment p) : Int)) * exInstance2.weight_machine_move_cost :=
  ⟨by decide, C34_base_total_cost exInstance2 exState2 [1] (by decide) (by decide)
    (by decide) (by decide) (by decide) (by decide) (by decide) (by decide)⟩

/-! ## The incremental path against the rebuild of the cost cache -/

theorem getCost_setCost (c : ProcessCostMap) (i m : Nat) (v : Int × Int) (x : Nat) :
    (c.setCost i m v).getCost i x = if x = m then v else c.getCost i x := by
  unfold ProcessCostMap.getCost
  rw [setCost_map]
  by_cases h : x = m
  · simp [h]
  · simp [h]

theorem getCost_remove (c : ProcessCostMap) (i m x : Nat) :
    (c.remove i m).getCost i x = if x = m then (0, 0) else c.getCost i x := by
  unfold ProcessCostMap.getCost ProcessCostMap.remove
  by_cases h : x = m
  · simp [h]
  · simp [h, Function.update_noteq h]

theorem updateCacheRefresh_fold (inst : Instance) (state : ReAssignment) (space : RescheduleSpace)
    (i p : Nat) (l : List Nat) :
    ∀ acc : Option Nat × ProcessCostMap,
      (∀ x, acc.1 = some x →
        acc.2.getCost i x = CostPropagator.getAdditionalCost inst state space p x) →
      (∀ x, x ∈ l →
          (l.foldl (updateCacheRefreshStep inst state space i p) acc).2.getCost i x
            = CostPropagator.getAdditionalCost inst state space p x)
        ∧ (∀ x, x ∉ l →
          (l.foldl (updateCacheRefreshStep inst state space i p) acc).2.getCost i x
            = acc.2.getCost i x)
        ∧ (∀ x, (l.foldl (updateCacheRefreshStep inst state space i p) acc).1 = some x →
          (l.foldl (updateCacheRefreshStep inst state space i p) acc).2.getCost i x
            = CostPropagator.getAdditionalCost inst state space p x) := by
  induction l with
  | nil =>
    intro acc hacc
    exact ⟨fun x hx => by simp at hx, fun _ _ => rfl, hacc⟩
  | cons a t ih =>
    intro acc hacc
    rw [List.foldl_cons]
    have hstep : (∀ x, (updateCacheRefreshStep inst state space i p acc a).1 = some x →
          (updateCacheRefreshStep inst state space i p acc a).2.getCost i x
            = CostPropagator.getAdditionalCost inst state space p x)
        ∧ (updateCacheRefreshStep inst state space i p acc a).2.getCost i a
            = CostPropagator.getAdditionalCost inst state space p a
        ∧ ∀ x, x ≠ a → (updateCacheRefreshStep inst state space i p acc a).2.getCost i x
            = acc.2.getCost i x := by
      unfold updateCacheRefreshStep
      by_cases hl : acc.1 = some a
      · rw [if_neg (not_not.mpr hl)]
        exact ⟨hacc, hacc a hl, fun _ _ => rfl⟩
      · rw [if_pos hl]
        refine ⟨?_, ?_, ?_⟩
        · intro x hx
          simp only [Option.some.injEq] at hx
          subst hx
          rw [getCost_setCost, if_pos rfl]
        · rw [getCost_setCost, if_pos rfl]
        · intro x hx
          rw [getCost_setCost, if_neg hx]
    obtain ⟨h1, h2, h3⟩ := ih (updateCacheRefreshStep inst state space i p acc a) hstep.1
    refine ⟨?_, ?_, h3⟩
    · intro x hx
      by_cases hxt : x ∈ t
      · exact h1 x hxt
      · have hxa : x = a := by
          rcases List.mem_cons.mp hx with h | h
          · exact h
          · exact absurd h hxt
        subst hxa
        rw [h2 x hxt]
        exact hstep.2.1
    · intro x hx
      have hxa : x ≠ a := fun e => hx (by rw [e]; exact List.mem_cons_self _ _)
      have hxt : x ∉ t := fun e => hx (List.mem_cons_of_mem _ e)
      rw [h2 x hxt]
      exact hstep.2.2 x hxa

theorem updateCache_fold (inst : Instance) (state : ReAssignment) (space : RescheduleSpace)
    (i p : Nat) (m_cost : Int × Int) (b0 : CostBound) (bl0 : List Nat)
    (c c1 : ProcessCostMap) (dom : List Nat) (hnd : dom.Nodup)
    (hc : ∀ m, m ∈ dom → c.getCost i m = CostPropagator.getAdditionalCost inst state space p m) :
    (dom.foldl (updateCacheStep i m_cost) (b0, bl0, c)).1
        = (dom.foldl (initCacheStep inst state space i p m_cost) (b0, bl0, c1)).1
      ∧ (dom.foldl (updateCacheStep i m_cost) (b0, bl0, c)).2.1
        = (dom.foldl (initCacheStep inst state space i p m_cost) (b0, bl0, c1)).2.1
      ∧ ∀ x, x ∉ dom →
          (dom.foldl (updateCacheStep i m_cost) (b0, bl0, c)).2.2.getCost i x = c.getCost i x := by
  induction dom using List.reverseRecOn with
  | nil => exact ⟨rfl, rfl, fun _ _ => rfl⟩
  | append_singleton l a ih =>
    have hnd1 : l.Nodup := (List.nodup_append.mp hnd).1
    have hal : a ∉ l := by
      intro h
      exact (List.nodup_append.mp hnd).2.2 h (List.mem_singleton_self a)
    obtain ⟨e1, e2, e3⟩ := ih hnd1 (fun m hm => hc m (List.mem_append_left _ hm))
    rw [List.foldl_append, List.foldl_cons, List.foldl_nil,
      List.foldl_append, List.foldl_cons, List.foldl_nil]
    have ha : (l.foldl (updateCacheStep i m_cost) (b0, bl0, c)).2.2.getCost i a
        = CostPropagator.getAdditionalCost inst state space p a := by
      rw [e3 a hal]
      exact hc a (List.mem_append_right _ (List.mem_singleton_self a))
    generalize l.foldl (updateCacheStep i m_cost) (b0, bl0, c) = u at e1 e2 e3 ha
    generalize l.foldl (initCacheStep inst state space i p m_cost) (b0, bl0, c1) = v at e1 e2
    have hx : ∀ x, x ∉ l ++ [a] → x ∉ l ∧ x ≠ a := by
      intro x hx
      exact ⟨fun h => hx (List.mem_append_left _ h),
        fun h => hx (List.mem_append_right _ (by rw [h]; exact List.mem_singleton_self a))⟩
    unfold updateCacheStep initCacheStep
    simp only [ha]
    by_cases h1 : (CostPropagator.getAdditionalCost inst state space p a).1 = Limits.max
    · rw [if_pos h1, if_pos h1]
      refine ⟨e1, by simp only [e2], ?_⟩
      intro x hxx
      exact e3 x (hx x hxx).1
    · rw [if_neg h1, if_neg h1]
      by_cases h2 : (CostPropagator.getAdditionalCost inst state space p a).1 > m_cost.2
          ∨ (CostPropagator.getAdditionalCost inst state space p a).2 < m_cost.1
      · rw [if_pos h2, if_pos h2]
        refine ⟨e1, by simp only [e2], ?_⟩
        intro x hxx
        simp only
        rw [getCost_remove, if_neg (hx x hxx).2]
        exact e3 x (hx x hxx).1
      · rw [if_neg h2, if_neg h2]
        refine ⟨by simp only [e1], e2, ?_⟩
        intro x hxx
        exact e3 x (hx x hxx).1

/-- Claim C35 (as amended). For a slot whose domain holds every machine once,
and a cost cache in which every machine of the domain that is not among the
entries of `modified_machines` from `cache_pos` on has a stored pair equal to
its current additional cost, `updateCache` and `initCache` deliver the same
pair `(min, max)`, the same blacklist and the same bound record of the slot. -/
theorem C35_update_matches_init (inst : Instance) (state : ReAssignment)
    (space : RescheduleSpace) (m_index m_process_id : Nat) (vars : VarStore)
    (blacklist : List Nat) (cache : ProcessCostMap) (modified_machines : List Nat)
    (cache_pos : Nat)
    (hnd : (vars.process m_index).Nodup)
    (hfresh : ∀ m, m ∈ vars.process m_index → m ∉ modified_machines.drop cache_pos →
      cache.getCost m_index m
        = CostPropagator.getAdditionalCost inst state space m_process_id m) :
    (CostPropagator.updateCache inst state space m_index m_process_id vars blacklist cache
        modified_machines cache_pos).1
      = (CostPropagator.initCache inst state space m_index m_process_id vars blacklist cache).1
    ∧ (CostPropagator.updateCache inst state space m_index m_process_id vars blacklist cache
        modified_machines cache_pos).2.1
      = (CostPropagator.initCache inst state space m_index m_process_id vars blacklist cache).2.1
    ∧ (CostPropagator.updateCache inst state space m_index m_process_id vars blacklist cache
        modified_machines cache_pos).2.2.bound m_index
      = (CostPropagator.initCache inst state space m_index m_process_id vars blacklist
          cache).2.2.bound m_index := by
  obtain ⟨r1, r2, _⟩ := updateCacheRefresh_fold inst state space m_index m_process_id
    (modified_machines.drop cache_pos) (none, cache) (fun x hx => by simp at hx)
  have hc : ∀ m, m ∈ vars.process m_index →
      ((modified_machines.drop cache_pos).foldl
        (updateCacheRefreshStep inst state space m_index m_process_id)
        (none, cache)).2.getCost m_index m
        = CostPropagator.getAdditionalCost inst state space m_process_id m := by
    intro m hm
    by_cases hmm : m ∈ modified_machines.drop cache_pos
    · exact r1 m hmm
    · rw [r2 m hmm]
      exact hfresh m hm hmm
  obtain ⟨e1, e2, _⟩ := updateCache_fold inst state space m_index m_process_id
    (vars.cost_min m_index, vars.cost_max m_index)
    { min := { machine := 0, cost := Limits.max }, max := { machine := 0, cost := Limits.min } }
    blacklist _ cache (vars.process m_index) hnd hc
  unfold CostPropagator.updateCache CostPropagator.initCache
  simp only
  rw [e1, e2]
  refine ⟨rfl, rfl, ?_⟩
  unfold ProcessCostMap.bound ProcessCostMap.setBound
  simp

/-- Instance of claim C35 (as amended): at the root `exRootNeg` the cache of
slot 1 was just built; with the entries `[1, 1]` of `[0, 1, 1]` from position 1
on, both functions deliver the pair `(-8, 0)` and an empty blacklist. -/
theorem C35_update_matches_init_witness :
    (CostPropagator.initCache exInstanceNeg exStateNeg exRootNeg.space 1 0 exRootNeg.vars []
        exRootNeg.cost_cache).1 = (-8, 0)
    ∧ (CostPropagator.updateCache exInstanceNeg exStateNeg exRootNeg.space 1 0 exRootNeg.vars []
        exRootNeg.cost_cache [0, 1, 1] 1).1
      = (CostPropagator.initCache exInstanceNeg exStateNeg exRootNeg.space 1 0 exRootNeg.vars []
          exRootNeg.cost_cache).1
    ∧ (CostPropagator.updateCache exInstanceNeg exStateNeg exRootNeg.space 1 0 exRootNeg.vars []
        exRootNeg.cost_cache [0, 1, 1] 1).2.1
      = (CostPropagator.initCache exInstanceNeg exStateNeg exRootNeg.space 1 0 exRootNeg.vars []
          exRootNeg.cost_cache).2.1
    ∧ (CostPropagator.updateCache exInstanceNeg exStateNeg exRootNeg.space 1 0 exRootNeg.vars []
        exRootNeg.cost_cache [0, 1, 1] 1).2.2.bound 1
      = (CostPropagator.initCache exInstanceNeg exStateNeg exRootNeg.space 1 0 exRootNeg.vars []
          exRootNeg.cost_cache).2.2.bound 1 :=
  ⟨by decide, C35_update_matches_init exInstanceNeg exStateNeg exRootNeg.space 1 0
    exRootNeg.vars [] exRootNeg.cost_cache [0, 1, 1] 1 (by decide) (by decide)⟩

/-- Counterexample to claim C35 as stated: in `exAssignedNeg` the cache of slot 1
was built by `initCache` at the root, when `modified_machines` was empty, and
the brancher has since appended machine 1 and the assignment propagator of
slot 0 has run. The rebuild stores the pair `(-1, -1)` for the machines 0 and 2
of the domain and returns `(-1, -1)`; the incremental path recomputes machine 1
only, reads the pairs `(-1, 0)` stored at the root, when process 1 was still
unassigned, and returns `(-1, 0)`. -/
theorem C35_counterexample :
    exRootNeg.modified_machines = []
      ∧ exAssignedNeg.modified_machines = [1]
      ∧ exAssignedNeg.vars.process 1 = [0, 2]
      ∧ (exRootNeg.space.min_unassigned_balance 0, exRootNeg.space.max_unassigned_balance 0)
        = (-17, 0)
      ∧ (exAssignedNeg.space.min_unassigned_balance 0,
          exAssignedNeg.space.max_unassigned_balance 0) = (-8, 0)
      ∧ [0, 2].map (exAssignedNeg.cost_cache.getCost 1) = [(-1, 0), (-1, 0)]
      ∧ [0, 2].map (CostPropagator.getAdditionalCost exInstanceNeg exStateNeg
          exAssignedNeg.space 0) = [(-1, -1), (-1, -1)]
      ∧ (CostPropagator.initCache exInstanceNeg exStateNeg exAssignedNeg.space 1 0
          exAssignedNeg.vars [] exAssignedNeg.cost_cache).1 = (-1, -1)
      ∧ (CostPropagator.updateCache exInstanceNeg exStateNeg exAssignedNeg.space 1 0
          exAssignedNeg.vars [] exAssignedNeg.cost_cache exAssignedNeg.modified_machines 0).1
        = (-1, 0) := by
  refine ⟨by decide, by decide, by decide, by decide, by decide, by decide, by decide,
    by decide, by decide⟩

/-! ## The unassigned balances -/

theorem setupBalanceCostStep_unassigned (inst : Instance) (state : ReAssignment)
    (moved : List Nat) (b m : Nat) (acc : RescheduleSpace × Int) :
    (setupBalanceCostStep inst state moved b acc m).1.min_unassigned_balance
        = Function.update acc.1.min_unassigned_balance b
            (acc.1.min_unassigned_balance b + min 0 (processBalance inst (movedAt moved m) b))
      ∧ (setupBalanceCostStep inst state moved b acc m).1.max_unassigned_balance
        = Function.update acc.1.max_unassigned_balance b
            (acc.1.max_unassigned_balance b + max 0 (processBalance inst (movedAt moved m) b)) := by
  unfold setupBalanceCostStep
  by_cases hd : processBalance inst (movedAt moved m) b < 0
  · have h1 : min 0 (processBalance inst (movedAt moved m) b)
        = processBalance inst (movedAt moved m) b := min_eq_right (le_of_lt hd)
    have h2 : max 0 (processBalance inst (movedAt moved m) b) = 0 := max_eq_left (le_of_lt hd)
    simp only [hd, if_true, h1, h2, add_zero]
    constructor
    · split <;> rfl
    · split <;> simp
  · have hd2 : 0 ≤ processBalance inst (movedAt moved m) b := not_lt.mp hd
    have h1 : min 0 (processBalance inst (movedAt moved m) b) = 0 := min_eq_left hd2
    have h2 : max 0 (processBalance inst (movedAt moved m) b)
        = processBalance inst (movedAt moved m) b := max_eq_right hd2
    simp only [hd, if_false, h1, h2, add_zero]
    constructor
    · split <;> simp
    · split <;> rfl

theorem balanceInner_unassigned (inst : Instance) (state : ReAssignment) (moved : List Nat)
    (b : Nat) (acc : RescheduleSpace × Int) (n : Nat) :
    (∀ c,
        ((List.range n).foldl (setupBalanceCostStep inst state moved b)
          acc).1.min_unassigned_balance c
        = acc.1.min_unassigned_balance c
          + if c = b then ∑ m in range n, min 0 (processBalance inst (movedAt moved m) b) else 0)
      ∧ (∀ c,
        ((List.range n).foldl (setupBalanceCostStep inst state moved b)
          acc).1.max_unassigned_balance c
        = acc.1.max_unassigned_balance c
          + if c = b then ∑ m in range n, max 0 (processBalance inst (movedAt moved m) b)
            else 0) := by
  induction n with
  | zero => simp
  | succ n ih =>
    obtain ⟨i1, i2⟩ := ih
    rw [foldl_range_succ]
    obtain ⟨s1, s2⟩ := setupBalanceCostStep_unassigned inst state moved b n
      ((List.range n).foldl (setupBalanceCostStep inst state moved b) acc)
    rw [s1, s2]
    constructor
    · intro c
      by_cases hc : c = b
      · subst hc
        rw [Function.update_same, i1 c, if_pos rfl, if_pos rfl, Finset.sum_range_succ]
        ring
      · rw [Function.update_noteq hc, i1 c, if_neg hc, if_neg hc]
    · intro c
      by_cases hc : c = b
      · subst hc
        rw [Function.update_same, i2 c, if_pos rfl, if_pos rfl, Finset.sum_range_succ]
        ring
      · rw [Function.update_noteq hc, i2 c, if_neg hc, if_neg hc]

theorem balanceOuter_unassigned (inst : Instance) (state : ReAssignment) (moved : List Nat)
    (acc : RescheduleSpace × Int) (nb : Nat) :
    (∀ c, (balanceOuter inst state moved nb acc).1.min_unassigned_balance c
        = acc.1.min_unassigned_balance c
          + if c < nb then
              ∑ m in range moved.length, min 0 (processBalance inst (movedAt moved m) c)
            else 0)
      ∧ (∀ c, (balanceOuter inst state moved nb acc).1.max_unassigned_balance c
        = acc.1.max_unassigned_balance c
          + if c < nb then
              ∑ m in range moved.length, max 0 (processBalance inst (movedAt moved m) c)
            else 0) := by
  induction nb with
  | zero => simp [balanceOuter]
  | succ nb ih =>
    obtain ⟨i1, i2⟩ := ih
    have hstep : balanceOuter inst state moved (nb + 1) acc
        = (List.range moved.length).foldl (setupBalanceCostStep inst state moved nb)
            (balanceOuter inst state moved nb acc) := by
      unfold balanceOuter
      rw [foldl_range_succ]
    rw [hstep]
    obtain ⟨j1, j2⟩ := balanceInner_unassigned inst state moved nb
      (balanceOuter inst state moved nb acc) moved.length
    constructor
    · intro c
      rw [j1 c, i1 c]
      by_cases hc : c = nb
      · subst hc; simp
      · have : c < nb + 1 ↔ c < nb := by omega
        simp [hc, this]
    · intro c
      rw [j2 c, i2 c]
      by_cases hc : c = nb
      · subst hc; simp
      · have : c < nb + 1 ↔ c < nb := by omega
        simp [hc, this]

theorem construct_unassigned (inst : Instance) (state : ReAssignment) (moved : List Nat) :
    (∀ b, b < inst.num_balances →
        (RescheduleSpace.construct inst state moved).min_unassigned_balance b
          = ∑ m in range moved.length, min 0 (processBalance inst (movedAt moved m) b))
      ∧ (∀ b, b < inst.num_balances →
        (RescheduleSpace.construct inst state moved).max_unassigned_balance b
          = ∑ m in range moved.length, max 0 (processBalance inst (movedAt moved m) b)) := by
  have h1 : (RescheduleSpace.construct inst state moved).min_unassigned_balance
      = (setupLoadConstraints inst state moved emptySpace).min_unassigned_balance := rfl
  have h2 : (RescheduleSpace.construct inst state moved).max_unassigned_balance
      = (setupLoadConstraints inst state moved emptySpace).max_unassigned_balance := rfl
  rw [h1, h2, setupLoadConstraints_unfold]
  obtain ⟨o1, o2⟩ := balanceOuter_unassigned inst state moved (loadedSpace inst state moved, 0)
    inst.num_balances
  have z1 : (loadedSpace inst state moved).min_unassigned_balance = fun _ => 0 := rfl
  have z2 : (loadedSpace inst state moved).max_unassigned_balance = fun _ => 0 := rfl
  constructor
  · intro b hb
    show (balanceOuter inst state moved inst.num_balances
      (loadedSpace inst state moved, 0)).1.min_unassigned_balance b = _
    rw [o1 b, if_pos hb]
    simp [z1]
  · intro b hb
    show (balanceOuter inst state moved inst.num_balances
      (loadedSpace inst state moved, 0)).1.max_unassigned_balance b = _
    rw [o2 b, if_pos hb]
    simp [z2]

theorem propagateBalance_unassigned (inst : Instance) (p : Nat) (mn mx : Nat → Int)
    (patch : MachinePatch) (n : Nat) :
    (∀ b, ((List.range n).foldl (propagateBalanceStep inst p) (mn, mx, patch, 0)).1 b
        = mn b - if b < n then min 0 (processBalance inst p b) else 0)
      ∧ (∀ b, ((List.range n).foldl (propagateBalanceStep inst p) (mn, mx, patch, 0)).2.1 b
        = mx b - if b < n then max 0 (processBalance inst p b) else 0) := by
  induction n with
  | zero => simp
  | succ n ih =>
    obtain ⟨i1, i2⟩ := ih
    rw [foldl_range_succ]
    generalize (List.range n).foldl (propagateBalanceStep inst p) (mn, mx, patch, 0) = acc
      at i1 i2 ⊢
    unfold propagateBalanceStep
    simp only
    by_cases hd : processBalance inst p n < 0
    · have h1 : min 0 (processBalance inst p n) = processBalance inst p n :=
        min_eq_right (le_of_lt hd)
      have h2 : max 0 (processBalance inst p n) = 0 := max_eq_left (le_of_lt hd)
      simp only [hd, if_true]
      constructor
      · intro b
        by_cases hb : b = n
        · subst hb; rw [Function.update_same, i1 b]; simp [h1]
        · have : b < n + 1 ↔ b < n := by omega
          rw [Function.update_noteq hb, i1 b]; simp only [this]
      · intro b
        rw [i2 b]
        by_cases hb : b = n
        · subst hb; simp [h2]
        · have : b < n + 1 ↔ b < n := by omega
          simp only [this]
    · have hd2 : 0 ≤ processBalance inst p n := not_lt.mp hd
      have h1 : min 0 (processBalance inst p n) = 0 := min_eq_left hd2
      have h2 : max 0 (processBalance inst p n) = processBalance inst p n := max_eq_right hd2
      simp only [hd, if_false]
      constructor
      · intro b
        rw [i1 b]
        by_cases hb : b = n
        · subst hb; simp [h1]
        · have : b < n + 1 ↔ b < n := by omega
          simp only [this]
      · intro b
        by_cases hb : b = n
        · subst hb; rw [Function.update_same, i2 b]; simp [h2]
        · have : b < n + 1 ↔ b < n := by omega
          rw [Function.update_noteq hb, i2 b]; simp only [this]

theorem propagate_unassigned (inst : Instance) (state : ReAssignment) (i p x : Nat)
    (sp sp1 : RescheduleSpace)
    (h : ProcessPropagator.propagate inst state i p x sp = some sp1) :
    (∀ b, b < inst.num_balances →
        sp1.min_unassigned_balance b
          = sp.min_unassigned_balance b - min 0 (processBalance inst p b))
      ∧ (∀ b, b < inst.num_balances →
        sp1.max_unassigned_balance b
          = sp.max_unassigned_balance b - max 0 (processBalance inst p b)) := by
  unfold ProcessPropagator.propagate at h
  simp only at h
  cases hl : propagateLoad inst p x (patchOrBase state sp.delta x) with
  | none => rw [hl] at h; simp at h
  | some qc =>
    obtain ⟨q1, load⟩ := qc
    rw [hl] at h
    simp only at h
    obtain ⟨u1, u2⟩ := propagateBalance_unassigned inst p sp.min_unassigned_balance
      sp.max_unassigned_balance q1 inst.num_balances
    by_cases hneg : load < 0
    · simp [hneg] at h
    · rw [if_neg hneg] at h
      split at h
      · simp only [Option.some.injEq] at h
        subst h
        constructor
        · intro b hb
          show ((List.range inst.num_balances).foldl (propagateBalanceStep inst p)
            (sp.min_unassigned_balance, sp.max_unassigned_balance, q1, 0)).1 b = _
          rw [u1 b, if_pos hb]
        · intro b hb
          show ((List.range inst.num_balances).foldl (propagateBalanceStep inst p)
            (sp.min_unassigned_balance, sp.max_unassigned_balance, q1, 0)).2.1 b = _
          rw [u2 b, if_pos hb]
      · simp at h

theorem runPropagators_unassigned (inst : Instance) (state : ReAssignment) (moved : List Nat)
    (val : Nat → Nat) (order : List Nat) :
    ∀ sp final, runPropagators inst state moved val order sp = some final →
      (∀ b, b < inst.num_balances →
        final.min_unassigned_balance b
          = sp.min_unassigned_balance b
            - (order.map (fun j => min 0 (processBalance inst (movedAt moved j) b))).sum)
      ∧ (∀ b, b < inst.num_balances →
        final.max_unassigned_balance b
          = sp.max_unassigned_balance b
            - (order.map (fun j => max 0 (processBalance inst (movedAt moved j) b))).sum) := by
  induction order with
  | nil =>
    intro sp final h
    simp only [runPropagators, Option.some.injEq] at h
    subst h
    simp
  | cons i rest ih =>
    intro sp final h
    unfold runPropagators at h
    cases hp : ProcessPropagator.propagate inst state i (movedAt moved i) (val i) sp with
    | none => rw [hp] at h; simp at h
    | some sp1 =>
      rw [hp] at h
      simp only at h
      obtain ⟨p1, p2⟩ := propagate_unassigned inst state i (movedAt moved i) (val i) sp sp1 hp
      obtain ⟨r1, r2⟩ := ih sp1 final h
      constructor
      · intro b hb
        rw [r1 b hb, p1 b hb, List.map_cons, List.sum_cons]
        ring
      · intro b hb
        rw [r2 b hb, p2 b hb, List.map_cons, List.sum_cons]
        ring

/-- Claim C36. After the construction of the space and the successful runs of the
assignment propagators of the slots in `order` (each slot at most once), for
every balance triple `b`: `min_unassigned_balance[b]` is the sum of the
contributions `d_j(b) = req[moved[j]][r2] - bal * req[moved[j]][r1]` of the slots
`j` that are not in `order` and have `d_j(b) < 0`, `max_unassigned_balance[b]`
is the sum over the slots not in `order` with `d_j(b) >= 0`; hence
`min <= 0 <= max`, and both are 0 once every slot is in `order`, as in a solved
space. With the empty `order` this is the space after construction. -/
theorem C36_unassigned_balance (inst : Instance) (state : ReAssignment) (moved : List Nat)
    (val : Nat → Nat) (order : List Nat) (final : RescheduleSpace)
    (hnd : order.Nodup) (hsub : ∀ j, j ∈ order → j < moved.length)
    (hrun : runPropagators inst state moved val order
      (RescheduleSpace.construct inst state moved) = some final) :
    ∀ b, b < inst.num_balances →
      final.min_unassigned_balance b
          = ∑ j in (range moved.length).filter
              (fun j => j ∉ order ∧ processBalance inst (movedAt moved j) b < 0),
              processBalance inst (movedAt moved j) b
        ∧ final.max_unassigned_balance b
          = ∑ j in (range moved.length).filter
              (fun j => j ∉ order ∧ 0 ≤ processBalance inst (movedAt moved j) b),
              processBalance inst (movedAt moved j) b
        ∧ final.min_unassigned_balance b ≤ 0
        ∧ 0 ≤ final.max_unassigned_balance b
        ∧ ((∀ j, j < moved.length → j ∈ order) →
            final.min_unassigned_balance b = 0 ∧ final.max_unassigned_balance b = 0) := by
  intro b hb
  obtain ⟨c1, c2⟩ := construct_unassigned inst state moved
  obtain ⟨r1, r2⟩ := runPropagators_unassigned inst state moved val order _ final hrun
  have e1 : final.min_unassigned_balance b
      = ∑ j in (range moved.length).filter (fun j => j ∉ order),
          min 0 (processBalance inst (movedAt moved j) b) := by
    rw [r1 b hb, c1 b hb]
    exact sum_range_split_list order moved.length hnd hsub _
  have e2 : final.max_unassigned_balance b
      = ∑ j in (range moved.length).filter (fun j => j ∉ order),
          max 0 (processBalance inst (movedAt moved j) b) := by
    rw [r2 b hb, c2 b hb]
    exact sum_range_split_list order moved.length hnd hsub _
  have f1 : ∑ j in (range moved.length).filter (fun j => j ∉ order),
        min 0 (processBalance inst (movedAt moved j) b)
      = ∑ j in (range moved.length).filter
          (fun j => j ∉ order ∧ processBalance inst (movedAt moved j) b < 0),
          processBalance inst (movedAt moved j) b := by
    rw [← Finset.filter_filter, Finset.sum_filter
      (fun j => processBalance inst (movedAt moved j) b < 0)]
    apply Finset.sum_congr rfl
    intro j _
    by_cases hd : processBalance inst (movedAt moved j) b < 0
    · rw [if_pos hd]; exact min_eq_right (le_of_lt hd)
    · rw [if_neg hd]; exact min_eq_left (not_lt.mp hd)
  have f2 : ∑ j in (range moved.length).filter (fun j => j ∉ order),
        max 0 (processBalance inst (movedAt moved j) b)
      = ∑ j in (range moved.length).filter
          (fun j => j ∉ order ∧ 0 ≤ processBalance inst (movedAt moved j) b),
          processBalance inst (movedAt moved j) b := by
    rw [← Finset.filter_filter, Finset.sum_filter
      (fun j => 0 ≤ processBalance inst (movedAt moved j) b)]
    apply Finset.sum_congr rfl
    intro j _
    by_cases hd : 0 ≤ processBalance inst (movedAt moved j) b
    · rw [if_pos hd]; exact max_eq_right hd
    · rw [if_neg hd]; exact max_eq_left (le_of_lt (not_le.mp hd))
  refine ⟨e1.trans f1, e2.trans f2, ?_, ?_, ?_⟩
  · rw [e1]
    apply Finset.sum_nonpos
    intro j _
    exact min_le_left _ _
  · rw [e2]
    apply Finset.sum_nonneg
    intro j _
    exact le_max_left _ _
  · intro hall
    have hemp : (range moved.length).filter (fun j => j ∉ order) = ∅ := by
      apply Finset.filter_eq_empty_iff.mpr
      intro j hj
      simpa using hall j (Finset.mem_range.mp hj)
    rw [e1, e2, hemp]
    simp

/-- Instance of claim C36: in the final space of `exInstance2` (one slot, one
balance triple) the single slot has been processed and both unassigned balances
are 0. -/
theorem C36_unassigned_balance_witness :
    runPropagators exInstance2 exState2 [0] (fun _ => 1) [0]
        (RescheduleSpace.construct exInstance2 exState2 [0]) = some exFinal2
      ∧ exFinal2.min_unassigned_balance 0 = 0 ∧ exFinal2.max_unassigned_balance 0 = 0 :=
  ⟨rfl,
    ((C36_unassigned_balance exInstance2 exState2 [0] (fun _ => 1) [0] exFinal2 (by decide)
      (by decide) rfl 0 (by decide)).2.2.2.2 (by decide))⟩

/-! ## The machine of a choice and the domain -/

theorem choiceMachineStep_pos (cache : ProcessCostMap) (i : Nat) (acc : Nat × Int) (m : Nat)
    (h : toUInt32 (cache.getCost i m).1 < acc.2) :
    choiceMachineStep cache i acc m = (m, toUInt32 (cache.getCost i m).1) := by
  unfold choiceMachineStep
  simp only
  rw [if_pos h]

theorem choiceMachineStep_neg (cache : ProcessCostMap) (i : Nat) (acc : Nat × Int) (m : Nat)
    (h : ¬ toUInt32 (cache.getCost i m).1 < acc.2) :
    choiceMachineStep cache i acc m = acc := by
  unfold choiceMachineStep
  simp only
  rw [if_neg h]

theorem choiceMachine_fold (cache : ProcessCostMap) (i : Nat) (l : List Nat) (acc : Nat × Int) :
    (l.foldl (choiceMachineStep cache i) acc).1 ∈ l
      ∨ (l.foldl (choiceMachineStep cache i) acc = acc
          ∧ ∀ m, m ∈ l → ¬ toUInt32 (cache.getCost i m).1 < acc.2) := by
  induction l using List.reverseRecOn with
  | nil => right; exact ⟨rfl, fun m hm => by simp at hm⟩
  | append_singleton l a ih =>
    rw [List.foldl_append, List.foldl_cons, List.foldl_nil]
    by_cases hlt : toUInt32 (cache.getCost i a).1 < (l.foldl (choiceMachineStep cache i) acc).2
    · left
      rw [choiceMachineStep_pos cache i _ a hlt]
      simp
    · rw [choiceMachineStep_neg cache i _ a hlt]
      rcases ih with h | ⟨h1, h2⟩
      · left; exact List.mem_append_left _ h
      · right
        refine ⟨h1, ?_⟩
        intro m hm
        rcases List.mem_append.mp hm with h | h
        · exact h2 m h
        · rw [List.mem_singleton] at h
          subst h
          rw [h1] at hlt
          exact hlt

/-- The machine of the choice lies in the domain of its slot as soon as the
cached best machine is in the domain or some value of the domain has a stored
minimum whose conversion to `unsigned int` is below `2 ^ 32 - 1`, that is, a
stored minimum other than `-1` modulo `2 ^ 32`. -/
theorem choice_mem_domain (n : Nat) (vars : VarStore) (cache : ProcessCostMap) (c : ProcessChoice)
    (h : BestCostBrancher.choice n vars cache = some c)
    (hdom : (cache.bound c.process).min.machine ∈ vars.process c.process
      ∨ ∃ m, m ∈ vars.process c.process ∧ toUInt32 (cache.getCost c.process m).1 < 4294967295) :
    c.machine ∈ vars.process c.process := by
  unfold BestCostBrancher.choice at h
  simp only at h
  cases hsel : ((List.range n).foldl (choiceSlotStep vars) (Limits.min, none)).2 with
  | none => rw [hsel] at h; simp at h
  | some i =>
    rw [hsel] at h
    simp only at h
    by_cases hin : (cache.bound i).min.machine ∈ vars.process i
    · have hc : IntView.contains (vars.process i) (cache.bound i).min.machine = true := by
        unfold IntView.contains; simpa using hin
      rw [hc] at h
      simp only [Bool.not_true, Bool.false_eq_true, if_false, Option.some.injEq] at h
      subst h
      exact hin
    · have hc : IntView.contains (vars.process i) (cache.bound i).min.machine = false := by
        unfold IntView.contains; simpa using hin
      rw [hc] at h
      simp only [Bool.not_false, if_true, Option.some.injEq] at h
      subst h
      simp only at hdom ⊢
      rcases hdom with h0 | ⟨m, hm, hlt⟩
      · exact absurd h0 hin
      · rcases choiceMachine_fold cache i (vars.process i)
          ((cache.bound i).min.machine, toUInt32 (-1)) with h1 | ⟨_, h2⟩
        · exact h1
        · exact absurd hlt (h2 m hm)

/-- Claim C37 (fails on the code). In the search over `exInstanceNeg` both cost
propagators run at the root and store for slot 1 the minima `-1`, `-8`, `-1` on
the machines 0, 1, 2 with the best machine 1; the brancher commits slot 0 to
machine 1 and the assignment propagator of slot 0 removes machine 1 from the
domain of slot 1. The next choice selects slot 1, whose cached best machine 1 is
no longer in the domain `[0, 2]`; both stored minima of the domain are `-1`,
which the comparison with the `unsigned int` running minimum never takes, and
the choice keeps machine 1. Alternative 0 of that choice fails and alternative 1
leaves the domains as they are. -/
theorem C37_choice_outside_domain :
    (BestCostBrancher.choice 2 exRootNeg.vars exRootNeg.cost_cache).map
        (fun c => (c.process, c.machine)) = some (0, 1)
      ∧ BestCostBrancher.status 2 exAssignedNeg.vars = true
      ∧ exAssignedNeg.vars.process 0 = [1]
      ∧ exAssignedNeg.vars.process 1 = [0, 2]
      ∧ (exAssignedNeg.vars.cost_min 1, exAssignedNeg.vars.cost_max 1) = (-8, 0)
      ∧ (exAssignedNeg.cost_cache.bound 1).min.machine = 1
      ∧ exAssignedNeg.cost_cache.getCost 1 0 = (-1, 0)
      ∧ exAssignedNeg.cost_cache.getCost 1 2 = (-1, 0)
      ∧ (BestCostBrancher.choice 2 exAssignedNeg.vars exAssignedNeg.cost_cache).map
          (fun c => (c.process, c.machine)) = some (1, 1)
      ∧ 1 ∉ exAssignedNeg.vars.process 1
      ∧ (BestCostBrancher.commitSpace exAssignedNeg { process := 1, machine := 1 } 0).isNone
          = true
      ∧ (BestCostBrancher.commitSpace exAssignedNeg { process := 1, machine := 1 } 1).map
          (fun s => (s.vars.process 0, s.vars.process 1, s.modified_machines))
        = some ([1], [0, 2], [1]) := by
  refine ⟨by decide, by decide, by decide, by decide, by decide, by decide, by decide,
    by decide, by decide, by decide, by decide, by decide⟩

/-! ## The permutation of `reorderResources` -/

theorem resourceMap_perm (inst : Instance) :
    (resourceMap inst).Perm (List.range inst.num_resources) :=
  List.filter_append_perm (fun i => (inst.resource i).is_transient)
    (List.range inst.num_resources)

theorem resourceMap_length (inst : Instance) :
    (resourceMap inst).length = inst.num_resources := by
  rw [(resourceMap_perm inst).length_eq, List.length_range]

theorem map_getD_range (l : List Nat) :
    (List.range l.length).map (fun i => l.getD i 0) = l := by
  apply List.ext_getElem
  · simp
  · intro n h1 h2
    simp only [List.getElem_map, List.getElem_range]
    exact List.getD_eq_getElem l 0 h2

theorem getD_indexOf (l : List Nat) (a : Nat) (h : a ∈ l) :
    l.getD (l.indexOf a) 0 = a := by
  have hlt : l.indexOf a < l.length := List.indexOf_lt_length.mpr h
  rw [List.getD_eq_getElem l 0 hlt]
  exact List.getElem_indexOf hlt

/-- Claim C38. `reorderResources` applies one permutation `pi` of the resource
indices (the identity when there is no transient resource, the vector
`resource_map` otherwise): for every index `r` the new `resource[r]`, the new
`capacity[r]` and `safety_capacity[r]` of every machine and the new
`requirement[r]` of every process are the former values at `pi(r)`, and the new
`resource1` and `resource2` of every balance triple (whose former indices are
indices of the resource table) are indices that `pi` maps to the former ones;
target and weight of the triple are unchanged. -/
theorem C38_reorder_permutation (inst : Instance)
    (hbal : ∀ b, b < inst.num_balances →
      (inst.balance b).resource1 < inst.num_resources
        ∧ (inst.balance b).resource2 < inst.num_resources) :
    ∃ pi : Nat → Nat,
      ((List.range inst.num_resources).map pi).Perm (List.range inst.num_resources)
      ∧ (∀ r, r < inst.num_resources →
          (reorderResources inst).resource r = inst.resource (pi r))
      ∧ (∀ m r, m < inst.num_machines → r < inst.num_resources →
          ((reorderResources inst).machine m).capacity r = (inst.machine m).capacity (pi r)
          ∧ ((reorderResources inst).machine m).safety_capacity r
              = (inst.machine m).safety_capacity (pi r))
      ∧ (∀ p r, p < inst.num_processes → r < inst.num_resources →
          ((reorderResources inst).process p).requirement r
            = (inst.process p).requirement (pi r))
      ∧ (∀ b, b < inst.num_balances →
          ((reorderResources inst).balance b).resource1 < inst.num_resources
          ∧ pi ((reorderResources inst).balance b).resource1 = (inst.balance b).resource1
          ∧ ((reorderResources inst).balance b).resource2 < inst.num_resources
          ∧ pi ((reorderResources inst).balance b).resource2 = (inst.balance b).resource2
          ∧ ((reorderResources inst).balance b).balance = (inst.balance b).balance
          ∧ ((reorderResources inst).balance b).weight_balance_cost
              = (inst.balance b).weight_balance_cost)
      ∧ (reorderResources inst).num_resources = inst.num_resources := by
  by_cases h0 : ((List.range inst.num_resources).filter
      (fun i => (inst.resource i).is_transient)).length = 0
  · have heq : reorderResources inst = { inst with transient_count := 0 } := by
      unfold reorderResources
      simp only [h0, if_true]
    refine ⟨id, by simp, ?_, ?_, ?_, ?_, ?_⟩
    · intro r _; rw [heq]; rfl
    · intro m r _ _; rw [heq]; exact ⟨rfl, rfl⟩
    · intro p r _ _; rw [heq]; rfl
    · intro b hb; rw [heq]; exact ⟨(hbal b hb).1, rfl, (hbal b hb).2, rfl, rfl, rfl⟩
    · rw [heq]
  · have hperm := resourceMap_perm inst
    have hlen := resourceMap_length inst
    have hmem : ∀ a, a < inst.num_resources → a ∈ resourceMap inst := by
      intro a ha
      exact hperm.mem_iff.mpr (List.mem_range.mpr ha)
    refine ⟨fun r => (resourceMap inst).getD r 0, ?_, ?_, ?_, ?_, ?_, ?_⟩
    · have := map_getD_range (resourceMap inst)
      rw [hlen] at this
      rw [this]
      exact hperm
    · intro r hr
      unfold reorderResources
      simp only [h0, if_false, hr, if_true]
    · intro m r hm hr
      unfold reorderResources
      simp only [h0, if_false, hr, hm, if_true]
      exact ⟨trivial, trivial⟩
    · intro p r hp hr
      unfold reorderResources
      simp only [h0, if_false, hr, hp, if_true]
    · intro b hb
      obtain ⟨b1, b2⟩ := hbal b hb
      have e1 : ((reorderResources inst).balance b).resource1
          = (resourceMap inst).indexOf (inst.balance b).resource1 := by
        unfold reorderResources
        simp only [h0, if_false, hb, if_true]
      have e2 : ((reorderResources inst).balance b).resource2
          = (resourceMap inst).indexOf (inst.balance b).resource2 := by
        unfold reorderResources
        simp only [h0, if_false, hb, if_true]
      have e3 : ((reorderResources inst).balance b).balance = (inst.balance b).balance := by
        unfold reorderResources
        simp only [h0, if_false, hb, if_true]
      have e4 : ((reorderResources inst).balance b).weight_balance_cost
          = (inst.balance b).weight_balance_cost := by
        unfold reorderResources
        simp only [h0, if_false, hb, if_true]
      rw [e1, e2]
      refine ⟨?_, getD_indexOf _ _ (hmem _ b1), ?_, getD_indexOf _ _ (hmem _ b2), e3, e4⟩
      · rw [← hlen]; exact List.indexOf_lt_length.mpr (hmem _ b1)
      · rw [← hlen]; exact List.indexOf_lt_length.mpr (hmem _ b2)
    · unfold reorderResources
      simp only [h0, if_false]

/-- Instance of claim C38: in `exInstanceOrder` the second resource is the
transient one, the permutation exchanges the two indices and the balance triple
`(0, 1)` becomes `(1, 0)`. -/
theorem C38_reorder_permutation_witness :
    ((reorderResources exInstanceOrder).balance 0).resource1 = 1
      ∧ ((reorderResources exInstanceOrder).balance 0).resource2 = 0
      ∧ ∃ pi : Nat → Nat,
        ((List.range exInstanceOrder.num_resources).map pi).Perm
          (List.range exInstanceOrder.num_resources)
        ∧ (∀ r, r < exInstanceOrder.num_resources →
            (reorderResources exInstanceOrder).resource r = exInstanceOrder.resource (pi r))
        ∧ (∀ m r, m < exInstanceOrder.num_machines → r < exInstanceOrder.num_resources →
            ((reorderResources exInstanceOrder).machine m).capacity r
              = (exInstanceOrder.machine m).capacity (pi r)
            ∧ ((reorderResources exInstanceOrder).machine m).safety_capacity r
                = (exInstanceOrder.machine m).safety_capacity (pi r))
        ∧ (∀ p r, p < exInstanceOrder.num_processes → r < exInstanceOrder.num_resources →
            ((reorderResources exInstanceOrder).process p).requirement r
              = (exInstanceOrder.process p).requirement (pi r))
        ∧ (∀ b, b < exInstanceOrder.num_balances →
            ((reorderResources exInstanceOrder).balance b).resource1
                < exInstanceOrder.num_resources
            ∧ pi ((reorderResources exInstanceOrder).balance b).resource1
                = (exInstanceOrder.balance b).resource1
            ∧ ((reorderResources exInstanceOrder).balance b).resource2
                < exInstanceOrder.num_resources
            ∧ pi ((reorderResources exInstanceOrder).balance b).resource2
                = (exInstanceOrder.balance b).resource2
            ∧ ((reorderResources exInstanceOrder).balance b).balance
                = (exInstanceOrder.balance b).balance
            ∧ ((reorderResources exInstanceOrder).balance b).weight_balance_cost
                = (exInstanceOrder.balance b).weight_balance_cost)
        ∧ (reorderResources exInstanceOrder).num_resources = exInstanceOrder.num_resources :=
  ⟨by decide, by decide, C38_reorder_permutation exInstanceOrder (by decide)⟩

/-! ## Frame of the result state -/

theorem propagate_delta (inst : Instance) (state : ReAssignment) (i p x : Nat)
    (sp sp1 : RescheduleSpace)
    (h : ProcessPropagator.propagate inst state i p x sp = some sp1) :
    ∀ y, sp1.delta y = none ↔ (sp.delta y = none ∧ x ≠ y) := by
  unfold ProcessPropagator.propagate at h
  simp only at h
  cases hl : propagateLoad inst p x (patchOrBase state sp.delta x) with
  | none => rw [hl] at h; simp at h
  | some qc =>
    obtain ⟨q1, load⟩ := qc
    rw [hl] at h
    simp only at h
    by_cases hneg : load < 0
    · simp [hneg] at h
    · rw [if_neg hneg] at h
      split at h
      · simp only [Option.some.injEq] at h
        subst h
        intro y
        simp only
        by_cases hy : y = x
        · subst hy; simp
        · rw [Function.update_noteq hy]
          constructor
          · intro hn; exact ⟨hn, fun e => hy e.symm⟩
          · intro hn; exact hn.1
      · simp at h

theorem runPropagators_delta (inst : Instance) (state : ReAssignment) (moved : List Nat)
    (val : Nat → Nat) (order : List Nat) :
    ∀ sp final, runPropagators inst state moved val order sp = some final →
      ∀ y, final.delta y = none ↔ (sp.delta y = none ∧ ∀ i, i ∈ order → val i ≠ y) := by
  induction order with
  | nil =>
    intro sp final h
    simp only [runPropagators, Option.some.injEq] at h
    subst h
    simp
  | cons i rest ih =>
    intro sp final h y
    unfold runPropagators at h
    cases hp : ProcessPropagator.propagate inst state i (movedAt moved i) (val i) sp with
    | none => rw [hp] at h; simp at h
    | some sp1 =>
      rw [hp] at h
      simp only at h
      rw [ih sp1 final h y, propagate_delta inst state i (movedAt moved i) (val i) sp sp1 hp y]
      simp only [List.mem_cons, forall_eq_or_imp]
      tauto

/-- Claim C39. For a solved space over pairwise distinct moved processes that sit
on machines of the instance, the state `getResultState` returns has
`assignment[moved[i]]` equal to the value of slot `i` and the baseline
assignment for every process that is not moved; its excess, transient and
balance vectors equal the baseline vectors for every machine that is neither the
baseline machine of a moved process nor the value of a slot, and these are
exactly the machines without a patch; for a machine that has a patch the three
vectors are those of the patch. The function takes the baseline as a value and
returns a new state. -/
theorem C39_result_frame (inst : Instance) (state : ReAssignment) (moved : List Nat)
    (val : Nat → Nat) (order : List Nat) (final : RescheduleSpace) (total : Int)
    (hs : Solved inst state moved val order final total) (hnd : moved.Nodup)
    (hcur : ∀ i, i < moved.length → state.assignment (movedAt moved i) < inst.num_machines) :
    (∀ i, i < moved.length →
        (getResultState inst state moved val final).assignment (movedAt moved i) = val i)
      ∧ (∀ q, q ∉ moved →
        (getResultState inst state moved val final).assignment q = state.assignment q)
      ∧ (∀ y, final.delta y = none
          ↔ ∀ i, i < moved.length → state.assignment (movedAt moved i) ≠ y ∧ val i ≠ y)
      ∧ (∀ y, (∀ i, i < moved.length → state.assignment (movedAt moved i) ≠ y ∧ val i ≠ y) →
        (getResultState inst state moved val final).excess y = state.excess y
          ∧ (getResultState inst state moved val final).transient y = state.transient y
          ∧ (getResultState inst state moved val final).balance y = state.balance y)
      ∧ (∀ y patch, y < inst.num_machines → final.delta y = some patch →
        (getResultState inst state moved val final).excess y = patch.excess
          ∧ (getResultState inst state moved val final).transient y = patch.transient
          ∧ (getResultState inst state moved val final).balance y = patch.balance) := by
  have hdelta : ∀ y, final.delta y = none
      ↔ ∀ i, i < moved.length → state.assignment (movedAt moved i) ≠ y ∧ val i ≠ y := by
    intro y
    rw [runPropagators_delta inst state moved val order _ final hs.run_ok y, construct_delta,
      (setupLoadConstraints_spec inst state moved hcur).1 y]
    constructor
    · rintro ⟨h1, h2⟩ i hi
      exact ⟨h1 i hi, h2 i (hs.order_perm.mem_iff.mpr (List.mem_range.mpr hi))⟩
    · intro h
      exact ⟨fun i hi => (h i hi).1,
        fun i hi => (h i (List.mem_range.mp (hs.order_perm.mem_iff.mp hi))).2⟩
  have hres : getResultState inst state moved val final
      = resultPatches inst final.delta (resultMoves inst state moved val moved.length)
          inst.num_machines := rfl
  obtain ⟨m1, m2, m3, m4, m5, m6, m7⟩ := resultMoves_spec inst state moved val moved.length
  obtain ⟨p1, p2, p3, _⟩ := resultPatches_spec inst state final.delta
    (resultMoves inst state moved val moved.length) m3 m4 m5 inst.num_machines
  rw [← hres] at p1 p2 p3
  refine ⟨fun i hi => resultAssignment_slot inst state moved val final hnd i hi,
    fun q hq => resultAssignment_other inst state moved val final q hq, hdelta, ?_, ?_⟩
  · intro y hy
    have hnone := (hdelta y).mpr hy
    have hpb : patchOrBase state final.delta y
        = { excess := state.excess y, transient := state.transient y,
            balance := state.balance y } := by
      unfold patchOrBase
      rw [hnone]
    rw [p1 y, p2 y, p3 y, hpb]
    simp
  · intro y patch hy hsome
    have hpb : patchOrBase state final.delta y = patch := by
      unfold patchOrBase
      rw [hsome]
    rw [p1 y, p2 y, p3 y, hpb, if_pos hy, if_pos hy, if_pos hy]
    exact ⟨rfl, rfl, rfl⟩

/-- Instance of claim C39: in `exInstance2` with process 0 moved to machine 1,
process 0 is on machine 1 in the result, process 1 keeps machine 0, and both
machines have a patch. -/
theorem C39_result_frame_witness :
    Solved exInstance2 exState2 [0] (fun _ => 1) [0] exFinal2 (-7)
      ∧ (getResultState exInstance2 exState2 [0] (fun _ => 1) exFinal2).assignment
          (movedAt [0] 0) = 1
      ∧ (getResultState exInstance2 exState2 [0] (fun _ => 1) exFinal2).assignment 1
          = exState2.assignment 1 :=
  have hs : Solved exInstance2 exState2 [0] (fun _ => 1) [0] exFinal2 (-7) :=
    ⟨by decide, by decide, rfl, by decide⟩
  ⟨hs,
    (C39_result_frame exInstance2 exState2 [0] (fun _ => 1) [0] exFinal2 (-7) hs (by decide)
      (by decide)).1 0 (by decide),
    (C39_result_frame exInstance2 exState2 [0] (fun _ => 1) [0] exFinal2 (-7) hs (by decide)
      (by decide)).2.1 1 (by decide)⟩

/-! ## The order of the machines by size -/

theorem machinesBySize_fold (mp : List (Int × Nat)) (l : List Nat) :
    (mp.foldl (fun (acc : List Nat × Nat) it => (acc.1.set acc.2 it.2, acc.2)) (l, 0)).1.tail
      = l.tail := by
  induction mp generalizing l with
  | nil => rfl
  | cons h t ih =>
    rw [List.foldl_cons, ih]
    cases l <;> rfl

/-- Claim C40 (divergence of the code). In `exInstanceSizes` the machines have
the safety capacity sums 5, 3 and 9, so `machine_map` holds the ids in the order
1, 0, 2; the constructor leaves `machines_by_size = [2, 0, 0]`, which does not
contain machine 1 and so is no permutation of the machine ids. For every
instance all entries of `machines_by_size` behind the first are 0. -/
theorem C40_machines_by_size :
    machineMap exInstanceSizes = [(3, 1), (5, 0), (9, 2)]
      ∧ machinesBySize exInstanceSizes = [2, 0, 0]
      ∧ 1 ∉ machinesBySize exInstanceSizes
      ∧ ¬ (machinesBySize exInstanceSizes).Perm (List.range exInstanceSizes.num_machines)
      ∧ ∀ inst : Instance,
          (machinesBySize inst).tail = List.replicate (inst.num_machines - 1) 0 := by
  refine ⟨by decide, by decide, by decide, ?_, ?_⟩
  · intro hp
    have h1 : 1 ∈ machinesBySize exInstanceSizes :=
      hp.mem_iff.mpr (by decide)
    exact absurd h1 (by decide)
  · intro inst
    unfold machinesBySize
    rw [machinesBySize_fold]
    cases inst.num_machines <;> simp [List.replicate]

end Roadef
